import Mathlib

/-!
# Verification of the `heapix` indexed priority queues

Shallow embedding of the two heap implementations of the repository:

* `FibHeap` — the Fibonacci-heap engine (`src/fibonacci_heap.rs`): an arena of
  nodes addressed by slot index, circular doubly linked root/child rings
  (`left`/`right` indices), a position index from external id to slot, a
  minimum pointer and a live counter.
* `MinHeap` — the array-backed binary-heap baseline (`src/minheap.rs`).

Conventions of the embedding:

* Rust `usize` is modelled as `Nat`; the `NOT_IN_HEAP = usize::MAX` sentinel
  stored in the position index is modelled by `Option Nat` (`none` = sentinel).
* Keys are an arbitrary linearly ordered type `K` (the code requires
  `PartialOrd` and always compares with `partial_cmp(..).unwrap()`, i.e. it
  assumes a total order on the keys actually used).
* Out-of-bounds arena reads (which panic in Rust) are modelled with
  `List.getD _ _ default`; out-of-bounds writes with `List.set` (a no-op).
  All reads/writes performed on behalf of reachable states are in bounds.
* The ring-walking loops of `delete_min`/`consolidate` and the upward walk of
  `cascading_cut` are not structurally recursive; they take an explicit fuel
  argument.  Every public entry point passes fuel `nodes.length + 1`, which is
  shown to be sufficient on well-formed states.
* The `scratch_roots`/`scratch_aux` buffers of the Rust `FibHeap` are taken
  out, cleared before use and put back on every `consolidate` call, so they
  carry no information between operations; the embedding keeps them as local
  values of `consolidate` instead of state components.
-/

set_option linter.unusedVariables false
set_option linter.unusedSectionVars false
set_option maxRecDepth 8000
set_option maxHeartbeats 1000000

/-- One arena node of the Fibonacci heap (`struct Node<K>` in
`src/fibonacci_heap.rs`): the `(id, key)` entry, the number of direct
children, the mark bit, optional parent and child slots, and the `left`/
`right` sibling links of the circular ring currently containing the node. -/
structure Node (K : Type) where
  entry : Nat × K
  degree : Nat
  mark : Bool
  parent : Option Nat
  child : Option Nat
  left : Nat
  right : Nat
deriving Repr, DecidableEq

instance [Inhabited K] : Inhabited (Node K) :=
  ⟨⟨(0, default), 0, false, none, none, 0, 0⟩⟩

/-- `Node::new(id, key, idx)`: a fresh singleton node whose ring links point
to itself. -/
def Node.new (id : Nat) (key : K) (idx : Nat) : Node K :=
  ⟨(id, key), 0, false, none, none, idx, idx⟩

/-- The Fibonacci heap state (`struct FibHeap<K>`): dense node arena,
position index (`none` models the `NOT_IN_HEAP` sentinel), minimum-root
pointer and live counter. -/
structure FibHeap (K : Type) where
  nodes : List (Node K)
  positions : List (Option Nat)
  min_root : Option Nat
  n : Nat
deriving Repr, DecidableEq

namespace FibHeap

variable {K : Type} [Inhabited K] [LinearOrder K]

/-- Arena read `self.nodes[i]` (Rust panics when out of bounds; the embedding
returns a default node, and all reads made on well-formed states are in
bounds). -/
def getN (s : FibHeap K) (i : Nat) : Node K := s.nodes.getD i default

/-- Arena write `self.nodes[i] = v` (no-op out of bounds, mirroring that the
Rust code never writes out of bounds on well-formed states). -/
def setN (s : FibHeap K) (i : Nat) (v : Node K) : FibHeap K :=
  { s with nodes := s.nodes.set i v }

/-- Field update of one arena slot. -/
def modifyN (s : FibHeap K) (i : Nat) (f : Node K → Node K) : FibHeap K :=
  s.setN i (f (s.getN i))

/-- Position-index read `self.positions[id]`, with both "out of range" and
the stored sentinel reading as `none`. -/
def getP (s : FibHeap K) (id : Nat) : Option Nat := s.positions.getD id none

/-- `FibHeap::new()`. -/
def new : FibHeap K := ⟨[], [], none, 0⟩

/-- `is_empty(): self.n == 0`. -/
def is_empty (s : FibHeap K) : Bool := s.n == 0

/-- `len(): self.n`. -/
def len (s : FibHeap K) : Nat := s.n

/-- `clear()`: mark every node's id as absent in the position index, drop the
arena, reset the minimum pointer and the counter. -/
def clear (s : FibHeap K) : FibHeap K :=
  { nodes := [],
    positions := s.nodes.foldl (fun ps nd => ps.set nd.entry.1 none) s.positions,
    min_root := none,
    n := 0 }

/-- `update_min(idx)`: point `min_root` at `idx` if the heap had no minimum
or `idx`'s key is strictly smaller than the current minimum's. -/
def update_min (s : FibHeap K) (idx : Nat) : FibHeap K :=
  match s.min_root with
  | none => { s with min_root := some idx }
  | some m =>
      if (s.getN idx).entry.2 < (s.getN m).entry.2 then { s with min_root := some idx }
      else s

/-- `add_to_root(idx)`: splice `idx` into the root ring immediately before
the current minimum root (or make it the sole root), and update `min_root`
if its key is strictly smaller. -/
def add_to_root (s : FibHeap K) (idx : Nat) : FibHeap K :=
  match s.min_root with
  | some min_idx =>
      let left := (s.getN min_idx).left
      let s1 := s.modifyN idx (fun nd => { nd with left := left, right := min_idx })
      let s2 := s1.modifyN left (fun nd => { nd with right := idx })
      let s3 := s2.modifyN min_idx (fun nd => { nd with left := idx })
      if (s3.getN idx).entry.2 < (s3.getN min_idx).entry.2 then
        { s3 with min_root := some idx }
      else s3
  | none => { s with min_root := some idx }

/-- `insert((id, key))` (release semantics: the `debug_assert!` duplicate-id
check compiles away; its condition is `insertAssertOk` below): append a fresh
singleton node, grow the position index to cover `id` if needed, record the
slot, splice into the root ring, bump the counter, update the minimum. -/
def insert (s : FibHeap K) (p : Nat × K) : FibHeap K :=
  let idx := s.nodes.length
  let s1 : FibHeap K := { s with nodes := s.nodes ++ [Node.new p.1 p.2 idx] }
  let s2 : FibHeap K :=
    if s1.positions.length ≤ p.1 then
      { s1 with positions := s1.positions ++ List.replicate (p.1 + 1 - s1.positions.length) none }
    else s1
  let s3 : FibHeap K := { s2 with positions := s2.positions.set p.1 (some idx) }
  let s4 := s3.add_to_root idx
  let s5 : FibHeap K := { s4 with n := s4.n + 1 }
  s5.update_min idx

/-- The condition of `insert`'s `debug_assert!`:
`id >= positions.len() || positions[id] == NOT_IN_HEAP`. -/
def insertAssertOk (s : FibHeap K) (id : Nat) : Prop :=
  s.positions.length ≤ id ∨ s.positions.getD id none = none

instance (s : FibHeap K) (id : Nat) : Decidable (s.insertAssertOk id) := by
  unfold insertAssertOk; infer_instance

/-- `get_min()`: the entry at the minimum pointer, if any. -/
def get_min (s : FibHeap K) : Option (Nat × K) :=
  s.min_root.map fun i => (s.getN i).entry

/-- `detach(i)`: unlink slot `i` from whichever ring holds it, re-pointing
its two neighbours to each other and resetting `i` to a self-referencing
singleton.  The four writes mirror the order of the Rust code. -/
def detach (s : FibHeap K) (i : Nat) : FibHeap K :=
  let l := (s.getN i).left
  let r := (s.getN i).right
  let s1 := s.modifyN l (fun nd => { nd with right := r })
  let s2 := s1.modifyN r (fun nd => { nd with left := l })
  let s3 := s2.modifyN i (fun nd => { nd with left := i })
  s3.modifyN i (fun nd => { nd with right := i })

/-- `link(y, x)`: make `y` a child of `x` (callers guarantee
`key x ≤ key y`): detach `y`, splice it into `x`'s child ring (or make it the
designated child), set `y.parent`, clear `y.mark`, bump `x.degree`. -/
def link (s : FibHeap K) (y x : Nat) : FibHeap K :=
  let s0 := s.detach y
  let s1 :=
    match (s0.getN x).child with
    | some c =>
        let l := (s0.getN c).left
        let t1 := s0.modifyN y (fun nd => { nd with left := l, right := c })
        let t2 := t1.modifyN l (fun nd => { nd with right := y })
        t2.modifyN c (fun nd => { nd with left := y })
    | none => s0.modifyN x (fun nd => { nd with child := some y })
  let s2 := s1.modifyN y (fun nd => { nd with parent := some x, mark := false })
  s2.modifyN x (fun nd => { nd with degree := nd.degree + 1 })

/-- `cut(idx, parent)`: unlink `idx` from `parent`'s child ring (repairing or
clearing `parent.child` when `idx` was the designated child), decrement
`parent.degree`, clear `idx.parent` and `idx.mark`, and splice `idx` into the
root ring. -/
def cut (s : FibHeap K) (idx parent : Nat) : FibHeap K :=
  let s1 :=
    if (s.getN parent).child = some idx then
      if (s.getN idx).right = idx then
        s.modifyN parent (fun nd => { nd with child := none })
      else
        let next := (s.getN idx).right
        let t := s.detach idx
        t.modifyN parent (fun nd => { nd with child := some next })
    else
      s.detach idx
  let s2 := s1.modifyN parent (fun nd => { nd with degree := nd.degree - 1 })
  let s3 := s2.modifyN idx (fun nd => { nd with parent := none, mark := false })
  s3.add_to_root idx

/-- `cascading_cut(y)`: iterative upward walk (`while let Some(p) = parent`):
stop at a root; mark-and-stop at an unmarked node; cut a marked node from its
parent and continue from the former parent.  `fuel` bounds the walk; any
fuel at least the parent-chain depth gives the Rust behaviour. -/
def cascading_cut (s : FibHeap K) (y : Nat) : Nat → FibHeap K
  | 0 => s
  | fuel + 1 =>
      match (s.getN y).parent with
      | none => s
      | some p =>
          if (s.getN y).mark = false then
            s.modifyN y (fun nd => { nd with mark := true })
          else
            cascading_cut (s.cut y p) p fuel

/-- `decrease_key(id, new_key)` (release semantics: the `debug_assert!`
strict-decrease check compiles away; its condition is `decreaseAssertOk`
below).  A `positions[id]` sentinel/out-of-range hit panics in Rust in every
build profile; that branch is modelled as the identity.  Otherwise: overwrite
the key, cut-and-cascade when heap order with the parent is broken, and
update the minimum pointer. -/
def decrease_key (s : FibHeap K) (id : Nat) (new_key : K) : FibHeap K :=
  match s.getP id with
  | none => s
  | some idx =>
      let s1 := s.modifyN idx (fun nd => { nd with entry := (nd.entry.1, new_key) })
      let s2 :=
        match (s1.getN idx).parent with
        | some p =>
            if (s1.getN idx).entry.2 < (s1.getN p).entry.2 then
              let t := s1.cut idx p
              t.cascading_cut p (t.nodes.length + 1)
            else s1
        | none => s1
      s2.update_min idx

/-- The condition of `decrease_key`'s `debug_assert!`:
`self.nodes[self.positions[id]].entry.1 > new_key` (evaluated on a live id). -/
def decreaseAssertOk (s : FibHeap K) (id : Nat) (new_key : K) : Prop :=
  new_key < (s.getN ((s.getP id).getD 0)).entry.2

/-- Step 1 of `delete_min`: walk the child ring of the extracted root once,
detaching each child and splicing it (parent and mark cleared) into the root
ring.  `next` is saved before the detach, and the loop stops when the saved
successor equals the current child, exactly as in the Rust loop. -/
def promoteChildren (s : FibHeap K) (child : Nat) : Nat → FibHeap K
  | 0 => s
  | fuel + 1 =>
      let next := (s.getN child).right
      let s1 := s.detach child
      let s2 := s1.modifyN child (fun nd => { nd with parent := none, mark := false })
      let s3 := s2.add_to_root child
      if next = child then s3 else promoteChildren s3 next fuel

/-- The root-collection loop of `consolidate`: push `w`, advance `w` to its
right neighbour, stop when back at `start`. -/
def collectRing (s : FibHeap K) (start : Nat) : Nat → Nat → List Nat
  | 0, _ => []
  | fuel + 1, w =>
      w :: (if (s.getN w).right = start then [] else collectRing s start fuel ((s.getN w).right))

/-- The inner degree-linking loop of `consolidate`: grow `aux` on demand,
place `x` in the empty slot of its degree, or take the occupant `y`, let the
smaller key win (`if key y < key x` swap), link loser under winner and retry
at degree `d + 1`. -/
def linkLoop (s : FibHeap K) (aux : List (Option Nat)) (x d : Nat) :
    Nat → FibHeap K × List (Option Nat)
  | 0 => (s, aux)
  | fuel + 1 =>
      let aux1 := if aux.length ≤ d then aux ++ List.replicate (d + 1 - aux.length) none else aux
      match aux1.getD d none with
      | none => (s, aux1.set d (some x))
      | some y0 =>
          let aux2 := aux1.set d none
          let xy : Nat × Nat :=
            if (s.getN y0).entry.2 < (s.getN x).entry.2 then (y0, x) else (x, y0)
          let s1 := s.link xy.2 xy.1
          linkLoop s1 aux2 xy.1 (d + 1) fuel

/-- One iteration of `consolidate`'s outer loop over the collected roots:
skip roots that were linked away as children during this pass, otherwise run
the degree-linking loop. -/
def consolidateStep (p : FibHeap K × List (Option Nat)) (root_idx : Nat) :
    FibHeap K × List (Option Nat) :=
  if (p.1.getN root_idx).parent.isSome then p
  else linkLoop p.1 p.2 root_idx ((p.1.getN root_idx).degree) (p.1.nodes.length + 1)

/-- The root-ring rebuild of `consolidate`: reset each surviving root to a
singleton and splice it back, letting `add_to_root` track the minimum. -/
def rebuildStep (s : FibHeap K) (opt : Option Nat) : FibHeap K :=
  match opt with
  | some idx =>
      let s1 := s.modifyN idx (fun nd => { nd with left := idx, right := idx, parent := none })
      s1.add_to_root idx
  | none => s

/-- Structurally recursive base-2 logarithm (fuel variant of `Nat.log2`,
which does not reduce in the kernel), used only for the initial capacity of
the consolidation scratch array — the Rust code computes
`(n as f64).log2().ceil() as usize + 2` there, and the exact value is
semantically inert because `linkLoop` grows the array before every access. -/
def log2Fuel : Nat → Nat → Nat
  | 0, _ => 0
  | fuel + 1, n => if 2 ≤ n then log2Fuel fuel (n / 2) + 1 else 0

/-- `consolidate()`: freeze the root ring into a list, run the degree-linking
pass over an auxiliary degree-indexed array (initially `⌈log2 n⌉ + 2`-ish
slots, grown on demand), then rebuild the root ring from the auxiliary
array. -/
def consolidate (s : FibHeap K) : FibHeap K :=
  match s.min_root with
  | none => s
  | some start =>
      let roots := collectRing s start (s.nodes.length + 1) start
      let p := roots.foldl consolidateStep (s, List.replicate (log2Fuel s.n s.n + 2) none)
      let s1 : FibHeap K := { p.1 with min_root := none }
      p.2.foldl rebuildStep s1

/-- `delete_min()`: promote the minimum root's children, detach it, note its
right neighbour as provisional successor, do the bookkeeping (counter,
position sentinel), then either empty the heap or consolidate from the
successor.  Returns the extracted entry together with the new state. -/
def delete_min (s : FibHeap K) : Option (Nat × K) × FibHeap K :=
  match s.min_root with
  | none => (none, s)
  | some z =>
      let sA :=
        match (s.getN z).child with
        | some child =>
            let t := s.promoteChildren child (s.nodes.length + 1)
            t.modifyN z (fun nd => { nd with child := none })
        | none => s
      let successor := (sA.getN z).right
      let sB := sA.detach z
      let sC : FibHeap K := { sB with n := sB.n - 1 }
      let idkey := (sC.getN z).entry
      let sD : FibHeap K := { sC with positions := sC.positions.set idkey.1 none }
      let sE :=
        if sD.n = 0 then { sD with min_root := none }
        else
          let t := if sD.min_root = some z then { sD with min_root := some successor } else sD
          t.consolidate
      (some idkey, sE)

/-- `build_heap(items)`: insert each item in sequence into a new heap. -/
def build_heap (items : List (Nat × K)) : FibHeap K :=
  items.foldl insert new

end FibHeap

/-- The array-backed binary-heap baseline (`struct MinHeap<K>` in
`src/minheap.rs`): implicit binary tree in a vector of `(id, key)` entries
plus a position index (`none` models the `usize::MAX` sentinel). -/
structure MinHeap (K : Type) where
  heap : List (Nat × K)
  positions : List (Option Nat)
deriving Repr, DecidableEq

namespace MinHeap

variable {K : Type} [Inhabited K] [LinearOrder K]

/-- `self.heap[i]` (in bounds on all reachable uses). -/
def getH (s : MinHeap K) (i : Nat) : Nat × K := s.heap.getD i default

/-- `self.heap.swap(i, j)`. -/
def swapH (s : MinHeap K) (i j : Nat) : MinHeap K :=
  { s with heap := (s.heap.set i (s.getH j)).set j (s.getH i) }

/-- `MinHeap::new()`. -/
def new : MinHeap K := ⟨[], []⟩

/-- `is_empty()`. -/
def is_empty (s : MinHeap K) : Bool := s.heap.isEmpty

/-- `bubble_up(index)`: swap the entry with its parent (updating both
positions, reading the ids after the swap exactly as the Rust code does)
while it is strictly smaller, walking up to the root.  The loop is modelled
with fuel; `index + 1` steps always suffice since the index strictly
decreases. -/
def bubble_up (s : MinHeap K) (index : Nat) : Nat → MinHeap K
  | 0 => s
  | fuel + 1 =>
      if 0 < index then
        let par := (index - 1) / 2
        if (s.getH index).2 < (s.getH par).2 then
          let s1 := s.swapH index par
          let child_id := (s1.getH index).1
          let parent_id := (s1.getH par).1
          let s2 : MinHeap K := { s1 with positions := s1.positions.set child_id (some index) }
          let s3 : MinHeap K := { s2 with positions := s2.positions.set parent_id (some par) }
          bubble_up s3 par fuel
        else s
      else s

/-- `bubble_down(index)`: pick the strictly smaller child (left on ties),
swap downwards while the chosen child is strictly smaller (ids read before
the swap, as in the Rust code).  Fuel-modelled loop; `heap.length + 1` steps
always suffice since the index strictly increases and stays below the
length. -/
def bubble_down (s : MinHeap K) (index : Nat) : Nat → MinHeap K
  | 0 => s
  | fuel + 1 =>
      let heap_len := s.heap.length
      let left_child := 2 * index + 1
      let right_child := 2 * index + 2
      if left_child < heap_len then
        let smaller_child :=
          if right_child < heap_len ∧ (s.getH right_child).2 < (s.getH left_child).2 then
            right_child
          else left_child
        if (s.getH smaller_child).2 < (s.getH index).2 then
          let child_id := (s.getH smaller_child).1
          let parent_id := (s.getH index).1
          let s1 := s.swapH smaller_child index
          let s2 : MinHeap K := { s1 with positions := s1.positions.set parent_id (some smaller_child) }
          let s3 : MinHeap K := { s2 with positions := s2.positions.set child_id (some index) }
          bubble_down s3 smaller_child fuel
        else s
      else s

/-- `insert(item)`: push at the end, grow the position index to cover the id
if needed, record the position, bubble up. -/
def insert (s : MinHeap K) (item : Nat × K) : MinHeap K :=
  let heap := s.heap ++ [item]
  let idx := heap.length - 1
  let id := (heap.getD idx default).1
  let ps :=
    if s.positions.length ≤ id then
      s.positions ++ List.replicate (id + 1 - s.positions.length) none
    else s.positions
  let s1 : MinHeap K := ⟨heap, ps.set id (some idx)⟩
  s1.bubble_up idx (idx + 1)

/-- `delete_min()`: swap the root with the last entry, pop it, clear its
position, then re-seat the new root (position entry and bubble-down) when the
heap stays non-empty. -/
def delete_min (s : MinHeap K) : Option (Nat × K) × MinHeap K :=
  if s.heap.isEmpty then (none, s)
  else
    let last_item := s.heap.length - 1
    let s1 := s.swapH 0 last_item
    let popped := s1.heap.getLast?.getD default
    let s2 : MinHeap K := { s1 with heap := s1.heap.dropLast }
    let s3 : MinHeap K := { s2 with positions := s2.positions.set popped.1 none }
    let s4 :=
      if s3.heap.isEmpty then s3
      else
        let root_id := (s3.getH 0).1
        let t : MinHeap K := { s3 with positions := s3.positions.set root_id (some 0) }
        t.bubble_down 0 (t.heap.length + 1)
    (some popped, s4)

/-- `get_min()`: the root entry. -/
def get_min (s : MinHeap K) : Option (Nat × K) := s.heap.head?

/-- `build_heap(items)`: take the vector as-is, build the position index
(sized by the maximum id, `unwrap_or(0)` on empty input), then heapify by
bubbling down from the last internal node to the root. -/
def build_heap (items : List (Nat × K)) : MinHeap K :=
  let pos_max := (items.map Prod.fst).foldr max 0
  let ps0 : List (Option Nat) := List.replicate (pos_max + 1) none
  let ps := (items.enum.foldl (fun acc p => acc.set p.2.1 (some p.1)) ps0)
  let s : MinHeap K := ⟨items, ps⟩
  let nh := s.heap.length
  if 1 < nh then
    (List.range (nh / 2)).reverse.foldl (fun t i => t.bubble_down i (t.heap.length + 1)) s
  else s

/-- `decrease_key(id, new_key)`: look up the position (Rust panics on an
absent id — sentinel or out of range — in every build profile; that branch is
modelled as the identity; note the Rust code has no strict-decrease check at
all here, not even a debug one), overwrite the key in place, bubble up. -/
def decrease_key (s : MinHeap K) (id : Nat) (new_key : K) : MinHeap K :=
  match s.positions.getD id none with
  | none => s
  | some pos =>
      let s1 : MinHeap K := { s with heap := s.heap.set pos ((s.getH pos).1, new_key) }
      s1.bubble_up pos (pos + 1)

end MinHeap

/-!
## Specification-level definitions

The representation invariant of `FibHeap` is phrased through an abstract
forest: each live tree is an `MTree` of arena slot indices, and `FibRepr`
says the arena's rings, parent/child/degree fields, position index, counter
and minimum pointer encode that forest.
-/

/-- Abstract tree of arena slots: a root slot together with the list of its
child subtrees, ordered as the child ring is linked (designated child
first). -/
inductive MTree : Type where
  | mk : Nat → List MTree → MTree
deriving Repr

/-- Root slot of an abstract tree. -/
def MTree.top : MTree → Nat
  | .mk x _ => x

/-- Child subtrees of an abstract tree. -/
def MTree.children : MTree → List MTree
  | .mk _ cs => cs

mutual

/-- All slots of a tree (preorder). -/
def MTree.slots : MTree → List Nat
  | .mk x cs => x :: MTree.slotsF cs

/-- All slots of a forest. -/
def MTree.slotsF : List MTree → List Nat
  | [] => []
  | t :: ts => MTree.slots t ++ MTree.slotsF ts

end

namespace FibHeap

variable {K : Type} [Inhabited K] [LinearOrder K]

/-- Ring adjacency: `b` is the right neighbour of `a` and `a` the left
neighbour of `b`. -/
def adj (s : FibHeap K) (a b : Nat) : Prop :=
  (s.getN a).right = b ∧ (s.getN b).left = a

/-- `l` lists the members of a circular doubly linked ring in right-pointer
order: consecutive members are adjacent and the last links back to the
first.  A singleton ring member is self-linked; the empty list is the empty
ring. -/
def RingChain (s : FibHeap K) : List Nat → Prop
  | [] => True
  | h :: t => List.Chain (adj s) h (t ++ [h])

/-- The arena encodes tree `t` hanging below parent `po` (`none` for a
root): the top slot is in range, carries the right parent pointer and a
degree equal to the number of children, the designated-child pointer is the
head of the child list, the children's tops form a ring, heap order holds
between the top and each child, and each child subtree is encoded
recursively. -/
inductive TreeRepr (s : FibHeap K) : MTree → Option Nat → Prop where
  | mk {x : Nat} {cs : List MTree} {po : Option Nat} :
      x < s.nodes.length →
      (s.getN x).parent = po →
      (s.getN x).degree = cs.length →
      (s.getN x).child = cs.head?.map MTree.top →
      RingChain s (cs.map MTree.top) →
      (∀ c ∈ cs, (s.getN x).entry.2 ≤ (s.getN c.top).entry.2) →
      (∀ c ∈ cs, TreeRepr s c (some x)) →
      TreeRepr s (.mk x cs) po

/-- `TreeRepr` with the heap-order side condition waived on edges into the
slot `bad`: the shape a tree is in when `cut` receives it right after a key
decrease at `bad`. -/
inductive TreeReprExc (s : FibHeap K) (bad : Nat) : MTree → Option Nat → Prop where
  | mk {x : Nat} {cs : List MTree} {po : Option Nat} :
      x < s.nodes.length →
      (s.getN x).parent = po →
      (s.getN x).degree = cs.length →
      (s.getN x).child = cs.head?.map MTree.top →
      RingChain s (cs.map MTree.top) →
      (∀ c ∈ cs, c.top ≠ bad → (s.getN x).entry.2 ≤ (s.getN c.top).entry.2) →
      (∀ c ∈ cs, TreeReprExc s bad c (some x)) →
      TreeReprExc s bad (.mk x cs) po

/-- Everything of the representation invariant except minimality of the
designated minimum: the root tops form a ring listed from the slot the
minimum pointer designates, every tree is encoded with no parent, the slots
of the forest are pairwise distinct, the live counter counts them, and the
position index is exactly the live `id ↦ slot` bijection. -/
def FibReprCore (s : FibHeap K) (F : List MTree) : Prop :=
  RingChain s (F.map MTree.top) ∧
  s.min_root = F.head?.map MTree.top ∧
  (∀ t ∈ F, TreeRepr s t none) ∧
  (MTree.slotsF F).Nodup ∧
  s.n = (MTree.slotsF F).length ∧
  (∀ i ∈ MTree.slotsF F, s.getP (s.getN i).entry.1 = some i) ∧
  (∀ id idx, s.getP id = some idx → idx ∈ MTree.slotsF F ∧ (s.getN idx).entry.1 = id)

/-- The designated minimum root carries a key no larger than any root's. -/
def MinAtHead (s : FibHeap K) (F : List MTree) : Prop :=
  ∀ h ∈ F.head?, ∀ t ∈ F, (s.getN h.top).entry.2 ≤ (s.getN t.top).entry.2

/-- Full representation invariant. -/
def FibRepr (s : FibHeap K) (F : List MTree) : Prop :=
  FibReprCore s F ∧ MinAtHead s F

/-- Well-formedness: some abstract forest is represented. -/
def WF (s : FibHeap K) : Prop := ∃ F, FibRepr s F

/-- A slot is live when the position index maps its id back to it. -/
def liveSlot (s : FibHeap K) (i : Nat) : Prop :=
  s.getP (s.getN i).entry.1 = some i

/-- The heap states reachable through the public API with all §6/§7
preconditions honoured: fresh ids for `insert`/`build_heap`, live id and
strictly smaller key for `decrease_key`. -/
inductive Reachable : FibHeap K → Prop where
  | new : Reachable FibHeap.new
  | insert {s : FibHeap K} (p : Nat × K) :
      Reachable s → s.getP p.1 = none → Reachable (s.insert p)
  | delete_min {s : FibHeap K} : Reachable s → Reachable (s.delete_min).2
  | decrease_key {s : FibHeap K} (id : Nat) (k : K) {idx : Nat} :
      Reachable s → s.getP id = some idx → k < (s.getN idx).entry.2 →
      Reachable (s.decrease_key id k)
  | clear {s : FibHeap K} : Reachable s → Reachable s.clear
  | build (items : List (Nat × K)) :
      (items.map Prod.fst).Nodup → Reachable (FibHeap.build_heap items)

/-- The upward walk contract of §4.9, transcribed rule by rule: stop at a
parentless node; mark an unmarked node and stop; cut a marked node from its
parent and continue from the former parent. -/
inductive CascadeWalk : FibHeap K → Nat → FibHeap K → Prop where
  | root {s : FibHeap K} {y : Nat} :
      (s.getN y).parent = none → CascadeWalk s y s
  | markStop {s : FibHeap K} {y p : Nat} :
      (s.getN y).parent = some p → (s.getN y).mark = false →
      CascadeWalk s y (s.modifyN y fun nd => { nd with mark := true })
  | cutStep {s : FibHeap K} {y p : Nat} {s' : FibHeap K} :
      (s.getN y).parent = some p → (s.getN y).mark = true →
      CascadeWalk (s.cut y p) p s' → CascadeWalk s y s'

/-- `x` reaches a parentless node in exactly `d` parent steps. -/
inductive RootPath (s : FibHeap K) : Nat → Nat → Prop where
  | root {x : Nat} : (s.getN x).parent = none → RootPath s x 0
  | step {x p d : Nat} : (s.getN x).parent = some p → RootPath s p d →
      RootPath s x (d + 1)

/-- Abstract subtree surgery: `CutAt T x p T' X` says that inside tree `T`
the node `x` hangs (with subtree `X`) below the node `p`, and removing that
subtree from `p`'s child list — keeping the designated child unless `x` was
it, in which case its right-hand sibling takes over — yields `T'`.  The
three constructors mirror the three branches of `cut`. -/
inductive CutAt : MTree → Nat → Nat → MTree → MTree → Prop where
  | head {w : Nat} {b : List MTree} {X : MTree} :
      CutAt (MTree.mk w (X :: b)) X.top w (MTree.mk w b) X
  | middle {w : Nat} {a0 : MTree} {a b : List MTree} {X : MTree} :
      CutAt (MTree.mk w (a0 :: (a ++ X :: b))) X.top w
        (MTree.mk w (a0 :: (a ++ b))) X
  | deep {w : Nat} {a b : List MTree} {C C' X : MTree} {x p : Nat} :
      CutAt C x p C' X →
      CutAt (MTree.mk w (a ++ C :: b)) x p (MTree.mk w (a ++ C' :: b)) X

/-- Every parent pointer of the arena lands inside the arena. -/
def ParentBounded (s : FibHeap K) : Prop :=
  ∀ i p, (s.getN i).parent = some p → p < s.nodes.length

/-- Repeatedly extract the minimum (`fuel` bounds the number of pops; fuel
`s.n` drains a well-formed heap completely). -/
def drainFib : FibHeap K → Nat → List (Nat × K)
  | _, 0 => []
  | s, fuel + 1 =>
      match h : s.delete_min with
      | (none, _) => []
      | (some e, s') => e :: drainFib s' fuel

end FibHeap

/-- The live `(id, key)` entries listed by a forest witness. -/
def FibHeap.entriesOf {K : Type} [Inhabited K] (s : FibHeap K) (F : List MTree) :
    List (Nat × K) :=
  (MTree.slotsF F).map fun i => (s.getN i).entry

/-- Insert/extract trace operations for the size-accounting property. -/
inductive HOp (K : Type) where
  | ins (id : Nat) (k : K)
  | del

namespace FibHeap

variable {K : Type} [Inhabited K] [LinearOrder K]

/-- One step of the size-accounting trace semantics: a state together with
the number of inserts and the number of successful extractions so far. -/
def hstep (acc : FibHeap K × Nat × Nat) (op : HOp K) : FibHeap K × Nat × Nat :=
  match op with
  | .ins id k => (acc.1.insert (id, k), acc.2.1 + 1, acc.2.2)
  | .del =>
      match acc.1.delete_min with
      | (some _, s') => (s', acc.2.1, acc.2.2 + 1)
      | (none, s') => (s', acc.2.1, acc.2.2)

/-- Run a trace from a state. -/
def hrun (s : FibHeap K) (ops : List (HOp K)) : FibHeap K × Nat × Nat :=
  ops.foldl hstep (s, 0, 0)

/-- Trace validity: every insert uses an id that is absent at that point
(the §4.1 precondition); `del` is always allowed (§4.4). -/
inductive ValidOps : FibHeap K → List (HOp K) → Prop where
  | nil {s : FibHeap K} : ValidOps s []
  | ins {s : FibHeap K} {id : Nat} {k : K} {rest : List (HOp K)} :
      s.getP id = none → ValidOps (s.insert (id, k)) rest →
      ValidOps s (.ins id k :: rest)
  | del {s : FibHeap K} {rest : List (HOp K)} :
      ValidOps (s.delete_min).2 rest → ValidOps s (.del :: rest)

end FibHeap

/-- The key stored at position `i` of a binary-heap array (`default` out of
range, as `getH`). -/
def MinHeap.keyAt {K : Type} [Inhabited K] (l : List (Nat × K)) (i : Nat) : K :=
  (l.getD i default).2

/-- The binary-heap shape invariant of `minheap.rs`: every entry is at least
its parent (`(i-1)/2`). -/
def MinHeap.HeapOrd {K : Type} [Inhabited K] [LinearOrder K]
    (l : List (Nat × K)) : Prop :=
  ∀ i, 0 < i → i < l.length → MinHeap.keyAt l ((i - 1) / 2) ≤ MinHeap.keyAt l i

/-- Heap shape except that position `idx` may undercut its parent; the
grandparent still dominates `idx`'s children.  The `bubble_up` loop
invariant. -/
def MinHeap.AlmostUp {K : Type} [Inhabited K] [LinearOrder K]
    (l : List (Nat × K)) (idx : Nat) : Prop :=
  (∀ i, 0 < i → i < l.length → i ≠ idx →
    MinHeap.keyAt l ((i - 1) / 2) ≤ MinHeap.keyAt l i) ∧
  (∀ c, c < l.length → 0 < idx → (c = 2 * idx + 1 ∨ c = 2 * idx + 2) →
    MinHeap.keyAt l ((idx - 1) / 2) ≤ MinHeap.keyAt l c)

/-- Heap shape except that position `idx` may exceed its children; the
parent of `idx` still dominates them.  The `bubble_down` loop invariant. -/
def MinHeap.AlmostDown {K : Type} [Inhabited K] [LinearOrder K]
    (l : List (Nat × K)) (idx : Nat) : Prop :=
  (∀ i, 0 < i → i < l.length → (i - 1) / 2 ≠ idx →
    MinHeap.keyAt l ((i - 1) / 2) ≤ MinHeap.keyAt l i) ∧
  (∀ c, c < l.length → 0 < idx → (c = 2 * idx + 1 ∨ c = 2 * idx + 2) →
    MinHeap.keyAt l ((idx - 1) / 2) ≤ MinHeap.keyAt l c)

/-- The keys an operation trace inserts, in order. -/
def KeysOf {K : Type} : List (HOp K) → List K
  | [] => []
  | HOp.ins _ k :: rest => k :: KeysOf rest
  | HOp.del :: rest => KeysOf rest

/-- Observations of a trace on the Fibonacci-heap engine: after each
operation the `get_min` answer, and additionally the popped entry of each
`delete_min`. -/
def fibObsRun {K : Type} [Inhabited K] [LinearOrder K] :
    FibHeap K → List (HOp K) → List (Option (Nat × K))
  | _, [] => []
  | s, HOp.ins id k :: rest =>
      (s.insert (id, k)).get_min :: fibObsRun (s.insert (id, k)) rest
  | s, HOp.del :: rest =>
      (s.delete_min).1 :: ((s.delete_min).2.get_min :: fibObsRun (s.delete_min).2 rest)

/-- The same observations on the array-backed baseline. -/
def minObsRun {K : Type} [Inhabited K] [LinearOrder K] :
    MinHeap K → List (HOp K) → List (Option (Nat × K))
  | _, [] => []
  | s, HOp.ins id k :: rest =>
      (s.insert (id, k)).get_min :: minObsRun (s.insert (id, k)) rest
  | s, HOp.del :: rest =>
      (s.delete_min).1 :: ((s.delete_min).2.get_min :: minObsRun (s.delete_min).2 rest)

/-- Heap order on the lower part of the array: every parent-child edge whose
parent index is at least `t` is ordered.  `GoodFrom l 0` is `HeapOrd l`; the
heapify loop of `build_heap` establishes `GoodFrom l i` for decreasing `i`. -/
def MinHeap.GoodFrom {K : Type} [Inhabited K] [LinearOrder K]
    (l : List (Nat × K)) (t : Nat) : Prop :=
  ∀ i, 0 < i → i < l.length → t ≤ (i - 1) / 2 →
    MinHeap.keyAt l ((i - 1) / 2) ≤ MinHeap.keyAt l i

/-- `GoodFrom` except that the two edges out of `idx` may be broken; the
parent of `idx`, when it lies in the good region, still dominates `idx`'s
children.  The `bubble_down` loop invariant inside the heapify pass. -/
def MinHeap.AlmostDownT {K : Type} [Inhabited K] [LinearOrder K]
    (l : List (Nat × K)) (t idx : Nat) : Prop :=
  (∀ i, 0 < i → i < l.length → t ≤ (i - 1) / 2 → (i - 1) / 2 ≠ idx →
    MinHeap.keyAt l ((i - 1) / 2) ≤ MinHeap.keyAt l i) ∧
  (∀ c, c < l.length → 0 < idx → t ≤ (idx - 1) / 2 →
    (c = 2 * idx + 1 ∨ c = 2 * idx + 2) →
    MinHeap.keyAt l ((idx - 1) / 2) ≤ MinHeap.keyAt l c)

/-- Position-index fidelity for the array baseline (the §8 "position
fidelity" property, phrased on the heap array and position array): every
recorded position points at an in-range slot holding that id, and every
slot's id is recorded at that slot. -/
def MinHeap.PosOkL {K : Type} [Inhabited K] (hp : List (Nat × K))
    (ps : List (Option Nat)) : Prop :=
  (∀ id pos, ps.getD id none = some pos →
    pos < hp.length ∧ (hp.getD pos default).1 = id) ∧
  (∀ i, i < hp.length → ps.getD ((hp.getD i default).1) none = some i)

/-- Position-index fidelity of a baseline state. -/
def MinHeap.PosOk {K : Type} [Inhabited K] (s : MinHeap K) : Prop :=
  MinHeap.PosOkL s.heap s.positions

/-- Differential-trace operations: the mutating operations shared by the two
engines (`insert`, `delete_min`, `decrease_key`). -/
inductive DOp (K : Type) where
  | ins (id : Nat) (k : K)
  | del
  | dec (id : Nat) (k : K)

/-- Trace validity: the claim's preconditions, stated on the engine state —
each insert uses an id that is not live, each decrease_key names a live id
and a strictly smaller key, delete_min is always allowed. -/
inductive DValid {K : Type} [Inhabited K] [LinearOrder K] :
    FibHeap K → List (DOp K) → Prop where
  | nil {s : FibHeap K} : DValid s []
  | ins {s : FibHeap K} {id : Nat} {k : K} {rest : List (DOp K)} :
      s.getP id = none → DValid (s.insert (id, k)) rest →
      DValid s (.ins id k :: rest)
  | del {s : FibHeap K} {rest : List (DOp K)} :
      DValid (s.delete_min).2 rest → DValid s (.del :: rest)
  | dec {s : FibHeap K} {id : Nat} {k : K} {idx : Nat} {rest : List (DOp K)} :
      s.getP id = some idx → k < (s.getN idx).entry.2 →
      DValid (s.decrease_key id k) rest → DValid s (.dec id k :: rest)

/-- The keys a trace introduces (inserted keys and decreased-to keys), in
order. -/
def DKeys {K : Type} : List (DOp K) → List K
  | [] => []
  | DOp.ins _ k :: rest => k :: DKeys rest
  | DOp.del :: rest => DKeys rest
  | DOp.dec _ k :: rest => k :: DKeys rest

/-- Observations of a trace on the Fibonacci-heap engine: after each
operation the popped entry (for `delete_min`; `none` otherwise), the
`get_min` answer and the `is_empty` answer. -/
def fibObsRunD {K : Type} [Inhabited K] [LinearOrder K] :
    FibHeap K → List (DOp K) → List (Option (Nat × K) × Option (Nat × K) × Bool)
  | _, [] => []
  | s, DOp.ins id k :: rest =>
      (none, (s.insert (id, k)).get_min, (s.insert (id, k)).is_empty) ::
        fibObsRunD (s.insert (id, k)) rest
  | s, DOp.del :: rest =>
      ((s.delete_min).1, (s.delete_min).2.get_min, (s.delete_min).2.is_empty) ::
        fibObsRunD (s.delete_min).2 rest
  | s, DOp.dec id k :: rest =>
      (none, (s.decrease_key id k).get_min, (s.decrease_key id k).is_empty) ::
        fibObsRunD (s.decrease_key id k) rest

/-- The same observations on the array-backed baseline. -/
def minObsRunD {K : Type} [Inhabited K] [LinearOrder K] :
    MinHeap K → List (DOp K) → List (Option (Nat × K) × Option (Nat × K) × Bool)
  | _, [] => []
  | s, DOp.ins id k :: rest =>
      (none, (s.insert (id, k)).get_min, (s.insert (id, k)).is_empty) ::
        minObsRunD (s.insert (id, k)) rest
  | s, DOp.del :: rest =>
      ((s.delete_min).1, (s.delete_min).2.get_min, (s.delete_min).2.is_empty) ::
        minObsRunD (s.delete_min).2 rest
  | s, DOp.dec id k :: rest =>
      (none, (s.decrease_key id k).get_min, (s.decrease_key id k).is_empty) ::
        minObsRunD (s.decrease_key id k) rest

/-! ## Theorems -/

section FibHeapSmoke

-- The smoke tests of `src/fibonacci_heap.rs`, evaluated on the embedding.
example :
    (FibHeap.get_min (FibHeap.insert (FibHeap.insert (FibHeap.new (K := Int)) (0, 20)) (1, 10))) =
      some (1, 10) := by decide

example :
    let h := FibHeap.build_heap (K := Int) [(2, 30), (3, 5), (4, 25)]
    let r1 := h.delete_min
    let r2 := r1.2.delete_min
    let r3 := r2.2.delete_min
    r1.1 = some (3, 5) ∧ r2.1 = some (4, 25) ∧ r3.1 = some (2, 30) ∧ r3.2.is_empty = true := by
  decide

example :
    let h := FibHeap.build_heap (K := Int) [(7, 100), (8, 200)]
    (h.decrease_key 8 50).get_min = some (8, 50) := by decide

end FibHeapSmoke

section MinHeapSmoke

-- A selection of the unit tests of `src/minheap.rs`, on the embedding.
example :
    let mh := MinHeap.build_heap (K := Int) [(3, 15), (2, 25), (5, 5)]
    let r1 := mh.delete_min
    let r2 := r1.2.delete_min
    let r3 := r2.2.delete_min
    mh.get_min = some (5, 5) ∧ r1.1 = some (5, 5) ∧ r2.1 = some (3, 15) ∧
      r3.1 = some (2, 25) ∧ (r3.2.delete_min).1 = none := by decide

example :
    let mh := MinHeap.build_heap (K := Int) [(2, 50), (0, 10), (3, 20), (1, 5)]
    let r1 := mh.delete_min
    let r2 := r1.2.delete_min
    let r3 := r2.2.delete_min
    let r4 := r3.2.delete_min
    mh.get_min = some (1, 5) ∧ r1.1 = some (1, 5) ∧ r2.1 = some (0, 10) ∧
      r3.1 = some (3, 20) ∧ r4.1 = some (2, 50) ∧ (r4.2.delete_min).1 = none := by decide

example :
    let mh := MinHeap.build_heap (K := Int) [(0, 100), (1, 200), (2, 300)]
    (mh.decrease_key 2 50).get_min = some (2, 50) := by decide

end MinHeapSmoke

namespace FibHeap

variable {K : Type} [Inhabited K] [LinearOrder K]

theorem getN_setN (s : FibHeap K) (i j : Nat) (v : Node K) :
    (s.setN i v).getN j = if i = j ∧ j < s.nodes.length then v else s.getN j := by
  unfold setN getN
  simp only [List.getD_eq_getElem?_getD]
  by_cases h : i = j
  · subst h
    by_cases hl : i < s.nodes.length
    · simp [List.getElem?_set_self hl, hl]
    · rw [List.set_eq_of_length_le (Nat.le_of_not_lt hl)]
      simp [hl]
  · simp [List.getElem?_set_ne h, h]

@[simp] theorem length_setN (s : FibHeap K) (i : Nat) (v : Node K) :
    (s.setN i v).nodes.length = s.nodes.length := by
  simp [setN]

@[simp] theorem setN_positions (s : FibHeap K) (i : Nat) (v : Node K) :
    (s.setN i v).positions = s.positions := rfl

@[simp] theorem setN_min_root (s : FibHeap K) (i : Nat) (v : Node K) :
    (s.setN i v).min_root = s.min_root := rfl

@[simp] theorem setN_n (s : FibHeap K) (i : Nat) (v : Node K) :
    (s.setN i v).n = s.n := rfl

theorem getN_modifyN (s : FibHeap K) (i j : Nat) (f : Node K → Node K) :
    (s.modifyN i f).getN j = if i = j ∧ j < s.nodes.length then f (s.getN i) else s.getN j := by
  unfold modifyN; rw [getN_setN]

@[simp] theorem length_modifyN (s : FibHeap K) (i : Nat) (f : Node K → Node K) :
    (s.modifyN i f).nodes.length = s.nodes.length := by
  simp [modifyN]

@[simp] theorem modifyN_positions (s : FibHeap K) (i : Nat) (f : Node K → Node K) :
    (s.modifyN i f).positions = s.positions := rfl

@[simp] theorem modifyN_min_root (s : FibHeap K) (i : Nat) (f : Node K → Node K) :
    (s.modifyN i f).min_root = s.min_root := rfl

@[simp] theorem modifyN_n (s : FibHeap K) (i : Nat) (f : Node K → Node K) :
    (s.modifyN i f).n = s.n := rfl

theorem getN_modifyN_same (s : FibHeap K) (i : Nat) (f : Node K → Node K)
    (h : i < s.nodes.length) : (s.modifyN i f).getN i = f (s.getN i) := by
  simp [getN_modifyN, h]

theorem getN_modifyN_ne (s : FibHeap K) (i j : Nat) (f : Node K → Node K)
    (h : i ≠ j) : (s.modifyN i f).getN j = s.getN j := by
  simp [getN_modifyN, h]

/-- A `modifyN` whose update function leaves the parent/child/mark/degree/
entry fields alone leaves those fields of every slot alone. -/
theorem modifyN_preserves_fields (s : FibHeap K) (a : Nat) (f : Node K → Node K)
    (hf : ∀ nd, (f nd).parent = nd.parent ∧ (f nd).child = nd.child ∧
      (f nd).mark = nd.mark ∧ (f nd).degree = nd.degree ∧ (f nd).entry = nd.entry) (j : Nat) :
    ((s.modifyN a f).getN j).parent = (s.getN j).parent ∧
    ((s.modifyN a f).getN j).child = (s.getN j).child ∧
    ((s.modifyN a f).getN j).mark = (s.getN j).mark ∧
    ((s.modifyN a f).getN j).degree = (s.getN j).degree ∧
    ((s.modifyN a f).getN j).entry = (s.getN j).entry := by
  rw [getN_modifyN]
  split_ifs with h
  · rcases h with ⟨h1, h2⟩; subst h1; exact hf _
  · exact ⟨rfl, rfl, rfl, rfl, rfl⟩

/-- Full characterisation of `detach i`: the two neighbours are re-pointed to
each other, `i` becomes a self-referencing singleton, and nothing else — no
parent/child/mark/degree/entry of any node, no other node's links, and none
of the non-arena state — changes. -/
theorem detach_spec (s : FibHeap K) (i : Nat) (hi : i < s.nodes.length) :
    (s.detach i).positions = s.positions ∧ (s.detach i).min_root = s.min_root ∧
    (s.detach i).n = s.n ∧ (s.detach i).nodes.length = s.nodes.length ∧
    ((s.detach i).getN i).left = i ∧ ((s.detach i).getN i).right = i ∧
    (∀ l r, (s.getN i).left = l → (s.getN i).right = r → l < s.nodes.length →
      r < s.nodes.length → i ≠ l → i ≠ r →
      ((s.detach i).getN l).right = r ∧ ((s.detach i).getN r).left = l) ∧
    (∀ j, ((s.detach i).getN j).parent = (s.getN j).parent ∧
      ((s.detach i).getN j).child = (s.getN j).child ∧
      ((s.detach i).getN j).mark = (s.getN j).mark ∧
      ((s.detach i).getN j).degree = (s.getN j).degree ∧
      ((s.detach i).getN j).entry = (s.getN j).entry) ∧
    (∀ j, j ≠ i → j ≠ (s.getN i).left → j ≠ (s.getN i).right → (s.detach i).getN j = s.getN j) := by
  have hdef : s.detach i =
      ((((s.modifyN (s.getN i).left fun nd => { nd with right := (s.getN i).right }).modifyN
          (s.getN i).right fun nd => { nd with left := (s.getN i).left }).modifyN i
          fun nd => { nd with left := i }).modifyN i fun nd => { nd with right := i }) := rfl
  generalize hL : (s.getN i).left = L at hdef ⊢
  generalize hR : (s.getN i).right = R at hdef ⊢
  rw [hdef]
  set t1 := s.modifyN L fun nd => { nd with right := R } with ht1
  set t2 := t1.modifyN R fun nd => { nd with left := L } with ht2
  set t3 := t2.modifyN i fun nd => { nd with left := i } with ht3
  have l1 : t1.nodes.length = s.nodes.length := by rw [ht1]; simp
  have l2 : t2.nodes.length = s.nodes.length := by rw [ht2]; simp [l1]
  have l3 : t3.nodes.length = s.nodes.length := by rw [ht3]; simp [l2]
  have hi3 : i < t3.nodes.length := by rw [l3]; exact hi
  have hi2 : i < t2.nodes.length := by rw [l2]; exact hi
  refine ⟨by simp [ht3, ht2, ht1], by simp [ht3, ht2, ht1], by simp [ht3, ht2, ht1],
    by simp [l3], ?_, ?_, ?_, ?_, ?_⟩
  · rw [getN_modifyN_same _ _ _ hi3, ht3, getN_modifyN_same _ _ _ hi2]
  · rw [getN_modifyN_same _ _ _ hi3]
  · intro l r hl hr hlN hrN hil hir
    subst hl hr
    constructor
    · rw [getN_modifyN_ne _ _ _ _ hil, ht3, getN_modifyN_ne _ _ _ _ hil, ht2]
      by_cases hLR : L = R
      · subst hLR
        rw [getN_modifyN_same _ _ _ (by rw [l1]; exact hlN), ht1,
          getN_modifyN_same _ _ _ hlN]
      · rw [getN_modifyN_ne _ _ _ _ (Ne.symm hLR), ht1, getN_modifyN_same _ _ _ hlN]
    · rw [getN_modifyN_ne _ _ _ _ hir, ht3, getN_modifyN_ne _ _ _ _ hir, ht2,
        getN_modifyN_same _ _ _ (by rw [l1]; exact hrN)]
  · intro j
    have p4 := modifyN_preserves_fields t3 i (fun nd => { nd with right := i })
      (fun nd => ⟨rfl, rfl, rfl, rfl, rfl⟩) j
    have p3 := modifyN_preserves_fields t2 i (fun nd => { nd with left := i })
      (fun nd => ⟨rfl, rfl, rfl, rfl, rfl⟩) j
    have p2 := modifyN_preserves_fields t1 R (fun nd => { nd with left := L })
      (fun nd => ⟨rfl, rfl, rfl, rfl, rfl⟩) j
    have p1 := modifyN_preserves_fields s L (fun nd => { nd with right := R })
      (fun nd => ⟨rfl, rfl, rfl, rfl, rfl⟩) j
    rw [ht3, ht2, ht1] at *
    exact ⟨by rw [p4.1, p3.1, p2.1, p1.1], by rw [p4.2.1, p3.2.1, p2.2.1, p1.2.1],
      by rw [p4.2.2.1, p3.2.2.1, p2.2.2.1, p1.2.2.1],
      by rw [p4.2.2.2.1, p3.2.2.2.1, p2.2.2.2.1, p1.2.2.2.1],
      by rw [p4.2.2.2.2, p3.2.2.2.2, p2.2.2.2.2, p1.2.2.2.2]⟩
  · intro j hj1 hj2 hj3
    rw [getN_modifyN_ne _ _ _ _ (Ne.symm hj1), ht3, getN_modifyN_ne _ _ _ _ (Ne.symm hj1), ht2,
      getN_modifyN_ne _ _ _ _ (Ne.symm hj3), ht1, getN_modifyN_ne _ _ _ _ (Ne.symm hj2)]

@[simp] theorem update_min_nodes (s : FibHeap K) (idx : Nat) :
    (s.update_min idx).nodes = s.nodes := by
  unfold update_min; cases s.min_root <;> dsimp <;> split_ifs <;> rfl

@[simp] theorem update_min_positions (s : FibHeap K) (idx : Nat) :
    (s.update_min idx).positions = s.positions := by
  unfold update_min; cases s.min_root <;> dsimp <;> split_ifs <;> rfl

@[simp] theorem update_min_n (s : FibHeap K) (idx : Nat) :
    (s.update_min idx).n = s.n := by
  unfold update_min; cases s.min_root <;> dsimp <;> split_ifs <;> rfl

@[simp] theorem add_to_root_positions (s : FibHeap K) (idx : Nat) :
    (s.add_to_root idx).positions = s.positions := by
  unfold add_to_root; cases s.min_root <;> dsimp <;> split_ifs <;> rfl

@[simp] theorem add_to_root_n (s : FibHeap K) (idx : Nat) :
    (s.add_to_root idx).n = s.n := by
  unfold add_to_root; cases s.min_root <;> dsimp <;> split_ifs <;> rfl

/-- Adjacency transfers between states that agree on the relevant link
fields. -/
theorem adj_frame {s s' : FibHeap K} {a b : Nat}
    (hr : (s'.getN a).right = (s.getN a).right) (hl : (s'.getN b).left = (s.getN b).left) :
    adj s a b → adj s' a b := by
  rintro ⟨h1, h2⟩
  exact ⟨by rw [hr, h1], by rw [hl, h2]⟩

/-- A chain survives any state change that keeps the `right` field of every
node but possibly the last and the `left` field of every node but the
first. -/
theorem chain_frame {s s' : FibHeap K} :
    ∀ {l : List Nat} {a : Nat}, List.Chain (adj s) a l →
    (∀ x ∈ a :: l.dropLast, (s'.getN x).right = (s.getN x).right) →
    (∀ y ∈ l, (s'.getN y).left = (s.getN y).left) →
    List.Chain (adj s') a l
  | [], a, _, _, _ => List.Chain.nil
  | b :: l', a, h, hr, hl => by
    rw [List.chain_cons] at h ⊢
    refine ⟨adj_frame (hr a (by simp)) (hl b (by simp)) h.1, ?_⟩
    rcases l' with _ | ⟨c, l''⟩
    · exact List.Chain.nil
    · exact chain_frame h.2
        (fun x hx => hr x (by
          rcases List.mem_cons.1 hx with h0 | h0 <;> simp [List.dropLast_cons₂, h0]))
        (fun y hy => hl y (by simp [hy]))

/-- A chain survives any state change that keeps both link fields of every
member. -/
theorem chain_frame_full {s s' : FibHeap K} {l : List Nat} {a : Nat}
    (h : List.Chain (adj s) a l)
    (hfr : ∀ x ∈ a :: l, (s'.getN x).left = (s.getN x).left ∧
      (s'.getN x).right = (s.getN x).right) :
    List.Chain (adj s') a l :=
  chain_frame h
    (fun x hx => (hfr x (by
      rcases List.mem_cons.1 hx with h0 | h0
      · simp [h0]
      · exact List.mem_cons_of_mem _ (List.dropLast_subset _ h0))).2)
    (fun y hy => (hfr y (List.mem_cons_of_mem _ hy)).1)

/-- A ring survives any state change that keeps both link fields of every
member. -/
theorem ringChain_frame {s s' : FibHeap K} {l : List Nat}
    (hfr : ∀ x ∈ l, (s'.getN x).left = (s.getN x).left ∧
      (s'.getN x).right = (s.getN x).right)
    (h : RingChain s l) : RingChain s' l := by
  cases l with
  | nil => trivial
  | cons a t =>
      exact chain_frame_full h (fun x hx => hfr x (by
        rcases List.mem_cons.1 hx with h0 | h0
        · simp [h0]
        · rcases List.mem_append.1 h0 with h1 | h1
          · exact List.mem_cons_of_mem _ h1
          · simp at h1; simp [h1]))

/-- Rotating a ring list keeps it a ring. -/
theorem ringChain_rotate {s : FibHeap K} {pre post : List Nat} {i : Nat}
    (h : RingChain s (pre ++ i :: post)) : RingChain s (i :: (post ++ pre)) := by
  cases pre with
  | nil => simpa using h
  | cons a pre' =>
      have h0 : List.Chain (adj s) a ((pre' ++ i :: post) ++ [a]) := h
      have h' : List.Chain (adj s) a (pre' ++ i :: (post ++ [a])) := by
        simpa [List.append_assoc] using h0
      rw [List.chain_split] at h'
      have goal : List.Chain (adj s) i (post ++ a :: (pre' ++ [i])) := by
        rw [List.chain_split]
        exact ⟨h'.2, h'.1⟩
      have : List.Chain (adj s) i ((post ++ a :: pre') ++ [i]) := by
        simpa [List.append_assoc] using goal
      exact this

/-- Walking `right` pointers from `w`, with `rest` the remainder of the ring
before closing back at `start`, collects exactly `w :: rest`. -/
theorem collectRing_go {s : FibHeap K} {start : Nat} :
    ∀ (rest : List Nat) (w fuel : Nat), List.Chain (adj s) w (rest ++ [start]) →
    start ∉ rest → rest.length < fuel →
    collectRing s start fuel w = w :: rest
  | [], w, fuel + 1, h, _, _ => by
      simp only [List.nil_append, List.chain_cons] at h
      unfold collectRing
      simp [h.1.1]
  | r :: rest', w, fuel + 1, h, hs, hf => by
      simp only [List.cons_append, List.chain_cons] at h
      have hr : (s.getN w).right = r := h.1.1
      have hrs : r ≠ start := fun e => hs (by simp [e])
      unfold collectRing
      rw [hr, if_neg hrs]
      rw [collectRing_go rest' r fuel h.2 (fun hx => hs (by simp [hx]))
        (by simpa using Nat.lt_of_succ_lt_succ hf)]

/-- Collecting the root ring from its head yields the ring list. -/
theorem collectRing_eq {s : FibHeap K} {h : Nat} {t : List Nat}
    (hc : RingChain s (h :: t)) (hnd : (h :: t).Nodup) {fuel : Nat}
    (hf : (h :: t).length ≤ fuel) :
    collectRing s h fuel h = h :: t := by
  have hh : h ∉ t := (List.nodup_cons.1 hnd).1
  exact collectRing_go t h fuel hc hh (by simpa using hf)

@[simp] theorem add_to_root_length (s : FibHeap K) (idx : Nat) :
    (s.add_to_root idx).nodes.length = s.nodes.length := by
  unfold add_to_root; cases s.min_root <;> dsimp <;> split_ifs <;> simp

/-- Reverse-end case analysis for lists. -/
theorem listEndCases {α : Type} (t : List α) : t = [] ∨ ∃ t' last, t = t' ++ [last] := by
  rcases List.eq_nil_or_concat t with h | ⟨t', last, h⟩
  · exact Or.inl h
  · exact Or.inr ⟨t', last, by simpa [List.concat_eq_append] using h⟩

/-- The closing edge of a non-degenerate ring: the last member is adjacent
to the head. -/
theorem ringChain_adj_getLast {s : FibHeap K} {h : Nat} {t : List Nat}
    (hc : RingChain s (h :: t)) (hne : t ≠ []) : adj s (t.getLast hne) h := by
  have hc' : List.Chain (adj s) h (t ++ [h]) := hc
  rw [← List.dropLast_append_getLast hne, List.append_assoc, List.singleton_append,
    List.chain_split] at hc'
  have := hc'.2
  rw [List.chain_cons] at this
  exact this.1

/-- A one-member ring is a self-loop. -/
theorem ringChain_single {s : FibHeap K} {h : Nat} (hc : RingChain s [h]) :
    (s.getN h).left = h ∧ (s.getN h).right = h := by
  have hc' : List.Chain (adj s) h [h] := hc
  rw [List.chain_cons] at hc'
  exact ⟨hc'.1.2, hc'.1.1⟩

/-- A `modifyN` whose update keeps `right` keeps every slot's `right`. -/
theorem modifyN_preserves_right (s : FibHeap K) (a : Nat) (f : Node K → Node K)
    (hf : ∀ nd, (f nd).right = nd.right) (j : Nat) :
    ((s.modifyN a f).getN j).right = (s.getN j).right := by
  rw [getN_modifyN]
  split_ifs with h
  · rcases h with ⟨h1, h2⟩; subst h1; exact hf _
  · rfl

/-- A `modifyN` whose update keeps `left` keeps every slot's `left`. -/
theorem modifyN_preserves_left (s : FibHeap K) (a : Nat) (f : Node K → Node K)
    (hf : ∀ nd, (f nd).left = nd.left) (j : Nat) :
    ((s.modifyN a f).getN j).left = (s.getN j).left := by
  rw [getN_modifyN]
  split_ifs with h
  · rcases h with ⟨h1, h2⟩; subst h1; exact hf _
  · rfl

/-- Fine-grained pointer frame for `detach`: the `right` field changes only
at `i` and `i`'s left neighbour; the `left` field changes only at `i` and
`i`'s right neighbour. -/
theorem detach_pointer_frame (s : FibHeap K) (i : Nat) :
    (∀ j, j ≠ i → j ≠ (s.getN i).left → ((s.detach i).getN j).right = (s.getN j).right) ∧
    (∀ j, j ≠ i → j ≠ (s.getN i).right → ((s.detach i).getN j).left = (s.getN j).left) := by
  have hdef : s.detach i =
      ((((s.modifyN (s.getN i).left fun nd => { nd with right := (s.getN i).right }).modifyN
          (s.getN i).right fun nd => { nd with left := (s.getN i).left }).modifyN i
          fun nd => { nd with left := i }).modifyN i fun nd => { nd with right := i }) := rfl
  rw [hdef]
  constructor
  · intro j hj1 hjL
    rw [getN_modifyN_ne _ _ _ _ (Ne.symm hj1), getN_modifyN_ne _ _ _ _ (Ne.symm hj1),
      modifyN_preserves_right _ _ (fun nd => { nd with left := (s.getN i).left })
        (fun nd => rfl) j,
      getN_modifyN_ne _ _ _ _ (Ne.symm hjL)]
  · intro j hj1 hjR
    rw [getN_modifyN_ne _ _ _ _ (Ne.symm hj1), getN_modifyN_ne _ _ _ _ (Ne.symm hj1),
      getN_modifyN_ne _ _ _ _ (Ne.symm hjR),
      modifyN_preserves_left _ _ (fun nd => { nd with right := (s.getN i).right })
        (fun nd => rfl) j]

/-- Detaching the head of a ring leaves the rest of the ring intact. -/
theorem detach_ring_head {s : FibHeap K} {i : Nat} {t : List Nat}
    (hc : RingChain s (i :: t)) (hnd : (i :: t).Nodup)
    (hb : ∀ x ∈ i :: t, x < s.nodes.length) :
    RingChain (s.detach i) t := by
  have hi : i < s.nodes.length := hb i (by simp)
  rcases t with _ | ⟨r, t'⟩
  · trivial
  have hchain : List.Chain (adj s) i ((r :: t') ++ [i]) := hc
  rw [List.cons_append, List.chain_cons] at hchain
  have hir : adj s i r := hchain.1
  have hRdef : (s.getN i).right = r := hir.1
  have hinotin : i ∉ r :: t' := (List.nodup_cons.1 hnd).1
  have hir' : i ≠ r := fun e => hinotin (by simp [e])
  have hframe := detach_pointer_frame s i
  have hspec := detach_spec s i hi
  rcases listEndCases t' with rfl | ⟨t'', last, rfl⟩
  · -- two-element ring [i, r] : r becomes a self-loop
    have hlr : (s.getN i).left = r := by
      have hlast := ringChain_adj_getLast hc (t := [r]) (by simp)
      simpa using hlast.2
    have hnbr := hspec.2.2.2.2.2.2.1 r r hlr hRdef
      (hb r (by simp)) (hb r (by simp)) hir' hir'
    show List.Chain (adj (s.detach i)) r ([] ++ [r])
    rw [List.nil_append, List.chain_cons]
    exact ⟨⟨hnbr.1, hnbr.2⟩, List.Chain.nil⟩
  · -- longer ring: reconnect last → r
    have hne2 : (r :: (t'' ++ [last]) : List Nat) ≠ [] := by simp
    have hlasteq : (r :: (t'' ++ [last])).getLast hne2 = last := by
      rw [List.getLast_cons (by simp)]
      exact List.getLast_concat _
    have hLdef : (s.getN i).left = last := by
      have hlast := ringChain_adj_getLast hc (by simp)
      have := hlast.2
      rwa [hlasteq] at this
    have hndt : (r :: (t'' ++ [last]) : List Nat).Nodup := (List.nodup_cons.1 hnd).2
    have hrnot : r ∉ t'' ++ [last] := (List.nodup_cons.1 hndt).1
    have hrlast : r ≠ last := fun e => hrnot (by simp [e])
    have hlastnott'' : last ∉ t'' := by
      have := List.disjoint_of_nodup_append (List.nodup_cons.1 hndt).2
      exact fun hmem => this hmem (by simp)
    have hilast : i ≠ last := fun e =>
      hinotin (by rw [e]; exact List.mem_cons_of_mem _ (by simp))
    have hnbr := hspec.2.2.2.2.2.2.1 last r hLdef hRdef
      (hb last (by simp)) (hb r (by simp)) hilast hir'
    have hcinner : List.Chain (adj s) r (t'' ++ [last]) := by
      have h2 := hchain.2
      rw [List.append_assoc, List.singleton_append, List.chain_split] at h2
      exact h2.1
    have hinner' : List.Chain (adj (s.detach i)) r (t'' ++ [last]) := by
      apply chain_frame hcinner
      · intro x hx
        have hdl : (t'' ++ [last] : List Nat).dropLast = t'' := by simp
        rw [hdl] at hx
        have hxi : x ≠ i := by
          intro e; subst e
          rcases List.mem_cons.1 hx with h0 | h0
          · exact hir' h0
          · exact hinotin (List.mem_cons_of_mem _ (List.mem_append_left _ h0))
        have hxlast : x ≠ (s.getN i).left := by
          rw [hLdef]
          intro e; subst e
          rcases List.mem_cons.1 hx with h0 | h0
          · exact hrlast h0.symm
          · exact hlastnott'' h0
        exact hframe.1 x hxi hxlast
      · intro y hy
        have hyi : y ≠ i := fun e =>
          hinotin (List.mem_cons_of_mem _ (e ▸ hy))
        have hyr : y ≠ (s.getN i).right := by
          rw [hRdef]
          exact fun e => hrnot (e ▸ hy)
        exact hframe.2 y hyi hyr
    show List.Chain (adj (s.detach i)) r ((t'' ++ [last]) ++ [r])
    rw [List.append_assoc, List.singleton_append, List.chain_split]
    refine ⟨hinner', ?_⟩
    rw [List.chain_cons]
    exact ⟨⟨hnbr.1, hnbr.2⟩, List.Chain.nil⟩

/-- Detaching any member of a ring leaves the remaining members, in cyclic
order, a ring. -/
theorem detach_ring_middle {s : FibHeap K} {a b : List Nat} {i : Nat}
    (hc : RingChain s (a ++ i :: b)) (hnd : (a ++ i :: b).Nodup)
    (hb : ∀ x ∈ a ++ i :: b, x < s.nodes.length) :
    RingChain (s.detach i) (a ++ b) := by
  have hrot : RingChain s (i :: (b ++ a)) := ringChain_rotate hc
  have hperm : (a ++ i :: b).Perm (i :: (b ++ a)) := by
    refine (List.perm_middle).trans ?_
    exact List.Perm.cons i (List.perm_append_comm)
  have hnd' : (i :: (b ++ a)).Nodup := hperm.nodup hnd
  have hb' : ∀ x ∈ i :: (b ++ a), x < s.nodes.length := fun x hx =>
    hb x (hperm.mem_iff.2 hx)
  have hhead := detach_ring_head hrot hnd' hb'
  rcases a with _ | ⟨ah, a'⟩
  · simpa using hhead
  · have : RingChain (s.detach i) (ah :: (a' ++ b)) := by
      have := ringChain_rotate (i := ah) hhead
      exact this
    simpa using this

/-- Full characterisation of `add_to_root idx` on a state whose root ring is
`h :: t` with `min_root = h` and `idx` a fresh in-range slot: the ring
becomes `h :: t ++ [idx]` (`idx` spliced just before the minimum), the
minimum pointer moves to `idx` exactly when its key is strictly smaller, no
parent/child/mark/degree/entry changes anywhere, and slots other than `idx`,
`h` and `h`'s old left neighbour are untouched. -/
theorem add_to_root_spec {s : FibHeap K} {h : Nat} {t : List Nat} {idx : Nat}
    (hmin : s.min_root = some h)
    (hc : RingChain s (h :: t))
    (hnd : (h :: t).Nodup)
    (hidx : idx < s.nodes.length)
    (hh : h < s.nodes.length)
    (hL : (s.getN h).left < s.nodes.length)
    (hnotin : idx ∉ h :: t) :
    RingChain (s.add_to_root idx) (h :: (t ++ [idx])) ∧
    (s.add_to_root idx).min_root =
      (if (s.getN idx).entry.2 < (s.getN h).entry.2 then some idx else some h) ∧
    (∀ j, ((s.add_to_root idx).getN j).parent = (s.getN j).parent ∧
          ((s.add_to_root idx).getN j).child = (s.getN j).child ∧
          ((s.add_to_root idx).getN j).mark = (s.getN j).mark ∧
          ((s.add_to_root idx).getN j).degree = (s.getN j).degree ∧
          ((s.add_to_root idx).getN j).entry = (s.getN j).entry) ∧
    (∀ j, j ≠ idx → j ≠ h → j ≠ (s.getN h).left → (s.add_to_root idx).getN j = s.getN j) := by
  have hidxh : idx ≠ h := fun e => hnotin (by simp [e])
  have hdef : s.add_to_root idx =
      (if ((((s.modifyN idx fun nd =>
              { nd with left := (s.getN h).left, right := h }).modifyN
            (s.getN h).left fun nd => { nd with right := idx }).modifyN h
            fun nd => { nd with left := idx }).getN idx).entry.2 <
          ((((s.modifyN idx fun nd =>
              { nd with left := (s.getN h).left, right := h }).modifyN
            (s.getN h).left fun nd => { nd with right := idx }).modifyN h
            fun nd => { nd with left := idx }).getN h).entry.2 then
        { (((s.modifyN idx fun nd =>
              { nd with left := (s.getN h).left, right := h }).modifyN
            (s.getN h).left fun nd => { nd with right := idx }).modifyN h
            fun nd => { nd with left := idx }) with min_root := some idx }
      else
        (((s.modifyN idx fun nd =>
              { nd with left := (s.getN h).left, right := h }).modifyN
            (s.getN h).left fun nd => { nd with right := idx }).modifyN h
            fun nd => { nd with left := idx })) := by
    unfold add_to_root
    rw [hmin]
  set t1 := s.modifyN idx fun nd => { nd with left := (s.getN h).left, right := h } with ht1
  set t2 := t1.modifyN (s.getN h).left fun nd => { nd with right := idx } with ht2
  set t3 := t2.modifyN h fun nd => { nd with left := idx } with ht3
  have l1 : t1.nodes.length = s.nodes.length := by rw [ht1]; simp
  have l2 : t2.nodes.length = s.nodes.length := by rw [ht2]; simp [l1]
  have l3 : t3.nodes.length = s.nodes.length := by rw [ht3]; simp [l2]
  have hLring : (s.getN h).left ∈ h :: t := by
    rcases listEndCases t with rfl | ⟨t', last, rfl⟩
    · have := (ringChain_single hc).1
      rw [this]; exact List.mem_cons_self _ _
    · have hne : (t' ++ [last] : List Nat) ≠ [] := by simp
      have hadjlast := ringChain_adj_getLast hc hne
      have h2 : (s.getN h).left = (t' ++ [last]).getLast hne := hadjlast.2
      rw [h2]
      exact List.mem_cons_of_mem _ (List.getLast_mem _)
  have hLidx : (s.getN h).left ≠ idx := fun e => hnotin (e ▸ hLring)
  have g_idx : t3.getN idx = { s.getN idx with left := (s.getN h).left, right := h } := by
    rw [ht3, getN_modifyN_ne _ _ _ _ (Ne.symm hidxh), ht2,
      getN_modifyN_ne _ _ _ _ hLidx, ht1, getN_modifyN_same _ _ _ hidx]
  have g_frame : ∀ j, j ≠ idx → j ≠ h → j ≠ (s.getN h).left → t3.getN j = s.getN j := by
    intro j hj1 hj2 hj3
    rw [ht3, getN_modifyN_ne _ _ _ _ (Ne.symm hj2), ht2,
      getN_modifyN_ne _ _ _ _ (Ne.symm hj3), ht1, getN_modifyN_ne _ _ _ _ (Ne.symm hj1)]
  have fields3 : ∀ j, (t3.getN j).parent = (s.getN j).parent ∧
      (t3.getN j).child = (s.getN j).child ∧ (t3.getN j).mark = (s.getN j).mark ∧
      (t3.getN j).degree = (s.getN j).degree ∧ (t3.getN j).entry = (s.getN j).entry := by
    intro j
    have p3 := modifyN_preserves_fields t2 h (fun nd => { nd with left := idx })
      (fun nd => ⟨rfl, rfl, rfl, rfl, rfl⟩) j
    have p2 := modifyN_preserves_fields t1 (s.getN h).left (fun nd => { nd with right := idx })
      (fun nd => ⟨rfl, rfl, rfl, rfl, rfl⟩) j
    have p1 := modifyN_preserves_fields s idx (fun nd => { nd with left := (s.getN h).left, right := h })
      (fun nd => ⟨rfl, rfl, rfl, rfl, rfl⟩) j
    rw [ht3, ht2, ht1] at *
    exact ⟨by rw [p3.1, p2.1, p1.1], by rw [p3.2.1, p2.2.1, p1.2.1],
      by rw [p3.2.2.1, p2.2.2.1, p1.2.2.1], by rw [p3.2.2.2.1, p2.2.2.2.1, p1.2.2.2.1],
      by rw [p3.2.2.2.2, p2.2.2.2.2, p1.2.2.2.2]⟩
  have hringnew : RingChain t3 (h :: (t ++ [idx])) := by
    rcases listEndCases t with rfl | ⟨t', last, rfl⟩
    · have hself := ringChain_single hc
      have hLh : (s.getN h).left = h := hself.1
      have g_h : t3.getN h = { { s.getN h with right := idx } with left := idx } := by
        rw [ht3, getN_modifyN_same _ _ _ (by rw [l2]; exact hh), ht2, hLh,
          getN_modifyN_same _ _ _ (by rw [l1]; exact hh), ht1,
          getN_modifyN_ne _ _ _ _ hidxh]
      show List.Chain (adj t3) h ([] ++ [idx] ++ [h])
      simp only [List.nil_append, List.singleton_append, List.chain_cons]
      refine ⟨⟨by rw [g_h], by rw [g_idx, hLh]⟩, ⟨by rw [g_idx], by rw [g_h]⟩, List.Chain.nil⟩
    · have hne : (t' ++ [last] : List Nat) ≠ [] := by simp
      have hlasteq : (t' ++ [last]).getLast hne = last := List.getLast_concat _
      have hadjlast : adj s last h := by
        have := ringChain_adj_getLast hc hne
        rwa [hlasteq] at this
      have hLlast : (s.getN h).left = last := hadjlast.2
      have hlast_mem : last ∈ t' ++ [last] := by simp
      have hlasth : last ≠ h := fun e => (List.nodup_cons.1 hnd).1 (e ▸ hlast_mem)
      have hlastidx : last ≠ idx := fun e =>
        hnotin (List.mem_cons_of_mem _ (e ▸ hlast_mem))
      have g_h : t3.getN h = { s.getN h with left := idx } := by
        rw [ht3, getN_modifyN_same _ _ _ (by rw [l2]; exact hh), ht2, hLlast,
          getN_modifyN_ne _ _ _ _ hlasth, ht1, getN_modifyN_ne _ _ _ _ hidxh]
      have g_last : t3.getN last = { s.getN last with right := idx } := by
        rw [ht3, getN_modifyN_ne _ _ _ _ (Ne.symm hlasth), ht2, hLlast,
          getN_modifyN_same _ _ _ (by rw [l1, ← hLlast]; exact hL), ht1,
          getN_modifyN_ne _ _ _ _ (Ne.symm hlastidx)]
      have hndt : (t' ++ [last] : List Nat).Nodup := (List.nodup_cons.1 hnd).2
      have hlastnott' : last ∉ t' := by
        have := List.disjoint_of_nodup_append hndt
        exact fun hmem => this hmem (by simp)
      have hc' : List.Chain (adj s) h ((t' ++ [last]) ++ [h]) := hc
      rw [List.append_assoc, List.singleton_append, List.chain_split] at hc'
      have hcinner : List.Chain (adj s) h (t' ++ [last]) := hc'.1
      have hinner' : List.Chain (adj t3) h (t' ++ [last]) := by
        apply chain_frame hcinner
        · intro x hx
          have hdl : (t' ++ [last] : List Nat).dropLast = t' := by simp
          rw [hdl] at hx
          have hxidx : x ≠ idx := by
            intro e; subst e
            rcases List.mem_cons.1 hx with h0 | h0
            · exact hidxh h0
            · exact hnotin (List.mem_cons_of_mem _ (List.mem_append_left _ h0))
          have hxlast : x ≠ last := by
            intro e; subst e
            rcases List.mem_cons.1 hx with h0 | h0
            · exact hlasth h0
            · exact hlastnott' h0
          by_cases hxh : x = h
          · rw [hxh, g_h]
          · rw [g_frame x hxidx hxh (fun e => hxlast (e.trans hLlast))]
        · intro y hy
          have hyidx : y ≠ idx := fun e =>
            hnotin (List.mem_cons_of_mem _ (e ▸ hy))
          have hyh : y ≠ h := fun e => (List.nodup_cons.1 hnd).1 (e ▸ hy)
          by_cases hylast : y = last
          · rw [hylast, g_last]
          · rw [g_frame y hyidx hyh (fun e => hylast (e.trans hLlast))]
      show List.Chain (adj t3) h ((t' ++ [last] ++ [idx]) ++ [h])
      have hfin : List.Chain (adj t3) h ((t' ++ [last]) ++ idx :: [h]) := by
        rw [List.chain_split]
        constructor
        · have hsplit2 : List.Chain (adj t3) h (t' ++ last :: [idx]) := by
            rw [List.chain_split]
            refine ⟨?_, ?_⟩
            · have : List.Chain (adj t3) h (t' ++ [last]) := hinner'
              exact this
            · rw [List.chain_cons]
              exact ⟨⟨by rw [g_last], by rw [g_idx, hLlast]⟩, List.Chain.nil⟩
          simpa [List.append_assoc] using hsplit2
        · rw [List.chain_cons]
          exact ⟨⟨by rw [g_idx], by rw [g_h]⟩, List.Chain.nil⟩
      simpa [List.append_assoc] using hfin
  have hkeyidx : (t3.getN idx).entry.2 = (s.getN idx).entry.2 := by
    rw [(fields3 idx).2.2.2.2]
  have hkeyh : (t3.getN h).entry.2 = (s.getN h).entry.2 := by
    rw [(fields3 h).2.2.2.2]
  constructor
  · rw [hdef]
    split_ifs with hlt
    · exact ringChain_frame (fun x hx => ⟨rfl, rfl⟩) hringnew
    · exact hringnew
  refine ⟨?_, ?_, ?_⟩
  · rw [hdef, hkeyidx, hkeyh]
    split_ifs with hlt
    · rfl
    · rw [ht3, ht2, ht1]; simp [hmin]
  · intro j
    rw [hdef]
    split_ifs with hlt
    · exact fields3 j
    · exact fields3 j
  · intro j hj1 hj2 hj3
    rw [hdef]
    split_ifs with hlt
    · show t3.getN j = s.getN j
      exact g_frame j hj1 hj2 hj3
    · exact g_frame j hj1 hj2 hj3

/-- Single-field preservation for `modifyN`: parent. -/
theorem modifyN_preserves_parent (s : FibHeap K) (a : Nat) (f : Node K → Node K)
    (hf : ∀ nd, (f nd).parent = nd.parent) (j : Nat) :
    ((s.modifyN a f).getN j).parent = (s.getN j).parent := by
  rw [getN_modifyN]
  split_ifs with h
  · rcases h with ⟨h1, h2⟩; subst h1; exact hf _
  · rfl

/-- Single-field preservation for `modifyN`: child. -/
theorem modifyN_preserves_child (s : FibHeap K) (a : Nat) (f : Node K → Node K)
    (hf : ∀ nd, (f nd).child = nd.child) (j : Nat) :
    ((s.modifyN a f).getN j).child = (s.getN j).child := by
  rw [getN_modifyN]
  split_ifs with h
  · rcases h with ⟨h1, h2⟩; subst h1; exact hf _
  · rfl

/-- Single-field preservation for `modifyN`: mark. -/
theorem modifyN_preserves_mark (s : FibHeap K) (a : Nat) (f : Node K → Node K)
    (hf : ∀ nd, (f nd).mark = nd.mark) (j : Nat) :
    ((s.modifyN a f).getN j).mark = (s.getN j).mark := by
  rw [getN_modifyN]
  split_ifs with h
  · rcases h with ⟨h1, h2⟩; subst h1; exact hf _
  · rfl

/-- Single-field preservation for `modifyN`: degree. -/
theorem modifyN_preserves_degree (s : FibHeap K) (a : Nat) (f : Node K → Node K)
    (hf : ∀ nd, (f nd).degree = nd.degree) (j : Nat) :
    ((s.modifyN a f).getN j).degree = (s.getN j).degree := by
  rw [getN_modifyN]
  split_ifs with h
  · rcases h with ⟨h1, h2⟩; subst h1; exact hf _
  · rfl

/-- Single-field preservation for `modifyN`: entry. -/
theorem modifyN_preserves_entry (s : FibHeap K) (a : Nat) (f : Node K → Node K)
    (hf : ∀ nd, (f nd).entry = nd.entry) (j : Nat) :
    ((s.modifyN a f).getN j).entry = (s.getN j).entry := by
  rw [getN_modifyN]
  split_ifs with h
  · rcases h with ⟨h1, h2⟩; subst h1; exact hf _
  · rfl

/-- Changing only the minimum pointer leaves all arena reads alone. -/
@[simp] theorem getN_with_min_root (s : FibHeap K) (v : Option Nat) (j : Nat) :
    ({ s with min_root := v } : FibHeap K).getN j = s.getN j := rfl

/-- Changing only the counter leaves all arena reads alone. -/
@[simp] theorem getN_with_n (s : FibHeap K) (v : Nat) (j : Nat) :
    ({ s with n := v } : FibHeap K).getN j = s.getN j := rfl

/-- Changing only the position index leaves all arena reads alone. -/
@[simp] theorem getN_with_positions (s : FibHeap K) (v : List (Option Nat)) (j : Nat) :
    ({ s with positions := v } : FibHeap K).getN j = s.getN j := rfl

/-- `add_to_root` never changes parent/child/mark/degree/entry of any
slot. -/
theorem add_to_root_fields (s : FibHeap K) (idx j : Nat) :
    ((s.add_to_root idx).getN j).parent = (s.getN j).parent ∧
    ((s.add_to_root idx).getN j).child = (s.getN j).child ∧
    ((s.add_to_root idx).getN j).mark = (s.getN j).mark ∧
    ((s.add_to_root idx).getN j).degree = (s.getN j).degree ∧
    ((s.add_to_root idx).getN j).entry = (s.getN j).entry := by
  unfold add_to_root
  cases hm : s.min_root with
  | none => exact ⟨rfl, rfl, rfl, rfl, rfl⟩
  | some m =>
      dsimp only
      split_ifs with hlt
      · simp only [getN_with_min_root]
        have p3 := modifyN_preserves_fields
          ((s.modifyN idx fun nd => { nd with left := (s.getN m).left, right := m }).modifyN
            (s.getN m).left fun nd => { nd with right := idx }) m
          (fun nd => { nd with left := idx }) (fun nd => ⟨rfl, rfl, rfl, rfl, rfl⟩) j
        have p2 := modifyN_preserves_fields
          (s.modifyN idx fun nd => { nd with left := (s.getN m).left, right := m })
          (s.getN m).left (fun nd => { nd with right := idx })
          (fun nd => ⟨rfl, rfl, rfl, rfl, rfl⟩) j
        have p1 := modifyN_preserves_fields s idx
          (fun nd => { nd with left := (s.getN m).left, right := m })
          (fun nd => ⟨rfl, rfl, rfl, rfl, rfl⟩) j
        exact ⟨by rw [p3.1, p2.1, p1.1], by rw [p3.2.1, p2.2.1, p1.2.1],
          by rw [p3.2.2.1, p2.2.2.1, p1.2.2.1], by rw [p3.2.2.2.1, p2.2.2.2.1, p1.2.2.2.1],
          by rw [p3.2.2.2.2, p2.2.2.2.2, p1.2.2.2.2]⟩
      · have p3 := modifyN_preserves_fields
          ((s.modifyN idx fun nd => { nd with left := (s.getN m).left, right := m }).modifyN
            (s.getN m).left fun nd => { nd with right := idx }) m
          (fun nd => { nd with left := idx }) (fun nd => ⟨rfl, rfl, rfl, rfl, rfl⟩) j
        have p2 := modifyN_preserves_fields
          (s.modifyN idx fun nd => { nd with left := (s.getN m).left, right := m })
          (s.getN m).left (fun nd => { nd with right := idx })
          (fun nd => ⟨rfl, rfl, rfl, rfl, rfl⟩) j
        have p1 := modifyN_preserves_fields s idx
          (fun nd => { nd with left := (s.getN m).left, right := m })
          (fun nd => ⟨rfl, rfl, rfl, rfl, rfl⟩) j
        exact ⟨by rw [p3.1, p2.1, p1.1], by rw [p3.2.1, p2.2.1, p1.2.1],
          by rw [p3.2.2.1, p2.2.2.1, p1.2.2.1], by rw [p3.2.2.2.1, p2.2.2.2.1, p1.2.2.2.1],
          by rw [p3.2.2.2.2, p2.2.2.2.2, p1.2.2.2.2]⟩

/-- `detach` never changes parent/child/mark/degree/entry of any slot. -/
theorem detach_fields (s : FibHeap K) (i j : Nat) :
    ((s.detach i).getN j).parent = (s.getN j).parent ∧
    ((s.detach i).getN j).child = (s.getN j).child ∧
    ((s.detach i).getN j).mark = (s.getN j).mark ∧
    ((s.detach i).getN j).degree = (s.getN j).degree ∧
    ((s.detach i).getN j).entry = (s.getN j).entry := by
  have hdef : s.detach i =
      ((((s.modifyN (s.getN i).left fun nd => { nd with right := (s.getN i).right }).modifyN
          (s.getN i).right fun nd => { nd with left := (s.getN i).left }).modifyN i
          fun nd => { nd with left := i }).modifyN i fun nd => { nd with right := i }) := rfl
  rw [hdef]
  have p4 := modifyN_preserves_fields
    (((s.modifyN (s.getN i).left fun nd => { nd with right := (s.getN i).right }).modifyN
      (s.getN i).right fun nd => { nd with left := (s.getN i).left }).modifyN i
      fun nd => { nd with left := i }) i (fun nd => { nd with right := i })
    (fun nd => ⟨rfl, rfl, rfl, rfl, rfl⟩) j
  have p3 := modifyN_preserves_fields
    ((s.modifyN (s.getN i).left fun nd => { nd with right := (s.getN i).right }).modifyN
      (s.getN i).right fun nd => { nd with left := (s.getN i).left }) i
    (fun nd => { nd with left := i }) (fun nd => ⟨rfl, rfl, rfl, rfl, rfl⟩) j
  have p2 := modifyN_preserves_fields
    (s.modifyN (s.getN i).left fun nd => { nd with right := (s.getN i).right })
    (s.getN i).right (fun nd => { nd with left := (s.getN i).left })
    (fun nd => ⟨rfl, rfl, rfl, rfl, rfl⟩) j
  have p1 := modifyN_preserves_fields s (s.getN i).left
    (fun nd => { nd with right := (s.getN i).right })
    (fun nd => ⟨rfl, rfl, rfl, rfl, rfl⟩) j
  exact ⟨by rw [p4.1, p3.1, p2.1, p1.1], by rw [p4.2.1, p3.2.1, p2.2.1, p1.2.1],
    by rw [p4.2.2.1, p3.2.2.1, p2.2.2.1, p1.2.2.1],
    by rw [p4.2.2.2.1, p3.2.2.2.1, p2.2.2.2.1, p1.2.2.2.1],
    by rw [p4.2.2.2.2, p3.2.2.2.2, p2.2.2.2.2, p1.2.2.2.2]⟩

@[simp] theorem detach_length (s : FibHeap K) (i : Nat) :
    (s.detach i).nodes.length = s.nodes.length := by
  unfold detach; simp

/-- Decomposition of `cut`: its child-ring repair phase (whichever branch
runs) changes no slot's parent, entry, mark or degree and keeps the arena
size; afterwards come the degree decrement, the parent/mark clear and the
root splice. -/
theorem cut_decomp (s : FibHeap K) (idx par : Nat) :
    ∃ s1 : FibHeap K,
      (∀ j, (s1.getN j).parent = (s.getN j).parent ∧ (s1.getN j).entry = (s.getN j).entry ∧
        (s1.getN j).mark = (s.getN j).mark ∧ (s1.getN j).degree = (s.getN j).degree) ∧
      s1.nodes.length = s.nodes.length ∧ s1.positions = s.positions ∧
      s1.min_root = s.min_root ∧ s1.n = s.n ∧
      s.cut idx par =
        ((s1.modifyN par fun nd => { nd with degree := nd.degree - 1 }).modifyN idx
          fun nd => { nd with parent := none, mark := false }).add_to_root idx := by
  unfold cut
  dsimp only
  split_ifs with h1 h2
  · refine ⟨s.modifyN par fun nd => { nd with child := none }, ?_, by simp, rfl, rfl, rfl, rfl⟩
    intro j
    exact ⟨modifyN_preserves_parent s par (fun nd => { nd with child := none }) (fun nd => rfl) j,
      modifyN_preserves_entry s par (fun nd => { nd with child := none }) (fun nd => rfl) j,
      modifyN_preserves_mark s par (fun nd => { nd with child := none }) (fun nd => rfl) j,
      modifyN_preserves_degree s par (fun nd => { nd with child := none }) (fun nd => rfl) j⟩
  · refine ⟨(s.detach idx).modifyN par fun nd => { nd with child := some ((s.getN idx).right) },
      ?_, by simp, rfl, rfl, rfl, rfl⟩
    intro j
    have q := detach_fields s idx j
    exact ⟨by
        rw [modifyN_preserves_parent _ par
          (fun nd => { nd with child := some ((s.getN idx).right) }) (fun nd => rfl) j, q.1],
      by
        rw [modifyN_preserves_entry _ par
          (fun nd => { nd with child := some ((s.getN idx).right) }) (fun nd => rfl) j, q.2.2.2.2],
      by
        rw [modifyN_preserves_mark _ par
          (fun nd => { nd with child := some ((s.getN idx).right) }) (fun nd => rfl) j, q.2.2.1],
      by
        rw [modifyN_preserves_degree _ par
          (fun nd => { nd with child := some ((s.getN idx).right) }) (fun nd => rfl) j, q.2.2.2.1]⟩
  · refine ⟨s.detach idx, ?_, by simp [detach], rfl, rfl, rfl, rfl⟩
    intro j
    have q := detach_fields s idx j
    exact ⟨q.1, q.2.2.2.2, q.2.2.1, q.2.2.2.1⟩

/-- `cut idx par` clears `idx`'s parent and touches no other slot's parent
nor any entry. -/
theorem cut_parent_frame (s : FibHeap K) (idx par : Nat) :
    (∀ j, j ≠ idx → ((s.cut idx par).getN j).parent = (s.getN j).parent) ∧
    (idx < s.nodes.length → ((s.cut idx par).getN idx).parent = none) ∧
    (∀ j, ((s.cut idx par).getN j).entry = (s.getN j).entry) := by
  obtain ⟨s1, hfr, hlen, -, -, -, hdef⟩ := cut_decomp s idx par
  rw [hdef]
  refine ⟨?_, ?_, ?_⟩
  · intro j hj
    rw [(add_to_root_fields _ idx j).1, getN_modifyN_ne _ _ _ _ (Ne.symm hj),
      modifyN_preserves_parent s1 par (fun nd => { nd with degree := nd.degree - 1 })
        (fun nd => rfl) j, (hfr j).1]
  · intro hidx
    rw [(add_to_root_fields _ idx idx).1,
      getN_modifyN_same _ _ _ (by simpa [hlen] using hidx)]
  · intro j
    rw [(add_to_root_fields _ idx j).2.2.2.2,
      modifyN_preserves_entry _ idx (fun nd => { nd with parent := none, mark := false })
        (fun nd => rfl) j,
      modifyN_preserves_entry s1 par (fun nd => { nd with degree := nd.degree - 1 })
        (fun nd => rfl) j, (hfr j).2.1]

@[simp] theorem cut_length (s : FibHeap K) (idx par : Nat) :
    (s.cut idx par).nodes.length = s.nodes.length := by
  obtain ⟨s1, hfr, hlen, -, -, -, hdef⟩ := cut_decomp s idx par
  rw [hdef]
  simp [hlen]

/-- Out-of-range arena reads give the default node. -/
theorem getN_oob (s : FibHeap K) {j : Nat} (h : s.nodes.length ≤ j) :
    s.getN j = default := by
  unfold getN
  exact List.getD_eq_default _ _ h

/-- Root paths survive state changes that only remove parent pointers. -/
theorem rootPath_mono {s s' : FibHeap K}
    (h : ∀ j, (s'.getN j).parent = (s.getN j).parent ∨ (s'.getN j).parent = none) :
    ∀ {x d : Nat}, RootPath s x d → ∃ d', d' ≤ d ∧ RootPath s' x d' := by
  intro x d hp
  induction hp with
  | root hx =>
      rcases h _ with h0 | h0
      · exact ⟨0, le_refl _, RootPath.root (by rw [h0, hx])⟩
      · exact ⟨0, le_refl _, RootPath.root h0⟩
  | step hx hrec ih =>
      rcases h _ with h0 | h0
      · obtain ⟨d', hd', hpath⟩ := ih
        exact ⟨d' + 1, Nat.succ_le_succ hd', RootPath.step (by rw [h0, hx]) hpath⟩
      · exact ⟨0, Nat.zero_le _, RootPath.root h0⟩

/-- `cut` only removes parent pointers (at the cut slot), so root paths can
only get shorter. -/
theorem rootPath_after_cut {s : FibHeap K} {y p : Nat} {x d : Nat}
    (hp : RootPath s x d) : ∃ d', d' ≤ d ∧ RootPath (s.cut y p) x d' := by
  apply rootPath_mono (fun j => ?_) hp
  by_cases hj : j = y
  · subst hj
    by_cases hlen : j < s.nodes.length
    · exact Or.inr ((cut_parent_frame s j p).2.1 hlen)
    · right
      have : (s.cut j p).nodes.length ≤ j := by
        rw [cut_length]; omega
      rw [getN_oob _ this]
      rfl
  · exact Or.inl ((cut_parent_frame s y p).1 j hj)

end FibHeap

/-- C8: `cascading_cut`, started at node `y` with enough fuel (any bound
above `y`'s distance to its root — the Rust loop is unbounded), walks upward
realizing the §4.9 contract transcribed in `CascadeWalk`: stop at a
parentless node; set the mark of an unmarked node and stop; cut a marked
node from its parent — promoting it to the root ring with parent and mark
cleared, via `cut` — and continue the walk from the former parent. -/
theorem cascading_cut_succ {K : Type} [Inhabited K] [LinearOrder K]
    (s : FibHeap K) (y f : Nat) :
    s.cascading_cut y (f + 1) =
      (match (s.getN y).parent with
       | none => s
       | some p =>
           if (s.getN y).mark = false then s.modifyN y fun nd => { nd with mark := true }
           else (s.cut y p).cascading_cut p f) := rfl

/-- C8 body; see the doc comment above. -/
theorem cascading_cut_follows_contract {K : Type} [Inhabited K] [LinearOrder K]
    (s : FibHeap K) (y d fuel : Nat) (hpath : FibHeap.RootPath s y d) (hfuel : d < fuel) :
    FibHeap.CascadeWalk s y (s.cascading_cut y fuel) := by
  induction d using Nat.strong_induction_on generalizing s y fuel with
  | _ d ih =>
    rcases fuel with _ | f
    · omega
    rw [cascading_cut_succ]
    rcases hpar : (s.getN y).parent with _ | p
    · exact FibHeap.CascadeWalk.root hpar
    · dsimp only
      rcases hmark : (s.getN y).mark with _ | _
      · rw [if_pos rfl]
        exact FibHeap.CascadeWalk.markStop hpar hmark
      · rw [if_neg (fun h => Bool.noConfusion h)]
        cases hpath with
        | root h0 => rw [h0] at hpar; exact absurd hpar (by simp)
        | step hx hrec =>
            rw [hx] at hpar
            obtain rfl := Option.some.inj hpar
            refine FibHeap.CascadeWalk.cutStep hx hmark ?_
            obtain ⟨d', hd', hpath'⟩ := FibHeap.rootPath_after_cut (y := y) hrec
            exact ih d' (by omega) _ _ _ hpath' (by omega)

/-- Witness: on a one-node heap the walk stops immediately at the parentless
root. -/
theorem cascading_cut_contract_witness :
    FibHeap.RootPath (FibHeap.build_heap (K := Int) [(0, 5)]) 0 0 ∧
    FibHeap.CascadeWalk (FibHeap.build_heap (K := Int) [(0, 5)]) 0
      ((FibHeap.build_heap (K := Int) [(0, 5)]).cascading_cut 0 1) :=
  ⟨FibHeap.RootPath.root (by decide),
    cascading_cut_follows_contract _ 0 0 1 (FibHeap.RootPath.root (by decide)) (by decide)⟩

@[simp] theorem MTree.top_mk (x : Nat) (cs : List MTree) : (MTree.mk x cs).top = x := rfl

@[simp] theorem MTree.slots_mk (x : Nat) (cs : List MTree) :
    (MTree.mk x cs).slots = x :: MTree.slotsF cs := rfl

@[simp] theorem MTree.slotsF_nil : MTree.slotsF [] = [] := rfl

@[simp] theorem MTree.slotsF_cons (t : MTree) (ts : List MTree) :
    MTree.slotsF (t :: ts) = t.slots ++ MTree.slotsF ts := rfl

theorem MTree.slotsF_append (F1 F2 : List MTree) :
    MTree.slotsF (F1 ++ F2) = MTree.slotsF F1 ++ MTree.slotsF F2 := by
  induction F1 with
  | nil => simp
  | cons t ts ih => simp [ih]

theorem MTree.top_mem_slots (t : MTree) : t.top ∈ t.slots := by
  cases t; simp

theorem MTree.mem_slotsF_of_mem {t : MTree} {F : List MTree} (ht : t ∈ F) {x : Nat}
    (hx : x ∈ t.slots) : x ∈ MTree.slotsF F := by
  induction F with
  | nil => cases ht
  | cons u us ih =>
      rcases List.mem_cons.1 ht with rfl | h0
      · exact List.mem_append_left _ hx
      · exact List.mem_append_right _ (ih h0)

theorem MTree.top_mem_slotsF {t : MTree} {F : List MTree} (ht : t ∈ F) :
    t.top ∈ MTree.slotsF F := MTree.mem_slotsF_of_mem ht (MTree.top_mem_slots t)

theorem MTree.mem_slotsF_iff {F : List MTree} {x : Nat} :
    x ∈ MTree.slotsF F ↔ ∃ t ∈ F, x ∈ t.slots := by
  induction F with
  | nil => simp
  | cons u us ih =>
      simp only [MTree.slotsF_cons, List.mem_append, ih, List.mem_cons]
      constructor
      · rintro (h0 | ⟨t, ht, hx⟩)
        · exact ⟨u, Or.inl rfl, h0⟩
        · exact ⟨t, Or.inr ht, hx⟩
      · rintro ⟨t, rfl | ht, hx⟩
        · exact Or.inl hx
        · exact Or.inr ⟨t, ht, hx⟩

namespace FibHeap

variable {K : Type} [Inhabited K] [LinearOrder K]

theorem TreeRepr.bound {s : FibHeap K} {t : MTree} {po : Option Nat}
    (h : TreeRepr s t po) : ∀ x ∈ t.slots, x < s.nodes.length := by
  induction h with
  | mk hx hpar hdeg hchild hring hkeys hrec ih =>
      intro z hz
      rcases List.mem_cons.1 hz with rfl | h0
      · exact hx
      · obtain ⟨c, hc, hzc⟩ := MTree.mem_slotsF_iff.1 h0
        exact ih c hc z hzc

theorem TreeRepr.parent_top {s : FibHeap K} {t : MTree} {po : Option Nat}
    (h : TreeRepr s t po) : (s.getN t.top).parent = po := by
  cases h; assumption

theorem TreeRepr.key_le {s : FibHeap K} {t : MTree} {po : Option Nat}
    (h : TreeRepr s t po) : ∀ x ∈ t.slots,
    (s.getN t.top).entry.2 ≤ (s.getN x).entry.2 := by
  induction h with
  | mk hx hpar hdeg hchild hring hkeys hrec ih =>
      intro z hz
      rcases List.mem_cons.1 hz with rfl | h0
      · exact le_refl _
      · rename_i x cs po
        obtain ⟨c, hc, hzc⟩ := MTree.mem_slotsF_iff.1 h0
        calc (s.getN x).entry.2 ≤ (s.getN c.top).entry.2 := hkeys c hc
          _ ≤ (s.getN z).entry.2 := ih c hc z hzc

theorem TreeRepr.heapOrder {s : FibHeap K} {t : MTree} {po : Option Nat}
    (h : TreeRepr s t po) : ∀ x ∈ t.slots, ∀ q, (s.getN x).parent = some q →
    (x = t.top ∧ po = some q) ∨ (s.getN q).entry.2 ≤ (s.getN x).entry.2 := by
  induction h with
  | mk hx hpar hdeg hchild hring hkeys hrec ih =>
      intro z hz q hq
      rcases List.mem_cons.1 hz with rfl | h0
      · exact Or.inl ⟨rfl, by rw [← hpar, hq]⟩
      · rename_i x cs po
        right
        obtain ⟨c, hc, hzc⟩ := MTree.mem_slotsF_iff.1 h0
        rcases ih c hc z hzc q hq with ⟨rfl, hq2⟩ | h2
        · obtain rfl : x = q := Option.some.inj hq2
          exact hkeys c hc
        · exact h2

theorem TreeRepr.frame {s s' : FibHeap K} {t : MTree} {po : Option Nat}
    (h : TreeRepr s t po)
    (hfr : ∀ x ∈ t.slots, s'.getN x = s.getN x)
    (hlen : s.nodes.length ≤ s'.nodes.length) : TreeRepr s' t po := by
  induction h with
  | mk hx hpar hdeg hchild hring hkeys hrec ih =>
      rename_i x cs po
      have htop : s'.getN x = s.getN x := hfr x (by simp)
      refine TreeRepr.mk (lt_of_lt_of_le hx hlen) (by rw [htop, hpar])
        (by rw [htop, hdeg]) (by rw [htop, hchild]) ?_ ?_ ?_
      · apply ringChain_frame ?_ hring
        intro z hz
        obtain ⟨c, hc, rfl⟩ := List.mem_map.1 hz
        have := hfr c.top (by
          simp only [MTree.slots_mk]
          exact List.mem_cons_of_mem _ (MTree.top_mem_slotsF hc))
        rw [this]
        exact ⟨rfl, rfl⟩
      · intro c hc
        rw [htop, hfr c.top (by
          simp only [MTree.slots_mk]
          exact List.mem_cons_of_mem _ (MTree.top_mem_slotsF hc))]
        exact hkeys c hc
      · intro c hc
        exact ih c hc (fun z hz => hfr z (by
          simp only [MTree.slots_mk]
          exact List.mem_cons_of_mem _ (MTree.mem_slotsF_of_mem hc hz)))

/-- A member of a duplicate-free forest has duplicate-free slots. -/
theorem MTree.nodup_slots_of_mem {F : List MTree} (hnd : (MTree.slotsF F).Nodup)
    {t : MTree} (ht : t ∈ F) : t.slots.Nodup := by
  induction F with
  | nil => cases ht
  | cons u us ih =>
      rw [MTree.slotsF_cons, List.nodup_append] at hnd
      rcases List.mem_cons.1 ht with rfl | h0
      · exact hnd.1
      · exact ih hnd.2.1 h0

/-- Fine frame for `TreeRepr`: the encoding reads only the five semantic
fields of every slot of the tree plus the ring links of every slot except
the tree's own top (a top's `left`/`right` belong to the ring that contains
the tree, not to the tree itself). -/
theorem TreeRepr.frameFine {s s' : FibHeap K} {t : MTree} {po : Option Nat}
    (h : TreeRepr s t po) (hnd : t.slots.Nodup)
    (hfr : ∀ x ∈ t.slots, (s'.getN x).parent = (s.getN x).parent ∧
      (s'.getN x).child = (s.getN x).child ∧ (s'.getN x).mark = (s.getN x).mark ∧
      (s'.getN x).degree = (s.getN x).degree ∧ (s'.getN x).entry = (s.getN x).entry)
    (hlr : ∀ x ∈ t.slots, x ≠ t.top → (s'.getN x).left = (s.getN x).left ∧
      (s'.getN x).right = (s.getN x).right)
    (hlen : s.nodes.length ≤ s'.nodes.length) : TreeRepr s' t po := by
  induction h with
  | mk hx hpar hdeg hchild hring hkeys hrec ih =>
      rename_i x cs po
      have htop := hfr x (by simp)
      have hxnot : x ∉ MTree.slotsF cs := by
        have := List.nodup_cons.1 (by simpa using hnd)
        exact this.1
      refine TreeRepr.mk (lt_of_lt_of_le hx hlen) (by rw [htop.1, hpar])
        (by rw [htop.2.2.2.1, hdeg]) (by rw [htop.2.1, hchild]) ?_ ?_ ?_
      · apply ringChain_frame ?_ hring
        intro z hz
        obtain ⟨c, hc, rfl⟩ := List.mem_map.1 hz
        have hmemF : c.top ∈ MTree.slotsF cs := MTree.top_mem_slotsF hc
        have hmem : c.top ∈ (MTree.mk x cs).slots := by
          simp only [MTree.slots_mk]
          exact List.mem_cons_of_mem _ hmemF
        exact (hlr c.top hmem (fun e => hxnot ((by simpa using e : c.top = x) ▸ hmemF)))
      · intro c hc
        rw [htop.2.2.2.2, (hfr c.top (by
          simp only [MTree.slots_mk]
          exact List.mem_cons_of_mem _ (MTree.top_mem_slotsF hc))).2.2.2.2]
        exact hkeys c hc
      · intro c hc
        have hndc : c.slots.Nodup := MTree.nodup_slots_of_mem
          (List.nodup_cons.1 (by simpa using hnd)).2 hc
        refine ih c hc hndc ?_ ?_
        · intro z hz
          exact hfr z (by
            simp only [MTree.slots_mk]
            exact List.mem_cons_of_mem _ (MTree.mem_slotsF_of_mem hc hz))
        · intro z hz hztop
          have hzF : z ∈ MTree.slotsF cs := MTree.mem_slotsF_of_mem hc hz
          exact hlr z (by
            simp only [MTree.slots_mk]
            exact List.mem_cons_of_mem _ hzF) (fun e => hxnot ((by simpa using e : z = x) ▸ hzF))

/-- As `TreeRepr.frameFine`, but with no condition on the mark bits, which
the encoding does not read. -/
theorem TreeRepr.frameF4 {s s' : FibHeap K} {t : MTree} {po : Option Nat}
    (h : TreeRepr s t po) (hnd : t.slots.Nodup)
    (hfr : ∀ x ∈ t.slots, (s'.getN x).parent = (s.getN x).parent ∧
      (s'.getN x).child = (s.getN x).child ∧
      (s'.getN x).degree = (s.getN x).degree ∧ (s'.getN x).entry = (s.getN x).entry)
    (hlr : ∀ x ∈ t.slots, x ≠ t.top → (s'.getN x).left = (s.getN x).left ∧
      (s'.getN x).right = (s.getN x).right)
    (hlen : s.nodes.length ≤ s'.nodes.length) : TreeRepr s' t po := by
  induction h with
  | mk hx hpar hdeg hchild hring hkeys hrec ih =>
      rename_i x cs po
      have htop := hfr x (by simp)
      have hxnot : x ∉ MTree.slotsF cs := by
        have := List.nodup_cons.1 (by simpa using hnd)
        exact this.1
      refine TreeRepr.mk (lt_of_lt_of_le hx hlen) (by rw [htop.1, hpar])
        (by rw [htop.2.2.1, hdeg]) (by rw [htop.2.1, hchild]) ?_ ?_ ?_
      · apply ringChain_frame ?_ hring
        intro z hz
        obtain ⟨c, hc, rfl⟩ := List.mem_map.1 hz
        have hmemF : c.top ∈ MTree.slotsF cs := MTree.top_mem_slotsF hc
        have hmem : c.top ∈ (MTree.mk x cs).slots := by
          simp only [MTree.slots_mk]
          exact List.mem_cons_of_mem _ hmemF
        exact (hlr c.top hmem (fun e => hxnot ((by simpa using e : c.top = x) ▸ hmemF)))
      · intro c hc
        rw [htop.2.2.2, (hfr c.top (by
          simp only [MTree.slots_mk]
          exact List.mem_cons_of_mem _ (MTree.top_mem_slotsF hc))).2.2.2]
        exact hkeys c hc
      · intro c hc
        have hndc : c.slots.Nodup := MTree.nodup_slots_of_mem
          (List.nodup_cons.1 (by simpa using hnd)).2 hc
        refine ih c hc hndc ?_ ?_
        · intro z hz
          exact hfr z (by
            simp only [MTree.slots_mk]
            exact List.mem_cons_of_mem _ (MTree.mem_slotsF_of_mem hc hz))
        · intro z hz hztop
          have hzF : z ∈ MTree.slotsF cs := MTree.mem_slotsF_of_mem hc hz
          exact hlr z (by
            simp only [MTree.slots_mk]
            exact List.mem_cons_of_mem _ hzF) (fun e => hxnot ((by simpa using e : z = x) ▸ hzF))

/-- Distinct slots give distinct tops. -/
theorem tops_nodup {F : List MTree} (hnd : (MTree.slotsF F).Nodup) :
    (F.map MTree.top).Nodup := by
  induction F with
  | nil => simp
  | cons t ts ih =>
      rw [MTree.slotsF_cons, List.nodup_append] at hnd
      rw [List.map_cons, List.nodup_cons]
      refine ⟨?_, ih hnd.2.1⟩
      intro hmem
      obtain ⟨u, hu, he⟩ := List.mem_map.1 hmem
      exact hnd.2.2 (MTree.top_mem_slots t) (he ▸ MTree.top_mem_slotsF hu)

/-- The head's left neighbour is a ring member. -/
theorem ringChain_left_mem {s : FibHeap K} {h : Nat} {t : List Nat}
    (hc : RingChain s (h :: t)) : (s.getN h).left ∈ h :: t := by
  rcases listEndCases t with rfl | ⟨t', last, rfl⟩
  · have := (ringChain_single hc).1
    rw [this]; exact List.mem_cons_self _ _
  · have hne : (t' ++ [last] : List Nat) ≠ [] := by simp
    have hadjlast := ringChain_adj_getLast hc hne
    have h2 : (s.getN h).left = (t' ++ [last]).getLast hne := hadjlast.2
    rw [h2]
    exact List.mem_cons_of_mem _ (List.getLast_mem _)

/-- In a duplicate-free forest a slot belongs to at most one tree. -/
theorem MTree.slots_disjoint {F : List MTree} (hnd : (MTree.slotsF F).Nodup) :
    ∀ t ∈ F, ∀ t' ∈ F, ∀ x, x ∈ t.slots → x ∈ t'.slots → t = t' := by
  induction F with
  | nil => intro t ht; cases ht
  | cons u us ih =>
      rw [MTree.slotsF_cons, List.nodup_append] at hnd
      intro t ht t' ht' x hx hx'
      rcases List.mem_cons.1 ht with rfl | h0 <;> rcases List.mem_cons.1 ht' with rfl | h1
      · rfl
      · exact absurd (MTree.mem_slotsF_of_mem h1 hx') (fun hm => hnd.2.2 hx hm)
      · exact absurd (MTree.mem_slotsF_of_mem h0 hx) (fun hm => hnd.2.2 hx' hm)
      · exact ih hnd.2.1 t h0 t' h1 x hx hx'

/-- Reading a padded position list. -/
theorem getD_pad (l : List (Option Nat)) (m i : Nat) :
    (l ++ List.replicate m (none : Option Nat)).getD i none = l.getD i none := by
  rw [List.getD_eq_getElem?_getD, List.getD_eq_getElem?_getD, List.getElem?_append]
  split_ifs with h
  · rfl
  · rw [List.getElem?_replicate]
    split_ifs with h2
    · rw [List.getElem?_eq_none (by omega)]
      rfl
    · rw [List.getElem?_eq_none (by omega)]

/-- Reading a position list after a write. -/
theorem getD_setP (ps : List (Option Nat)) (id i : Nat) (v : Option Nat) :
    (ps.set id v).getD i none =
      if id = i ∧ i < ps.length then v else ps.getD i none := by
  rw [List.getD_eq_getElem?_getD, List.getD_eq_getElem?_getD]
  by_cases h : id = i
  · subst h
    by_cases hl : id < ps.length
    · simp [List.getElem?_set_self hl, hl]
    · rw [List.set_eq_of_length_le (Nat.le_of_not_lt hl)]
      simp [hl]
  · simp [List.getElem?_set_ne h, h]

/-- All live slots of a represented state are in range. -/
theorem FibReprCore.slots_lt {s : FibHeap K} {F : List MTree} (h : FibReprCore s F) :
    ∀ i ∈ MTree.slotsF F, i < s.nodes.length := by
  intro i hi
  obtain ⟨t, ht, hit⟩ := MTree.mem_slotsF_iff.1 hi
  exact (h.2.2.1 t ht).bound i hit

/-- `update_min` is the identity when the minimum is present and the
candidate's key is not smaller. -/
theorem update_min_noop {s : FibHeap K} {m idx : Nat} (hm : s.min_root = some m)
    (hk : ¬ (s.getN idx).entry.2 < (s.getN m).entry.2) : s.update_min idx = s := by
  unfold update_min
  rw [hm]
  simp [hk]

/-- Preservation of the representation by `insert` with a fresh id: some
forest represents the new state, the live entries gain exactly the inserted
pair, the counter and arena grow by one, and the position index changes only
at the inserted id. -/
theorem insert_spec {s : FibHeap K} {F : List MTree} (hrep : FibRepr s F)
    (p : Nat × K) (hfresh : s.getP p.1 = none) :
    ∃ F', FibRepr (s.insert p) F' ∧
      List.Perm (entriesOf (s.insert p) F') (p :: entriesOf s F) ∧
      (s.insert p).n = s.n + 1 ∧
      (s.insert p).nodes.length = s.nodes.length + 1 ∧
      (s.insert p).getP p.1 = some s.nodes.length ∧
      (∀ id', id' ≠ p.1 → (s.insert p).getP id' = s.getP id') ∧
      (∀ j, j ≠ s.nodes.length → ((s.insert p).getN j).entry = (s.getN j).entry) ∧
      ((s.insert p).getN s.nodes.length).entry = p := by
  obtain ⟨⟨hring, hmin, htrees, hnd, hn, hfid1, hfid2⟩, hminhead⟩ := hrep
  have hbound : ∀ i ∈ MTree.slotsF F, i < s.nodes.length :=
    FibReprCore.slots_lt ⟨hring, hmin, htrees, hnd, hn, hfid1, hfid2⟩
  have hdef : s.insert p =
      ({ (FibHeap.mk (s.nodes ++ [Node.new p.1 p.2 s.nodes.length])
          ((if s.positions.length ≤ p.1 then
              s.positions ++ List.replicate (p.1 + 1 - s.positions.length) none
            else s.positions).set p.1 (some s.nodes.length))
          s.min_root s.n).add_to_root s.nodes.length with
        n := ((FibHeap.mk (s.nodes ++ [Node.new p.1 p.2 s.nodes.length])
          ((if s.positions.length ≤ p.1 then
              s.positions ++ List.replicate (p.1 + 1 - s.positions.length) none
            else s.positions).set p.1 (some s.nodes.length))
          s.min_root s.n).add_to_root s.nodes.length).n + 1 }).update_min
        s.nodes.length := by
    by_cases hpad : s.positions.length ≤ p.1
    · simp only [FibHeap.insert, if_pos hpad]
    · simp only [FibHeap.insert, if_neg hpad]
  set idx := s.nodes.length with hidxdef
  set sA : FibHeap K := FibHeap.mk (s.nodes ++ [Node.new p.1 p.2 idx])
      ((if s.positions.length ≤ p.1 then
          s.positions ++ List.replicate (p.1 + 1 - s.positions.length) none
        else s.positions).set p.1 (some idx))
      s.min_root s.n with hsA
  have hA_len : sA.nodes.length = s.nodes.length + 1 := by
    rw [hsA]; simp
  have hA_getN : ∀ j, sA.getN j = if j = idx then Node.new p.1 p.2 idx else s.getN j := by
    intro j
    rw [hsA]
    show (s.nodes ++ [Node.new p.1 p.2 idx]).getD j default = _
    by_cases hj : j = idx
    · subst hj
      rw [if_pos rfl, List.getD_eq_getElem?_getD, List.getElem?_concat_length]
      rfl
    · rw [if_neg hj]
      by_cases hl : j < s.nodes.length
      · exact List.getD_append _ _ _ _ hl
      · rw [List.getD_eq_default _ _ (by simp; omega)]
        rw [show s.getN j = default from getN_oob s (by omega)]
  have hA_getP_self : sA.getP p.1 = some idx := by
    rw [hsA]
    show ((if s.positions.length ≤ p.1 then
        s.positions ++ List.replicate (p.1 + 1 - s.positions.length) none
      else s.positions).set p.1 (some idx)).getD p.1 none = some idx
    by_cases hpad : s.positions.length ≤ p.1
    · rw [if_pos hpad, getD_setP, if_pos ⟨rfl, by simp; omega⟩]
    · rw [if_neg hpad, getD_setP, if_pos ⟨rfl, by omega⟩]
  have hA_getP_other : ∀ id', id' ≠ p.1 → sA.getP id' = s.getP id' := by
    intro id' hne
    rw [hsA]
    show ((if s.positions.length ≤ p.1 then
        s.positions ++ List.replicate (p.1 + 1 - s.positions.length) none
      else s.positions).set p.1 (some idx)).getD id' none = s.positions.getD id' none
    by_cases hpad : s.positions.length ≤ p.1
    · rw [if_pos hpad, getD_setP, if_neg (by intro hc; exact hne hc.1.symm), getD_pad]
    · rw [if_neg hpad, getD_setP, if_neg (by intro hc; exact hne hc.1.symm)]
  have hA_min : sA.min_root = s.min_root := rfl
  have hidxfresh : ∀ i ∈ MTree.slotsF F, i ≠ idx := by
    intro i hi he
    have := hbound i hi
    omega
  rcases F with _ | ⟨t0, F1⟩
  · -- empty heap
    have hm0 : s.min_root = none := by simpa using hmin
    have hB : sA.add_to_root idx = { sA with min_root := some idx } := by
      unfold add_to_root
      rw [hA_min, hm0]
    have hn0 : s.n = 0 := by simpa using hn
    have hfin2 : s.insert p = { sA with min_root := some idx, n := sA.n + 1 } := by
      rw [hdef, hB]
      exact update_min_noop (m := idx) rfl (lt_irrefl _)
    have hgetNfin : ∀ j, (s.insert p).getN j = sA.getN j := by
      intro j
      rw [hfin2]
      rfl
    have hgetPfin : ∀ id', (s.insert p).getP id' = sA.getP id' := by
      intro id'
      rw [hfin2]
      rfl
    refine ⟨[MTree.mk idx []], ?_, ?_, ?_, ?_, ?_, ?_, ?_, ?_⟩
    · refine ⟨⟨?_, ?_, ?_, ?_, ?_, ?_, ?_⟩, ?_⟩
      · show List.Chain (adj _) idx ([] ++ [idx])
        rw [List.nil_append, List.chain_cons]
        have hg : (s.insert p).getN idx = Node.new p.1 p.2 idx := by
          rw [hgetNfin, hA_getN, if_pos rfl]
        exact ⟨⟨by rw [hg]; rfl, by rw [hg]; rfl⟩, List.Chain.nil⟩
      · rw [hfin2]
        rfl
      · intro t ht
        obtain rfl : t = MTree.mk idx [] := by simpa using ht
        have hg : (s.insert p).getN idx = Node.new p.1 p.2 idx := by
          rw [hgetNfin, hA_getN, if_pos rfl]
        refine TreeRepr.mk ?_ ?_ ?_ ?_ ?_ ?_ ?_
        · show (idx : Nat) < (s.insert p).nodes.length
          rw [hfin2]
          show idx < sA.nodes.length
          rw [hA_len]; omega
        · rw [hg]; rfl
        · rw [hg]; rfl
        · rw [hg]; rfl
        · trivial
        · intro c hc; cases hc
        · intro c hc; cases hc
      · simp
      · rw [hfin2]
        show sA.n + 1 = _
        show s.n + 1 = _
        rw [hn0]
        rfl
      · intro i hi
        obtain rfl : i = idx := by simpa using hi
        rw [hgetPfin, hgetNfin, hA_getN, if_pos rfl]
        show sA.getP (p.1, p.2).1 = some idx
        exact hA_getP_self
      · intro id' j hj
        rw [hgetPfin] at hj
        by_cases he : id' = p.1
        · subst he
          rw [hA_getP_self] at hj
          obtain rfl : j = idx := (Option.some.inj hj).symm
          refine ⟨by simp, ?_⟩
          rw [hgetNfin, hA_getN, if_pos rfl]
          rfl
        · rw [hA_getP_other id' he] at hj
          obtain ⟨hmem, _⟩ := hfid2 id' j hj
          simp at hmem
      · intro h2 hh2 t ht
        obtain rfl := Option.some.inj (Option.mem_def.1 hh2)
        obtain rfl : t = MTree.mk idx [] := by simpa using ht
        exact le_refl _
    · show List.Perm (List.map _ _) _
      have h1 : entriesOf s [] = [] := rfl
      rw [h1]
      show List.Perm [((s.insert p).getN idx).entry] [p]
      rw [hgetNfin, hA_getN, if_pos rfl]
      exact List.Perm.refl _
    · rw [hfin2]
    · rw [hfin2]
      show sA.nodes.length = _
      rw [hA_len]
    · rw [hgetPfin]
      exact hA_getP_self
    · intro id' hne
      rw [hgetPfin]
      exact hA_getP_other id' hne
    · intro j hj
      rw [hgetNfin, hA_getN, if_neg hj]
    · rw [hgetNfin, hA_getN, if_pos rfl]
      rfl
  · -- non-empty heap
    have hh : (t0 :: F1).head?.map MTree.top = some t0.top := rfl
    have hmins : s.min_root = some t0.top := by rw [hmin, hh]
    have hringS : RingChain s (t0.top :: List.map MTree.top F1) := hring
    have hmemring : ∀ x ∈ t0.top :: List.map MTree.top F1, x ∈ MTree.slotsF (t0 :: F1) := by
      intro x hx
      obtain ⟨t, ht, rfl⟩ := List.mem_map.1 (show x ∈ List.map MTree.top (t0 :: F1) from hx)
      exact MTree.top_mem_slotsF ht
    have hboundring : ∀ x ∈ t0.top :: List.map MTree.top F1, x < s.nodes.length :=
      fun x hx => hbound x (hmemring x hx)
    have hringA : RingChain sA (t0.top :: List.map MTree.top F1) := by
      apply ringChain_frame ?_ hringS
      intro x hx
      rw [hA_getN, if_neg (by intro e; have := hboundring x hx; omega)]
      exact ⟨rfl, rfl⟩
    have hndring : (t0.top :: List.map MTree.top F1).Nodup := tops_nodup hnd
    have hminA : sA.min_root = some t0.top := by rw [hA_min, hmins]
    have hhlt : t0.top < s.nodes.length := hboundring t0.top (by simp)
    have hnotin : idx ∉ t0.top :: List.map MTree.top F1 := by
      intro hmem
      have := hboundring idx hmem
      omega
    have hLmem : (sA.getN t0.top).left ∈ t0.top :: List.map MTree.top F1 :=
      ringChain_left_mem hringA
    have hLboundA : (sA.getN t0.top).left < sA.nodes.length := by
      have := hboundring _ hLmem
      rw [hA_len]; omega
    obtain ⟨hring4, hmin4, hfields4, hframe4⟩ := add_to_root_spec hminA hringA hndring
      (by rw [hA_len]; omega) (by rw [hA_len]; omega) hLboundA hnotin
    set sB := sA.add_to_root idx with hsB
    have hfin2 : s.insert p = ({ sB with n := sB.n + 1 } : FibHeap K).update_min idx := by
      rw [hdef]
    have hkeyidxA : (sA.getN idx).entry = p := by
      rw [hA_getN, if_pos rfl]
      rfl
    have hkeyhA : (sA.getN t0.top).entry = (s.getN t0.top).entry := by
      rw [hA_getN, if_neg (by omega)]
    have hmin4' : sB.min_root =
        if p.2 < (s.getN t0.top).entry.2 then some idx else some t0.top := by
      rw [hmin4, show (sA.getN idx).entry.2 = p.2 from by rw [hkeyidxA],
        show (sA.getN t0.top).entry.2 = (s.getN t0.top).entry.2 from by rw [hkeyhA]]
    have hBentry : ∀ j, (sB.getN j).entry = (sA.getN j).entry :=
      fun j => (hfields4 j).2.2.2.2
    have hnoop : ({ sB with n := sB.n + 1 } : FibHeap K).update_min idx =
        ({ sB with n := sB.n + 1 } : FibHeap K) := by
      apply update_min_noop
        (m := if p.2 < (s.getN t0.top).entry.2 then idx else t0.top)
      · show sB.min_root = _
        rw [hmin4']
        split_ifs with hlt
        · rfl
        · rfl
      · show ¬ (sB.getN idx).entry.2 < (sB.getN _).entry.2
        rw [hBentry idx, hkeyidxA]
        split_ifs with hlt
        · rw [hBentry idx, hkeyidxA]
          exact lt_irrefl _
        · rw [hBentry t0.top, hkeyhA]
          exact hlt
    have hfin3 : s.insert p = ({ sB with n := sB.n + 1 } : FibHeap K) := by
      rw [hfin2, hnoop]
    have hgetNfin : ∀ j, (s.insert p).getN j = sB.getN j := by
      intro j
      rw [hfin3]
      rfl
    have hgetPfin : ∀ id', (s.insert p).getP id' = sA.getP id' := by
      intro id'
      rw [hfin3]
      show sB.getP id' = _
      unfold getP
      rw [hsB, add_to_root_positions]
    have hnfin : (s.insert p).n = s.n + 1 := by
      rw [hfin3]
      show sB.n + 1 = _
      rw [hsB, add_to_root_n]
    have hlenfin : (s.insert p).nodes.length = s.nodes.length + 1 := by
      rw [hfin3]
      show sB.nodes.length = _
      rw [hsB, add_to_root_length, hA_len]
    have hminfin : (s.insert p).min_root = sB.min_root := by
      rw [hfin3]
    have hentryfin : ∀ j, ((s.insert p).getN j).entry =
        if j = idx then p else (s.getN j).entry := by
      intro j
      rw [hgetNfin, hBentry j, hA_getN]
      split_ifs with he
      · subst he
        show (Node.new p.1 p.2 idx).entry = p
        rfl
      · rfl
    have hfieldsfin : ∀ j, ((s.insert p).getN j).parent = (sA.getN j).parent ∧
        ((s.insert p).getN j).child = (sA.getN j).child ∧
        ((s.insert p).getN j).mark = (sA.getN j).mark ∧
        ((s.insert p).getN j).degree = (sA.getN j).degree ∧
        ((s.insert p).getN j).entry = (sA.getN j).entry := by
      intro j
      rw [hgetNfin j]
      exact hfields4 j
    have hsingle : TreeRepr (s.insert p) (MTree.mk idx []) none := by
      have hN : sA.getN idx = Node.new p.1 p.2 idx := by rw [hA_getN, if_pos rfl]
      refine TreeRepr.mk ?_ ?_ ?_ ?_ ?_ ?_ ?_
      · show (idx : Nat) < (s.insert p).nodes.length
        rw [hlenfin]; omega
      · rw [(hfieldsfin idx).1, hN]; rfl
      · rw [(hfieldsfin idx).2.2.2.1, hN]; rfl
      · rw [(hfieldsfin idx).2.1, hN]; rfl
      · trivial
      · intro c hc; cases hc
      · intro c hc; cases hc
    have hLtop : ∃ u ∈ t0 :: F1, (sA.getN t0.top).left = u.top := by
      have hm2 : (sA.getN t0.top).left ∈ List.map MTree.top (t0 :: F1) := hLmem
      obtain ⟨u, hu, he⟩ := List.mem_map.1 hm2
      exact ⟨u, hu, he.symm⟩
    have holdtree : ∀ t ∈ t0 :: F1, TreeRepr (s.insert p) t none := by
      intro t ht
      have hndt : t.slots.Nodup := MTree.nodup_slots_of_mem hnd ht
      refine TreeRepr.frameFine (htrees t ht) hndt ?_ ?_ (by rw [hlenfin]; omega)
      · intro x hx
        have hxb : x < s.nodes.length := hbound x (MTree.mem_slotsF_of_mem ht hx)
        have hxi : x ≠ idx := by omega
        have h5 := hfieldsfin x
        rw [hA_getN, if_neg hxi] at h5
        exact h5
      · intro x hx hxt
        have hxb : x < s.nodes.length := hbound x (MTree.mem_slotsF_of_mem ht hx)
        have hxi : x ≠ idx := by omega
        have hxh : x ≠ t0.top := by
          intro he
          have hteq : t = t0 := MTree.slots_disjoint hnd t ht t0
            (List.mem_cons_self _ _) x hx (by rw [he]; exact MTree.top_mem_slots t0)
          exact hxt (he.trans (congrArg MTree.top hteq).symm)
        have hxL : x ≠ (sA.getN t0.top).left := by
          intro he
          obtain ⟨u, hu, heq⟩ := hLtop
          have hteq : t = u := MTree.slots_disjoint hnd t ht u hu x hx
            (by rw [he, heq]; exact MTree.top_mem_slots u)
          exact hxt ((he.trans heq).trans (congrArg MTree.top hteq).symm)
        have h6 := hframe4 x hxi hxh hxL
        rw [hgetNfin x, h6, hA_getN, if_neg hxi]
        exact ⟨rfl, rfl⟩
    have hentryidx : ((s.insert p).getN idx).entry = p := by
      rw [hentryfin, if_pos rfl]
    have hentryold : ∀ j ∈ MTree.slotsF (t0 :: F1),
        ((s.insert p).getN j).entry = (s.getN j).entry := by
      intro j hj
      rw [hentryfin, if_neg (hidxfresh j hj)]
    have hidold : ∀ j ∈ MTree.slotsF (t0 :: F1), (s.getN j).entry.1 ≠ p.1 := by
      intro j hj he
      have h7 := hfid1 j hj
      rw [he, hfresh] at h7
      cases h7
    have hfid1old : ∀ i ∈ MTree.slotsF (t0 :: F1),
        (s.insert p).getP ((s.insert p).getN i).entry.1 = some i := by
      intro i hi
      rw [hentryold i hi, hgetPfin, hA_getP_other _ (hidold i hi)]
      exact hfid1 i hi
    have hfid1idx : (s.insert p).getP ((s.insert p).getN idx).entry.1 = some idx := by
      rw [hentryidx, hgetPfin]
      exact hA_getP_self
    have hfid2new : ∀ id j, (s.insert p).getP id = some j →
        (j = idx ∧ ((s.insert p).getN j).entry.1 = id) ∨
        (j ∈ MTree.slotsF (t0 :: F1) ∧ ((s.insert p).getN j).entry.1 = id) := by
      intro id j hj
      rw [hgetPfin] at hj
      by_cases he : id = p.1
      · subst he
        rw [hA_getP_self] at hj
        obtain rfl : j = idx := (Option.some.inj hj).symm
        exact Or.inl ⟨rfl, by rw [hentryidx]⟩
      · rw [hA_getP_other id he] at hj
        obtain ⟨hmem, hent⟩ := hfid2 id j hj
        exact Or.inr ⟨hmem, by rw [hentryold j hmem, hent]⟩
    have hkeyt : ∀ t ∈ t0 :: F1,
        ((s.insert p).getN t.top).entry = (s.getN t.top).entry :=
      fun t ht => hentryold t.top (MTree.top_mem_slotsF ht)
    have hringfin : RingChain (s.insert p) (t0.top :: (List.map MTree.top F1 ++ [idx])) := by
      apply ringChain_frame ?_ hring4
      intro x hx
      rw [hgetNfin x]
      exact ⟨rfl, rfl⟩
    have hidxnot : idx ∉ MTree.slotsF (t0 :: F1) := fun hmem => (hidxfresh idx hmem) rfl
    have hmapentry : List.map (fun i => ((s.insert p).getN i).entry)
        (MTree.slotsF (t0 :: F1)) =
        List.map (fun i => (s.getN i).entry) (MTree.slotsF (t0 :: F1)) :=
      List.map_congr_left (fun i hi => hentryold i hi)
    by_cases hlt : p.2 < (s.getN t0.top).entry.2
    · -- the fresh node has the strictly smallest key: list its tree first
      have hslots : MTree.slotsF (MTree.mk idx [] :: t0 :: F1) =
          idx :: MTree.slotsF (t0 :: F1) := rfl
      refine ⟨MTree.mk idx [] :: t0 :: F1,
        ⟨⟨?_, ?_, ?_, ?_, ?_, ?_, ?_⟩, ?_⟩, ?_, hnfin, hlenfin, ?_, ?_, ?_, ?_⟩
      · show RingChain (s.insert p)
          (List.map MTree.top (MTree.mk idx [] :: t0 :: F1))
        have h0 : RingChain (s.insert p)
            ((t0.top :: List.map MTree.top F1) ++ idx :: []) := by
          simpa using hringfin
        have h1 := ringChain_rotate h0
        simpa using h1
      · rw [hminfin, hmin4', if_pos hlt]
        rfl
      · intro t ht
        rcases List.mem_cons.1 ht with rfl | h0
        · exact hsingle
        · exact holdtree t h0
      · rw [hslots]
        exact List.nodup_cons.2 ⟨hidxnot, hnd⟩
      · rw [hnfin, hn, hslots, List.length_cons]
      · intro i hi
        rw [hslots] at hi
        rcases List.mem_cons.1 hi with rfl | h0
        · exact hfid1idx
        · exact hfid1old i h0
      · intro id j hj
        rcases hfid2new id j hj with ⟨rfl, hent⟩ | ⟨hmem, hent⟩
        · exact ⟨by rw [hslots]; exact List.mem_cons_self _ _, hent⟩
        · exact ⟨by rw [hslots]; exact List.mem_cons_of_mem _ hmem, hent⟩
      · intro h2 hh2 t ht
        obtain rfl := Option.some.inj (Option.mem_def.1 hh2)
        rcases List.mem_cons.1 ht with rfl | h0
        · exact le_refl _
        · show ((s.insert p).getN (MTree.mk idx []).top).entry.2 ≤ _
          rw [MTree.top_mk, hentryidx, hkeyt t h0]
          exact le_trans (le_of_lt hlt) (hminhead t0 rfl t h0)
      · show List.Perm (entriesOf (s.insert p) (MTree.mk idx [] :: t0 :: F1))
          (p :: entriesOf s (t0 :: F1))
        unfold entriesOf
        rw [hslots]
        simp only [List.map_cons]
        rw [hentryidx, hmapentry]
      · rw [hgetPfin]
        exact hA_getP_self
      · intro id' hne
        rw [hgetPfin]
        exact hA_getP_other id' hne
      · intro j hj
        rw [hentryfin, if_neg hj]
      · exact hentryidx
    · -- the head keeps the minimum: the fresh tree goes to the back
      have hslots2 : MTree.slotsF ((t0 :: F1) ++ [MTree.mk idx []]) =
          MTree.slotsF (t0 :: F1) ++ [idx] := by
        rw [MTree.slotsF_append]
        rfl
      refine ⟨(t0 :: F1) ++ [MTree.mk idx []],
        ⟨⟨?_, ?_, ?_, ?_, ?_, ?_, ?_⟩, ?_⟩, ?_, hnfin, hlenfin, ?_, ?_, ?_, ?_⟩
      · show RingChain (s.insert p)
          (List.map MTree.top ((t0 :: F1) ++ [MTree.mk idx []]))
        have hmap : List.map MTree.top ((t0 :: F1) ++ [MTree.mk idx []]) =
            t0.top :: (List.map MTree.top F1 ++ [idx]) := by
          simp
        rw [hmap]
        exact hringfin
      · rw [hminfin, hmin4', if_neg hlt]
        rfl
      · intro t ht
        rcases List.mem_append.1 ht with h0 | h1
        · exact holdtree t h0
        · obtain rfl : t = MTree.mk idx [] := by simpa using h1
          exact hsingle
      · rw [hslots2]
        refine List.nodup_append.2 ⟨hnd, List.nodup_singleton _, ?_⟩
        intro a ha hb
        obtain rfl : a = idx := by simpa using hb
        exact hidxnot ha
      · rw [hnfin, hn, hslots2, List.length_append]
        rfl
      · intro i hi
        rw [hslots2] at hi
        rcases List.mem_append.1 hi with h0 | h1
        · exact hfid1old i h0
        · obtain rfl : i = idx := by simpa using h1
          exact hfid1idx
      · intro id j hj
        rcases hfid2new id j hj with ⟨rfl, hent⟩ | ⟨hmem, hent⟩
        · exact ⟨by rw [hslots2]; exact List.mem_append_right _ (by simp), hent⟩
        · exact ⟨by rw [hslots2]; exact List.mem_append_left _ hmem, hent⟩
      · intro h2 hh2 t ht
        obtain rfl := Option.some.inj (Option.mem_def.1 hh2)
        rcases List.mem_append.1 ht with h0 | h1
        · show ((s.insert p).getN t0.top).entry.2 ≤ _
          rw [hkeyt t0 (List.mem_cons_self _ _), hkeyt t h0]
          exact hminhead t0 rfl t h0
        · obtain rfl : t = MTree.mk idx [] := by simpa using h1
          show ((s.insert p).getN t0.top).entry.2 ≤
            ((s.insert p).getN (MTree.mk idx []).top).entry.2
          rw [hkeyt t0 (List.mem_cons_self _ _), MTree.top_mk, hentryidx]
          exact le_of_not_lt hlt
      · show List.Perm (entriesOf (s.insert p) ((t0 :: F1) ++ [MTree.mk idx []]))
          (p :: entriesOf s (t0 :: F1))
        unfold entriesOf
        rw [hslots2, List.map_append, hmapentry]
        have h8 : List.map (fun i => ((s.insert p).getN i).entry) [idx] = [p] := by
          simp [hentryidx]
        rw [h8]
        exact List.perm_append_comm
      · rw [hgetPfin]
        exact hA_getP_self
      · intro id' hne
        rw [hgetPfin]
        exact hA_getP_other id' hne
      · intro j hj
        rw [hentryfin, if_neg hj]
      · exact hentryidx

/-- Generic ring splice: the three writes `y.left := left c, y.right := c`,
`(left c).right := y`, `c.left := y` (the pattern shared by `add_to_root` and
the child splice of `link`) turn a ring `c :: t` into `c :: (t ++ [y])`,
keep the five semantic fields of every slot, and touch no slot other than
`y`, `c` and `c`'s old left neighbour. -/
theorem spliceRing_spec {s s3 : FibHeap K} {c : Nat} {t : List Nat} {y : Nat}
    (hs3 : s3 = ((s.modifyN y fun nd => { nd with left := (s.getN c).left, right := c }).modifyN
        (s.getN c).left fun nd => { nd with right := y }).modifyN c fun nd =>
        { nd with left := y })
    (hc : RingChain s (c :: t))
    (hnd : (c :: t).Nodup)
    (hyb : y < s.nodes.length)
    (hcb : c < s.nodes.length)
    (hLb : (s.getN c).left < s.nodes.length)
    (hnotin : y ∉ c :: t) :
    RingChain s3 (c :: (t ++ [y])) ∧
    (∀ j, (s3.getN j).parent = (s.getN j).parent ∧
          (s3.getN j).child = (s.getN j).child ∧
          (s3.getN j).mark = (s.getN j).mark ∧
          (s3.getN j).degree = (s.getN j).degree ∧
          (s3.getN j).entry = (s.getN j).entry) ∧
    (∀ j, j ≠ y → j ≠ c → j ≠ (s.getN c).left → s3.getN j = s.getN j) ∧
    s3.nodes.length = s.nodes.length ∧
    s3.positions = s.positions ∧ s3.min_root = s.min_root ∧ s3.n = s.n := by
  have hyc : y ≠ c := fun e => hnotin (by simp [e])
  set t1 := s.modifyN y fun nd => { nd with left := (s.getN c).left, right := c } with ht1
  set t2 := t1.modifyN (s.getN c).left fun nd => { nd with right := y } with ht2
  set t3 := t2.modifyN c fun nd => { nd with left := y } with ht3
  have l1 : t1.nodes.length = s.nodes.length := by rw [ht1]; simp
  have l2 : t2.nodes.length = s.nodes.length := by rw [ht2]; simp [l1]
  have l3 : t3.nodes.length = s.nodes.length := by rw [ht3]; simp [l2]
  have hLring : (s.getN c).left ∈ c :: t := ringChain_left_mem hc
  have hLy : (s.getN c).left ≠ y := fun e => hnotin (e ▸ hLring)
  have g_y : t3.getN y = { s.getN y with left := (s.getN c).left, right := c } := by
    rw [ht3, getN_modifyN_ne _ _ _ _ (Ne.symm hyc), ht2,
      getN_modifyN_ne _ _ _ _ hLy, ht1, getN_modifyN_same _ _ _ hyb]
  have g_frame : ∀ j, j ≠ y → j ≠ c → j ≠ (s.getN c).left → t3.getN j = s.getN j := by
    intro j hj1 hj2 hj3
    rw [ht3, getN_modifyN_ne _ _ _ _ (Ne.symm hj2), ht2,
      getN_modifyN_ne _ _ _ _ (Ne.symm hj3), ht1, getN_modifyN_ne _ _ _ _ (Ne.symm hj1)]
  have fields3 : ∀ j, (t3.getN j).parent = (s.getN j).parent ∧
      (t3.getN j).child = (s.getN j).child ∧ (t3.getN j).mark = (s.getN j).mark ∧
      (t3.getN j).degree = (s.getN j).degree ∧ (t3.getN j).entry = (s.getN j).entry := by
    intro j
    have p3 := modifyN_preserves_fields t2 c (fun nd => { nd with left := y })
      (fun nd => ⟨rfl, rfl, rfl, rfl, rfl⟩) j
    have p2 := modifyN_preserves_fields t1 (s.getN c).left (fun nd => { nd with right := y })
      (fun nd => ⟨rfl, rfl, rfl, rfl, rfl⟩) j
    have p1 := modifyN_preserves_fields s y (fun nd => { nd with left := (s.getN c).left, right := c })
      (fun nd => ⟨rfl, rfl, rfl, rfl, rfl⟩) j
    rw [ht3, ht2, ht1] at *
    exact ⟨by rw [p3.1, p2.1, p1.1], by rw [p3.2.1, p2.2.1, p1.2.1],
      by rw [p3.2.2.1, p2.2.2.1, p1.2.2.1], by rw [p3.2.2.2.1, p2.2.2.2.1, p1.2.2.2.1],
      by rw [p3.2.2.2.2, p2.2.2.2.2, p1.2.2.2.2]⟩
  have hringnew : RingChain t3 (c :: (t ++ [y])) := by
    rcases listEndCases t with rfl | ⟨t', last, rfl⟩
    · have hself := ringChain_single hc
      have hLc : (s.getN c).left = c := hself.1
      have g_c : t3.getN c = { { s.getN c with right := y } with left := y } := by
        rw [ht3, getN_modifyN_same _ _ _ (by rw [l2]; exact hcb), ht2, hLc,
          getN_modifyN_same _ _ _ (by rw [l1]; exact hcb), ht1,
          getN_modifyN_ne _ _ _ _ hyc]
      show List.Chain (adj t3) c ([] ++ [y] ++ [c])
      simp only [List.nil_append, List.singleton_append, List.chain_cons]
      refine ⟨⟨by rw [g_c], by rw [g_y, hLc]⟩, ⟨by rw [g_y], by rw [g_c]⟩, List.Chain.nil⟩
    · have hne : (t' ++ [last] : List Nat) ≠ [] := by simp
      have hlasteq : (t' ++ [last]).getLast hne = last := List.getLast_concat _
      have hadjlast : adj s last c := by
        have := ringChain_adj_getLast hc hne
        rwa [hlasteq] at this
      have hLlast : (s.getN c).left = last := hadjlast.2
      have hlast_mem : last ∈ t' ++ [last] := by simp
      have hlastc : last ≠ c := fun e => (List.nodup_cons.1 hnd).1 (e ▸ hlast_mem)
      have hlasty : last ≠ y := fun e =>
        hnotin (List.mem_cons_of_mem _ (e ▸ hlast_mem))
      have g_c : t3.getN c = { s.getN c with left := y } := by
        rw [ht3, getN_modifyN_same _ _ _ (by rw [l2]; exact hcb), ht2, hLlast,
          getN_modifyN_ne _ _ _ _ hlastc, ht1, getN_modifyN_ne _ _ _ _ hyc]
      have g_last : t3.getN last = { s.getN last with right := y } := by
        rw [ht3, getN_modifyN_ne _ _ _ _ (Ne.symm hlastc), ht2, hLlast,
          getN_modifyN_same _ _ _ (by rw [l1, ← hLlast]; exact hLb), ht1,
          getN_modifyN_ne _ _ _ _ (Ne.symm hlasty)]
      have hndt : (t' ++ [last] : List Nat).Nodup := (List.nodup_cons.1 hnd).2
      have hlastnott' : last ∉ t' := by
        have := List.disjoint_of_nodup_append hndt
        exact fun hmem => this hmem (by simp)
      have hc' : List.Chain (adj s) c ((t' ++ [last]) ++ [c]) := hc
      rw [List.append_assoc, List.singleton_append, List.chain_split] at hc'
      have hcinner : List.Chain (adj s) c (t' ++ [last]) := hc'.1
      have hinner' : List.Chain (adj t3) c (t' ++ [last]) := by
        apply chain_frame hcinner
        · intro x hx
          have hdl : (t' ++ [last] : List Nat).dropLast = t' := by simp
          rw [hdl] at hx
          have hxy : x ≠ y := by
            intro e; subst e
            rcases List.mem_cons.1 hx with h0 | h0
            · exact hyc h0
            · exact hnotin (List.mem_cons_of_mem _ (List.mem_append_left _ h0))
          have hxlast : x ≠ last := by
            intro e; subst e
            rcases List.mem_cons.1 hx with h0 | h0
            · exact hlastc h0
            · exact hlastnott' h0
          by_cases hxc : x = c
          · rw [hxc, g_c]
          · rw [g_frame x hxy hxc (fun e => hxlast (e.trans hLlast))]
        · intro z hz
          have hzy : z ≠ y := fun e =>
            hnotin (List.mem_cons_of_mem _ (e ▸ hz))
          have hzc : z ≠ c := fun e => (List.nodup_cons.1 hnd).1 (e ▸ hz)
          by_cases hzlast : z = last
          · rw [hzlast, g_last]
          · rw [g_frame z hzy hzc (fun e => hzlast (e.trans hLlast))]
      show List.Chain (adj t3) c ((t' ++ [last] ++ [y]) ++ [c])
      have hfin : List.Chain (adj t3) c ((t' ++ [last]) ++ y :: [c]) := by
        rw [List.chain_split]
        constructor
        · have hsplit2 : List.Chain (adj t3) c (t' ++ last :: [y]) := by
            rw [List.chain_split]
            refine ⟨?_, ?_⟩
            · exact hinner'
            · rw [List.chain_cons]
              exact ⟨⟨by rw [g_last], by rw [g_y, hLlast]⟩, List.Chain.nil⟩
          simpa [List.append_assoc] using hsplit2
        · rw [List.chain_cons]
          exact ⟨⟨by rw [g_y], by rw [g_c]⟩, List.Chain.nil⟩
      simpa [List.append_assoc] using hfin
  rw [hs3]
  refine ⟨hringnew, fields3, g_frame, l3, ?_, ?_, ?_⟩
  · rw [ht3, ht2, ht1]; rfl
  · rw [ht3, ht2, ht1]; rfl
  · rw [ht3, ht2, ht1]; rfl

/-- The head's right neighbour is a ring member. -/
theorem ringChain_right_mem {s : FibHeap K} {h : Nat} {t : List Nat}
    (hc : RingChain s (h :: t)) : (s.getN h).right ∈ h :: t := by
  cases t with
  | nil =>
      have := (ringChain_single hc).2
      rw [this]; simp
  | cons r t' =>
      have hchain : List.Chain (adj s) h ((r :: t') ++ [h]) := hc
      rw [List.cons_append, List.chain_cons] at hchain
      rw [hchain.1.1]; simp

/-- In a duplicate-free forest, a tree's non-top slot is no tree's top. -/
theorem top_not_inner {G : List MTree} (hnd : (MTree.slotsF G).Nodup)
    {T U : MTree} (hT : T ∈ G) (hU : U ∈ G) {z : Nat} (hz : z ∈ T.slots)
    (hzU : z = U.top) (hne : z ≠ T.top) : False := by
  have heq : T = U := MTree.slots_disjoint hnd T hT U hU z hz
    (by rw [hzU]; exact MTree.top_mem_slots U)
  exact hne (hzU.trans (congrArg MTree.top heq).symm)

/-- Inversion of the tree-encoding predicate. -/
theorem TreeRepr.inv {s : FibHeap K} {x : Nat} {cs : List MTree} {po : Option Nat}
    (h : TreeRepr s (MTree.mk x cs) po) :
    x < s.nodes.length ∧ (s.getN x).parent = po ∧ (s.getN x).degree = cs.length ∧
    (s.getN x).child = cs.head?.map MTree.top ∧ RingChain s (cs.map MTree.top) ∧
    (∀ c ∈ cs, (s.getN x).entry.2 ≤ (s.getN c.top).entry.2) ∧
    (∀ c ∈ cs, TreeRepr s c (some x)) := by
  cases h with
  | mk h1 h2 h3 h4 h5 h6 h7 => exact ⟨h1, h2, h3, h4, h5, h6, h7⟩

/-- Common endgame of the `link` characterisation: after the central phase
has produced any state `s1` with the listed relation to the original `s`,
the final parent/mark write on `y` and degree bump on `x` yield the merged
tree, preserve all other trees and the remaining root ring, and frame the
scalars. -/
theorem link_repr_core {s s1 sF : FibHeap K} {x y : Nat} {csx csy : List MTree}
    {G : List MTree} {a b : List Nat}
    (hsF : sF = (s1.modifyN y fun nd => { nd with parent := some x, mark := false }).modifyN x
      fun nd => { nd with degree := nd.degree + 1 })
    (hG : ∀ T ∈ G, TreeRepr s T none)
    (hnd : (MTree.slotsF G).Nodup)
    (hb : ∀ i ∈ MTree.slotsF G, i < s.nodes.length)
    (hmemx : MTree.mk x csx ∈ G) (hmemy : MTree.mk y csy ∈ G)
    (hxy : x ≠ y)
    (hkey : (s.getN x).entry.2 ≤ (s.getN y).entry.2)
    (f1 : ∀ j, (s1.getN j).parent = (s.getN j).parent)
    (f2 : ∀ j, (s1.getN j).mark = (s.getN j).mark)
    (f3 : ∀ j, (s1.getN j).degree = (s.getN j).degree)
    (f4 : ∀ j, (s1.getN j).entry = (s.getN j).entry)
    (f5 : (s1.getN x).child = (csx ++ [MTree.mk y csy]).head?.map MTree.top)
    (f6 : ∀ j, j ≠ x → (s1.getN j).child = (s.getN j).child)
    (f7 : RingChain s1 (List.map MTree.top csx ++ [y]))
    (f8 : RingChain s1 (a ++ b))
    (f9 : ∀ T ∈ G, T ≠ MTree.mk x csx → T ≠ MTree.mk y csy → ∀ z ∈ T.slots, z ≠ T.top →
      (s1.getN z).left = (s.getN z).left ∧ (s1.getN z).right = (s.getN z).right)
    (f10 : ∀ z ∈ MTree.slotsF csy,
      (s1.getN z).left = (s.getN z).left ∧ (s1.getN z).right = (s.getN z).right)
    (f11 : ∀ c ∈ csx, ∀ z ∈ c.slots, z ≠ c.top →
      (s1.getN z).left = (s.getN z).left ∧ (s1.getN z).right = (s.getN z).right)
    (f12 : s1.nodes.length = s.nodes.length ∧ s1.positions = s.positions ∧
      s1.min_root = s.min_root ∧ s1.n = s.n) :
    TreeRepr sF (MTree.mk x (csx ++ [MTree.mk y csy])) none ∧
    (∀ T ∈ G, T ≠ MTree.mk x csx → T ≠ MTree.mk y csy → TreeRepr sF T none) ∧
    RingChain sF (a ++ b) ∧
    (∀ j, (sF.getN j).entry = (s.getN j).entry) ∧
    (sF.getN x).degree = (s.getN x).degree + 1 ∧
    (∀ j, j ≠ x → (sF.getN j).degree = (s.getN j).degree) ∧
    (sF.getN y).parent = some x ∧
    (∀ j, j ≠ y → (sF.getN j).parent = (s.getN j).parent) ∧
    sF.positions = s.positions ∧
    sF.min_root = s.min_root ∧
    sF.n = s.n ∧
    sF.nodes.length = s.nodes.length := by
  have hyb : y < s.nodes.length := hb y (MTree.top_mem_slotsF hmemy)
  have hxb : x < s.nodes.length := hb x (MTree.top_mem_slotsF hmemx)
  have hndTx : (MTree.mk x csx).slots.Nodup := MTree.nodup_slots_of_mem hnd hmemx
  have hndTy : (MTree.mk y csy).slots.Nodup := MTree.nodup_slots_of_mem hnd hmemy
  have hxnotcsx : x ∉ MTree.slotsF csx := by
    have h0 := hndTx
    rw [MTree.slots_mk, List.nodup_cons] at h0
    exact h0.1
  have hndcsx : (MTree.slotsF csx).Nodup := by
    have h0 := hndTx
    rw [MTree.slots_mk, List.nodup_cons] at h0
    exact h0.2
  have hynotcsy : y ∉ MTree.slotsF csy := by
    have h0 := hndTy
    rw [MTree.slots_mk, List.nodup_cons] at h0
    exact h0.1
  have hndcsy : (MTree.slotsF csy).Nodup := by
    have h0 := hndTy
    rw [MTree.slots_mk, List.nodup_cons] at h0
    exact h0.2
  have hynotTx : y ∉ (MTree.mk x csx).slots := by
    intro hmem
    exact hxy (congrArg MTree.top
      (MTree.slots_disjoint hnd _ hmemx _ hmemy y hmem (MTree.top_mem_slots _)))
  have hxnotTy : x ∉ (MTree.mk y csy).slots := by
    intro hmem
    exact hxy (congrArg MTree.top
      (MTree.slots_disjoint hnd _ hmemx _ hmemy x (MTree.top_mem_slots _) hmem))
  obtain ⟨-, hparx, hdegx, hchildx, hringcsx, hkeysx, hrecx⟩ := TreeRepr.inv (hG _ hmemx)
  obtain ⟨-, hpary, hdegy, hchildy, hringcsy, hkeysy, hrecy⟩ := TreeRepr.inv (hG _ hmemy)
  have hlen1 : s1.nodes.length = s.nodes.length := f12.1
  have hlenF : sF.nodes.length = s.nodes.length := by rw [hsF]; simp [hlen1]
  have hparF : ∀ j, j ≠ y → (sF.getN j).parent = (s.getN j).parent := by
    intro j hj
    rw [hsF,
      modifyN_preserves_parent _ x (fun nd => { nd with degree := nd.degree + 1 })
        (fun nd => rfl) j,
      getN_modifyN_ne _ _ _ _ (Ne.symm hj), f1 j]
  have hparFy : (sF.getN y).parent = some x := by
    rw [hsF,
      modifyN_preserves_parent _ x (fun nd => { nd with degree := nd.degree + 1 })
        (fun nd => rfl) y,
      getN_modifyN_same _ _ _ (by rw [hlen1]; exact hyb)]
  have hdegF : ∀ j, j ≠ x → (sF.getN j).degree = (s.getN j).degree := by
    intro j hj
    rw [hsF, getN_modifyN_ne _ _ _ _ (Ne.symm hj),
      modifyN_preserves_degree s1 y (fun nd => { nd with parent := some x, mark := false })
        (fun nd => rfl) j, f3 j]
  have hdegFx : (sF.getN x).degree = (s.getN x).degree + 1 := by
    rw [hsF, getN_modifyN_same _ _ _ (by simp [hlen1]; exact hxb)]
    show ((s1.modifyN y fun nd =>
      { nd with parent := some x, mark := false }).getN x).degree + 1 = _
    rw [modifyN_preserves_degree s1 y (fun nd => { nd with parent := some x, mark := false })
      (fun nd => rfl) x, f3 x]
  have hchildF : ∀ j, (sF.getN j).child = (s1.getN j).child := by
    intro j
    rw [hsF,
      modifyN_preserves_child _ x (fun nd => { nd with degree := nd.degree + 1 })
        (fun nd => rfl) j,
      modifyN_preserves_child s1 y (fun nd => { nd with parent := some x, mark := false })
        (fun nd => rfl) j]
  have hentryF : ∀ j, (sF.getN j).entry = (s.getN j).entry := by
    intro j
    rw [hsF,
      modifyN_preserves_entry _ x (fun nd => { nd with degree := nd.degree + 1 })
        (fun nd => rfl) j,
      modifyN_preserves_entry s1 y (fun nd => { nd with parent := some x, mark := false })
        (fun nd => rfl) j, f4 j]
  have hmarkF : ∀ z, z ≠ y → (sF.getN z).mark = (s1.getN z).mark := by
    intro z hz
    rw [hsF,
      modifyN_preserves_mark _ x (fun nd => { nd with degree := nd.degree + 1 })
        (fun nd => rfl) z,
      getN_modifyN_ne _ _ _ _ (Ne.symm hz)]
  have hlrF : ∀ j, (sF.getN j).left = (s1.getN j).left ∧
      (sF.getN j).right = (s1.getN j).right := by
    intro j
    constructor
    · rw [hsF,
        modifyN_preserves_left _ x (fun nd => { nd with degree := nd.degree + 1 })
          (fun nd => rfl) j,
        modifyN_preserves_left s1 y (fun nd => { nd with parent := some x, mark := false })
          (fun nd => rfl) j]
    · rw [hsF,
        modifyN_preserves_right _ x (fun nd => { nd with degree := nd.degree + 1 })
          (fun nd => rfl) j,
        modifyN_preserves_right s1 y (fun nd => { nd with parent := some x, mark := false })
          (fun nd => rfl) j]
  have hposF : sF.positions = s.positions := by
    rw [hsF]
    show s1.positions = _
    exact f12.2.1
  have hminF : sF.min_root = s.min_root := by
    rw [hsF]
    show s1.min_root = _
    exact f12.2.2.1
  have hnF : sF.n = s.n := by
    rw [hsF]
    show s1.n = _
    exact f12.2.2.2
  have hother : ∀ T ∈ G, T ≠ MTree.mk x csx → T ≠ MTree.mk y csy → TreeRepr sF T none := by
    intro T hT hne1 hne2
    have hyT : y ∉ T.slots := by
      intro hmem
      exact hne2 (MTree.slots_disjoint hnd T hT _ hmemy y hmem (MTree.top_mem_slots _))
    have hxT : x ∉ T.slots := by
      intro hmem
      exact hne1 (MTree.slots_disjoint hnd T hT _ hmemx x hmem (MTree.top_mem_slots _))
    refine TreeRepr.frameFine (hG T hT) (MTree.nodup_slots_of_mem hnd hT) ?_ ?_
      (le_of_eq hlenF.symm)
    · intro z hz
      have hzy : z ≠ y := fun e => hyT (e ▸ hz)
      have hzx : z ≠ x := fun e => hxT (e ▸ hz)
      refine ⟨hparF z hzy, ?_, ?_, hdegF z hzx, hentryF z⟩
      · rw [hchildF z, f6 z hzx]
      · rw [hmarkF z hzy, f2 z]
    · intro z hz hztop
      obtain ⟨hl, hr⟩ := f9 T hT hne1 hne2 z hz hztop
      exact ⟨(hlrF z).1.trans hl, (hlrF z).2.trans hr⟩
  have hcsxchild : ∀ c ∈ csx, TreeRepr sF c (some x) := by
    intro c hc
    refine TreeRepr.frameFine (hrecx c hc) (MTree.nodup_slots_of_mem hndcsx hc) ?_ ?_
      (le_of_eq hlenF.symm)
    · intro z hz
      have hzcsx : z ∈ MTree.slotsF csx := MTree.mem_slotsF_of_mem hc hz
      have hzy : z ≠ y := by
        intro e
        apply hynotTx
        rw [MTree.slots_mk]
        exact List.mem_cons_of_mem _ (e ▸ hzcsx)
      have hzx : z ≠ x := fun e => hxnotcsx (e ▸ hzcsx)
      refine ⟨hparF z hzy, ?_, ?_, hdegF z hzx, hentryF z⟩
      · rw [hchildF z, f6 z hzx]
      · rw [hmarkF z hzy, f2 z]
    · intro z hz hztop
      obtain ⟨hl, hr⟩ := f11 c hc z hz hztop
      exact ⟨(hlrF z).1.trans hl, (hlrF z).2.trans hr⟩
  have hTychild : TreeRepr sF (MTree.mk y csy) (some x) := by
    refine TreeRepr.mk ?_ ?_ ?_ ?_ ?_ ?_ ?_
    · show y < sF.nodes.length
      rw [hlenF]
      exact hyb
    · exact hparFy
    · show (sF.getN y).degree = csy.length
      rw [hdegF y (Ne.symm hxy), hdegy]
    · show (sF.getN y).child = csy.head?.map MTree.top
      rw [hchildF y, f6 y (Ne.symm hxy), hchildy]
    · apply ringChain_frame ?_ hringcsy
      intro z hz
      obtain ⟨cy, hcy, rfl⟩ := List.mem_map.1 hz
      obtain ⟨hl, hr⟩ := f10 _ (MTree.top_mem_slotsF hcy)
      exact ⟨(hlrF _).1.trans hl, (hlrF _).2.trans hr⟩
    · intro cy hcy
      rw [hentryF, hentryF]
      exact hkeysy cy hcy
    · intro cy hcy
      refine TreeRepr.frameFine (hrecy cy hcy) (MTree.nodup_slots_of_mem hndcsy hcy) ?_ ?_
        (le_of_eq hlenF.symm)
      · intro z hz
        have hzcsy : z ∈ MTree.slotsF csy := MTree.mem_slotsF_of_mem hcy hz
        have hzy : z ≠ y := fun e => hynotcsy (e ▸ hzcsy)
        have hzx : z ≠ x := by
          intro e
          apply hxnotTy
          rw [MTree.slots_mk]
          exact List.mem_cons_of_mem _ (e ▸ hzcsy)
        refine ⟨hparF z hzy, ?_, ?_, hdegF z hzx, hentryF z⟩
        · rw [hchildF z, f6 z hzx]
        · rw [hmarkF z hzy, f2 z]
      · intro z hz hztop
        obtain ⟨hl, hr⟩ := f10 z (MTree.mem_slotsF_of_mem hcy hz)
        exact ⟨(hlrF z).1.trans hl, (hlrF z).2.trans hr⟩
  have hmerged : TreeRepr sF (MTree.mk x (csx ++ [MTree.mk y csy])) none := by
    refine TreeRepr.mk ?_ ?_ ?_ ?_ ?_ ?_ ?_
    · show x < sF.nodes.length
      rw [hlenF]
      exact hxb
    · exact hparF x hxy
        |>.trans hparx
    · show (sF.getN x).degree = (csx ++ [MTree.mk y csy]).length
      rw [hdegFx, hdegx]
      simp
    · show (sF.getN x).child = (csx ++ [MTree.mk y csy]).head?.map MTree.top
      rw [hchildF x, f5]
    · show RingChain sF (List.map MTree.top (csx ++ [MTree.mk y csy]))
      have hmapeq : List.map MTree.top (csx ++ [MTree.mk y csy]) =
          List.map MTree.top csx ++ [y] := by simp
      rw [hmapeq]
      apply ringChain_frame ?_ f7
      intro z hz
      exact ⟨(hlrF z).1, (hlrF z).2⟩
    · intro c hcmem
      rcases List.mem_append.1 hcmem with h0 | h1
      · rw [hentryF, hentryF]
        exact hkeysx c h0
      · obtain rfl : c = MTree.mk y csy := by simpa using h1
        rw [hentryF, hentryF]
        exact hkey
    · intro c hcmem
      rcases List.mem_append.1 hcmem with h0 | h1
      · exact hcsxchild c h0
      · obtain rfl : c = MTree.mk y csy := by simpa using h1
        exact hTychild
  have hringF : RingChain sF (a ++ b) := by
    apply ringChain_frame ?_ f8
    intro z hz
    exact ⟨(hlrF z).1, (hlrF z).2⟩
  exact ⟨hmerged, hother, hringF, hentryF, hdegFx, hdegF, hparFy, hparF, hposF, hminF,
    hnF, hlenF⟩

/-- Full characterisation of `link y x` on two represented root trees of a
duplicate-free forest: `y`'s tree becomes the last child of `x`, every other
tree survives, the root ring loses `y`, entries are untouched, `x` gains one
degree, `y` gains parent `x`, and positions, minimum pointer, counter and
arena size are unchanged. -/
theorem link_repr {s : FibHeap K} {x y : Nat} {csx csy : List MTree}
    {G : List MTree}
    (hG : ∀ T ∈ G, TreeRepr s T none)
    (hnd : (MTree.slotsF G).Nodup)
    (hb : ∀ i ∈ MTree.slotsF G, i < s.nodes.length)
    (hmemx : MTree.mk x csx ∈ G) (hmemy : MTree.mk y csy ∈ G)
    (hxy : x ≠ y)
    {a b : List Nat} (hR : RingChain s (a ++ y :: b)) (hndR : (a ++ y :: b).Nodup)
    (hRtops : ∀ z ∈ a ++ y :: b, ∃ T ∈ G, T.top = z)
    (hkey : (s.getN x).entry.2 ≤ (s.getN y).entry.2) :
    TreeRepr (s.link y x) (MTree.mk x (csx ++ [MTree.mk y csy])) none ∧
    (∀ T ∈ G, T ≠ MTree.mk x csx → T ≠ MTree.mk y csy → TreeRepr (s.link y x) T none) ∧
    RingChain (s.link y x) (a ++ b) ∧
    (∀ j, ((s.link y x).getN j).entry = (s.getN j).entry) ∧
    ((s.link y x).getN x).degree = (s.getN x).degree + 1 ∧
    (∀ j, j ≠ x → ((s.link y x).getN j).degree = (s.getN j).degree) ∧
    ((s.link y x).getN y).parent = some x ∧
    (∀ j, j ≠ y → ((s.link y x).getN j).parent = (s.getN j).parent) ∧
    (s.link y x).positions = s.positions ∧
    (s.link y x).min_root = s.min_root ∧
    (s.link y x).n = s.n ∧
    (s.link y x).nodes.length = s.nodes.length := by
  have hyb : y < s.nodes.length := hb y (MTree.top_mem_slotsF hmemy)
  have hxb : x < s.nodes.length := hb x (MTree.top_mem_slotsF hmemx)
  have hndTx : (MTree.mk x csx).slots.Nodup := MTree.nodup_slots_of_mem hnd hmemx
  have hxnotcsx : x ∉ MTree.slotsF csx := by
    have h0 := hndTx
    rw [MTree.slots_mk, List.nodup_cons] at h0
    exact h0.1
  have hndcsx : (MTree.slotsF csx).Nodup := by
    have h0 := hndTx
    rw [MTree.slots_mk, List.nodup_cons] at h0
    exact h0.2
  have hndTy : (MTree.mk y csy).slots.Nodup := MTree.nodup_slots_of_mem hnd hmemy
  have hynotcsy : y ∉ MTree.slotsF csy := by
    have h0 := hndTy
    rw [MTree.slots_mk, List.nodup_cons] at h0
    exact h0.1
  have hynotTx : y ∉ (MTree.mk x csx).slots := by
    intro hmem
    exact hxy (congrArg MTree.top
      (MTree.slots_disjoint hnd _ hmemx _ hmemy y hmem (MTree.top_mem_slots _)))
  have hTxTy : MTree.mk x csx ≠ MTree.mk y csy := fun he => hxy (congrArg MTree.top he)
  have hmemyR : y ∈ a ++ y :: b := by simp
  have hpermR : (a ++ y :: b).Perm (y :: (b ++ a)) :=
    List.perm_middle.trans (List.Perm.cons y List.perm_append_comm)
  have hrotR : RingChain s (y :: (b ++ a)) := ringChain_rotate hR
  have hLmemR : (s.getN y).left ∈ a ++ y :: b :=
    hpermR.mem_iff.2 (ringChain_left_mem hrotR)
  have hRmemR : (s.getN y).right ∈ a ++ y :: b :=
    hpermR.mem_iff.2 (ringChain_right_mem hrotR)
  have hbR : ∀ z ∈ a ++ y :: b, z < s.nodes.length := by
    intro z hz
    obtain ⟨T, hT, hTz⟩ := hRtops z hz
    rw [← hTz]
    exact hb _ (MTree.top_mem_slotsF hT)
  have hRnotinner : ∀ z ∈ a ++ y :: b, ∀ T ∈ G, z ∈ T.slots → z = T.top := by
    intro z hz T hT hzT
    by_contra hne
    obtain ⟨U, hU, hUz⟩ := hRtops z hz
    exact top_not_inner hnd hT hU hzT hUz.symm hne
  have hinnerTx : ∀ z ∈ MTree.slotsF csx,
      z ≠ y ∧ z ≠ (s.getN y).left ∧ z ≠ (s.getN y).right ∧ z ≠ x := by
    intro z hz
    have hzTx : z ∈ (MTree.mk x csx).slots := by
      rw [MTree.slots_mk]
      exact List.mem_cons_of_mem _ hz
    have hzx : z ≠ x := fun e => hxnotcsx (e ▸ hz)
    refine ⟨?_, ?_, ?_, hzx⟩
    · intro e
      exact hynotTx (e ▸ hzTx)
    · intro e
      exact hzx (hRnotinner z (by rw [e]; exact hLmemR) _ hmemx hzTx)
    · intro e
      exact hzx (hRnotinner z (by rw [e]; exact hRmemR) _ hmemx hzTx)
  obtain ⟨hpos0, hmin0, hn0, hlen0, hyL0, hyR0, hrep0, hfields0, hframe0⟩ :=
    detach_spec s y hyb
  have hlr0 : ∀ z, z ≠ y → z ≠ (s.getN y).left → z ≠ (s.getN y).right →
      ((s.detach y).getN z).left = (s.getN z).left ∧
      ((s.detach y).getN z).right = (s.getN z).right := by
    intro z h1 h2 h3
    rw [hframe0 z h1 h2 h3]
    exact ⟨rfl, rfl⟩
  have hlr0T : ∀ T ∈ G, ∀ z ∈ T.slots, z ≠ T.top →
      ((s.detach y).getN z).left = (s.getN z).left ∧
      ((s.detach y).getN z).right = (s.getN z).right := by
    intro T hT z hz hztop
    refine hlr0 z ?_ ?_ ?_
    · intro he
      exact hztop (hRnotinner z (by rw [he]; exact hmemyR) T hT hz)
    · intro he
      exact hztop (hRnotinner z (by rw [he]; exact hLmemR) T hT hz)
    · intro he
      exact hztop (hRnotinner z (by rw [he]; exact hRmemR) T hT hz)
  have hringrem0 : RingChain (s.detach y) (a ++ b) := detach_ring_middle hR hndR hbR
  obtain ⟨-, hparx, hdegx, hchildx, hringcsx, hkeysx, hrecx⟩ := TreeRepr.inv (hG _ hmemx)
  have hchild0 : ((s.detach y).getN x).child = csx.head?.map MTree.top := by
    rw [(hfields0 x).2.1, hchildx]
  have hnotinRrem : ∀ z ∈ MTree.slotsF csx, z ∉ a ++ b := by
    intro z hz hmem
    have hmem' : z ∈ a ++ y :: b := by
      rcases List.mem_append.1 hmem with h0 | h0
      · exact List.mem_append_left _ h0
      · exact List.mem_append_right _ (List.mem_cons_of_mem _ h0)
    exact (hinnerTx z hz).2.2.2 (hRnotinner z hmem' _ hmemx (by
      rw [MTree.slots_mk]
      exact List.mem_cons_of_mem _ hz))
  have hynotrem : y ∉ a ++ b := by
    intro hmem
    have h1 := hndR
    have h2 : ¬ (a ++ y :: b).Nodup := by
      intro h3
      have h4 := List.Nodup.perm h3 hpermR
      rw [List.nodup_cons] at h4
      exact h4.1 (by
        rcases List.mem_append.1 hmem with h0 | h0
        · exact List.mem_append_right _ h0
        · exact List.mem_append_left _ h0)
    exact h2 h1
  rcases hcsx : csx with _ | ⟨c0, cs'⟩
  · -- x has no children: y becomes the designated child
    subst hcsx
    have hchild0' : ((s.detach y).getN x).child = none := by
      rw [hchild0]
      rfl
    have hlinkdef : s.link y x =
        (((s.detach y).modifyN x fun nd => { nd with child := some y }).modifyN y
          fun nd => { nd with parent := some x, mark := false }).modifyN x
          fun nd => { nd with degree := nd.degree + 1 } := by
      unfold link
      dsimp only
      rw [hchild0']
    rw [hlinkdef]
    refine link_repr_core rfl hG hnd hb hmemx hmemy hxy hkey ?_ ?_ ?_ ?_ ?_ ?_ ?_ ?_ ?_ ?_ ?_ ?_
    · intro j
      rw [modifyN_preserves_parent _ x (fun nd => { nd with child := some y })
        (fun nd => rfl) j, (hfields0 j).1]
    · intro j
      rw [modifyN_preserves_mark _ x (fun nd => { nd with child := some y })
        (fun nd => rfl) j, (hfields0 j).2.2.1]
    · intro j
      rw [modifyN_preserves_degree _ x (fun nd => { nd with child := some y })
        (fun nd => rfl) j, (hfields0 j).2.2.2.1]
    · intro j
      rw [modifyN_preserves_entry _ x (fun nd => { nd with child := some y })
        (fun nd => rfl) j, (hfields0 j).2.2.2.2]
    · rw [getN_modifyN_same _ _ _ (by rw [hlen0]; exact hxb)]
      rfl
    · intro j hj
      rw [getN_modifyN_ne _ _ _ _ (Ne.symm hj), (hfields0 j).2.1]
    · show RingChain _ ([] ++ [y])
      have hy1 : (((s.detach y).modifyN x fun nd =>
          { nd with child := some y }).getN y).left = y := by
        rw [getN_modifyN_ne _ _ _ _ hxy, hyL0]
      have hy2 : (((s.detach y).modifyN x fun nd =>
          { nd with child := some y }).getN y).right = y := by
        rw [getN_modifyN_ne _ _ _ _ hxy, hyR0]
      show List.Chain (adj _) y ([] ++ [y])
      rw [List.nil_append, List.chain_cons]
      exact ⟨⟨hy2, hy1⟩, List.Chain.nil⟩
    · apply ringChain_frame ?_ hringrem0
      intro z hz
      constructor
      · rw [modifyN_preserves_left _ x (fun nd => { nd with child := some y })
          (fun nd => rfl) z]
      · rw [modifyN_preserves_right _ x (fun nd => { nd with child := some y })
          (fun nd => rfl) z]
    · intro T hT hne1 hne2 z hz hztop
      obtain ⟨hl, hr⟩ := hlr0T T hT z hz hztop
      constructor
      · rw [modifyN_preserves_left _ x (fun nd => { nd with child := some y })
          (fun nd => rfl) z, hl]
      · rw [modifyN_preserves_right _ x (fun nd => { nd with child := some y })
          (fun nd => rfl) z, hr]
    · intro z hz
      have hzTy : z ∈ (MTree.mk y csy).slots := by
        rw [MTree.slots_mk]
        exact List.mem_cons_of_mem _ hz
      have hzy : z ≠ y := fun e => hynotcsy (e ▸ hz)
      obtain ⟨hl, hr⟩ := hlr0T _ hmemy z hzTy hzy
      constructor
      · rw [modifyN_preserves_left _ x (fun nd => { nd with child := some y })
          (fun nd => rfl) z, hl]
      · rw [modifyN_preserves_right _ x (fun nd => { nd with child := some y })
          (fun nd => rfl) z, hr]
    · intro c hc
      cases hc
    · refine ⟨by simp [hlen0], by simp [hpos0], by simp [hmin0], by simp [hn0]⟩
  · -- x already has children: splice y into the child ring before the head
    subst hcsx
    have hchild0' : ((s.detach y).getN x).child = some c0.top := by
      rw [hchild0]
      rfl
    have hc0mem : c0.top ∈ MTree.slotsF (c0 :: cs') :=
      MTree.top_mem_slotsF (List.mem_cons_self _ _)
    have hc0facts := hinnerTx c0.top hc0mem
    have hc0same : (s.detach y).getN c0.top = s.getN c0.top :=
      hframe0 c0.top hc0facts.1 hc0facts.2.1 hc0facts.2.2.1
    have hringcsx' : RingChain s (c0.top :: List.map MTree.top cs') := hringcsx
    have hcring0 : RingChain (s.detach y) (c0.top :: List.map MTree.top cs') := by
      apply ringChain_frame ?_ hringcsx'
      intro z hz
      have hzmem : z ∈ MTree.slotsF (c0 :: cs') := by
        have hz' : z ∈ List.map MTree.top (c0 :: cs') := hz
        obtain ⟨c, hc, hcz⟩ := List.mem_map.1 hz'
        rw [← hcz]
        exact MTree.top_mem_slotsF hc
      have hf := hinnerTx z hzmem
      rw [hframe0 z hf.1 hf.2.1 hf.2.2.1]
      exact ⟨rfl, rfl⟩
    have hndc : (c0.top :: List.map MTree.top cs').Nodup := tops_nodup hndcsx
    have hLc_mem : (s.getN c0.top).left ∈ c0.top :: List.map MTree.top cs' :=
      ringChain_left_mem hringcsx'
    have hLc_slots : (s.getN c0.top).left ∈ MTree.slotsF (c0 :: cs') := by
      have hz' : (s.getN c0.top).left ∈ List.map MTree.top (c0 :: cs') := hLc_mem
      obtain ⟨c, hc, hcz⟩ := List.mem_map.1 hz'
      rw [← hcz]
      exact MTree.top_mem_slotsF hc
    have hL0c : ((s.detach y).getN c0.top).left = (s.getN c0.top).left := by
      rw [hc0same]
    have hynotc : y ∉ c0.top :: List.map MTree.top cs' := by
      intro hmem
      have hmem' : y ∈ MTree.slotsF (c0 :: cs') := by
        have hz' : y ∈ List.map MTree.top (c0 :: cs') := hmem
        obtain ⟨c, hc, hcz⟩ := List.mem_map.1 hz'
        rw [← hcz]
        exact MTree.top_mem_slotsF hc
      exact (hinnerTx y hmem').1 rfl
    obtain ⟨hring1, sfields1, sframe1, slen1, spos1, smin1, sn1⟩ :=
      spliceRing_spec (s := s.detach y) (c := c0.top) (t := List.map MTree.top cs') (y := y)
        rfl hcring0 hndc (by rw [hlen0]; exact hyb)
        (by rw [hlen0]; exact hb _ (MTree.mem_slotsF_of_mem hmemx (by
          rw [MTree.slots_mk]
          exact List.mem_cons_of_mem _ hc0mem)))
        (by
          rw [hL0c, hlen0]
          exact hb _ (MTree.mem_slotsF_of_mem hmemx (by
            rw [MTree.slots_mk]
            exact List.mem_cons_of_mem _ hLc_slots)))
        hynotc
    have hlinkdef : s.link y x =
        (((((s.detach y).modifyN y fun nd =>
              { nd with left := ((s.detach y).getN c0.top).left, right := c0.top }).modifyN
            ((s.detach y).getN c0.top).left fun nd => { nd with right := y }).modifyN c0.top
            fun nd => { nd with left := y }).modifyN y
          fun nd => { nd with parent := some x, mark := false }).modifyN x
          fun nd => { nd with degree := nd.degree + 1 } := by
      unfold link
      dsimp only
      rw [hchild0']
    have hlrsplice : ∀ z, z ≠ y → z ≠ c0.top → z ≠ (s.getN y).left → z ≠ (s.getN y).right →
        z ≠ (s.getN c0.top).left →
        (((((s.detach y).modifyN y fun nd =>
              { nd with left := ((s.detach y).getN c0.top).left, right := c0.top }).modifyN
            ((s.detach y).getN c0.top).left fun nd => { nd with right := y }).modifyN c0.top
            fun nd => { nd with left := y }).getN z).left = (s.getN z).left ∧
        (((((s.detach y).modifyN y fun nd =>
              { nd with left := ((s.detach y).getN c0.top).left, right := c0.top }).modifyN
            ((s.detach y).getN c0.top).left fun nd => { nd with right := y }).modifyN c0.top
            fun nd => { nd with left := y }).getN z).right = (s.getN z).right := by
      intro z h1 h2 h3 h4 h5
      rw [sframe1 z h1 h2 (by rw [hL0c]; exact h5), hframe0 z h1 h3 h4]
      exact ⟨rfl, rfl⟩
    rw [hlinkdef]
    refine link_repr_core rfl hG hnd hb hmemx hmemy hxy hkey ?_ ?_ ?_ ?_ ?_ ?_ ?_ ?_ ?_ ?_ ?_ ?_
    · intro j
      rw [(sfields1 j).1, (hfields0 j).1]
    · intro j
      rw [(sfields1 j).2.2.1, (hfields0 j).2.2.1]
    · intro j
      rw [(sfields1 j).2.2.2.1, (hfields0 j).2.2.2.1]
    · intro j
      rw [(sfields1 j).2.2.2.2, (hfields0 j).2.2.2.2]
    · rw [(sfields1 x).2.1, hchild0']
      rfl
    · intro j hj
      rw [(sfields1 j).2.1, (hfields0 j).2.1]
    · show RingChain _ ((c0.top :: List.map MTree.top cs') ++ [y])
      have : (c0.top :: List.map MTree.top cs') ++ [y] =
          c0.top :: (List.map MTree.top cs' ++ [y]) := by
        rw [List.cons_append]
      rw [this]
      exact hring1
    · apply ringChain_frame ?_ hringrem0
      intro z hz
      have hzy : z ≠ y := fun e => hynotrem (e ▸ hz)
      have hzc0 : z ≠ c0.top := fun e => hnotinRrem c0.top hc0mem (e ▸ hz)
      have hzL0 : z ≠ ((s.detach y).getN c0.top).left := by
        rw [hL0c]
        exact fun e => hnotinRrem _ hLc_slots (e ▸ hz)
      rw [sframe1 z hzy hzc0 hzL0]
      exact ⟨rfl, rfl⟩
    · intro T hT hne1 hne2 z hz hztop
      have hzy : z ≠ y := by
        intro he
        exact hne2 (MTree.slots_disjoint hnd T hT _ hmemy z hz
          (by rw [he]; exact MTree.top_mem_slots _))
      have hzc0 : z ≠ c0.top := by
        intro he
        exact hne1 (MTree.slots_disjoint hnd T hT _ hmemx z hz (by
          rw [he, MTree.slots_mk]
          exact List.mem_cons_of_mem _ hc0mem))
      have hzL0 : z ≠ (s.getN c0.top).left := by
        intro he
        exact hne1 (MTree.slots_disjoint hnd T hT _ hmemx z hz (by
          rw [he, MTree.slots_mk]
          exact List.mem_cons_of_mem _ hLc_slots))
      have hzL : z ≠ (s.getN y).left := by
        intro he
        exact hztop (hRnotinner z (by rw [he]; exact hLmemR) T hT hz)
      have hzR : z ≠ (s.getN y).right := by
        intro he
        exact hztop (hRnotinner z (by rw [he]; exact hRmemR) T hT hz)
      exact hlrsplice z hzy hzc0 hzL hzR hzL0
    · intro z hz
      have hzTy : z ∈ (MTree.mk y csy).slots := by
        rw [MTree.slots_mk]
        exact List.mem_cons_of_mem _ hz
      have hzy : z ≠ y := fun e => hynotcsy (e ▸ hz)
      have hzc0 : z ≠ c0.top := by
        intro he
        exact hTxTy (MTree.slots_disjoint hnd _ hmemx _ hmemy z (by
          rw [he, MTree.slots_mk]
          exact List.mem_cons_of_mem _ hc0mem) hzTy)
      have hzL0 : z ≠ (s.getN c0.top).left := by
        intro he
        exact hTxTy (MTree.slots_disjoint hnd _ hmemx _ hmemy z (by
          rw [he, MTree.slots_mk]
          exact List.mem_cons_of_mem _ hLc_slots) hzTy)
      have hzL : z ≠ (s.getN y).left := by
        intro he
        exact hzy (hRnotinner z (by rw [he]; exact hLmemR) _ hmemy hzTy)
      have hzR : z ≠ (s.getN y).right := by
        intro he
        exact hzy (hRnotinner z (by rw [he]; exact hRmemR) _ hmemy hzTy)
      exact hlrsplice z hzy hzc0 hzL hzR hzL0
    · intro c hc z hz hztop
      have hzcsx : z ∈ MTree.slotsF (c0 :: cs') := MTree.mem_slotsF_of_mem hc hz
      have hf := hinnerTx z hzcsx
      have hzc0 : z ≠ c0.top := by
        intro he
        exact hztop (congrArg MTree.top
          (MTree.slots_disjoint hndcsx c hc c0 (List.mem_cons_self _ _) z hz
            (by rw [he]; exact MTree.top_mem_slots _)) ▸ he)
      have hzL0 : z ≠ (s.getN c0.top).left := by
        intro he
        have hz' : (s.getN c0.top).left ∈ List.map MTree.top (c0 :: cs') := hLc_mem
        obtain ⟨cj, hcj, hcjz⟩ := List.mem_map.1 hz'
        exact hztop (congrArg MTree.top
          (MTree.slots_disjoint hndcsx c hc cj hcj z hz
            (by rw [he, ← hcjz]; exact MTree.top_mem_slots _)) ▸ (he.trans hcjz.symm))
      exact hlrsplice z hf.1 hzc0 hf.2.1 hf.2.2.1 hzL0
    · refine ⟨by rw [slen1, hlen0], by rw [spos1, hpos0], by rw [smin1, hmin0],
        by rw [sn1, hn0]⟩

/-- One iteration of `delete_min`'s child-promotion loop: detaching the
designated child `ct` from the child ring, clearing its parent and mark and
splicing it into the root ring keeps the minimum at `z`, extends the root
ring by `ct`, re-roots `ct`'s tree and preserves every other tree, the
remaining child ring, all entries and every scalar. -/
theorem promoteStep_spec {s : FibHeap K} {z ct : Nat} {Fo done rest' csc : List MTree}
    (hringroot : RingChain s (z :: (List.map MTree.top Fo ++ List.map MTree.top done)))
    (hmin : s.min_root = some z)
    (hringkids : RingChain s (List.map MTree.top (MTree.mk ct csc :: rest')))
    (htreesO : ∀ T ∈ Fo ++ done, TreeRepr s T none)
    (htreesK : ∀ T ∈ MTree.mk ct csc :: rest', TreeRepr s T (some z))
    (hndAll : (z :: (MTree.slotsF (MTree.mk ct csc :: rest') ++ MTree.slotsF Fo ++
      MTree.slotsF done)).Nodup)
    (hball : ∀ i ∈ z :: (MTree.slotsF (MTree.mk ct csc :: rest') ++ MTree.slotsF Fo ++
      MTree.slotsF done), i < s.nodes.length)
    (hkeys : ∀ cc ∈ MTree.mk ct csc :: rest', (s.getN z).entry.2 ≤ (s.getN cc.top).entry.2) :
    RingChain (((s.detach ct).modifyN ct fun nd =>
        { nd with parent := none, mark := false }).add_to_root ct)
      (z :: (List.map MTree.top Fo ++ List.map MTree.top (done ++ [MTree.mk ct csc]))) ∧
    (((s.detach ct).modifyN ct fun nd =>
        { nd with parent := none, mark := false }).add_to_root ct).min_root = some z ∧
    RingChain (((s.detach ct).modifyN ct fun nd =>
        { nd with parent := none, mark := false }).add_to_root ct)
      (List.map MTree.top rest') ∧
    (∀ T ∈ Fo ++ (done ++ [MTree.mk ct csc]), TreeRepr (((s.detach ct).modifyN ct fun nd =>
        { nd with parent := none, mark := false }).add_to_root ct) T none) ∧
    (∀ T ∈ rest', TreeRepr (((s.detach ct).modifyN ct fun nd =>
        { nd with parent := none, mark := false }).add_to_root ct) T (some z)) ∧
    (∀ j, ((((s.detach ct).modifyN ct fun nd =>
        { nd with parent := none, mark := false }).add_to_root ct).getN j).entry =
      (s.getN j).entry) ∧
    (((s.detach ct).modifyN ct fun nd =>
        { nd with parent := none, mark := false }).add_to_root ct).positions = s.positions ∧
    (((s.detach ct).modifyN ct fun nd =>
        { nd with parent := none, mark := false }).add_to_root ct).n = s.n ∧
    (((s.detach ct).modifyN ct fun nd =>
        { nd with parent := none, mark := false }).add_to_root ct).nodes.length =
      s.nodes.length := by
  have hcslots : ct ∈ MTree.slotsF (MTree.mk ct csc :: rest') :=
    MTree.top_mem_slotsF (List.mem_cons_self _ _)
  have hcb : ct < s.nodes.length := hball ct (by
    exact List.mem_cons_of_mem _ (List.mem_append_left _ (List.mem_append_left _ hcslots)))
  have hmemL : ∀ w ∈ MTree.slotsF (MTree.mk ct csc :: rest'),
      w ∈ z :: (MTree.slotsF (MTree.mk ct csc :: rest') ++ MTree.slotsF Fo ++
        MTree.slotsF done) := by
    intro w hw
    exact List.mem_cons_of_mem _ (List.mem_append_left _ (List.mem_append_left _ hw))
  have hmemFo : ∀ w ∈ MTree.slotsF Fo,
      w ∈ z :: (MTree.slotsF (MTree.mk ct csc :: rest') ++ MTree.slotsF Fo ++
        MTree.slotsF done) := by
    intro w hw
    exact List.mem_cons_of_mem _ (List.mem_append_left _ (List.mem_append_right _ hw))
  have hmemDone : ∀ w ∈ MTree.slotsF done,
      w ∈ z :: (MTree.slotsF (MTree.mk ct csc :: rest') ++ MTree.slotsF Fo ++
        MTree.slotsF done) := by
    intro w hw
    exact List.mem_cons_of_mem _ (List.mem_append_right _ hw)
  have hndtail : (MTree.slotsF (MTree.mk ct csc :: rest') ++ MTree.slotsF Fo ++
      MTree.slotsF done).Nodup := (List.nodup_cons.1 hndAll).2
  have hznot : z ∉ MTree.slotsF (MTree.mk ct csc :: rest') ++ MTree.slotsF Fo ++
      MTree.slotsF done := (List.nodup_cons.1 hndAll).1
  have hznotrest : z ∉ MTree.slotsF (MTree.mk ct csc :: rest') := fun h =>
    hznot (List.mem_append_left _ (List.mem_append_left _ h))
  have hznotFo : z ∉ MTree.slotsF Fo := fun h =>
    hznot (List.mem_append_left _ (List.mem_append_right _ h))
  have hznotdone : z ∉ MTree.slotsF done := fun h =>
    hznot (List.mem_append_right _ h)
  have hdisj1 : (MTree.slotsF (MTree.mk ct csc :: rest')).Disjoint
      (MTree.slotsF Fo ++ MTree.slotsF done) := by
    have h0 : ((MTree.slotsF (MTree.mk ct csc :: rest')) ++
        (MTree.slotsF Fo ++ MTree.slotsF done)).Nodup := by
      rw [← List.append_assoc]
      exact hndtail
    exact List.disjoint_of_nodup_append h0
  have hndrest : (MTree.slotsF (MTree.mk ct csc :: rest')).Nodup := by
    have h0 := hndtail
    rw [List.append_assoc, List.nodup_append] at h0
    exact h0.1
  have hndFoDone : (MTree.slotsF (Fo ++ done)).Nodup := by
    have h0 := hndtail
    rw [List.append_assoc, List.nodup_append] at h0
    rw [MTree.slotsF_append]
    exact h0.2.1
  have hdisjHead : ((MTree.mk ct csc).slots).Disjoint (MTree.slotsF rest') := by
    have h0 := hndrest
    rw [MTree.slotsF_cons] at h0
    exact List.disjoint_of_nodup_append h0
  have hctnotcsc : ct ∉ MTree.slotsF csc := by
    have h0 := hndrest
    rw [MTree.slotsF_cons, MTree.slots_mk, List.cons_append, List.nodup_cons] at h0
    intro hmem
    exact h0.1 (List.mem_append_left _ hmem)
  have hndkids : (List.map MTree.top (MTree.mk ct csc :: rest')).Nodup :=
    tops_nodup hndrest
  have hkidslots : ∀ w ∈ List.map MTree.top (MTree.mk ct csc :: rest'),
      w ∈ MTree.slotsF (MTree.mk ct csc :: rest') := by
    intro w hw
    obtain ⟨c, hc, hcw⟩ := List.mem_map.1 hw
    rw [← hcw]
    exact MTree.top_mem_slotsF hc
  have hbkids : ∀ w ∈ List.map MTree.top (MTree.mk ct csc :: rest'), w < s.nodes.length :=
    fun w hw => hball w (hmemL w (hkidslots w hw))
  obtain ⟨hpos0, hmin0, hn0, hlen0, hcL0, hcR0, hrep0, hfields0, hframe0⟩ :=
    detach_spec s ct hcb
  have hLc_mem : (s.getN ct).left ∈ List.map MTree.top (MTree.mk ct csc :: rest') := by
    have h0 : RingChain s (ct :: List.map MTree.top rest') := hringkids
    exact ringChain_left_mem h0
  have hRc_mem : (s.getN ct).right ∈ List.map MTree.top (MTree.mk ct csc :: rest') := by
    have h0 : RingChain s (ct :: List.map MTree.top rest') := hringkids
    exact ringChain_right_mem h0
  have hchanged0 : ∀ w, w ≠ ct → w ≠ (s.getN ct).left → w ≠ (s.getN ct).right →
      ((s.detach ct).getN w).left = (s.getN w).left ∧
      ((s.detach ct).getN w).right = (s.getN w).right := by
    intro w h1 h2 h3
    rw [hframe0 w h1 h2 h3]
    exact ⟨rfl, rfl⟩
  have hnotkid0 : ∀ w, w ∉ MTree.slotsF (MTree.mk ct csc :: rest') →
      ((s.detach ct).getN w).left = (s.getN w).left ∧
      ((s.detach ct).getN w).right = (s.getN w).right := by
    intro w hw
    refine hchanged0 w ?_ ?_ ?_
    · intro e
      exact hw (e ▸ hcslots)
    · intro e
      exact hw (e ▸ hkidslots _ hLc_mem)
    · intro e
      exact hw (e ▸ hkidslots _ hRc_mem)
  have hringkids1 : RingChain (s.detach ct) (List.map MTree.top rest') :=
    detach_ring_head hringkids hndkids hbkids
  have hlr1 : ∀ j,
      ((((s.detach ct).modifyN ct fun nd =>
        { nd with parent := none, mark := false }).getN j)).left =
        ((s.detach ct).getN j).left ∧
      ((((s.detach ct).modifyN ct fun nd =>
        { nd with parent := none, mark := false }).getN j)).right =
        ((s.detach ct).getN j).right := by
    intro j
    exact ⟨modifyN_preserves_left _ ct (fun nd => { nd with parent := none, mark := false })
        (fun nd => rfl) j,
      modifyN_preserves_right _ ct (fun nd => { nd with parent := none, mark := false })
        (fun nd => rfl) j⟩
  have hfive1 : ∀ j, j ≠ ct →
      ((((s.detach ct).modifyN ct fun nd =>
        { nd with parent := none, mark := false }).getN j)).parent = (s.getN j).parent := by
    intro j hj
    rw [getN_modifyN_ne _ _ _ _ (Ne.symm hj), (hfields0 j).1]
  have hentry1 : ∀ j,
      ((((s.detach ct).modifyN ct fun nd =>
        { nd with parent := none, mark := false }).getN j)).entry = (s.getN j).entry := by
    intro j
    rw [modifyN_preserves_entry _ ct (fun nd => { nd with parent := none, mark := false })
      (fun nd => rfl) j, (hfields0 j).2.2.2.2]
  have hdeg1 : ∀ j,
      ((((s.detach ct).modifyN ct fun nd =>
        { nd with parent := none, mark := false }).getN j)).degree = (s.getN j).degree := by
    intro j
    rw [modifyN_preserves_degree _ ct (fun nd => { nd with parent := none, mark := false })
      (fun nd => rfl) j, (hfields0 j).2.2.2.1]
  have hchild1 : ∀ j,
      ((((s.detach ct).modifyN ct fun nd =>
        { nd with parent := none, mark := false }).getN j)).child = (s.getN j).child := by
    intro j
    rw [modifyN_preserves_child _ ct (fun nd => { nd with parent := none, mark := false })
      (fun nd => rfl) j, (hfields0 j).2.1]
  have hmark1 : ∀ j, j ≠ ct →
      ((((s.detach ct).modifyN ct fun nd =>
        { nd with parent := none, mark := false }).getN j)).mark = (s.getN j).mark := by
    intro j hj
    rw [getN_modifyN_ne _ _ _ _ (Ne.symm hj), (hfields0 j).2.2.1]
  have hlen1 : ((s.detach ct).modifyN ct fun nd =>
      { nd with parent := none, mark := false }).nodes.length = s.nodes.length := by
    simp [hlen0]
  have hrootmem : ∀ w ∈ z :: (List.map MTree.top Fo ++ List.map MTree.top done),
      w = z ∨ (∃ U ∈ Fo ++ done, U.top = w) := by
    intro w hw
    rcases List.mem_cons.1 hw with h0 | h0
    · exact Or.inl h0
    · rcases List.mem_append.1 h0 with h1 | h1
      · obtain ⟨T, hT, hTw⟩ := List.mem_map.1 h1
        exact Or.inr ⟨T, List.mem_append_left _ hT, hTw⟩
      · obtain ⟨T, hT, hTw⟩ := List.mem_map.1 h1
        exact Or.inr ⟨T, List.mem_append_right _ hT, hTw⟩
  have hFoDoneSlots : ∀ U ∈ Fo ++ done, ∀ w ∈ U.slots,
      w ∈ MTree.slotsF Fo ++ MTree.slotsF done := by
    intro U hU w hw
    rcases List.mem_append.1 hU with h1 | h1
    · exact List.mem_append_left _ (MTree.mem_slotsF_of_mem h1 hw)
    · exact List.mem_append_right _ (MTree.mem_slotsF_of_mem h1 hw)
  have hrootnotkid : ∀ w ∈ z :: (List.map MTree.top Fo ++ List.map MTree.top done),
      w ∉ MTree.slotsF (MTree.mk ct csc :: rest') := by
    intro w hw hmem
    rcases hrootmem w hw with rfl | ⟨U, hU, hUw⟩
    · exact hznotrest hmem
    · exact hdisj1 hmem (hFoDoneSlots U hU w (hUw ▸ MTree.top_mem_slots U))
  have hringroot2 : RingChain ((s.detach ct).modifyN ct fun nd =>
      { nd with parent := none, mark := false })
      (z :: (List.map MTree.top Fo ++ List.map MTree.top done)) := by
    apply ringChain_frame ?_ hringroot
    intro w hw
    obtain ⟨hl, hr⟩ := hnotkid0 w (hrootnotkid w hw)
    exact ⟨(hlr1 w).1.trans hl, (hlr1 w).2.trans hr⟩
  have hmin2 : ((s.detach ct).modifyN ct fun nd =>
      { nd with parent := none, mark := false }).min_root = some z := by
    rw [modifyN_min_root, hmin0, hmin]
  have hndroot : (z :: (List.map MTree.top Fo ++ List.map MTree.top done)).Nodup := by
    have h0 : (z :: (List.map MTree.top Fo ++ List.map MTree.top done)) =
        List.map MTree.top (MTree.mk z [] :: (Fo ++ done)) := by
      simp
    rw [h0]
    apply tops_nodup
    show (MTree.slotsF (MTree.mk z [] :: (Fo ++ done))).Nodup
    rw [MTree.slotsF_cons, MTree.slots_mk, MTree.slotsF_nil, List.singleton_append,
      List.nodup_cons]
    refine ⟨?_, hndFoDone⟩
    rw [MTree.slotsF_append]
    intro hmem
    rcases List.mem_append.1 hmem with h1 | h1
    · exact hznotFo h1
    · exact hznotdone h1
  have hzb : z < s.nodes.length := hball z (List.mem_cons_self _ _)
  have hbroot : ∀ w ∈ z :: (List.map MTree.top Fo ++ List.map MTree.top done),
      w < s.nodes.length := by
    intro w hw
    rcases hrootmem w hw with rfl | ⟨U, hU, hUw⟩
    · exact hzb
    · rcases List.mem_append.1 hU with h1 | h1
      · exact hball w (hmemFo w (hUw ▸ MTree.top_mem_slotsF h1))
      · exact hball w (hmemDone w (hUw ▸ MTree.top_mem_slotsF h1))
  have hLz_mem : (((s.detach ct).modifyN ct fun nd =>
      { nd with parent := none, mark := false }).getN z).left ∈
      z :: (List.map MTree.top Fo ++ List.map MTree.top done) :=
    ringChain_left_mem hringroot2
  obtain ⟨hring4, hmin4, hfields4, hframe4⟩ :=
    add_to_root_spec hmin2 hringroot2 hndroot
      (by rw [hlen1]; exact hcb) (by rw [hlen1]; exact hzb)
      (by rw [hlen1]; exact hbroot _ hLz_mem)
      (fun hmem => hrootnotkid ct hmem hcslots)
  have hentryF : ∀ j, ((((s.detach ct).modifyN ct fun nd =>
      { nd with parent := none, mark := false }).add_to_root ct).getN j).entry =
      (s.getN j).entry := by
    intro j
    rw [(hfields4 j).2.2.2.2, hentry1 j]
  have hminF : (((s.detach ct).modifyN ct fun nd =>
      { nd with parent := none, mark := false }).add_to_root ct).min_root = some z := by
    have hk : (s.getN z).entry.2 ≤ (s.getN ct).entry.2 := hkeys _ (List.mem_cons_self _ _)
    rw [hmin4, hentry1 ct, hentry1 z, if_neg (not_lt.2 hk)]
  have hparF : ∀ j, j ≠ ct → ((((s.detach ct).modifyN ct fun nd =>
      { nd with parent := none, mark := false }).add_to_root ct).getN j).parent =
      (s.getN j).parent := by
    intro j hj
    rw [(hfields4 j).1, hfive1 j hj]
  have hparFc : ((((s.detach ct).modifyN ct fun nd =>
      { nd with parent := none, mark := false }).add_to_root ct).getN ct).parent = none := by
    rw [(hfields4 ct).1, getN_modifyN_same _ _ _ (by rw [hlen0]; exact hcb)]
  have hdegF : ∀ j, ((((s.detach ct).modifyN ct fun nd =>
      { nd with parent := none, mark := false }).add_to_root ct).getN j).degree =
      (s.getN j).degree := by
    intro j
    rw [(hfields4 j).2.2.2.1, hdeg1 j]
  have hchildF : ∀ j, ((((s.detach ct).modifyN ct fun nd =>
      { nd with parent := none, mark := false }).add_to_root ct).getN j).child =
      (s.getN j).child := by
    intro j
    rw [(hfields4 j).2.1, hchild1 j]
  have hmarkF : ∀ j, j ≠ ct → ((((s.detach ct).modifyN ct fun nd =>
      { nd with parent := none, mark := false }).add_to_root ct).getN j).mark =
      (s.getN j).mark := by
    intro j hj
    rw [(hfields4 j).2.2.1, hmark1 j hj]
  have hlenF : (((s.detach ct).modifyN ct fun nd =>
      { nd with parent := none, mark := false }).add_to_root ct).nodes.length =
      s.nodes.length := by
    rw [add_to_root_length, hlen1]
  have hlrGen : ∀ w, w ≠ ct → w ≠ (s.getN ct).left → w ≠ (s.getN ct).right → w ≠ z →
      w ≠ (((s.detach ct).modifyN ct fun nd =>
        { nd with parent := none, mark := false }).getN z).left →
      ((((s.detach ct).modifyN ct fun nd =>
        { nd with parent := none, mark := false }).add_to_root ct).getN w).left =
        (s.getN w).left ∧
      ((((s.detach ct).modifyN ct fun nd =>
        { nd with parent := none, mark := false }).add_to_root ct).getN w).right =
        (s.getN w).right := by
    intro w h1 h2 h3 h4 h5
    rw [hframe4 w h1 h4 h5]
    obtain ⟨hl, hr⟩ := hchanged0 w h1 h2 h3
    exact ⟨(hlr1 w).1.trans hl, (hlr1 w).2.trans hr⟩
  have hLzcases : (((s.detach ct).modifyN ct fun nd =>
      { nd with parent := none, mark := false }).getN z).left = z ∨
      (∃ U ∈ Fo ++ done, U.top = (((s.detach ct).modifyN ct fun nd =>
        { nd with parent := none, mark := false }).getN z).left) :=
    hrootmem _ hLz_mem
  -- a slot of the kid forest other than the touched ring slots keeps its links
  have hlrRest : ∀ w ∈ MTree.slotsF (MTree.mk ct csc :: rest'),
      w ≠ ct → w ≠ (s.getN ct).left → w ≠ (s.getN ct).right →
      ((((s.detach ct).modifyN ct fun nd =>
        { nd with parent := none, mark := false }).add_to_root ct).getN w).left =
        (s.getN w).left ∧
      ((((s.detach ct).modifyN ct fun nd =>
        { nd with parent := none, mark := false }).add_to_root ct).getN w).right =
        (s.getN w).right := by
    intro w hw h1 h2 h3
    refine hlrGen w h1 h2 h3 (fun e => hznotrest (e ▸ hw)) ?_
    intro e
    rcases hLzcases with h4 | ⟨U, hU, hUw⟩
    · exact hznotrest ((e.trans h4) ▸ hw)
    · exact hdisj1 hw (hFoDoneSlots U hU w (by
        rw [e, ← hUw]
        exact MTree.top_mem_slots U))
  -- remaining kid ring
  have hringrestF : RingChain (((s.detach ct).modifyN ct fun nd =>
      { nd with parent := none, mark := false }).add_to_root ct)
      (List.map MTree.top rest') := by
    have hmid : RingChain ((s.detach ct).modifyN ct fun nd =>
        { nd with parent := none, mark := false }) (List.map MTree.top rest') := by
      apply ringChain_frame ?_ hringkids1
      intro w hw
      exact ⟨(hlr1 w).1, (hlr1 w).2⟩
    apply ringChain_frame ?_ hmid
    intro w hw
    have hwslots : w ∈ MTree.slotsF rest' := by
      obtain ⟨c, hc, hcw⟩ := List.mem_map.1 hw
      rw [← hcw]
      exact MTree.top_mem_slotsF hc
    have hwct : w ≠ ct := by
      intro e
      exact hdisjHead (e ▸ (MTree.top_mem_slots (MTree.mk ct csc)) :
        w ∈ (MTree.mk ct csc).slots) hwslots
    have hwz : w ≠ z := fun e => hznotrest (e ▸ (by
      rw [MTree.slotsF_cons]
      exact List.mem_append_right _ hwslots))
    have hwLz : w ≠ (((s.detach ct).modifyN ct fun nd =>
        { nd with parent := none, mark := false }).getN z).left := by
      intro e
      rcases hLzcases with h4 | ⟨U, hU, hUw⟩
      · exact hwz (e.trans h4)
      · exact hdisj1 (by
          rw [MTree.slotsF_cons]
          exact List.mem_append_right _ hwslots)
          (hFoDoneSlots U hU w (by
            rw [e, ← hUw]
            exact MTree.top_mem_slots U))
    rw [hframe4 w hwct hwz hwLz]
    exact ⟨rfl, rfl⟩
  -- root ring with the promoted child appended
  have hringrootF : RingChain (((s.detach ct).modifyN ct fun nd =>
      { nd with parent := none, mark := false }).add_to_root ct)
      (z :: (List.map MTree.top Fo ++ List.map MTree.top (done ++ [MTree.mk ct csc]))) := by
    have heq : z :: (List.map MTree.top Fo ++
        List.map MTree.top (done ++ [MTree.mk ct csc])) =
        z :: ((List.map MTree.top Fo ++ List.map MTree.top done) ++ [ct]) := by
      simp [List.append_assoc]
    rw [heq]
    exact hring4
  have hndcsc : (MTree.slotsF csc).Nodup := by
    have h0 := hndrest
    rw [MTree.slotsF_cons, MTree.slots_mk, List.cons_append, List.nodup_cons,
      List.nodup_append] at h0
    exact h0.2.1
  have hndrest' : (MTree.slotsF rest').Nodup := by
    have h0 := hndrest
    rw [MTree.slotsF_cons, List.nodup_append] at h0
    exact h0.2.1
  have hcscmem : ∀ w ∈ MTree.slotsF csc, w ∈ MTree.slotsF (MTree.mk ct csc :: rest') := by
    intro w hw
    rw [MTree.slotsF_cons, MTree.slots_mk]
    exact List.mem_append_left _ (List.mem_cons_of_mem _ hw)
  have hlrCsc : ∀ w ∈ MTree.slotsF csc,
      ((((s.detach ct).modifyN ct fun nd =>
        { nd with parent := none, mark := false }).add_to_root ct).getN w).left =
        (s.getN w).left ∧
      ((((s.detach ct).modifyN ct fun nd =>
        { nd with parent := none, mark := false }).add_to_root ct).getN w).right =
        (s.getN w).right := by
    intro w hw
    have hwct : w ≠ ct := fun e => hctnotcsc (e ▸ hw)
    have hwnotv : ∀ v, v ∈ List.map MTree.top (MTree.mk ct csc :: rest') → w ≠ v := by
      intro v hv e
      obtain ⟨c, hc, hcv⟩ := List.mem_map.1 hv
      rcases List.mem_cons.1 hc with rfl | hcr
      · exact hwct (by rw [e, ← hcv, MTree.top_mk])
      · exact hdisjHead (by
            rw [MTree.slots_mk]
            exact List.mem_cons_of_mem _ hw)
          (by
            rw [e, ← hcv]
            exact MTree.mem_slotsF_of_mem hcr (MTree.top_mem_slots c))
    refine hlrGen w hwct (hwnotv _ hLc_mem) (hwnotv _ hRc_mem) ?_ ?_
    · intro e
      exact hznotrest (e ▸ hcscmem w hw)
    · intro e
      rcases hLzcases with h4 | ⟨U, hU, hUw⟩
      · exact hznotrest ((e.trans h4) ▸ hcscmem w hw)
      · exact hdisj1 (hcscmem w hw) (hFoDoneSlots U hU w (by
          rw [e, ← hUw]
          exact MTree.top_mem_slots U))
  obtain ⟨-, hparct, hdegct, hchildct, hringcsc, hkeysct, hrecct⟩ :=
    TreeRepr.inv (htreesK _ (List.mem_cons_self _ _))
  have hpromoted : TreeRepr (((s.detach ct).modifyN ct fun nd =>
      { nd with parent := none, mark := false }).add_to_root ct) (MTree.mk ct csc) none := by
    refine TreeRepr.mk ?_ ?_ ?_ ?_ ?_ ?_ ?_
    · show ct < (((s.detach ct).modifyN ct fun nd =>
        { nd with parent := none, mark := false }).add_to_root ct).nodes.length
      rw [hlenF]
      exact hcb
    · exact hparFc
    · show ((((s.detach ct).modifyN ct fun nd =>
        { nd with parent := none, mark := false }).add_to_root ct).getN ct).degree =
        csc.length
      rw [hdegF ct, hdegct]
    · show ((((s.detach ct).modifyN ct fun nd =>
        { nd with parent := none, mark := false }).add_to_root ct).getN ct).child =
        csc.head?.map MTree.top
      rw [hchildF ct, hchildct]
    · apply ringChain_frame ?_ hringcsc
      intro w hw
      obtain ⟨gc, hgc, hgcw⟩ := List.mem_map.1 hw
      exact hlrCsc w (hgcw ▸ MTree.top_mem_slotsF hgc)
    · intro gc hgc
      rw [hentryF, hentryF]
      exact hkeysct gc hgc
    · intro gc hgc
      refine TreeRepr.frameFine (hrecct gc hgc) (MTree.nodup_slots_of_mem hndcsc hgc) ?_ ?_
        (le_of_eq hlenF.symm)
      · intro w hw
        have hwcsc : w ∈ MTree.slotsF csc := MTree.mem_slotsF_of_mem hgc hw
        have hwct : w ≠ ct := fun e => hctnotcsc (e ▸ hwcsc)
        exact ⟨hparF w hwct, hchildF w, hmarkF w hwct, hdegF w, hentryF w⟩
      · intro w hw hwtop
        exact hlrCsc w (MTree.mem_slotsF_of_mem hgc hw)
  have htreesFoDone : ∀ T ∈ Fo ++ done, TreeRepr (((s.detach ct).modifyN ct fun nd =>
      { nd with parent := none, mark := false }).add_to_root ct) T none := by
    intro T hT
    have hTslots : ∀ w ∈ T.slots, w ∈ MTree.slotsF Fo ++ MTree.slotsF done :=
      fun w hw => hFoDoneSlots T hT w hw
    have hTnotkid : ∀ w ∈ T.slots, w ∉ MTree.slotsF (MTree.mk ct csc :: rest') :=
      fun w hw hmem => hdisj1 hmem (hTslots w hw)
    refine TreeRepr.frameFine (htreesO T hT) (MTree.nodup_slots_of_mem hndFoDone hT) ?_ ?_
      (le_of_eq hlenF.symm)
    · intro w hw
      have hwct : w ≠ ct := fun e => hTnotkid w hw (e ▸ hcslots)
      exact ⟨hparF w hwct, hchildF w, hmarkF w hwct, hdegF w, hentryF w⟩
    · intro w hw hwtop
      have hwkid : w ∉ MTree.slotsF (MTree.mk ct csc :: rest') := hTnotkid w hw
      have hwct : w ≠ ct := fun e => hwkid (e ▸ hcslots)
      have hwLc : w ≠ (s.getN ct).left := fun e => hwkid (e ▸ hkidslots _ hLc_mem)
      have hwRc : w ≠ (s.getN ct).right := fun e => hwkid (e ▸ hkidslots _ hRc_mem)
      have hwz : w ≠ z := by
        intro e
        rcases List.mem_append.1 (hTslots w hw) with h1 | h1
        · exact hznotFo (e ▸ h1)
        · exact hznotdone (e ▸ h1)
      refine hlrGen w hwct hwLc hwRc hwz ?_
      intro e
      rcases hLzcases with h4 | ⟨U, hU, hUw⟩
      · exact hwz (e.trans h4)
      · exact top_not_inner hndFoDone hT hU hw (e.trans hUw.symm) hwtop
  have htreesRest : ∀ T ∈ rest', TreeRepr (((s.detach ct).modifyN ct fun nd =>
      { nd with parent := none, mark := false }).add_to_root ct) T (some z) := by
    intro T hT
    have hTmem : ∀ w ∈ T.slots, w ∈ MTree.slotsF rest' :=
      fun w hw => MTree.mem_slotsF_of_mem hT hw
    have hTmem' : ∀ w ∈ T.slots, w ∈ MTree.slotsF (MTree.mk ct csc :: rest') := by
      intro w hw
      rw [MTree.slotsF_cons]
      exact List.mem_append_right _ (hTmem w hw)
    refine TreeRepr.frameFine (htreesK T (List.mem_cons_of_mem _ hT))
      (MTree.nodup_slots_of_mem hndrest' hT) ?_ ?_ (le_of_eq hlenF.symm)
    · intro w hw
      have hwct : w ≠ ct := by
        intro e
        exact hdisjHead (by
          rw [e, MTree.slots_mk]
          exact List.mem_cons_self _ _) (hTmem w hw)
      exact ⟨hparF w hwct, hchildF w, hmarkF w hwct, hdegF w, hentryF w⟩
    · intro w hw hwtop
      have hwct : w ≠ ct := by
        intro e
        exact hdisjHead (by
          rw [e, MTree.slots_mk]
          exact List.mem_cons_self _ _) (hTmem w hw)
      have hwLc : w ≠ (s.getN ct).left := by
        intro e
        obtain ⟨c, hc, hcv⟩ := List.mem_map.1 hLc_mem
        rcases List.mem_cons.1 hc with rfl | hcr
        · exact hwct (by rw [e, ← hcv, MTree.top_mk])
        · exact top_not_inner hndrest' hT hcr hw (by rw [e, ← hcv]) hwtop
      have hwRc : w ≠ (s.getN ct).right := by
        intro e
        obtain ⟨c, hc, hcv⟩ := List.mem_map.1 hRc_mem
        rcases List.mem_cons.1 hc with rfl | hcr
        · exact hwct (by rw [e, ← hcv, MTree.top_mk])
        · exact top_not_inner hndrest' hT hcr hw (by rw [e, ← hcv]) hwtop
      refine hlrGen w hwct hwLc hwRc ?_ ?_
      · intro e
        exact hznotrest (e ▸ hTmem' w hw)
      · intro e
        rcases hLzcases with h4 | ⟨U, hU, hUw⟩
        · exact hznotrest ((e.trans h4) ▸ hTmem' w hw)
        · exact hdisj1 (hTmem' w hw) (hFoDoneSlots U hU w (by
            rw [e, ← hUw]
            exact MTree.top_mem_slots U))
  refine ⟨hringrootF, hminF, hringrestF, ?_, htreesRest, hentryF, ?_, ?_, hlenF⟩
  · intro T hT
    rcases List.mem_append.1 hT with hTold | hTnew
    · exact htreesFoDone T (List.mem_append_left _ hTold)
    · rcases List.mem_append.1 hTnew with hTdone | hTc
      · exact htreesFoDone T (List.mem_append_right _ hTdone)
      · obtain rfl : T = MTree.mk ct csc := by simpa using hTc
        exact hpromoted
  · rw [add_to_root_positions, modifyN_positions, hpos0]
  · rw [add_to_root_n, modifyN_n, hn0]

/-- Unfolding of one `promoteChildren` iteration. -/
theorem promoteChildren_succ (s : FibHeap K) (child f : Nat) :
    s.promoteChildren child (f + 1) =
      (if (s.getN child).right = child then
        ((s.detach child).modifyN child fun nd =>
          { nd with parent := none, mark := false }).add_to_root child
      else
        (((s.detach child).modifyN child fun nd =>
          { nd with parent := none, mark := false }).add_to_root child).promoteChildren
          ((s.getN child).right) f) := rfl

/-- The full child-promotion loop of `delete_min`: walking the child ring
once, every child is detached, re-rooted (parent and mark cleared) and
spliced into the root ring in ring order; the minimum stays at `z` and all
other trees, entries and scalars survive. -/
theorem promoteChildren_go {z : Nat} {Fo : List MTree} :
    ∀ (rest' : List MTree) (ct : Nat) (csc : List MTree) (s : FibHeap K)
      (done : List MTree) (fuel : Nat),
    (MTree.mk ct csc :: rest').length ≤ fuel →
    RingChain s (z :: (List.map MTree.top Fo ++ List.map MTree.top done)) →
    s.min_root = some z →
    RingChain s (List.map MTree.top (MTree.mk ct csc :: rest')) →
    (∀ T ∈ Fo ++ done, TreeRepr s T none) →
    (∀ T ∈ MTree.mk ct csc :: rest', TreeRepr s T (some z)) →
    (z :: (MTree.slotsF (MTree.mk ct csc :: rest') ++ MTree.slotsF Fo ++
      MTree.slotsF done)).Nodup →
    (∀ i ∈ z :: (MTree.slotsF (MTree.mk ct csc :: rest') ++ MTree.slotsF Fo ++
      MTree.slotsF done), i < s.nodes.length) →
    (∀ cc ∈ MTree.mk ct csc :: rest', (s.getN z).entry.2 ≤ (s.getN cc.top).entry.2) →
    RingChain (s.promoteChildren ct fuel)
      (z :: (List.map MTree.top Fo ++
        List.map MTree.top (done ++ (MTree.mk ct csc :: rest')))) ∧
    (s.promoteChildren ct fuel).min_root = some z ∧
    (∀ T ∈ Fo ++ (done ++ (MTree.mk ct csc :: rest')),
      TreeRepr (s.promoteChildren ct fuel) T none) ∧
    (∀ j, ((s.promoteChildren ct fuel).getN j).entry = (s.getN j).entry) ∧
    (s.promoteChildren ct fuel).positions = s.positions ∧
    (s.promoteChildren ct fuel).n = s.n ∧
    (s.promoteChildren ct fuel).nodes.length = s.nodes.length := by
  intro rest'
  induction rest' with
  | nil =>
      intro ct csc s done fuel hfuel hringroot hmin hringkids htreesO htreesK hndAll
        hball hkeys
      rcases fuel with _ | f
      · simp at hfuel
      have hself : (s.getN ct).right = ct := by
        have h0 : RingChain s [ct] := hringkids
        exact (ringChain_single h0).2
      rw [promoteChildren_succ, if_pos hself]
      obtain ⟨c1, c2, c3, c4, c5, c6, c7, c8, c9⟩ :=
        promoteStep_spec hringroot hmin hringkids htreesO htreesK hndAll
          hball hkeys
      exact ⟨c1, c2, c4, c6, c7, c8, c9⟩
  | cons c2 rest'' ih =>
      intro ct csc s done fuel hfuel hringroot hmin hringkids htreesO htreesK hndAll
        hball hkeys
      rcases fuel with _ | f
      · simp at hfuel
      obtain ⟨ct2, csc2⟩ := c2
      have hnext : (s.getN ct).right = ct2 := by
        have h0 : List.Chain (adj s) ct ((ct2 :: List.map MTree.top rest'') ++ [ct]) :=
          hringkids
        rw [List.cons_append, List.chain_cons] at h0
        exact h0.1.1
      have hndkids : (List.map MTree.top
          (MTree.mk ct csc :: MTree.mk ct2 csc2 :: rest'')).Nodup := by
        apply tops_nodup
        have h0 := hndAll
        rw [List.nodup_cons, List.append_assoc, List.nodup_append] at h0
        exact h0.2.1
      have hct2ne : ct2 ≠ ct := by
        have h0 := hndkids
        rw [List.map_cons, List.nodup_cons] at h0
        intro e
        exact h0.1 (by
          rw [← e, List.map_cons]
          exact List.mem_cons_self _ _)
      rw [promoteChildren_succ, if_neg (by rw [hnext]; exact hct2ne), hnext]
      obtain ⟨c1, c2f, c3, c4, c5, c6, c7, c8, c9⟩ :=
        promoteStep_spec hringroot hmin hringkids
          htreesO htreesK hndAll hball hkeys
      have hpermSlots : (z :: (MTree.slotsF (MTree.mk ct csc ::
          MTree.mk ct2 csc2 :: rest'') ++ MTree.slotsF Fo ++ MTree.slotsF done)).Perm
          (z :: (MTree.slotsF (MTree.mk ct2 csc2 :: rest'') ++ MTree.slotsF Fo ++
            MTree.slotsF (done ++ [MTree.mk ct csc]))) := by
        apply List.Perm.cons z
        rw [MTree.slotsF_cons (MTree.mk ct csc), MTree.slotsF_append]
        rw [show MTree.slotsF [MTree.mk ct csc] = (MTree.mk ct csc).slots from by
          rw [MTree.slotsF_cons, MTree.slotsF_nil, List.append_nil]]
        have e1 : ((MTree.mk ct csc).slots ++ MTree.slotsF (MTree.mk ct2 csc2 :: rest'')) ++
            MTree.slotsF Fo ++ MTree.slotsF done =
            (MTree.mk ct csc).slots ++ (MTree.slotsF (MTree.mk ct2 csc2 :: rest'') ++
            MTree.slotsF Fo ++ MTree.slotsF done) := by
          simp [List.append_assoc]
        have e2 : (MTree.slotsF (MTree.mk ct2 csc2 :: rest'') ++ MTree.slotsF Fo ++
            MTree.slotsF done) ++ (MTree.mk ct csc).slots =
            MTree.slotsF (MTree.mk ct2 csc2 :: rest'') ++ MTree.slotsF Fo ++
            (MTree.slotsF done ++ (MTree.mk ct csc).slots) := by
          simp [List.append_assoc]
        rw [e1, ← e2]
        exact List.perm_append_comm
      have hndAll' := hpermSlots.nodup hndAll
      have hball' : ∀ i ∈ z :: (MTree.slotsF (MTree.mk ct2 csc2 :: rest'') ++
          MTree.slotsF Fo ++ MTree.slotsF (done ++ [MTree.mk ct csc])),
          i < (((s.detach ct).modifyN ct fun nd =>
            { nd with parent := none, mark := false }).add_to_root ct).nodes.length := by
        intro i hi
        rw [c9]
        exact hball i (hpermSlots.mem_iff.2 hi)
      have hkeys' : ∀ cc ∈ MTree.mk ct2 csc2 :: rest'',
          ((((s.detach ct).modifyN ct fun nd =>
            { nd with parent := none, mark := false }).add_to_root ct).getN z).entry.2 ≤
          ((((s.detach ct).modifyN ct fun nd =>
            { nd with parent := none, mark := false }).add_to_root ct).getN cc.top).entry.2 := by
        intro cc hcc
        rw [c6 z, c6 cc.top]
        exact hkeys cc (List.mem_cons_of_mem _ hcc)
      obtain ⟨d1, d2, d3, d4, d5, d6, d7⟩ :=
        ih ct2 csc2 (((s.detach ct).modifyN ct fun nd =>
          { nd with parent := none, mark := false }).add_to_root ct)
          (done ++ [MTree.mk ct csc]) f
          (by simpa using Nat.le_of_succ_le_succ hfuel)
          c1 c2f c3 c4 c5 hndAll' hball' hkeys'
      have hlisteq : (done ++ [MTree.mk ct csc]) ++ (MTree.mk ct2 csc2 :: rest'') =
          done ++ (MTree.mk ct csc :: MTree.mk ct2 csc2 :: rest'') := by
        simp
      rw [hlisteq] at d1 d3
      refine ⟨d1, d2, d3, ?_, ?_, ?_, ?_⟩
      · intro j
        rw [d4 j, c6 j]
      · rw [d5, c7]
      · rw [d6, c8]
      · rw [d7, c9]

/-- Padding an option list with `none`s does not change reads. -/
theorem getD_pad_opt {α : Type} (l : List (Option α)) (m i : Nat) :
    (l ++ List.replicate m (none : Option α)).getD i none = l.getD i none := by
  rw [List.getD_eq_getElem?_getD, List.getD_eq_getElem?_getD, List.getElem?_append]
  split_ifs with h
  · rfl
  · rw [List.getElem?_replicate]
    split_ifs with h2
    · rw [List.getElem?_eq_none (by omega)]
      rfl
    · rw [List.getElem?_eq_none (by omega)]

/-- Reading an option list after a write. -/
theorem getD_set_opt {α : Type} (l : List (Option α)) (d i : Nat) (v : Option α) :
    (l.set d v).getD i none =
      if d = i ∧ i < l.length then v else l.getD i none := by
  rw [List.getD_eq_getElem?_getD, List.getD_eq_getElem?_getD]
  by_cases h : d = i
  · subst h
    by_cases hl : d < l.length
    · simp [List.getElem?_set_self hl, hl]
    · rw [List.set_eq_of_length_le (Nat.le_of_not_lt hl)]
      simp [hl]
  · simp [List.getElem?_set_ne h, h]

/-- Reads through the top projection of an option-of-tree list. -/
theorem getD_map_top (auxT : List (Option MTree)) (i : Nat) :
    (auxT.map (Option.map MTree.top)).getD i none = (auxT.getD i none).map MTree.top := by
  rw [List.getD_eq_getElem?_getD, List.getD_eq_getElem?_getD, List.getElem?_map]
  cases auxT[i]? with
  | none => rfl
  | some o => rfl

/-- The forest slot list is the flattening of the per-tree slot lists. -/
theorem MTree.slotsF_eq_flatten (G : List MTree) :
    MTree.slotsF G = (G.map MTree.slots).flatten := by
  induction G with
  | nil => rfl
  | cons t ts ih => rw [MTree.slotsF_cons, List.map_cons, List.flatten_cons, ih]

/-- Permuting a forest permutes its slots. -/
theorem MTree.slotsF_perm {G G' : List MTree} (h : G.Perm G') :
    (MTree.slotsF G).Perm (MTree.slotsF G') := by
  rw [MTree.slotsF_eq_flatten, MTree.slotsF_eq_flatten]
  exact (h.map MTree.slots).flatten

/-- Pigeonhole: a duplicate-free list of naturals below `n` has at most `n`
members. -/
theorem nodup_bounded_length {l : List Nat} {n : Nat} (h : l.Nodup)
    (hb : ∀ x ∈ l, x < n) : l.length ≤ n := by
  classical
  have h1 : l.toFinset.card = l.length := List.toFinset_card_of_nodup h
  have h2 : l.toFinset ⊆ Finset.range n := by
    intro x hx
    rw [Finset.mem_range]
    exact hb x (List.mem_toFinset.1 hx)
  have h3 := Finset.card_le_card h2
  rw [h1, Finset.card_range] at h3
  exact h3

/-- Removing the distinguished middle member. -/
theorem mem_remove_middle {α : Type} {v y : α} {a b : List α} (h : v ∈ a ++ y :: b)
    (hne : v ≠ y) : v ∈ a ++ b := by
  rcases List.mem_append.1 h with h0 | h0
  · exact List.mem_append_left _ h0
  · rcases List.mem_cons.1 h0 with h1 | h1
    · exact absurd h1 hne
    · exact List.mem_append_right _ h1

/-- Distinct trees of a duplicate-free forest have distinct tops. -/
theorem tops_ne_of_ne {G : List MTree} (hnd : (MTree.slotsF G).Nodup)
    {T U : MTree} (hT : T ∈ G) (hU : U ∈ G) (hne : T ≠ U) : T.top ≠ U.top := by
  intro he
  exact hne (MTree.slots_disjoint hnd T hT U hU T.top (MTree.top_mem_slots T)
    (he ▸ MTree.top_mem_slots U))

/-- Splitting two distinct members off a duplicate-free forest. -/
theorem forest_split {G : List MTree} {T U : MTree}
    (hnd : (MTree.slotsF G).Nodup) (hT : T ∈ G) (hU : U ∈ G) (hne : T ≠ U) :
    ∃ G2 : List MTree, G.Perm (T :: U :: G2) ∧ T ∉ G2 ∧ U ∉ G2 ∧
      (∀ V ∈ G2, V ∈ G) ∧ (∀ V ∈ G, V ≠ T → V ≠ U → V ∈ G2) := by
  obtain ⟨g1, g2, hGeq⟩ := List.append_of_mem hT
  have hU2 : U ∈ g1 ++ g2 := mem_remove_middle (hGeq ▸ hU) (Ne.symm hne)
  obtain ⟨h1, h2, hsplit⟩ := List.append_of_mem hU2
  have hperm : G.Perm (T :: U :: (h1 ++ h2)) := by
    have p1 : G.Perm (T :: (g1 ++ g2)) := by
      rw [hGeq]
      exact List.perm_middle
    have p2 : (g1 ++ g2).Perm (U :: (h1 ++ h2)) := by
      rw [hsplit]
      exact List.perm_middle
    exact p1.trans (List.Perm.cons T p2)
  have hndP : (MTree.slotsF (T :: U :: (h1 ++ h2))).Nodup :=
    (MTree.slotsF_perm hperm).nodup hnd
  refine ⟨h1 ++ h2, hperm, ?_, ?_, ?_, ?_⟩
  · intro hmem
    have h0 := hndP
    rw [MTree.slotsF_cons, List.nodup_append] at h0
    exact h0.2.2 (MTree.top_mem_slots T) (by
      rw [MTree.slotsF_cons]
      exact List.mem_append_right _ (MTree.mem_slotsF_of_mem hmem (MTree.top_mem_slots T)))
  · intro hmem
    have h0 := hndP
    rw [MTree.slotsF_cons, List.nodup_append] at h0
    have h1' := h0.2.1
    rw [MTree.slotsF_cons, List.nodup_append] at h1'
    exact h1'.2.2 (MTree.top_mem_slots U)
      (MTree.mem_slotsF_of_mem hmem (MTree.top_mem_slots U))
  · intro V hV
    exact (hperm.mem_iff).2 (List.mem_cons_of_mem _ (List.mem_cons_of_mem _ hV))
  · intro V hV hne1 hne2
    have h0 := (hperm.mem_iff).1 hV
    rcases List.mem_cons.1 h0 with rfl | h0
    · exact absurd rfl hne1
    rcases List.mem_cons.1 h0 with rfl | h0
    · exact absurd rfl hne2
    exact h0

/-- The slots of a tree with one extra last child. -/
theorem merged_slots (w : Nat) (csw : List MTree) (Tl : MTree) :
    (MTree.mk w (csw ++ [Tl])).slots = (MTree.mk w csw).slots ++ Tl.slots := by
  rw [MTree.slots_mk, MTree.slots_mk, MTree.slotsF_append, MTree.slotsF_cons,
    MTree.slotsF_nil, List.append_nil, List.cons_append]

/-- Unfolding of one `linkLoop` iteration. -/
theorem linkLoop_succ (s : FibHeap K) (aux : List (Option Nat)) (x d f : Nat) :
    linkLoop s aux x d (f + 1) =
      (match (if aux.length ≤ d then aux ++ List.replicate (d + 1 - aux.length) none
        else aux).getD d none with
      | none => (s, (if aux.length ≤ d then aux ++ List.replicate (d + 1 - aux.length) none
          else aux).set d (some x))
      | some y0 =>
          linkLoop
            (s.link (if (s.getN y0).entry.2 < (s.getN x).entry.2 then (y0, x) else (x, y0)).2
              (if (s.getN y0).entry.2 < (s.getN x).entry.2 then (y0, x) else (x, y0)).1)
            ((if aux.length ≤ d then aux ++ List.replicate (d + 1 - aux.length) none
              else aux).set d none)
            (if (s.getN y0).entry.2 < (s.getN x).entry.2 then (y0, x) else (x, y0)).1
            (d + 1) f) := rfl

/-- Full invariant of the degree-linking loop of `consolidate`: the loop,
run with any fuel exceeding the ring length, produces a state whose forest
`G'` is a re-grouping of the old one (same slots, all trees rooted), the
auxiliary array describes a sub-family of `G'` indexed exactly by root
degree, the root ring shrinks to the surviving roots, untouched trees are
untouched, and entries and all scalars are preserved. -/
theorem linkLoop_spec :
    ∀ (fuel : Nat) (s : FibHeap K) (aux : List (Option Nat)) (auxT : List (Option MTree))
      (x : Nat) (csx : List MTree) (d : Nat) (G : List MTree) (R : List Nat),
    aux = auxT.map (Option.map MTree.top) →
    (∀ T ∈ G, TreeRepr s T none) →
    (MTree.slotsF G).Nodup →
    (∀ i ∈ MTree.slotsF G, i < s.nodes.length) →
    MTree.mk x csx ∈ G →
    (∀ i T, auxT.getD i none = some T → T ∈ G ∧ (s.getN T.top).degree = i ∧
      T ≠ MTree.mk x csx) →
    RingChain s R → R.Nodup →
    (∀ w ∈ R, ∃ T ∈ G, T.top = w) →
    (∀ T ∈ G, T.top ∈ R) →
    (s.getN x).degree = d →
    R.length < fuel →
    ∃ (auxT' : List (Option MTree)) (G' : List MTree) (R' : List Nat),
      (linkLoop s aux x d fuel).2 = auxT'.map (Option.map MTree.top) ∧
      (∀ T ∈ G', TreeRepr (linkLoop s aux x d fuel).1 T none) ∧
      (MTree.slotsF G').Perm (MTree.slotsF G) ∧
      RingChain (linkLoop s aux x d fuel).1 R' ∧
      R'.Nodup ∧
      (∀ w ∈ R', ∃ T ∈ G', T.top = w) ∧
      (∀ T ∈ G', T.top ∈ R') ∧
      R'.length ≤ R.length ∧
      (∀ i T, auxT'.getD i none = some T → T ∈ G' ∧
        ((linkLoop s aux x d fuel).1.getN T.top).degree = i) ∧
      (∀ T ∈ G, (∀ i, auxT.getD i none ≠ some T) → T ≠ MTree.mk x csx →
        (T ∈ G' ∧ ∀ i, auxT'.getD i none ≠ some T)) ∧
      (∀ T ∈ G', (∀ i, auxT'.getD i none ≠ some T) →
        (T ∈ G ∧ (∀ i, auxT.getD i none ≠ some T) ∧ T ≠ MTree.mk x csx)) ∧
      (∀ j, ((linkLoop s aux x d fuel).1.getN j).entry = (s.getN j).entry) ∧
      (linkLoop s aux x d fuel).1.positions = s.positions ∧
      (linkLoop s aux x d fuel).1.min_root = s.min_root ∧
      (linkLoop s aux x d fuel).1.n = s.n ∧
      (linkLoop s aux x d fuel).1.nodes.length = s.nodes.length := by
  intro fuel
  induction fuel with
  | zero =>
      intro s aux auxT x csx d G R _ _ _ _ _ _ _ _ _ _ _ hfuel
      omega
  | succ f ih =>
      intro s aux auxT x csx d G R haux hG hnd hb hmemx hauxinv hR hndR hRtops hGtops
        hdeg hfuel
      have hlenmap : aux.length = auxT.length := by rw [haux, List.length_map]
      have hpad : (if aux.length ≤ d then aux ++ List.replicate (d + 1 - aux.length) none
          else aux) = (if auxT.length ≤ d then
            auxT ++ List.replicate (d + 1 - auxT.length) none
          else auxT).map (Option.map MTree.top) := by
        by_cases hl : auxT.length ≤ d
        · rw [if_pos (by rw [hlenmap]; exact hl), if_pos hl, List.map_append,
            List.map_replicate, haux, List.length_map]
          rfl
        · rw [if_neg (by rw [hlenmap]; exact hl), if_neg hl, haux]
      have hgetT1 : ∀ i, (if auxT.length ≤ d then
          auxT ++ List.replicate (d + 1 - auxT.length) none else auxT).getD i none =
          auxT.getD i none := by
        intro i
        by_cases hl : auxT.length ≤ d
        · rw [if_pos hl, getD_pad_opt]
        · rw [if_neg hl]
      have hlen1 : d < (if auxT.length ≤ d then
          auxT ++ List.replicate (d + 1 - auxT.length) none else auxT).length := by
        by_cases hl : auxT.length ≤ d
        · rw [if_pos hl, List.length_append, List.length_replicate]
          omega
        · rw [if_neg hl]
          omega
      have hlook0 : (if aux.length ≤ d then aux ++ List.replicate (d + 1 - aux.length) none
          else aux).getD d none = (auxT.getD d none).map MTree.top := by
        rw [hpad, getD_map_top, hgetT1]
      have hgetSet : ∀ (v : Option MTree) (i : Nat),
          (((if auxT.length ≤ d then auxT ++ List.replicate (d + 1 - auxT.length) none
            else auxT).set d v).getD i none) =
          if d = i then v else auxT.getD i none := by
        intro v i
        rw [getD_set_opt]
        by_cases hdi : d = i
        · subst hdi
          rw [if_pos ⟨rfl, hlen1⟩, if_pos rfl]
        · rw [if_neg (fun hc => hdi hc.1), if_neg hdi, hgetT1]
      rcases hcase : auxT.getD d none with _ | Ty
      · -- empty slot: park x there
        have hlook : (if aux.length ≤ d then aux ++ List.replicate (d + 1 - aux.length) none
            else aux).getD d none = none := by
          rw [hlook0, hcase]
          rfl
        have hstep : linkLoop s aux x d (f + 1) =
            (s, (if aux.length ≤ d then aux ++ List.replicate (d + 1 - aux.length) none
              else aux).set d (some x)) := by
          rw [linkLoop_succ, hlook]
        rw [hstep]
        refine ⟨(if auxT.length ≤ d then auxT ++ List.replicate (d + 1 - auxT.length) none
          else auxT).set d (some (MTree.mk x csx)), G, R, ?_, hG, List.Perm.refl _, hR,
          hndR, hRtops, hGtops, le_refl _, ?_, ?_, ?_, fun j => rfl, rfl, rfl, rfl, rfl⟩
        · show (if aux.length ≤ d then aux ++ List.replicate (d + 1 - aux.length) none
            else aux).set d (some x) = _
          have he : (some x : Option Nat) = Option.map MTree.top (some (MTree.mk x csx)) :=
            rfl
          rw [hpad, he, ← List.map_set]
        · intro i T hTi
          rw [hgetSet] at hTi
          by_cases hdi : d = i
          · rw [if_pos hdi] at hTi
            obtain rfl : T = MTree.mk x csx := (Option.some.inj hTi).symm
            obtain rfl : d = i := hdi
            exact ⟨hmemx, hdeg⟩
          · rw [if_neg hdi] at hTi
            obtain ⟨h1, h2, h3⟩ := hauxinv i T hTi
            exact ⟨h1, h2⟩
        · intro T hT hTres hTne
          refine ⟨hT, ?_⟩
          intro i hTi
          rw [hgetSet] at hTi
          by_cases hdi : d = i
          · rw [if_pos hdi] at hTi
            exact hTne (Option.some.inj hTi).symm
          · rw [if_neg hdi] at hTi
            exact hTres i hTi
        · intro T hT hTres
          refine ⟨hT, ?_, ?_⟩
          · intro i hTi
            by_cases hi : i = d
            · subst hi
              rw [hcase] at hTi
              cases hTi
            · exact hTres i (by
                rw [hgetSet, if_neg (fun he => hi he.symm)]
                exact hTi)
          · intro he
            apply hTres d
            rw [hgetSet, if_pos rfl, he]
      · obtain ⟨yt, csy⟩ := Ty
        have hlook : (if aux.length ≤ d then aux ++ List.replicate (d + 1 - aux.length) none
            else aux).getD d none = some yt := by
          rw [hlook0, hcase]
          rfl
        obtain ⟨hTyG, hTydeg0, hTyne⟩ := hauxinv d _ hcase
        have hTydeg : (s.getN yt).degree = d := hTydeg0
        have hxyne : x ≠ yt := by
          intro he
          exact hTyne (MTree.slots_disjoint hnd _ hTyG _ hmemx yt
            (MTree.top_mem_slots _) (by rw [he]; exact MTree.top_mem_slots _))
        have hstep : linkLoop s aux x d (f + 1) =
            linkLoop
              (s.link (if (s.getN yt).entry.2 < (s.getN x).entry.2 then (yt, x)
                else (x, yt)).2
                (if (s.getN yt).entry.2 < (s.getN x).entry.2 then (yt, x) else (x, yt)).1)
              ((if aux.length ≤ d then aux ++ List.replicate (d + 1 - aux.length) none
                else aux).set d none)
              (if (s.getN yt).entry.2 < (s.getN x).entry.2 then (yt, x) else (x, yt)).1
              (d + 1) f := by
          rw [linkLoop_succ, hlook]
        have hA2 : (if aux.length ≤ d then aux ++ List.replicate (d + 1 - aux.length) none
            else aux).set d none = ((if auxT.length ≤ d then
              auxT ++ List.replicate (d + 1 - auxT.length) none else auxT).set d
            none).map (Option.map MTree.top) := by
          rw [hpad, List.map_set]
          rfl
        have hauxinv2 : ∀ i T, ((if auxT.length ≤ d then
            auxT ++ List.replicate (d + 1 - auxT.length) none else auxT).set d
            none).getD i none = some T →
            auxT.getD i none = some T ∧ i ≠ d := by
          intro i T hTi
          rw [hgetSet] at hTi
          by_cases hdi : d = i
          · rw [if_pos hdi] at hTi
            cases hTi
          · rw [if_neg hdi] at hTi
            exact ⟨hTi, fun he => hdi he.symm⟩
        by_cases hcmp : (s.getN yt).entry.2 < (s.getN x).entry.2
        · -- the aux resident wins and receives x as a child
          have hstep1 : linkLoop s aux x d (f + 1) =
              linkLoop (s.link x yt)
                ((if aux.length ≤ d then aux ++ List.replicate (d + 1 - aux.length) none
                  else aux).set d none) yt (d + 1) f := by
            rw [hstep, if_pos hcmp]
          obtain ⟨G2, hGperm, hWnot, hLnot, hG2sub, hG2mem⟩ :=
            forest_split hnd hTyG hmemx hTyne
          have hLR : x ∈ R := hGtops _ hmemx
          obtain ⟨a, b, hReq⟩ := List.append_of_mem hLR
          subst hReq
          obtain ⟨l1, l2, l3, l4, l5, l6, l7, l8, l9, l10, l11, l12⟩ :=
            link_repr (x := yt) (y := x) hG hnd hb hTyG hmemx
              (Ne.symm hxyne) hR hndR hRtops (le_of_lt hcmp)
          have hG1 : ∀ T ∈ MTree.mk yt (csy ++ [MTree.mk x csx]) :: G2,
              TreeRepr (s.link x yt) T none := by
            intro T hT
            rcases List.mem_cons.1 hT with rfl | hT2
            · exact l1
            · exact l2 T (hG2sub T hT2) (fun he => hWnot (he ▸ hT2))
                (fun he => hLnot (he ▸ hT2))
          have hpermslots : (MTree.slotsF (MTree.mk yt (csy ++ [MTree.mk x csx]) ::
              G2)).Perm (MTree.slotsF G) := by
            rw [MTree.slotsF_cons, merged_slots]
            have h1 : (MTree.slotsF (MTree.mk yt csy :: MTree.mk x csx :: G2)).Perm
                (MTree.slotsF G) := (MTree.slotsF_perm hGperm).symm
            rw [MTree.slotsF_cons, MTree.slotsF_cons] at h1
            rw [List.append_assoc]
            exact h1
          have hnd1 : (MTree.slotsF (MTree.mk yt (csy ++ [MTree.mk x csx]) ::
              G2)).Nodup := hpermslots.symm.nodup hnd
          have hb1 : ∀ i ∈ MTree.slotsF (MTree.mk yt (csy ++ [MTree.mk x csx]) :: G2),
              i < (s.link x yt).nodes.length := by
            intro i hi
            rw [l12]
            exact hb i (hpermslots.mem_iff.1 hi)
          have htopsdist : ∀ T ∈ G, T ≠ MTree.mk yt csy → T.top ≠ yt := by
            intro T hT hne0
            exact tops_ne_of_ne hnd hT hTyG hne0
          have hauxinv1 : ∀ i T, ((if auxT.length ≤ d then
              auxT ++ List.replicate (d + 1 - auxT.length) none else auxT).set d
              none).getD i none = some T →
              T ∈ MTree.mk yt (csy ++ [MTree.mk x csx]) :: G2 ∧
              ((s.link x yt).getN T.top).degree = i ∧
              T ≠ MTree.mk yt (csy ++ [MTree.mk x csx]) := by
            intro i T hTi
            obtain ⟨hTi0, hid⟩ := hauxinv2 i T hTi
            obtain ⟨hTG, hTdeg, hTnex⟩ := hauxinv i T hTi0
            have hTneTy : T ≠ MTree.mk yt csy := by
              intro he
              subst he
              exact hid (hTdeg.symm.trans hTydeg)
            have hTneW : T ≠ MTree.mk yt csy := hTneTy
            have hTneL : T ≠ MTree.mk x csx := hTnex
            refine ⟨List.mem_cons_of_mem _ (hG2mem T hTG hTneW hTneL), ?_, ?_⟩
            · rw [l6 T.top (htopsdist T hTG hTneW)]
              exact hTdeg
            · intro he
              exact (htopsdist T hTG hTneW) (by rw [he, MTree.top_mk])
          have hndR1 : (a ++ b).Nodup := by
            have h0 : (a ++ x :: b).Perm (x :: (a ++ b)) := List.perm_middle
            exact (List.nodup_cons.1 (h0.nodup hndR)).2
          have hLnotab : x ∉ a ++ b := by
            have h0 : (a ++ x :: b).Perm (x :: (a ++ b)) := List.perm_middle
            exact (List.nodup_cons.1 (h0.nodup hndR)).1
          have hRtops1 : ∀ v ∈ a ++ b,
              ∃ T ∈ MTree.mk yt (csy ++ [MTree.mk x csx]) :: G2, T.top = v := by
            intro v hv
            have hvR : v ∈ a ++ x :: b := by
              rcases List.mem_append.1 hv with h0 | h0
              · exact List.mem_append_left _ h0
              · exact List.mem_append_right _ (List.mem_cons_of_mem _ h0)
            obtain ⟨T, hT, hTv⟩ := hRtops v hvR
            have hvneL : v ≠ x := fun he => hLnotab (he ▸ hv)
            by_cases hTW : T = MTree.mk yt csy
            · subst hTW
              exact ⟨_, List.mem_cons_self _ _, hTv⟩
            · have hTL : T ≠ MTree.mk x csx := by
                intro he
                subst he
                exact hvneL hTv.symm
              exact ⟨T, List.mem_cons_of_mem _ (hG2mem T hT hTW hTL), hTv⟩
          have hGtops1 : ∀ T ∈ MTree.mk yt (csy ++ [MTree.mk x csx]) :: G2,
              T.top ∈ a ++ b := by
            intro T hT
            rcases List.mem_cons.1 hT with rfl | hT2
            · have h0 : (MTree.mk yt csy).top ∈ a ++ x :: b := hGtops _ hTyG
              exact mem_remove_middle h0 (Ne.symm hxyne)
            · have hTG := hG2sub T hT2
              have hTneL : T ≠ MTree.mk x csx := fun he => hLnot (he ▸ hT2)
              exact mem_remove_middle (hGtops T hTG) (tops_ne_of_ne hnd hTG hmemx hTneL)
          have hdeg1 : ((s.link x yt).getN yt).degree = d + 1 := by
            rw [l5, hTydeg]
          have hfuel1 : (a ++ b).length < f := by
            have h0 : (a ++ x :: b).length = (a ++ b).length + 1 := by
              simp
              omega
            omega
          obtain ⟨auxT2, G2f, R2f, i1, i2, i3, i4, i5, i6, i7, i8, i9, i10, i11, i12,
            i13, i14, i15, i16⟩ :=
            ih (s.link x yt)
              ((if aux.length ≤ d then aux ++ List.replicate (d + 1 - aux.length) none
                else aux).set d none)
              ((if auxT.length ≤ d then auxT ++ List.replicate (d + 1 - auxT.length) none
                else auxT).set d none)
              yt (csy ++ [MTree.mk x csx]) (d + 1)
              (MTree.mk yt (csy ++ [MTree.mk x csx]) :: G2) (a ++ b)
              hA2 hG1 hnd1 hb1 (List.mem_cons_self _ _) hauxinv1 l3 hndR1 hRtops1
              hGtops1 hdeg1 hfuel1
          rw [hstep1]
          refine ⟨auxT2, G2f, R2f, i1, i2, i3.trans hpermslots, i4, i5, i6, i7, ?_, i9,
            ?_, ?_, ?_, ?_, ?_, ?_, ?_⟩
          · have h0 : (a ++ x :: b).length = (a ++ b).length + 1 := by
              simp
              omega
            omega
          · intro T hT hTres hTnex
            have hTneTy : T ≠ MTree.mk yt csy := by
              intro he
              exact hTres d (by rw [he]; exact hcase)
            have hTneW : T ≠ MTree.mk yt csy := hTneTy
            have hTneL : T ≠ MTree.mk x csx := hTnex
            have hT1 : T ∈ MTree.mk yt (csy ++ [MTree.mk x csx]) :: G2 :=
              List.mem_cons_of_mem _ (hG2mem T hT hTneW hTneL)
            have hTres1 : ∀ i, ((if auxT.length ≤ d then
                auxT ++ List.replicate (d + 1 - auxT.length) none else auxT).set d
                none).getD i none ≠ some T := by
              intro i hTi
              obtain ⟨hTi0, -⟩ := hauxinv2 i T hTi
              exact hTres i hTi0
            have hTnem : T ≠ MTree.mk yt (csy ++ [MTree.mk x csx]) := by
              intro he
              exact (htopsdist T hT hTneW) (by rw [he, MTree.top_mk])
            exact i10 T hT1 hTres1 hTnem
          · intro T hT hTres
            obtain ⟨hT1, hTres1, hTnem⟩ := i11 T hT hTres
            have hT2 : T ∈ G2 := by
              rcases List.mem_cons.1 hT1 with rfl | h0
              · exact absurd rfl hTnem
              · exact h0
            have hTG : T ∈ G := hG2sub T hT2
            have hTneW : T ≠ MTree.mk yt csy := fun he => hWnot (he ▸ hT2)
            have hTneL : T ≠ MTree.mk x csx := fun he => hLnot (he ▸ hT2)
            refine ⟨hTG, ?_, hTneL⟩
            intro i hTi
            by_cases hid : i = d
            · subst hid
              rw [hcase] at hTi
              exact hTneW ((Option.some.inj hTi).symm)
            · exact hTres1 i (by
                rw [hgetSet, if_neg (fun he => hid he.symm)]
                exact hTi)
          · intro j
            rw [i12 j, l4 j]
          · rw [i13, l9]
          · rw [i14, l10]
          · rw [i15, l11]
          · rw [i16, l12]
        · -- x wins and receives the aux resident as a child
          have hstep1 : linkLoop s aux x d (f + 1) =
              linkLoop (s.link yt x)
                ((if aux.length ≤ d then aux ++ List.replicate (d + 1 - aux.length) none
                  else aux).set d none) x (d + 1) f := by
            rw [hstep, if_neg hcmp]
          obtain ⟨G2, hGperm, hWnot, hLnot, hG2sub, hG2mem⟩ :=
            forest_split hnd hmemx hTyG (fun he => hTyne he.symm)
          have hLR : yt ∈ R := hGtops _ hTyG
          obtain ⟨a, b, hReq⟩ := List.append_of_mem hLR
          subst hReq
          obtain ⟨l1, l2, l3, l4, l5, l6, l7, l8, l9, l10, l11, l12⟩ :=
            link_repr (x := x) (y := yt) hG hnd hb hmemx hTyG
              hxyne hR hndR hRtops (le_of_not_lt hcmp)
          have hG1 : ∀ T ∈ MTree.mk x (csx ++ [MTree.mk yt csy]) :: G2,
              TreeRepr (s.link yt x) T none := by
            intro T hT
            rcases List.mem_cons.1 hT with rfl | hT2
            · exact l1
            · exact l2 T (hG2sub T hT2) (fun he => hWnot (he ▸ hT2))
                (fun he => hLnot (he ▸ hT2))
          have hpermslots : (MTree.slotsF (MTree.mk x (csx ++ [MTree.mk yt csy]) ::
              G2)).Perm (MTree.slotsF G) := by
            rw [MTree.slotsF_cons, merged_slots]
            have h1 : (MTree.slotsF (MTree.mk x csx :: MTree.mk yt csy :: G2)).Perm
                (MTree.slotsF G) := (MTree.slotsF_perm hGperm).symm
            rw [MTree.slotsF_cons, MTree.slotsF_cons] at h1
            rw [List.append_assoc]
            exact h1
          have hnd1 : (MTree.slotsF (MTree.mk x (csx ++ [MTree.mk yt csy]) ::
              G2)).Nodup := hpermslots.symm.nodup hnd
          have hb1 : ∀ i ∈ MTree.slotsF (MTree.mk x (csx ++ [MTree.mk yt csy]) :: G2),
              i < (s.link yt x).nodes.length := by
            intro i hi
            rw [l12]
            exact hb i (hpermslots.mem_iff.1 hi)
          have htopsdist : ∀ T ∈ G, T ≠ MTree.mk x csx → T.top ≠ x := by
            intro T hT hne0
            exact tops_ne_of_ne hnd hT hmemx hne0
          have hauxinv1 : ∀ i T, ((if auxT.length ≤ d then
              auxT ++ List.replicate (d + 1 - auxT.length) none else auxT).set d
              none).getD i none = some T →
              T ∈ MTree.mk x (csx ++ [MTree.mk yt csy]) :: G2 ∧
              ((s.link yt x).getN T.top).degree = i ∧
              T ≠ MTree.mk x (csx ++ [MTree.mk yt csy]) := by
            intro i T hTi
            obtain ⟨hTi0, hid⟩ := hauxinv2 i T hTi
            obtain ⟨hTG, hTdeg, hTnex⟩ := hauxinv i T hTi0
            have hTneTy : T ≠ MTree.mk yt csy := by
              intro he
              subst he
              exact hid (hTdeg.symm.trans hTydeg)
            have hTneW : T ≠ MTree.mk x csx := hTnex
            have hTneL : T ≠ MTree.mk yt csy := hTneTy
            refine ⟨List.mem_cons_of_mem _ (hG2mem T hTG hTneW hTneL), ?_, ?_⟩
            · rw [l6 T.top (htopsdist T hTG hTneW)]
              exact hTdeg
            · intro he
              exact (htopsdist T hTG hTneW) (by rw [he, MTree.top_mk])
          have hndR1 : (a ++ b).Nodup := by
            have h0 : (a ++ yt :: b).Perm (yt :: (a ++ b)) := List.perm_middle
            exact (List.nodup_cons.1 (h0.nodup hndR)).2
          have hLnotab : yt ∉ a ++ b := by
            have h0 : (a ++ yt :: b).Perm (yt :: (a ++ b)) := List.perm_middle
            exact (List.nodup_cons.1 (h0.nodup hndR)).1
          have hRtops1 : ∀ v ∈ a ++ b,
              ∃ T ∈ MTree.mk x (csx ++ [MTree.mk yt csy]) :: G2, T.top = v := by
            intro v hv
            have hvR : v ∈ a ++ yt :: b := by
              rcases List.mem_append.1 hv with h0 | h0
              · exact List.mem_append_left _ h0
              · exact List.mem_append_right _ (List.mem_cons_of_mem _ h0)
            obtain ⟨T, hT, hTv⟩ := hRtops v hvR
            have hvneL : v ≠ yt := fun he => hLnotab (he ▸ hv)
            by_cases hTW : T = MTree.mk x csx
            · subst hTW
              exact ⟨_, List.mem_cons_self _ _, hTv⟩
            · have hTL : T ≠ MTree.mk yt csy := by
                intro he
                subst he
                exact hvneL hTv.symm
              exact ⟨T, List.mem_cons_of_mem _ (hG2mem T hT hTW hTL), hTv⟩
          have hGtops1 : ∀ T ∈ MTree.mk x (csx ++ [MTree.mk yt csy]) :: G2,
              T.top ∈ a ++ b := by
            intro T hT
            rcases List.mem_cons.1 hT with rfl | hT2
            · have h0 : (MTree.mk x csx).top ∈ a ++ yt :: b := hGtops _ hmemx
              exact mem_remove_middle h0 hxyne
            · have hTG := hG2sub T hT2
              have hTneL : T ≠ MTree.mk yt csy := fun he => hLnot (he ▸ hT2)
              exact mem_remove_middle (hGtops T hTG) (tops_ne_of_ne hnd hTG hTyG hTneL)
          have hdeg1 : ((s.link yt x).getN x).degree = d + 1 := by
            rw [l5, hdeg]
          have hfuel1 : (a ++ b).length < f := by
            have h0 : (a ++ yt :: b).length = (a ++ b).length + 1 := by
              simp
              omega
            omega
          obtain ⟨auxT2, G2f, R2f, i1, i2, i3, i4, i5, i6, i7, i8, i9, i10, i11, i12,
            i13, i14, i15, i16⟩ :=
            ih (s.link yt x)
              ((if aux.length ≤ d then aux ++ List.replicate (d + 1 - aux.length) none
                else aux).set d none)
              ((if auxT.length ≤ d then auxT ++ List.replicate (d + 1 - auxT.length) none
                else auxT).set d none)
              x (csx ++ [MTree.mk yt csy]) (d + 1)
              (MTree.mk x (csx ++ [MTree.mk yt csy]) :: G2) (a ++ b)
              hA2 hG1 hnd1 hb1 (List.mem_cons_self _ _) hauxinv1 l3 hndR1 hRtops1
              hGtops1 hdeg1 hfuel1
          rw [hstep1]
          refine ⟨auxT2, G2f, R2f, i1, i2, i3.trans hpermslots, i4, i5, i6, i7, ?_, i9,
            ?_, ?_, ?_, ?_, ?_, ?_, ?_⟩
          · have h0 : (a ++ yt :: b).length = (a ++ b).length + 1 := by
              simp
              omega
            omega
          · intro T hT hTres hTnex
            have hTneTy : T ≠ MTree.mk yt csy := by
              intro he
              exact hTres d (by rw [he]; exact hcase)
            have hTneW : T ≠ MTree.mk x csx := hTnex
            have hTneL : T ≠ MTree.mk yt csy := hTneTy
            have hT1 : T ∈ MTree.mk x (csx ++ [MTree.mk yt csy]) :: G2 :=
              List.mem_cons_of_mem _ (hG2mem T hT hTneW hTneL)
            have hTres1 : ∀ i, ((if auxT.length ≤ d then
                auxT ++ List.replicate (d + 1 - auxT.length) none else auxT).set d
                none).getD i none ≠ some T := by
              intro i hTi
              obtain ⟨hTi0, -⟩ := hauxinv2 i T hTi
              exact hTres i hTi0
            have hTnem : T ≠ MTree.mk x (csx ++ [MTree.mk yt csy]) := by
              intro he
              exact (htopsdist T hT hTneW) (by rw [he, MTree.top_mk])
            exact i10 T hT1 hTres1 hTnem
          · intro T hT hTres
            obtain ⟨hT1, hTres1, hTnem⟩ := i11 T hT hTres
            have hT2 : T ∈ G2 := by
              rcases List.mem_cons.1 hT1 with rfl | h0
              · exact absurd rfl hTnem
              · exact h0
            have hTG : T ∈ G := hG2sub T hT2
            have hTneW : T ≠ MTree.mk x csx := fun he => hWnot (he ▸ hT2)
            have hTneL : T ≠ MTree.mk yt csy := fun he => hLnot (he ▸ hT2)
            refine ⟨hTG, ?_, hTneW⟩
            intro i hTi
            by_cases hid : i = d
            · subst hid
              rw [hcase] at hTi
              exact hTneL ((Option.some.inj hTi).symm)
            · exact hTres1 i (by
                rw [hgetSet, if_neg (fun he => hid he.symm)]
                exact hTi)
          · intro j
            rw [i12 j, l4 j]
          · rw [i13, l9]
          · rw [i14, l10]
          · rw [i15, l11]
          · rw [i16, l12]

/-- Unfolding of one outer consolidation step on an explicit pair. -/
theorem consolidateStep_eq (s : FibHeap K) (aux : List (Option Nat)) (r : Nat) :
    consolidateStep (s, aux) r =
      if (s.getN r).parent.isSome then (s, aux)
      else linkLoop s aux r ((s.getN r).degree) (s.nodes.length + 1) := rfl

/-- A `Forall₂` bundle localises to each right member. -/
theorem forall₂_mem_right {α β : Type} {P : α → β → Prop} :
    ∀ {l1 : List α} {l2 : List β}, List.Forall₂ P l1 l2 → ∀ b ∈ l2, ∃ a ∈ l1, P a b := by
  intro l1 l2 h
  induction h with
  | nil =>
      intro b hb
      cases hb
  | cons hP hF ih =>
      intro b hb
      rcases List.mem_cons.1 hb with rfl | hb2
      · exact ⟨_, List.mem_cons_self _ _, hP⟩
      · obtain ⟨a, ha, hPa⟩ := ih b hb2
        exact ⟨a, List.mem_cons_of_mem _ ha, hPa⟩

/-- A membership-aware implication between `Forall₂` bundles. -/
theorem forall₂_imp_mem {α β : Type} {P Q : α → β → Prop} :
    ∀ {l1 : List α} {l2 : List β}, List.Forall₂ P l1 l2 →
    (∀ a ∈ l1, ∀ b, P a b → Q a b) → List.Forall₂ Q l1 l2 := by
  intro l1 l2 h
  induction h with
  | nil =>
      intro _
      exact List.Forall₂.nil
  | cons hP hF ih =>
      intro himp
      exact List.Forall₂.cons (himp _ (List.mem_cons_self _ _) _ hP)
        (ih (fun a ha b hPb => himp a (List.mem_cons_of_mem _ ha) b hPb))

/-- The outer consolidation fold: processing a duplicate-free list of current
roots (each the top of a distinct rooted tree, none parked in the auxiliary
array) maintains the linking invariant, and any tree unparked at the end was
unparked at the start and was not one of the processed roots. -/
theorem consolidate_fold :
    ∀ (rs : List Nat) (s : FibHeap K) (aux : List (Option Nat))
      (auxT : List (Option MTree)) (G : List MTree) (R : List Nat) (Ts : List MTree),
    rs.Nodup →
    aux = auxT.map (Option.map MTree.top) →
    (∀ T ∈ G, TreeRepr s T none) →
    (MTree.slotsF G).Nodup →
    (∀ i ∈ MTree.slotsF G, i < s.nodes.length) →
    RingChain s R → R.Nodup →
    (∀ w ∈ R, ∃ T ∈ G, T.top = w) →
    (∀ T ∈ G, T.top ∈ R) →
    (∀ i T, auxT.getD i none = some T → T ∈ G ∧ (s.getN T.top).degree = i ∧ T ∉ Ts) →
    List.Forall₂ (fun r T => T ∈ G ∧ T.top = r ∧ (∀ i, auxT.getD i none ≠ some T)) rs Ts →
    ∃ (auxT' : List (Option MTree)) (G' : List MTree) (R' : List Nat),
      (rs.foldl consolidateStep (s, aux)).2 = auxT'.map (Option.map MTree.top) ∧
      (∀ T ∈ G', TreeRepr (rs.foldl consolidateStep (s, aux)).1 T none) ∧
      (MTree.slotsF G').Perm (MTree.slotsF G) ∧
      RingChain (rs.foldl consolidateStep (s, aux)).1 R' ∧
      R'.Nodup ∧
      (∀ w ∈ R', ∃ T ∈ G', T.top = w) ∧
      (∀ T ∈ G', T.top ∈ R') ∧
      R'.length ≤ R.length ∧
      (∀ i T, auxT'.getD i none = some T → T ∈ G' ∧
        ((rs.foldl consolidateStep (s, aux)).1.getN T.top).degree = i) ∧
      (∀ T ∈ G', (∀ i, auxT'.getD i none ≠ some T) →
        (T ∈ G ∧ (∀ i, auxT.getD i none ≠ some T) ∧ T ∉ Ts)) ∧
      (∀ j, ((rs.foldl consolidateStep (s, aux)).1.getN j).entry = (s.getN j).entry) ∧
      (rs.foldl consolidateStep (s, aux)).1.positions = s.positions ∧
      (rs.foldl consolidateStep (s, aux)).1.min_root = s.min_root ∧
      (rs.foldl consolidateStep (s, aux)).1.n = s.n ∧
      (rs.foldl consolidateStep (s, aux)).1.nodes.length = s.nodes.length := by
  intro rs
  induction rs with
  | nil =>
      intro s aux auxT G R Ts hrsnd haux hG hnd hb hR hndR hRtops hGtops hauxinv hTs
      have hTsnil : Ts = [] := by
        cases hTs
        rfl
      subst hTsnil
      exact ⟨auxT, G, R, haux, hG, List.Perm.refl _, hR, hndR, hRtops, hGtops,
        le_refl _, fun i T hTi => ⟨(hauxinv i T hTi).1, (hauxinv i T hTi).2.1⟩,
        fun T hT hunp => ⟨hT, hunp, fun hmem => by cases hmem⟩,
        fun j => rfl, rfl, rfl, rfl, rfl⟩
  | cons r rs' ih =>
      intro s aux auxT G R Ts hrsnd haux hG hnd hb hR hndR hRtops hGtops hauxinv hTs
      have hrnot : r ∉ rs' := (List.nodup_cons.1 hrsnd).1
      have hrsnd' : rs'.Nodup := (List.nodup_cons.1 hrsnd).2
      cases hTs with
      | cons hP hTs' =>
        rename_i T0 Ts'
        obtain ⟨hT0G, hT0top, hT0unp⟩ := hP
        obtain ⟨rt, cs0⟩ := T0
        have hrt : r = rt := hT0top.symm
        subst hrt
        have hpar0 : (s.getN r).parent = none := (hG _ hT0G).parent_top
        have hfold : (r :: rs').foldl consolidateStep (s, aux) =
            rs'.foldl consolidateStep (linkLoop s aux r ((s.getN r).degree)
              (s.nodes.length + 1)) := by
          rw [List.foldl_cons, consolidateStep_eq, if_neg (by rw [hpar0]; simp)]
        rw [hfold]
        have hRlen : R.length < s.nodes.length + 1 := by
          have h0 := nodup_bounded_length hndR (fun w hw => by
            obtain ⟨T, hT, hTw⟩ := hRtops w hw
            rw [← hTw]
            exact hb _ (MTree.top_mem_slotsF hT))
          omega
        have hTs'facts : ∀ T ∈ Ts', T ∈ G ∧ (∀ i, auxT.getD i none ≠ some T) ∧
            T ≠ MTree.mk r cs0 := by
          intro T hT
          obtain ⟨r', hr', hTG, hTtop, hTunp⟩ := forall₂_mem_right hTs' T hT
          refine ⟨hTG, hTunp, ?_⟩
          intro he
          apply hrnot
          have h0 : r' = r := by
            rw [← hTtop, he, MTree.top_mk]
          rw [← h0]
          exact hr'
        obtain ⟨auxT1, G1, R1, j1, j2, j3, j4, j5, j6, j7, j8, j9, j10, j11, j12, j13,
          j14, j15, j16⟩ :=
          linkLoop_spec (s.nodes.length + 1) s aux auxT r cs0 ((s.getN r).degree) G R
            haux hG hnd hb hT0G
            (fun i T hTi => ⟨(hauxinv i T hTi).1, (hauxinv i T hTi).2.1,
              fun he => (hauxinv i T hTi).2.2 (by
                rw [he]
                exact List.mem_cons_self _ _)⟩)
            hR hndR hRtops hGtops rfl hRlen
        have hnd1 : (MTree.slotsF G1).Nodup := j3.symm.nodup hnd
        have hb1 : ∀ i ∈ MTree.slotsF G1, i < (linkLoop s aux r ((s.getN r).degree)
            (s.nodes.length + 1)).1.nodes.length := by
          intro i hi
          rw [j16]
          exact hb i (j3.mem_iff.1 hi)
        have hauxinv1 : ∀ i T, auxT1.getD i none = some T →
            T ∈ G1 ∧ ((linkLoop s aux r ((s.getN r).degree)
              (s.nodes.length + 1)).1.getN T.top).degree = i ∧ T ∉ Ts' := by
          intro i T hTi
          obtain ⟨h1, h2⟩ := j9 i T hTi
          refine ⟨h1, h2, ?_⟩
          intro hmem
          obtain ⟨hTG, hTunp, hTne⟩ := hTs'facts T hmem
          obtain ⟨-, hTunp1⟩ := j10 T hTG hTunp hTne
          exact hTunp1 i hTi
        have hTs'new : List.Forall₂ (fun r' T => T ∈ G1 ∧ T.top = r' ∧
            (∀ i, auxT1.getD i none ≠ some T)) rs' Ts' := by
          refine forall₂_imp_mem hTs' ?_
          intro r' hr' T hPT
          obtain ⟨hTG, hTtop, hTunp⟩ := hPT
          have hTne : T ≠ MTree.mk r cs0 := by
            intro he
            apply hrnot
            have h0 : r' = r := by
              rw [← hTtop, he, MTree.top_mk]
            rw [← h0]
            exact hr'
          obtain ⟨h1, h2⟩ := j10 T hTG hTunp hTne
          exact ⟨h1, hTtop, h2⟩
        obtain ⟨auxT2, G2, R2, k1, k2, k3, k4, k5, k6, k7, k8, k9, k10, k11, k12, k13,
          k14, k15⟩ :=
          ih (linkLoop s aux r ((s.getN r).degree) (s.nodes.length + 1)).1
            (linkLoop s aux r ((s.getN r).degree) (s.nodes.length + 1)).2
            auxT1 G1 R1 Ts' hrsnd' j1 j2 hnd1 hb1 j4 j5 j6 j7 hauxinv1 hTs'new
        refine ⟨auxT2, G2, R2, k1, k2, k3.trans j3, k4, k5, k6, k7, le_trans k8 j8, k9,
          ?_, ?_, ?_, ?_, ?_, ?_⟩
        · intro T hT hunp
          obtain ⟨hTG1, hTunp1, hTnotTs'⟩ := k10 T hT hunp
          obtain ⟨hTG, hTunp0, hTne⟩ := j11 T hTG1 hTunp1
          refine ⟨hTG, hTunp0, ?_⟩
          intro hmem
          rcases List.mem_cons.1 hmem with rfl | h0
          · exact hTne rfl
          · exact hTnotTs' h0
        · intro j
          rw [k11 j, j12 j]
        · rw [k12, j13]
        · rw [k13, j14]
        · rw [k14, j15]
        · rw [k15, j16]
  
/-- One `some` entry of the rebuild fold: the parked root (its parent pointer
is already clear) is reset to a self-referencing singleton and spliced back
into the root ring, with `add_to_root` keeping the minimum at the ring's
designated head. -/
theorem rebuildStep_some_spec {s : FibHeap K} {idx : Nat} {cs : List MTree}
    {Facc : List MTree}
    (hT : TreeRepr s (MTree.mk idx cs) none)
    (hring : RingChain s (Facc.map MTree.top))
    (hmin : s.min_root = Facc.head?.map MTree.top)
    (hminhead : MinAtHead s Facc)
    (htrees : ∀ U ∈ Facc, TreeRepr s U none)
    (hnd : (MTree.slotsF (Facc ++ [MTree.mk idx cs])).Nodup) :
    ∃ F', F'.Perm (Facc ++ [MTree.mk idx cs]) ∧
      RingChain (s.rebuildStep (some idx)) (F'.map MTree.top) ∧
      (s.rebuildStep (some idx)).min_root = F'.head?.map MTree.top ∧
      MinAtHead (s.rebuildStep (some idx)) F' ∧
      (∀ U ∈ F', TreeRepr (s.rebuildStep (some idx)) U none) ∧
      (∀ j, ((s.rebuildStep (some idx)).getN j).parent = (s.getN j).parent ∧
        ((s.rebuildStep (some idx)).getN j).child = (s.getN j).child ∧
        ((s.rebuildStep (some idx)).getN j).mark = (s.getN j).mark ∧
        ((s.rebuildStep (some idx)).getN j).degree = (s.getN j).degree ∧
        ((s.rebuildStep (some idx)).getN j).entry = (s.getN j).entry) ∧
      (∀ j, j ∉ MTree.slotsF Facc → j ≠ idx →
        (s.rebuildStep (some idx)).getN j = s.getN j) ∧
      (s.rebuildStep (some idx)).positions = s.positions ∧
      (s.rebuildStep (some idx)).n = s.n ∧
      (s.rebuildStep (some idx)).nodes.length = s.nodes.length := by
  have hidxb : idx < s.nodes.length := hT.bound idx (MTree.top_mem_slots _)
  have hparidx : (s.getN idx).parent = none := hT.parent_top
  set sM := s.modifyN idx fun nd => { nd with left := idx, right := idx, parent := none }
    with hsM
  have hdef : s.rebuildStep (some idx) = sM.add_to_root idx := rfl
  have hlenM : sM.nodes.length = s.nodes.length := by rw [hsM]; simp
  have g_idx_M : sM.getN idx =
      { s.getN idx with left := idx, right := idx, parent := none } := by
    rw [hsM]; exact getN_modifyN_same _ _ _ hidxb
  have hframeM : ∀ j, j ≠ idx → sM.getN j = s.getN j := by
    intro j hj
    rw [hsM]; exact getN_modifyN_ne _ _ _ _ (Ne.symm hj)
  have fieldsM : ∀ j, (sM.getN j).parent = (s.getN j).parent ∧
      (sM.getN j).child = (s.getN j).child ∧ (sM.getN j).mark = (s.getN j).mark ∧
      (sM.getN j).degree = (s.getN j).degree ∧ (sM.getN j).entry = (s.getN j).entry := by
    intro j
    by_cases hj : j = idx
    · subst hj
      rw [g_idx_M, hparidx]
      exact ⟨rfl, rfl, rfl, rfl, rfl⟩
    · rw [hframeM j hj]
      exact ⟨rfl, rfl, rfl, rfl, rfl⟩
  have hndT : (MTree.mk idx cs).slots.Nodup :=
    MTree.nodup_slots_of_mem hnd (by simp)
  have hidxslotsT : idx ∈ MTree.slotsF [MTree.mk idx cs] := by
    rw [MTree.slotsF_cons]
    exact List.mem_append_left _ (MTree.top_mem_slots _)
  have hndsplit : (MTree.slotsF Facc).Nodup ∧ (MTree.slotsF [MTree.mk idx cs]).Nodup ∧
      ∀ x ∈ MTree.slotsF Facc, x ∉ MTree.slotsF [MTree.mk idx cs] := by
    rw [MTree.slotsF_append, List.nodup_append] at hnd
    exact ⟨hnd.1, hnd.2.1, fun x hx => hnd.2.2 hx⟩
  have hidxnotF : idx ∉ MTree.slotsF Facc := fun hmem => hndsplit.2.2 idx hmem hidxslotsT
  rcases Facc with _ | ⟨t0, F1⟩
  · have hmin0 : sM.min_root = none := by
      show s.min_root = none
      simpa using hmin
    have hB : sM.add_to_root idx = { sM with min_root := some idx } := by
      unfold add_to_root
      rw [hmin0]
    have hg : (s.rebuildStep (some idx)).getN idx =
        { s.getN idx with left := idx, right := idx, parent := none } := by
      rw [hdef, hB]
      show sM.getN idx = _
      exact g_idx_M
    refine ⟨[MTree.mk idx cs], List.Perm.refl _, ?_, ?_, ?_, ?_, ?_, ?_, ?_, ?_, ?_⟩
    · show List.Chain (adj (s.rebuildStep (some idx))) idx ([] ++ [idx])
      rw [List.nil_append, List.chain_cons]
      exact ⟨⟨by rw [hg], by rw [hg]⟩, List.Chain.nil⟩
    · rw [hdef, hB]
      rfl
    · intro h2 hh2 U hU
      obtain rfl := Option.some.inj (Option.mem_def.1 hh2)
      obtain rfl : U = MTree.mk idx cs := by simpa using hU
      exact le_refl _
    · intro U hU
      obtain rfl : U = MTree.mk idx cs := by simpa using hU
      refine TreeRepr.frameFine hT hndT ?_ ?_ ?_
      · intro x hx
        rw [hdef, hB]
        exact fieldsM x
      · intro x hx hxt
        have hxi : x ≠ idx := fun e => hxt (by rw [e, MTree.top_mk])
        rw [hdef, hB]
        show (sM.getN x).left = _ ∧ (sM.getN x).right = _
        rw [hframeM x hxi]
        exact ⟨rfl, rfl⟩
      · rw [hdef, hB]
        show s.nodes.length ≤ sM.nodes.length
        exact le_of_eq hlenM.symm
    · intro j
      rw [hdef, hB]
      exact fieldsM j
    · intro j hjF hji
      rw [hdef, hB]
      show sM.getN j = s.getN j
      exact hframeM j hji
    · rw [hdef, hB]
      show sM.positions = s.positions
      rw [hsM, modifyN_positions]
    · rw [hdef, hB]
      show sM.n = s.n
      rw [hsM, modifyN_n]
    · rw [hdef, hB]
      show sM.nodes.length = s.nodes.length
      exact hlenM
  · have hmins : s.min_root = some t0.top := by rw [hmin]; rfl
    have hminsM : sM.min_root = some t0.top := hmins
    have hFb : ∀ x ∈ MTree.slotsF (t0 :: F1), x < s.nodes.length := by
      intro x hx
      obtain ⟨U, hU, hxU⟩ := MTree.mem_slotsF_iff.1 hx
      exact (htrees U hU).bound x hxU
    have hmemring : ∀ x ∈ t0.top :: List.map MTree.top F1, x ∈ MTree.slotsF (t0 :: F1) := by
      intro x hx
      obtain ⟨U, hU, rfl⟩ := List.mem_map.1
        (show x ∈ List.map MTree.top (t0 :: F1) from hx)
      exact MTree.top_mem_slotsF hU
    have hboundring : ∀ x ∈ t0.top :: List.map MTree.top F1, x < s.nodes.length :=
      fun x hx => hFb x (hmemring x hx)
    have hringM : RingChain sM (t0.top :: List.map MTree.top F1) := by
      apply ringChain_frame ?_ hring
      intro x hx
      rw [hframeM x (fun e => hidxnotF (by rw [← e]; exact hmemring x hx))]
      exact ⟨rfl, rfl⟩
    have hndring : (t0.top :: List.map MTree.top F1).Nodup := tops_nodup hndsplit.1
    have hnotin : idx ∉ t0.top :: List.map MTree.top F1 :=
      fun hmem => hidxnotF (hmemring idx hmem)
    have hLmem : (sM.getN t0.top).left ∈ t0.top :: List.map MTree.top F1 :=
      ringChain_left_mem hringM
    have hLbound : (sM.getN t0.top).left < sM.nodes.length := by
      rw [hlenM]
      exact hboundring _ hLmem
    obtain ⟨hring4, hmin4, hfields4, hframe4⟩ := add_to_root_spec hminsM hringM hndring
      (by rw [hlenM]; exact hidxb)
      (by rw [hlenM]; exact hboundring t0.top (List.mem_cons_self _ _)) hLbound hnotin
    set sB := sM.add_to_root idx with hsB
    have hgetNfin : ∀ j, (s.rebuildStep (some idx)).getN j = sB.getN j := fun j => by
      rw [hdef]
    have fieldsB : ∀ j, ((s.rebuildStep (some idx)).getN j).parent = (s.getN j).parent ∧
        ((s.rebuildStep (some idx)).getN j).child = (s.getN j).child ∧
        ((s.rebuildStep (some idx)).getN j).mark = (s.getN j).mark ∧
        ((s.rebuildStep (some idx)).getN j).degree = (s.getN j).degree ∧
        ((s.rebuildStep (some idx)).getN j).entry = (s.getN j).entry := by
      intro j
      have h4 := hfields4 j
      have hM := fieldsM j
      rw [hgetNfin j]
      exact ⟨h4.1.trans hM.1, h4.2.1.trans hM.2.1, h4.2.2.1.trans hM.2.2.1,
        h4.2.2.2.1.trans hM.2.2.2.1, h4.2.2.2.2.trans hM.2.2.2.2⟩
    have hLtopU : ∃ u ∈ t0 :: F1, (sM.getN t0.top).left = u.top := by
      have hm2 : (sM.getN t0.top).left ∈ List.map MTree.top (t0 :: F1) := hLmem
      obtain ⟨u, hu, he⟩ := List.mem_map.1 hm2
      exact ⟨u, hu, he.symm⟩
    have hframeFull : ∀ j, j ∉ MTree.slotsF (t0 :: F1) → j ≠ idx →
        (s.rebuildStep (some idx)).getN j = s.getN j := by
      intro j hjF hji
      have hjh : j ≠ t0.top := fun e =>
        hjF (by rw [e]; exact MTree.top_mem_slotsF (List.mem_cons_self _ _))
      have hjL : j ≠ (sM.getN t0.top).left := by
        intro e
        obtain ⟨u, hu, he⟩ := hLtopU
        exact hjF (by rw [e, he]; exact MTree.top_mem_slotsF hu)
      rw [hgetNfin j, hframe4 j hji hjh hjL, hframeM j hji]
    have hlenfin : (s.rebuildStep (some idx)).nodes.length = s.nodes.length := by
      rw [hdef, hsB, add_to_root_length, hlenM]
    have hmin4' : sB.min_root =
        if (s.getN idx).entry.2 < (s.getN t0.top).entry.2 then some idx
        else some t0.top := by
      rw [hmin4, (fieldsM idx).2.2.2.2, (fieldsM t0.top).2.2.2.2]
    have hringfin : RingChain (s.rebuildStep (some idx))
        (t0.top :: (List.map MTree.top F1 ++ [idx])) := by
      apply ringChain_frame ?_ hring4
      intro x hx
      rw [hgetNfin x]
      exact ⟨rfl, rfl⟩
    have htreeT : TreeRepr (s.rebuildStep (some idx)) (MTree.mk idx cs) none := by
      refine TreeRepr.frameFine hT hndT ?_ ?_ (le_of_eq hlenfin.symm)
      · intro x hx
        exact fieldsB x
      · intro x hx hxt
        have hxi : x ≠ idx := fun e => hxt (by rw [e, MTree.top_mk])
        have hxF : x ∉ MTree.slotsF (t0 :: F1) := by
          intro hmem
          refine hndsplit.2.2 x hmem ?_
          rw [MTree.slotsF_cons]
          exact List.mem_append_left _ hx
        rw [hframeFull x hxF hxi]
        exact ⟨rfl, rfl⟩
    have htreeOld : ∀ U ∈ t0 :: F1, TreeRepr (s.rebuildStep (some idx)) U none := by
      intro U h0
      have hndU : U.slots.Nodup := MTree.nodup_slots_of_mem hndsplit.1 h0
      refine TreeRepr.frameFine (htrees U h0) hndU ?_ ?_ (le_of_eq hlenfin.symm)
      · intro x hx
        exact fieldsB x
      · intro x hx hxt
        have hxF : x ∈ MTree.slotsF (t0 :: F1) := MTree.mem_slotsF_of_mem h0 hx
        have hxi : x ≠ idx := fun e => hidxnotF (e ▸ hxF)
        have hxh : x ≠ t0.top := by
          intro he
          have hUeq : U = t0 := MTree.slots_disjoint hndsplit.1 U h0 t0
            (List.mem_cons_self _ _) x hx (by rw [he]; exact MTree.top_mem_slots t0)
          exact hxt (he.trans (congrArg MTree.top hUeq).symm)
        have hxL : x ≠ (sM.getN t0.top).left := by
          intro he
          obtain ⟨u, hu, heq⟩ := hLtopU
          have hUeq : U = u := MTree.slots_disjoint hndsplit.1 U h0 u hu x hx
            (by rw [he, heq]; exact MTree.top_mem_slots u)
          exact hxt ((he.trans heq).trans (congrArg MTree.top hUeq).symm)
        rw [hgetNfin x, hframe4 x hxi hxh hxL, hframeM x hxi]
        exact ⟨rfl, rfl⟩
    by_cases hlt : (s.getN idx).entry.2 < (s.getN t0.top).entry.2
    · refine ⟨MTree.mk idx cs :: t0 :: F1,
        @List.perm_append_comm MTree [MTree.mk idx cs] (t0 :: F1), ?_, ?_, ?_, ?_,
        fieldsB, hframeFull, ?_, ?_, hlenfin⟩
      · have h0 : RingChain (s.rebuildStep (some idx))
            ((t0.top :: List.map MTree.top F1) ++ idx :: []) := by
          simpa using hringfin
        have h1 := ringChain_rotate h0
        simpa using h1
      · rw [hdef, hmin4', if_pos hlt]
        rfl
      · intro h2 hh2 U hU
        obtain rfl := Option.some.inj (Option.mem_def.1 hh2)
        rcases List.mem_cons.1 hU with rfl | h0
        · exact le_refl _
        · show ((s.rebuildStep (some idx)).getN (MTree.mk idx cs).top).entry.2 ≤ _
          rw [MTree.top_mk, (fieldsB idx).2.2.2.2, (fieldsB U.top).2.2.2.2]
          exact le_trans (le_of_lt hlt) (hminhead t0 rfl U h0)
      · intro U hU
        rcases List.mem_cons.1 hU with rfl | h0
        · exact htreeT
        · exact htreeOld U h0
      · rw [hdef, hsB, add_to_root_positions, hsM, modifyN_positions]
      · rw [hdef, hsB, add_to_root_n, hsM, modifyN_n]
    · refine ⟨(t0 :: F1) ++ [MTree.mk idx cs], List.Perm.refl _, ?_, ?_, ?_, ?_,
        fieldsB, hframeFull, ?_, ?_, hlenfin⟩
      · have hmap : List.map MTree.top ((t0 :: F1) ++ [MTree.mk idx cs]) =
            t0.top :: (List.map MTree.top F1 ++ [idx]) := by
          simp
        rw [hmap]
        exact hringfin
      · rw [hdef, hmin4', if_neg hlt]
        rfl
      · intro h2 hh2 U hU
        obtain rfl := Option.some.inj (Option.mem_def.1 hh2)
        rcases List.mem_append.1 hU with h0 | h1
        · show ((s.rebuildStep (some idx)).getN t0.top).entry.2 ≤ _
          rw [(fieldsB t0.top).2.2.2.2, (fieldsB U.top).2.2.2.2]
          exact hminhead t0 rfl U h0
        · obtain rfl : U = MTree.mk idx cs := by simpa using h1
          show ((s.rebuildStep (some idx)).getN t0.top).entry.2 ≤
            ((s.rebuildStep (some idx)).getN (MTree.mk idx cs).top).entry.2
          rw [MTree.top_mk, (fieldsB t0.top).2.2.2.2, (fieldsB idx).2.2.2.2]
          exact le_of_not_lt hlt
      · intro U hU
        rcases List.mem_append.1 hU with h0 | h1
        · exact htreeOld U h0
        · obtain rfl : U = MTree.mk idx cs := by simpa using h1
          exact htreeT
      · rw [hdef, hsB, add_to_root_positions, hsM, modifyN_positions]
      · rw [hdef, hsB, add_to_root_n, hsM, modifyN_n]

/-- The root-ring rebuild fold of `consolidate`: every parked root is spliced
back into a fresh root ring whose designated head carries the smallest root
key; every tree, every entry, the position index and the counters survive. -/
theorem rebuild_fold :
    ∀ (qT : List (Option MTree)) (s : FibHeap K) (Facc : List MTree),
    RingChain s (Facc.map MTree.top) →
    s.min_root = Facc.head?.map MTree.top →
    MinAtHead s Facc →
    (∀ U ∈ Facc, TreeRepr s U none) →
    (∀ T ∈ qT.filterMap id, TreeRepr s T none) →
    (MTree.slotsF (Facc ++ qT.filterMap id)).Nodup →
    ∃ F', F'.Perm (Facc ++ qT.filterMap id) ∧
      RingChain ((qT.map (Option.map MTree.top)).foldl rebuildStep s)
        (F'.map MTree.top) ∧
      ((qT.map (Option.map MTree.top)).foldl rebuildStep s).min_root =
        F'.head?.map MTree.top ∧
      MinAtHead ((qT.map (Option.map MTree.top)).foldl rebuildStep s) F' ∧
      (∀ U ∈ F', TreeRepr ((qT.map (Option.map MTree.top)).foldl rebuildStep s) U none) ∧
      (∀ j, (((qT.map (Option.map MTree.top)).foldl rebuildStep s).getN j).parent =
          (s.getN j).parent ∧
        (((qT.map (Option.map MTree.top)).foldl rebuildStep s).getN j).child =
          (s.getN j).child ∧
        (((qT.map (Option.map MTree.top)).foldl rebuildStep s).getN j).mark =
          (s.getN j).mark ∧
        (((qT.map (Option.map MTree.top)).foldl rebuildStep s).getN j).degree =
          (s.getN j).degree ∧
        (((qT.map (Option.map MTree.top)).foldl rebuildStep s).getN j).entry =
          (s.getN j).entry) ∧
      ((qT.map (Option.map MTree.top)).foldl rebuildStep s).positions = s.positions ∧
      ((qT.map (Option.map MTree.top)).foldl rebuildStep s).n = s.n ∧
      ((qT.map (Option.map MTree.top)).foldl rebuildStep s).nodes.length =
        s.nodes.length := by
  intro qT
  induction qT with
  | nil =>
      intro s Facc hring hmin hminhead htrees hpend hnd
      exact ⟨Facc, by simpa using List.Perm.refl Facc, hring, hmin, hminhead, htrees,
        fun j => ⟨rfl, rfl, rfl, rfl, rfl⟩, rfl, rfl, rfl⟩
  | cons oT qT' ih =>
      intro s Facc hring hmin hminhead htrees hpend hnd
      cases oT with
      | none =>
          exact ih s Facc hring hmin hminhead htrees hpend hnd
      | some T =>
          obtain ⟨idx, cs⟩ := T
          have hTmem : MTree.mk idx cs ∈ (some (MTree.mk idx cs) :: qT').filterMap id :=
            List.mem_cons_self _ _
          have hT : TreeRepr s (MTree.mk idx cs) none := hpend _ hTmem
          have hndstep : (MTree.slotsF (Facc ++ [MTree.mk idx cs])).Nodup := by
            have hsub : List.Sublist (MTree.slotsF (Facc ++ [MTree.mk idx cs]))
                (MTree.slotsF (Facc ++ (some (MTree.mk idx cs) :: qT').filterMap id)) := by
              rw [MTree.slotsF_append, MTree.slotsF_append,
                MTree.slotsF_cons, MTree.slotsF_nil, List.append_nil,
                show (some (MTree.mk idx cs) :: qT').filterMap id =
                  MTree.mk idx cs :: qT'.filterMap id from rfl,
                MTree.slotsF_cons]
              exact (List.sublist_append_left _ _).append_left _
            exact hnd.sublist hsub
          obtain ⟨F1, p1, r1, m1, mh1, tr1, f1, fr1, pos1, n1, len1⟩ :=
            rebuildStep_some_spec hT hring hmin hminhead htrees hndstep
          have hlen1 : s.nodes.length = (s.rebuildStep (some idx)).nodes.length :=
            len1.symm
          have hpend' : ∀ U ∈ qT'.filterMap id,
              TreeRepr (s.rebuildStep (some idx)) U none := by
            intro U hU
            refine TreeRepr.frame (hpend U (List.mem_cons_of_mem _ hU)) ?_
              (le_of_eq hlen1)
            intro x hx
            have hxP : x ∈ MTree.slotsF (qT'.filterMap id) :=
              MTree.mem_slotsF_of_mem hU hx
            have hndsplit2 := hnd
            rw [MTree.slotsF_append,
              show (some (MTree.mk idx cs) :: qT').filterMap id =
                MTree.mk idx cs :: qT'.filterMap id from rfl,
              MTree.slotsF_cons, ← List.append_assoc, List.nodup_append] at hndsplit2
            have hxnotFT : x ∉ MTree.slotsF Facc ++ (MTree.mk idx cs).slots :=
              fun hmem => hndsplit2.2.2 hmem hxP
            refine fr1 x (fun hmem => hxnotFT (List.mem_append_left _ hmem)) ?_
            intro e
            exact hxnotFT (List.mem_append_right _
              (by rw [e]; exact MTree.top_mem_slots _))
          have hndrest : (MTree.slotsF (F1 ++ qT'.filterMap id)).Nodup := by
            have hperm : (F1 ++ qT'.filterMap id).Perm
                (Facc ++ (some (MTree.mk idx cs) :: qT').filterMap id) := by
              have h0 : (F1 ++ qT'.filterMap id).Perm
                  ((Facc ++ [MTree.mk idx cs]) ++ qT'.filterMap id) :=
                p1.append_right _
              refine h0.trans (List.Perm.of_eq ?_)
              rw [List.append_assoc]
              rfl
            exact ((MTree.slotsF_perm hperm).nodup_iff).2 hnd
          obtain ⟨F2, p2, r2, m2, mh2, tr2, f2, pos2, n2, len2⟩ :=
            ih (s.rebuildStep (some idx)) F1 r1 m1 mh1 tr1 hpend' hndrest
          have hfold : ((some (MTree.mk idx cs) :: qT').map
              (Option.map MTree.top)).foldl rebuildStep s =
              (qT'.map (Option.map MTree.top)).foldl rebuildStep
                (s.rebuildStep (some idx)) := rfl
          rw [hfold]
          refine ⟨F2, ?_, r2, m2, mh2, tr2, ?_, ?_, ?_, ?_⟩
          · refine p2.trans ?_
            have h0 : (F1 ++ qT'.filterMap id).Perm
                ((Facc ++ [MTree.mk idx cs]) ++ qT'.filterMap id) :=
              p1.append_right _
            refine h0.trans (List.Perm.of_eq ?_)
            rw [List.append_assoc]
            rfl
          · intro j
            have ha := f2 j
            have hb := f1 j
            exact ⟨ha.1.trans hb.1, ha.2.1.trans hb.2.1, ha.2.2.1.trans hb.2.2.1,
              ha.2.2.2.1.trans hb.2.2.2.1, ha.2.2.2.2.trans hb.2.2.2.2⟩
          · rw [pos2, pos1]
          · rw [n2, n1]
          · rw [len2, len1]

/-- Reading a `replicate none` array gives `none` everywhere. -/
theorem getD_replicate_none {α : Type} (k i : Nat) :
    (List.replicate k (none : Option α)).getD i none = none := by
  rw [List.getD_eq_getElem?_getD, List.getElem?_replicate]
  split_ifs <;> rfl

/-- A cell read via `getD` is one of the array's occupied cells. -/
theorem mem_filterMap_of_getD {α : Type} {l : List (Option α)} {i : Nat} {x : α}
    (h : l.getD i none = some x) : x ∈ l.filterMap id := by
  have hi : i < l.length := by
    by_contra hge
    rw [List.getD_eq_default _ _ (Nat.le_of_not_lt hge)] at h
    cases h
  rw [List.getD_eq_getElem l none hi] at h
  exact List.mem_filterMap.2 ⟨some x, h ▸ List.getElem_mem hi, rfl⟩

/-- An occupied cell is read by `getD` at some index. -/
theorem getD_of_mem_opt {α : Type} {l : List (Option α)} {x : α}
    (h : some x ∈ l) : ∃ i, l.getD i none = some x := by
  obtain ⟨i, hi, hx⟩ := List.mem_iff_getElem.1 h
  exact ⟨i, by rw [List.getD_eq_getElem l none hi, hx]⟩

/-- A degree-indexed scratch array (each resident's recorded degree is its
cell index, offset by `k`) holds pairwise distinct trees with pairwise
distinct recorded degrees, all at least `k`. -/
theorem aux_filterMap_facts (g : MTree → Nat) :
    ∀ (l : List (Option MTree)) (k : Nat),
    (∀ i T, l.getD i none = some T → g T = k + i) →
    (l.filterMap id).Nodup ∧ ((l.filterMap id).map g).Nodup ∧
      ∀ T ∈ l.filterMap id, k ≤ g T := by
  intro l
  induction l with
  | nil =>
      intro k h
      exact ⟨List.nodup_nil, List.nodup_nil, fun T hT => absurd hT (List.not_mem_nil T)⟩
  | cons o l' ihl =>
      intro k h
      have htail := ihl (k + 1) (fun i T hTi => by
        have h0 := h (i + 1) T (by rw [List.getD_cons_succ]; exact hTi)
        omega)
      cases o with
      | none =>
          exact ⟨htail.1, htail.2.1, fun T hT => by
            have h1 := htail.2.2 T hT
            omega⟩
      | some T0 =>
          have hgT0 : g T0 = k := by
            have h0 := h 0 T0 (by rw [List.getD_cons_zero])
            omega
          have hcons : (some T0 :: l').filterMap id = T0 :: l'.filterMap id := rfl
          rw [hcons]
          refine ⟨List.nodup_cons.2 ⟨?_, htail.1⟩, ?_, ?_⟩
          · intro hmem
            have h1 := htail.2.2 T0 hmem
            omega
          · rw [List.map_cons]
            refine List.nodup_cons.2 ⟨?_, htail.2.1⟩
            intro hmem
            obtain ⟨U, hU, hgU⟩ := List.mem_map.1 hmem
            have h1 := htail.2.2 U hU
            omega
          · intro T hT
            rcases List.mem_cons.1 hT with rfl | h0
            · omega
            · have h1 := htail.2.2 T h0
              omega

/-- A forest with duplicate-free slots lists pairwise distinct trees. -/
theorem nodup_of_slotsF_nodup {G : List MTree} (h : (MTree.slotsF G).Nodup) :
    G.Nodup := by
  induction G with
  | nil => exact List.nodup_nil
  | cons T ts ihl =>
      rw [MTree.slotsF_cons, List.nodup_append] at h
      refine List.nodup_cons.2 ⟨?_, ihl h.2.1⟩
      intro hmem
      exact h.2.2 (MTree.top_mem_slots T)
        (MTree.mem_slotsF_of_mem hmem (MTree.top_mem_slots T))

/-- `consolidate()` on a represented non-empty root forest: a new forest
occupying exactly the same arena slots represents the result, with the
smallest root key at the designated ring head; every entry, the position
index, the counters and the arena size are untouched, and no two of the new
roots share a degree. -/
theorem consolidate_spec {s : FibHeap K} {F : List MTree}
    (hring : RingChain s (F.map MTree.top))
    (hmin : s.min_root = F.head?.map MTree.top)
    (htrees : ∀ T ∈ F, TreeRepr s T none)
    (hnd : (MTree.slotsF F).Nodup)
    (hne : F ≠ []) :
    ∃ F', RingChain s.consolidate (F'.map MTree.top) ∧
      s.consolidate.min_root = F'.head?.map MTree.top ∧
      MinAtHead s.consolidate F' ∧
      (∀ T ∈ F', TreeRepr s.consolidate T none) ∧
      (MTree.slotsF F').Perm (MTree.slotsF F) ∧
      (F'.map fun T => (s.consolidate.getN T.top).degree).Nodup ∧
      (∀ j, (s.consolidate.getN j).entry = (s.getN j).entry) ∧
      s.consolidate.positions = s.positions ∧
      s.consolidate.n = s.n ∧
      s.consolidate.nodes.length = s.nodes.length := by
  obtain ⟨t0, F1, rfl⟩ : ∃ t0 F1, F = t0 :: F1 := by
    cases F with
    | nil => exact absurd rfl hne
    | cons a l => exact ⟨a, l, rfl⟩
  have hb : ∀ i ∈ MTree.slotsF (t0 :: F1), i < s.nodes.length := by
    intro i hi
    obtain ⟨U, hU, hiU⟩ := MTree.mem_slotsF_iff.1 hi
    exact (htrees U hU).bound i hiU
  have hmins : s.min_root = some t0.top := by rw [hmin]; rfl
  have hndtops : ((t0 :: F1).map MTree.top).Nodup := tops_nodup hnd
  have hringc : RingChain s (t0.top :: List.map MTree.top F1) := hring
  have hlenring : (t0.top :: List.map MTree.top F1).length ≤ s.nodes.length + 1 := by
    have h0 := nodup_bounded_length hndtops (fun w hw => by
      obtain ⟨U, hU, rfl⟩ := List.mem_map.1 hw
      exact hb U.top (MTree.top_mem_slotsF hU))
    exact Nat.le_succ_of_le h0
  have hroots : collectRing s t0.top (s.nodes.length + 1) t0.top =
      t0.top :: List.map MTree.top F1 :=
    collectRing_eq hringc hndtops hlenring
  have hdef : s.consolidate =
      ((collectRing s t0.top (s.nodes.length + 1) t0.top).foldl consolidateStep
        (s, List.replicate (log2Fuel s.n s.n + 2) none)).2.foldl rebuildStep
        { ((collectRing s t0.top (s.nodes.length + 1) t0.top).foldl consolidateStep
          (s, List.replicate (log2Fuel s.n s.n + 2) none)).1 with min_root := none } := by
    unfold consolidate
    rw [hmins]
  rw [hroots] at hdef
  have hTsGen : ∀ (l : List MTree), (∀ T ∈ l, T ∈ t0 :: F1) →
      List.Forall₂ (fun r T => T ∈ t0 :: F1 ∧ T.top = r ∧
        (∀ i, (List.replicate (log2Fuel s.n s.n + 2) (none : Option MTree)).getD i none ≠
          some T)) (l.map MTree.top) l := by
    intro l
    induction l with
    | nil => intro h; exact List.Forall₂.nil
    | cons U us ihl =>
        intro h
        refine List.Forall₂.cons ⟨h U (List.mem_cons_self _ _), rfl, ?_⟩
          (ihl fun V hV => h V (List.mem_cons_of_mem _ hV))
        intro i hTi
        rw [getD_replicate_none] at hTi
        cases hTi
  obtain ⟨auxT', G', R', c1, c2, c3, c4, c5, c6, c7, c8, c9, c10, c11, c12, c13, c14,
    c15⟩ :=
    consolidate_fold (t0.top :: List.map MTree.top F1) s
      (List.replicate (log2Fuel s.n s.n + 2) none)
      (List.replicate (log2Fuel s.n s.n + 2) none) (t0 :: F1)
      (t0.top :: List.map MTree.top F1) (t0 :: F1)
      hndtops
      (by rw [List.map_replicate]; rfl)
      htrees hnd hb hringc hndtops
      (fun w hw => by
        obtain ⟨T, hT, rfl⟩ := List.mem_map.1
          (show w ∈ List.map MTree.top (t0 :: F1) from hw)
        exact ⟨T, hT, rfl⟩)
      (fun T hT => List.mem_map_of_mem _ hT)
      (fun i T hTi => by rw [getD_replicate_none] at hTi; cases hTi)
      (hTsGen (t0 :: F1) (fun T hT => hT))
  set q := (t0.top :: List.map MTree.top F1).foldl consolidateStep
    (s, List.replicate (log2Fuel s.n s.n + 2) none) with hq
  have hGparked : ∀ T ∈ G', ∃ i, auxT'.getD i none = some T := by
    intro T hT
    by_contra hno
    push_neg at hno
    exact (c10 T hT hno).2.2 (c10 T hT hno).1
  have hslotsG' : (MTree.slotsF G').Nodup := c3.symm.nodup hnd
  have hG'nodup : G'.Nodup := nodup_of_slotsF_nodup hslotsG'
  obtain ⟨hPnd, hdegnd, -⟩ := aux_filterMap_facts (fun T => ((q.1).getN T.top).degree)
    auxT' 0 (fun i T hTi => by
      show ((q.1).getN T.top).degree = 0 + i
      have h0 := (c9 i T hTi).2
      omega)
  have hPG' : ∀ T ∈ auxT'.filterMap id, T ∈ G' := by
    intro T hT
    obtain ⟨o, ho, hoT⟩ := List.mem_filterMap.1 hT
    obtain rfl : o = some T := hoT
    obtain ⟨i, hi⟩ := getD_of_mem_opt ho
    exact (c9 i T hi).1
  have hG'P : ∀ T ∈ G', T ∈ auxT'.filterMap id := by
    intro T hT
    obtain ⟨i, hi⟩ := hGparked T hT
    exact mem_filterMap_of_getD hi
  have hpermGP : G'.Perm (auxT'.filterMap id) :=
    List.Subperm.antisymm (hG'nodup.subperm hG'P) (hPnd.subperm hPG')
  have hndP : (MTree.slotsF ([] ++ auxT'.filterMap id)).Nodup :=
    (MTree.slotsF_perm hpermGP).nodup hslotsG'
  obtain ⟨F', pF, rF, mF, mhF, trF, fF, posF, nF, lenF⟩ :=
    rebuild_fold auxT' ({ q.1 with min_root := none } : FibHeap K) []
      True.intro rfl
      (by intro h2 hh2; simp at hh2)
      (by intro U hU; cases hU)
      (by
        intro T hT
        exact TreeRepr.frame (c2 T (hPG' T hT)) (fun x hx => rfl) (le_refl _))
      hndP
  have hdegres : ∀ j, (s.consolidate.getN j).degree = ((q.1).getN j).degree := by
    intro j
    rw [hdef, c1]
    exact (fF j).2.2.2.1
  have hentres : ∀ j, (s.consolidate.getN j).entry = (s.getN j).entry := by
    intro j
    rw [hdef, c1]
    exact ((fF j).2.2.2.2).trans (c11 j)
  refine ⟨F', ?_, ?_, ?_, ?_, ?_, ?_, hentres, ?_, ?_, ?_⟩
  · rw [hdef, c1]
    exact rF
  · rw [hdef, c1]
    exact mF
  · rw [hdef, c1]
    exact mhF
  · intro T hT
    rw [hdef, c1]
    exact trF T hT
  · exact (MTree.slotsF_perm pF).trans (((MTree.slotsF_perm hpermGP).symm).trans c3)
  · have hmapeq : (F'.map fun T => (s.consolidate.getN T.top).degree) =
        F'.map fun T => ((q.1).getN T.top).degree :=
      List.map_congr_left (fun T hT => hdegres T.top)
    rw [hmapeq]
    exact ((pF.map (fun T => ((q.1).getN T.top).degree)).nodup_iff).2 hdegnd
  · rw [hdef, c1]
    exact posF.trans c12
  · rw [hdef, c1]
    exact nF.trans c14
  · rw [hdef, c1]
    exact lenF.trans c15

/-- Every tree occupies at least one slot. -/
theorem forest_length_le_slotsF : ∀ (F : List MTree), F.length ≤ (MTree.slotsF F).length := by
  intro F
  induction F with
  | nil => simp
  | cons T ts ihl =>
      obtain ⟨x, cs⟩ := T
      rw [MTree.slotsF_cons, MTree.slots_mk, List.cons_append, List.length_cons,
        List.length_cons, List.length_append]
      omega

/-- The extraction tail of `delete_min` (everything after the child
promotion), run from a state `u` whose root ring is `z :: tops Frest` with
the minimum at `z`: the returned entry is `z`'s, `z` is detached and its
position cleared, the counter drops by one, and the remainder — empty, or
consolidated from `z`'s right neighbour — is represented over exactly the
old slots minus `z`, with pairwise distinct root degrees. -/
theorem delete_min_tail {u : FibHeap K} {z : Nat} {Frest : List MTree}
    (hringu : RingChain u (z :: List.map MTree.top Frest))
    (hminu : u.min_root = some z)
    (htreesu : ∀ T ∈ Frest, TreeRepr u T none)
    (hndu : (z :: MTree.slotsF Frest).Nodup)
    (hbu : ∀ i ∈ z :: MTree.slotsF Frest, i < u.nodes.length)
    (hnu : u.n = (MTree.slotsF Frest).length + 1)
    (hfid1u : ∀ i ∈ z :: MTree.slotsF Frest, u.getP ((u.getN i).entry.1) = some i)
    (hfid2u : ∀ id idx, u.getP id = some idx →
      idx ∈ z :: MTree.slotsF Frest ∧ (u.getN idx).entry.1 = id) :
    let sB := u.detach z
    let sC : FibHeap K := { sB with n := sB.n - 1 }
    let sD : FibHeap K :=
      { sC with positions := sC.positions.set ((sC.getN z).entry.1) none }
    let sE := if sD.n = 0 then { sD with min_root := none }
      else (if sD.min_root = some z then
        { sD with min_root := some ((u.getN z).right) } else sD).consolidate
    ∃ F', FibRepr sE F' ∧
      (sC.getN z).entry = (u.getN z).entry ∧
      (MTree.slotsF F').Perm (MTree.slotsF Frest) ∧
      (∀ i ∈ MTree.slotsF F', (sE.getN i).entry = (u.getN i).entry) ∧
      sE.n = u.n - 1 ∧
      sE.nodes.length = u.nodes.length ∧
      (F'.map fun T => (sE.getN T.top).degree).Nodup := by
  intro sB sC sD sE
  have hzb : z < u.nodes.length := hbu z (List.mem_cons_self _ _)
  have hznot : z ∉ MTree.slotsF Frest := (List.nodup_cons.1 hndu).1
  have hndF : (MTree.slotsF Frest).Nodup := (List.nodup_cons.1 hndu).2
  obtain ⟨hBpos, hBmin, hBn, hBlen, -, -, -, hBfields, hBframe⟩ := detach_spec u z hzb
  have hbring : ∀ x ∈ z :: List.map MTree.top Frest, x < u.nodes.length := by
    intro x hx
    rcases List.mem_cons.1 hx with rfl | h0
    · exact hzb
    · obtain ⟨T, hT, rfl⟩ := List.mem_map.1 h0
      exact hbu _ (List.mem_cons_of_mem _ (MTree.top_mem_slotsF hT))
  have hndring : (z :: List.map MTree.top Frest).Nodup := by
    refine List.nodup_cons.2 ⟨?_, tops_nodup hndF⟩
    intro hmem
    obtain ⟨T, hT, hTe⟩ := List.mem_map.1 hmem
    exact hznot (hTe ▸ MTree.top_mem_slotsF hT)
  have hringB : RingChain sB (List.map MTree.top Frest) :=
    detach_ring_head hringu hndring hbring
  have hCentry : (sC.getN z).entry = (u.getN z).entry := (hBfields z).2.2.2.2
  have hDpos : sD.positions = u.positions.set ((u.getN z).entry.1) none := by
    show sC.positions.set ((sC.getN z).entry.1) none = _
    rw [hCentry]
    show sB.positions.set ((u.getN z).entry.1) none = _
    rw [hBpos]
  have hDn : sD.n = (MTree.slotsF Frest).length := by
    show sB.n - 1 = _
    rw [hBn, hnu]
    omega
  have hDlen : sD.nodes.length = u.nodes.length := hBlen
  have hDmin : sD.min_root = some z := by
    show sB.min_root = some z
    rw [hBmin, hminu]
  have hidzlt : (u.getN z).entry.1 < u.positions.length := by
    by_contra hge
    have h0 := hfid1u z (List.mem_cons_self _ _)
    rw [show u.getP ((u.getN z).entry.1) =
        u.positions.getD ((u.getN z).entry.1) none from rfl,
      List.getD_eq_default _ _ (Nat.le_of_not_lt hge)] at h0
    cases h0
  have htreesB : ∀ T ∈ Frest, TreeRepr sB T none := by
    intro T hT
    refine TreeRepr.frameFine (htreesu T hT) (MTree.nodup_slots_of_mem hndF hT) ?_ ?_
      (le_of_eq hBlen.symm)
    · intro x hx
      exact hBfields x
    · intro x hx hxt
      have hxF : x ∈ MTree.slotsF Frest := MTree.mem_slotsF_of_mem hT hx
      have hxz : x ≠ z := fun e => hznot (e ▸ hxF)
      have hxl : x ≠ (u.getN z).left := by
        intro e
        rcases List.mem_cons.1 (ringChain_left_mem hringu) with h0 | h0
        · exact hxz (e.trans h0)
        · obtain ⟨U, hU, hUe⟩ := List.mem_map.1 h0
          have hTeq : T = U := MTree.slots_disjoint hndF T hT U hU x hx
            (by rw [e, ← hUe]; exact MTree.top_mem_slots U)
          exact hxt ((e.trans hUe.symm).trans (congrArg MTree.top hTeq).symm)
      have hxr : x ≠ (u.getN z).right := by
        intro e
        rcases List.mem_cons.1 (ringChain_right_mem hringu) with h0 | h0
        · exact hxz (e.trans h0)
        · obtain ⟨U, hU, hUe⟩ := List.mem_map.1 h0
          have hTeq : T = U := MTree.slots_disjoint hndF T hT U hU x hx
            (by rw [e, ← hUe]; exact MTree.top_mem_slots U)
          exact hxt ((e.trans hUe.symm).trans (congrArg MTree.top hTeq).symm)
      rw [hBframe x hxz hxl hxr]
      exact ⟨rfl, rfl⟩
  by_cases hcase : sD.n = 0
  · have hslots0 : MTree.slotsF Frest = [] := by
      rw [hDn] at hcase
      exact List.length_eq_zero.1 hcase
    have hFrest0 : Frest = [] := by
      have h0 := forest_length_le_slotsF Frest
      rw [hslots0] at h0
      exact List.length_eq_zero.1 (Nat.le_zero.1 h0)
    subst hFrest0
    have hsE : sE = { sD with min_root := none } := by
      show (if sD.n = 0 then _ else _) = _
      rw [if_pos hcase]
    refine ⟨[], ⟨⟨?_, ?_, ?_, ?_, ?_, ?_, ?_⟩, ?_⟩, hCentry, ?_, ?_, ?_, ?_, ?_⟩
    · exact True.intro
    · rw [hsE]
      rfl
    · intro T hT
      exact absurd hT (List.not_mem_nil T)
    · exact List.nodup_nil
    · rw [hsE]
      exact hcase
    · intro i hi
      exact absurd hi (List.not_mem_nil i)
    · intro id idx hidx
      rw [hsE] at hidx
      have h0 : sD.getP id = some idx := hidx
      have h1 : sD.positions.getD id none = some idx := h0
      rw [hDpos, getD_setP] at h1
      by_cases he : (u.getN z).entry.1 = id
      · rw [if_pos ⟨he, by omega⟩] at h1
        cases h1
      · rw [if_neg (fun hc => he hc.1)] at h1
        obtain ⟨hmem, hent⟩ := hfid2u id idx h1
        rcases List.mem_cons.1 hmem with rfl | h2
        · exact absurd hent he
        · exact absurd h2 (List.not_mem_nil idx)
    · intro h2 hh2
      simp at hh2
    · exact List.Perm.refl _
    · intro i hi
      exact absurd hi (List.not_mem_nil i)
    · rw [hsE]
      show sB.n - 1 = u.n - 1
      rw [hBn]
    · rw [hsE]
      exact hDlen
    · exact List.nodup_nil
  · have hFne : Frest ≠ [] := by
      intro h0
      subst h0
      exact hcase (by rw [hDn]; rfl)
    obtain ⟨R0, Frest', rfl⟩ : ∃ R0 Frest', Frest = R0 :: Frest' := by
      cases Frest with
      | nil => exact absurd rfl hFne
      | cons a l => exact ⟨a, l, rfl⟩
    have hsucc : (u.getN z).right = R0.top := by
      have hchain : List.Chain (adj u) z ((R0.top :: List.map MTree.top Frest') ++ [z]) :=
        hringu
      rw [List.cons_append, List.chain_cons] at hchain
      exact hchain.1.1
    have hsE : sE = ({ sD with min_root := some ((u.getN z).right) } : FibHeap K).consolidate := by
      show (if sD.n = 0 then _ else _) = _
      rw [if_neg hcase, if_pos hDmin]
    obtain ⟨F', q1, q2, q3, q4, q5, q6, q7, q8, q9, q10⟩ :=
      consolidate_spec (s := { sD with min_root := some ((u.getN z).right) })
        (F := R0 :: Frest')
        (show RingChain _ (List.map MTree.top (R0 :: Frest')) from hringB)
        (by
          show some ((u.getN z).right) = some R0.top
          rw [hsucc])
        (fun T hT => TreeRepr.frame (htreesB T hT) (fun x hx => rfl) (le_refl _))
        hndF (List.cons_ne_nil _ _)
    have hentE : ∀ j, (sE.getN j).entry = (u.getN j).entry := by
      intro j
      rw [hsE]
      exact (q7 j).trans ((hBfields j).2.2.2.2)
    have hposE : sE.positions = u.positions.set ((u.getN z).entry.1) none := by
      rw [hsE]
      exact q8.trans hDpos
    have hnE : sE.n = (MTree.slotsF (R0 :: Frest')).length := by
      rw [hsE]
      exact q9.trans hDn
    have hlenE : sE.nodes.length = u.nodes.length := by
      rw [hsE]
      exact q10.trans hDlen
    have hgetPE : ∀ id, sE.getP id =
        if (u.getN z).entry.1 = id then none else u.getP id := by
      intro id
      show sE.positions.getD id none = _
      rw [hposE, getD_setP]
      by_cases he : (u.getN z).entry.1 = id
      · rw [if_pos ⟨he, by omega⟩, if_pos he]
      · rw [if_neg (fun hc => he hc.1), if_neg he]
        rfl
    refine ⟨F', ⟨⟨?_, ?_, ?_, ?_, ?_, ?_, ?_⟩, ?_⟩, hCentry, q5, ?_, ?_, hlenE, ?_⟩
    · rw [hsE]
      exact q1
    · rw [hsE]
      exact q2
    · intro T hT
      rw [hsE]
      exact q4 T hT
    · exact q5.symm.nodup hndF
    · rw [hnE, q5.length_eq]
    · intro i hi
      have hiF : i ∈ MTree.slotsF (R0 :: Frest') := q5.mem_iff.1 hi
      have hidne : (u.getN i).entry.1 ≠ (u.getN z).entry.1 := by
        intro he
        have h1 := hfid1u i (List.mem_cons_of_mem _ hiF)
        have h2 := hfid1u z (List.mem_cons_self _ _)
        rw [he, h2] at h1
        obtain rfl : i = z := (Option.some.inj h1).symm
        exact hznot hiF
      rw [hentE i, hgetPE]
      rw [if_neg (fun hc => hidne hc.symm)]
      exact hfid1u i (List.mem_cons_of_mem _ hiF)
    · intro id idx hidx
      rw [hgetPE] at hidx
      by_cases he : (u.getN z).entry.1 = id
      · rw [if_pos he] at hidx
        cases hidx
      · rw [if_neg he] at hidx
        obtain ⟨hmem, hent⟩ := hfid2u id idx hidx
        rcases List.mem_cons.1 hmem with rfl | h0
        · exact absurd hent he
        · exact ⟨q5.mem_iff.2 h0, by rw [hentE idx]; exact hent⟩
    · rw [hsE]
      exact q3
    · intro i hi
      exact hentE i
    · rw [hnE, hnu]
      omega
    · rw [hsE]
      exact q6

/-- `delete_min` on a represented non-empty heap: it returns the designated
minimum root's entry, removes exactly that node (counter down by one, its
position cleared, every other entry intact), and leaves a represented heap
whose root degrees are pairwise distinct. -/
theorem delete_min_spec {s : FibHeap K} {z : Nat} {cs F1 : List MTree}
    (hrep : FibRepr s (MTree.mk z cs :: F1)) :
    ∃ F', FibRepr (s.delete_min).2 F' ∧
      (s.delete_min).1 = some (s.getN z).entry ∧
      (MTree.slotsF F').Perm (MTree.slotsF cs ++ MTree.slotsF F1) ∧
      (∀ i ∈ MTree.slotsF F', ((s.delete_min).2.getN i).entry = (s.getN i).entry) ∧
      (s.delete_min).2.n = s.n - 1 ∧
      (s.delete_min).2.nodes.length = s.nodes.length ∧
      (F'.map fun T => ((s.delete_min).2.getN T.top).degree).Nodup := by
  obtain ⟨⟨hring, hmin, htrees, hnd, hn, hfid1, hfid2⟩, hminhead⟩ := hrep
  have hz : s.min_root = some z := by rw [hmin]; rfl
  obtain ⟨hzb, hparz, hdegz, hchildz, hringcs, hkeysz, hreccs⟩ :=
    TreeRepr.inv (htrees _ (List.mem_cons_self _ _))
  have hndz : (z :: (MTree.slotsF cs ++ MTree.slotsF F1)).Nodup := by
    have h0 := hnd
    rw [MTree.slotsF_cons, MTree.slots_mk, List.cons_append] at h0
    exact h0
  have hb : ∀ i ∈ MTree.slotsF (MTree.mk z cs :: F1), i < s.nodes.length :=
    FibReprCore.slots_lt ⟨hring, hmin, htrees, hnd, hn, hfid1, hfid2⟩
  have hbz : ∀ i ∈ z :: (MTree.slotsF cs ++ MTree.slotsF F1), i < s.nodes.length := by
    intro i hi
    refine hb i ?_
    rw [MTree.slotsF_cons, MTree.slots_mk, List.cons_append]
    exact hi
  have hnz : s.n = (MTree.slotsF cs ++ MTree.slotsF F1).length + 1 := by
    rw [hn, MTree.slotsF_cons, MTree.slots_mk, List.cons_append, List.length_cons]
  have hfid1z : ∀ i ∈ z :: (MTree.slotsF cs ++ MTree.slotsF F1),
      s.getP ((s.getN i).entry.1) = some i := by
    intro i hi
    refine hfid1 i ?_
    rw [MTree.slotsF_cons, MTree.slots_mk, List.cons_append]
    exact hi
  have hfid2z : ∀ id idx, s.getP id = some idx →
      idx ∈ z :: (MTree.slotsF cs ++ MTree.slotsF F1) ∧ (s.getN idx).entry.1 = id := by
    intro id idx hidx
    obtain ⟨hmem, hent⟩ := hfid2 id idx hidx
    rw [MTree.slotsF_cons, MTree.slots_mk, List.cons_append] at hmem
    exact ⟨hmem, hent⟩
  have hfinish : ∀ (u : FibHeap K) (Frest : List MTree),
      s.delete_min =
        (let sB := u.detach z
         let sC : FibHeap K := { sB with n := sB.n - 1 }
         let sD : FibHeap K :=
           { sC with positions := sC.positions.set ((sC.getN z).entry.1) none }
         let sE := if sD.n = 0 then { sD with min_root := none }
           else (if sD.min_root = some z then
             { sD with min_root := some ((u.getN z).right) } else sD).consolidate
         ((some ((sC.getN z).entry) : Option (Nat × K)), sE)) →
      RingChain u (z :: List.map MTree.top Frest) →
      u.min_root = some z →
      (∀ T ∈ Frest, TreeRepr u T none) →
      (z :: MTree.slotsF Frest).Nodup →
      (∀ i ∈ z :: MTree.slotsF Frest, i < u.nodes.length) →
      (∀ j, (u.getN j).entry = (s.getN j).entry) →
      u.positions = s.positions →
      u.n = s.n →
      u.nodes.length = s.nodes.length →
      (MTree.slotsF Frest).Perm (MTree.slotsF cs ++ MTree.slotsF F1) →
      (∃ F', FibRepr (s.delete_min).2 F' ∧
        (s.delete_min).1 = some (s.getN z).entry ∧
        (MTree.slotsF F').Perm (MTree.slotsF cs ++ MTree.slotsF F1) ∧
        (∀ i ∈ MTree.slotsF F', ((s.delete_min).2.getN i).entry = (s.getN i).entry) ∧
        (s.delete_min).2.n = s.n - 1 ∧
        (s.delete_min).2.nodes.length = s.nodes.length ∧
        (F'.map fun T => ((s.delete_min).2.getN T.top).degree).Nodup) := by
    intro u Frest hDMeq huring humin hutrees hund hub huentry hupos hun hulen hperm
    have hugetP : ∀ id, u.getP id = s.getP id := by
      intro id
      show u.positions.getD id none = s.positions.getD id none
      rw [hupos]
    have hfid1u : ∀ i ∈ z :: MTree.slotsF Frest,
        u.getP ((u.getN i).entry.1) = some i := by
      intro i hi
      rw [huentry i, hugetP]
      refine hfid1z i ?_
      rcases List.mem_cons.1 hi with rfl | h0
      · exact List.mem_cons_self _ _
      · exact List.mem_cons_of_mem _ (hperm.mem_iff.1 h0)
    have hfid2u : ∀ id idx, u.getP id = some idx →
        idx ∈ z :: MTree.slotsF Frest ∧ (u.getN idx).entry.1 = id := by
      intro id idx hidx
      rw [hugetP] at hidx
      obtain ⟨hmem, hent⟩ := hfid2z id idx hidx
      refine ⟨?_, by rw [huentry idx]; exact hent⟩
      rcases List.mem_cons.1 hmem with rfl | h0
      · exact List.mem_cons_self _ _
      · exact List.mem_cons_of_mem _ (hperm.mem_iff.2 h0)
    have hnu : u.n = (MTree.slotsF Frest).length + 1 := by
      rw [hun, hnz, hperm.length_eq]
    obtain ⟨F', hFR, hCent, hslots, hentE, hnE, hlenE, hdegE⟩ :=
      delete_min_tail huring humin hutrees hund hub hnu hfid1u hfid2u
    refine ⟨F', ?_, ?_, hslots.trans hperm, ?_, ?_, ?_, ?_⟩
    · rw [hDMeq]
      exact hFR
    · rw [hDMeq]
      exact congrArg some (hCent.trans (huentry z))
    · intro i hi
      rw [hDMeq]
      exact (hentE i hi).trans (huentry i)
    · rw [hDMeq]
      exact hnE.trans (by rw [hun])
    · rw [hDMeq]
      exact hlenE.trans hulen
    · rw [hDMeq]
      exact hdegE
  rcases cs with _ | ⟨c0, cs'⟩
  · have hchild0 : (s.getN z).child = none := by rw [hchildz]; rfl
    refine hfinish s F1 ?_ hring hz
      (fun T hT => htrees T (List.mem_cons_of_mem _ hT)) hndz hbz
      (fun j => rfl) rfl rfl rfl (List.Perm.refl _)
    unfold delete_min
    rw [hz]
    dsimp only
    rw [hchild0]
  · obtain ⟨ct, csc⟩ := c0
    have hchildc : (s.getN z).child = some ct := by rw [hchildz]; rfl
    have hndkids : (MTree.slotsF (MTree.mk ct csc :: cs')).Nodup := by
      have h0 := (List.nodup_cons.1 hndz).2
      exact (List.nodup_append.1 h0).1
    have hbkids : ∀ x ∈ MTree.slotsF (MTree.mk ct csc :: cs'), x < s.nodes.length := by
      intro x hx
      exact hbz x (List.mem_cons_of_mem _ (List.mem_append_left _ hx))
    have hfuel : (MTree.mk ct csc :: cs').length ≤ s.nodes.length + 1 := by
      have h1 := forest_length_le_slotsF (MTree.mk ct csc :: cs')
      have h2 := nodup_bounded_length hndkids hbkids
      omega
    have hringroot : RingChain s (z :: (List.map MTree.top F1 ++
        List.map MTree.top ([] : List MTree))) := by
      have h0 : RingChain s (z :: List.map MTree.top F1) := hring
      simpa using h0
    have htreesO : ∀ T ∈ F1 ++ ([] : List MTree), TreeRepr s T none := by
      intro T hT
      rw [List.append_nil] at hT
      exact htrees T (List.mem_cons_of_mem _ hT)
    have hndAll : (z :: (MTree.slotsF (MTree.mk ct csc :: cs') ++ MTree.slotsF F1 ++
        MTree.slotsF ([] : List MTree))).Nodup := by
      rw [MTree.slotsF_nil, List.append_nil]
      exact hndz
    have hballAll : ∀ i ∈ z :: (MTree.slotsF (MTree.mk ct csc :: cs') ++
        MTree.slotsF F1 ++ MTree.slotsF ([] : List MTree)), i < s.nodes.length := by
      intro i hi
      rw [MTree.slotsF_nil, List.append_nil] at hi
      exact hbz i hi
    obtain ⟨p1, p2, p3, p4, p5, p6, p7⟩ :=
      promoteChildren_go cs' ct csc s [] (s.nodes.length + 1) hfuel hringroot hz
        hringcs htreesO hreccs hndAll hballAll hkeysz
    refine hfinish ((s.promoteChildren ct (s.nodes.length + 1)).modifyN z fun nd =>
        { nd with child := none }) (F1 ++ (MTree.mk ct csc :: cs'))
      ?_ ?_ ?_ ?_ ?_ ?_ ?_ ?_ ?_ ?_ ?_
    · unfold delete_min
      rw [hz]
      dsimp only
      rw [hchildc]
    · apply ringChain_frame ?_ (show RingChain (s.promoteChildren ct (s.nodes.length + 1))
          (z :: List.map MTree.top (F1 ++ (MTree.mk ct csc :: cs'))) from by
        rw [List.map_append]
        exact p1)
      intro x hx
      exact ⟨modifyN_preserves_left (s.promoteChildren ct (s.nodes.length + 1)) z
          (fun nd => { nd with child := none }) (fun nd => rfl) x,
        modifyN_preserves_right (s.promoteChildren ct (s.nodes.length + 1)) z
          (fun nd => { nd with child := none }) (fun nd => rfl) x⟩
    · show (s.promoteChildren ct (s.nodes.length + 1)).min_root = some z
      exact p2
    · intro T hT
      have hT0 : T ∈ F1 ++ ([] ++ (MTree.mk ct csc :: cs')) := hT
      refine TreeRepr.frame (p3 T hT0) ?_
        (le_of_eq (length_modifyN (s.promoteChildren ct (s.nodes.length + 1)) z
          (fun nd => { nd with child := none })).symm)
      intro x hx
      have hxmem : x ∈ MTree.slotsF (MTree.mk ct csc :: cs') ++ MTree.slotsF F1 := by
        rcases List.mem_append.1 hT with h1 | h1
        · exact List.mem_append_right _ (MTree.mem_slotsF_of_mem h1 hx)
        · exact List.mem_append_left _ (MTree.mem_slotsF_of_mem h1 hx)
      have hxz : x ≠ z := by
        intro e
        exact (List.nodup_cons.1 hndz).1 (e ▸ hxmem)
      exact getN_modifyN_ne _ _ _ _ (Ne.symm hxz)
    · rw [MTree.slotsF_append]
      exact (List.Perm.cons z List.perm_append_comm).nodup hndz
    · intro i hi
      rw [MTree.slotsF_append] at hi
      have h0 : i < s.nodes.length := by
        rcases List.mem_cons.1 hi with rfl | h1
        · exact hzb
        · exact hbz i (List.mem_cons_of_mem _ (List.perm_append_comm.mem_iff.1 h1))
      rw [length_modifyN, p7]
      exact h0
    · intro j
      rw [modifyN_preserves_entry (s.promoteChildren ct (s.nodes.length + 1)) z
        (fun nd => { nd with child := none }) (fun nd => rfl) j, p4 j]
    · show (s.promoteChildren ct (s.nodes.length + 1)).positions = s.positions
      exact p5
    · show (s.promoteChildren ct (s.nodes.length + 1)).n = s.n
      exact p6
    · rw [length_modifyN]
      exact p7
    · rw [MTree.slotsF_append]
      exact List.perm_append_comm

/-- Pulling a block over another in an append is a permutation. -/
theorem perm_pull_middle {α : Type} (l m r : List α) :
    List.Perm (l ++ (m ++ r)) (m ++ (l ++ r)) := by
  have h1 : l ++ (m ++ r) = (l ++ m) ++ r := (List.append_assoc _ _ _).symm
  have h2 : (m ++ l) ++ r = m ++ (l ++ r) := List.append_assoc _ _ _
  rw [h1, ← h2]
  exact List.Perm.append_right r List.perm_append_comm

/-- Subtree surgery never removes the root. -/
theorem cutAt_top_eq : ∀ {T : MTree} {x p : Nat} {T' X : MTree},
    CutAt T x p T' X → T'.top = T.top := by
  intro T x p T' X h
  cases h with
  | head => rfl
  | middle => rfl
  | deep h0 => rfl

/-- Subtree surgery redistributes the slots: the removed subtree and the
pruned tree together occupy exactly the old tree's slots. -/
theorem cutAt_slots_perm : ∀ {T : MTree} {x p : Nat} {T' X : MTree},
    CutAt T x p T' X → (X.slots ++ T'.slots).Perm T.slots := by
  intro T x p T' X h
  induction h with
  | head =>
      rename_i w b X
      rw [MTree.slots_mk, MTree.slots_mk, MTree.slotsF_cons]
      exact List.perm_middle
  | middle =>
      rename_i w a0 a b X
      rw [MTree.slots_mk, MTree.slots_mk, MTree.slotsF_cons, MTree.slotsF_cons,
        MTree.slotsF_append, MTree.slotsF_append, MTree.slotsF_cons]
      refine List.Perm.trans List.perm_middle (List.Perm.cons w ?_)
      have h1 : X.slots ++ (a0.slots ++ (MTree.slotsF a ++ MTree.slotsF b)) =
          X.slots ++ ((a0.slots ++ MTree.slotsF a) ++ MTree.slotsF b) := by
        rw [List.append_assoc]
      have h2 : a0.slots ++ (MTree.slotsF a ++ (X.slots ++ MTree.slotsF b)) =
          (a0.slots ++ MTree.slotsF a) ++ (X.slots ++ MTree.slotsF b) := by
        rw [List.append_assoc]
      rw [h1, h2]
      exact perm_pull_middle _ _ _
  | deep h0 ih =>
      rename_i w a b C C' X x p
      rw [MTree.slots_mk, MTree.slots_mk, MTree.slotsF_append, MTree.slotsF_append,
        MTree.slotsF_cons, MTree.slotsF_cons]
      refine List.Perm.trans List.perm_middle (List.Perm.cons w ?_)
      refine List.Perm.trans (perm_pull_middle _ _ _) ?_
      refine List.Perm.append_left (MTree.slotsF a) ?_
      have h1 : X.slots ++ (C'.slots ++ MTree.slotsF b) =
          (X.slots ++ C'.slots) ++ MTree.slotsF b := (List.append_assoc _ _ _).symm
      rw [h1]
      exact List.Perm.append_right _ ih

theorem TreeReprExc.invE {s : FibHeap K} {bad x : Nat} {cs : List MTree}
    {po : Option Nat} (h : TreeReprExc s bad (MTree.mk x cs) po) :
    x < s.nodes.length ∧ (s.getN x).parent = po ∧ (s.getN x).degree = cs.length ∧
    (s.getN x).child = cs.head?.map MTree.top ∧ RingChain s (cs.map MTree.top) ∧
    (∀ c ∈ cs, c.top ≠ bad → (s.getN x).entry.2 ≤ (s.getN c.top).entry.2) ∧
    (∀ c ∈ cs, TreeReprExc s bad c (some x)) := by
  cases h with
  | mk h1 h2 h3 h4 h5 h6 h7 => exact ⟨h1, h2, h3, h4, h5, h6, h7⟩

theorem TreeReprExc.parent_topE {s : FibHeap K} {bad : Nat} {t : MTree}
    {po : Option Nat} (h : TreeReprExc s bad t po) : (s.getN t.top).parent = po := by
  cases h; assumption

/-- A fully heap-ordered tree is in particular heap-ordered away from any
designated slot. -/
theorem treeRepr_exc_of {s : FibHeap K} {bad : Nat} {t : MTree} {po : Option Nat}
    (h : TreeRepr s t po) : TreeReprExc s bad t po := by
  induction h with
  | mk hx hpar hdeg hchild hring hkeys hrec ih =>
      exact TreeReprExc.mk hx hpar hdeg hchild hring (fun c hc _ => hkeys c hc)
        (fun c hc => ih c hc)

/-- A tree that does not contain the waived slot is fully heap-ordered. -/
theorem treeReprExc_full {s : FibHeap K} {bad : Nat} {t : MTree} {po : Option Nat}
    (h : TreeReprExc s bad t po) : bad ∉ t.slots → TreeRepr s t po := by
  induction h with
  | mk hx hpar hdeg hchild hring hkeys hrec ih =>
      intro hout
      rename_i x cs po
      refine TreeRepr.mk hx hpar hdeg hchild hring ?_ ?_
      · intro c hc
        refine hkeys c hc ?_
        intro e
        refine hout ?_
        rw [MTree.slots_mk]
        exact List.mem_cons_of_mem _ (e ▸ MTree.top_mem_slotsF hc)
      · intro c hc
        refine ih c hc ?_
        intro hm
        refine hout ?_
        rw [MTree.slots_mk]
        exact List.mem_cons_of_mem _ (MTree.mem_slotsF_of_mem hc hm)

/-- When the edge into the waived slot does satisfy heap order, the tree is
fully heap-ordered. -/
theorem treeReprExc_full_edge {s : FibHeap K} {bad : Nat} {t : MTree}
    {po : Option Nat} (h : TreeReprExc s bad t po)
    (hedge : ∀ y, (s.getN bad).parent = some y →
      (s.getN y).entry.2 ≤ (s.getN bad).entry.2) :
    TreeRepr s t po := by
  induction h with
  | mk hx hpar hdeg hchild hring hkeys hrec ih =>
      rename_i x cs po
      refine TreeRepr.mk hx hpar hdeg hchild hring ?_ (fun c hc => ih c hc)
      intro c hc
      by_cases e : c.top = bad
      · have hpc : (s.getN bad).parent = some x := e ▸ (hrec c hc).parent_topE
        rw [e]
        exact hedge x hpc
      · exact hkeys c hc e

/-- The surgery target sits among the host root's children slots. -/
theorem cutAt_x_slot {T : MTree} {x par : Nat} {T' X : MTree}
    (h : CutAt T x par T' X) :
    ∃ w cs, T = MTree.mk w cs ∧ x ∈ MTree.slotsF cs := by
  induction h with
  | @head w b X =>
      refine ⟨w, X :: b, rfl, ?_⟩
      rw [MTree.slotsF_cons]
      exact List.mem_append_left _ (MTree.top_mem_slots X)
  | @middle w a0 a b X =>
      refine ⟨w, a0 :: (a ++ X :: b), rfl, ?_⟩
      rw [MTree.slotsF_cons]
      refine List.mem_append_right _ ?_
      rw [MTree.slotsF_append, MTree.slotsF_cons]
      exact List.mem_append_right _ (List.mem_append_left _ (MTree.top_mem_slots X))
  | @deep w a b C C' X x p h0 ih =>
      obtain ⟨ct, ccs, hCeq, hxccs⟩ := ih
      refine ⟨w, a ++ C :: b, rfl, ?_⟩
      rw [MTree.slotsF_append, MTree.slotsF_cons]
      refine List.mem_append_right _ (List.mem_append_left _ ?_)
      rw [hCeq, MTree.slots_mk]
      exact List.mem_cons_of_mem _ hxccs

/-- Every encoded non-root slot admits a subtree surgery at its recorded
parent. -/
theorem cutAt_exists {s : FibHeap K} {bad : Nat} {T : MTree} {po : Option Nat}
    (h : TreeReprExc s bad T po) : ∀ x ∈ T.slots, x ≠ T.top →
    ∃ par T' X, CutAt T x par T' X ∧ (s.getN x).parent = some par ∧ X.top = x := by
  induction h with
  | mk hx hpar hdeg hchild hring hkeys hrec ih =>
      intro x hxs hxt
      rw [MTree.slots_mk] at hxs
      rcases List.mem_cons.1 hxs with rfl | h0
      · exact absurd (MTree.top_mk _ _).symm hxt
      · obtain ⟨C, hC, hxC⟩ := MTree.mem_slotsF_iff.1 h0
        by_cases hxtop : x = C.top
        · subst hxtop
          obtain ⟨a, b, rfl⟩ := List.append_of_mem hC
          cases a with
          | nil =>
              exact ⟨_, MTree.mk _ b, C, CutAt.head,
                (hrec C hC).parent_topE, rfl⟩
          | cons a0 a' =>
              exact ⟨_, MTree.mk _ (a0 :: (a' ++ b)), C, CutAt.middle,
                (hrec C hC).parent_topE, rfl⟩
        · obtain ⟨par, C', X, hc, hparx, hXx⟩ := ih C hC x hxC hxtop
          obtain ⟨a, b, rfl⟩ := List.append_of_mem hC
          exact ⟨par, MTree.mk _ (a ++ C' :: b), X, CutAt.deep hc, hparx, hXx⟩

/-- Core of the `cut` characterisation: the child-ring repair, degree
decrement and parent/mark clear realise the abstract subtree surgery — the
pruned tree and the removed subtree are both encoded in the intermediate
state (before the root splice), and nothing outside the host tree's slots
changes, the host's own ring links included. -/
theorem cutAt_repr {s : FibHeap K} {T : MTree} {x par : Nat} {T' X : MTree}
    (hc : CutAt T x par T' X) :
    ∀ {po : Option Nat}, TreeReprExc s x T po → T.slots.Nodup →
    (∀ i ∈ T.slots, i < s.nodes.length) →
    ∃ sMid : FibHeap K,
      s.cut x par = sMid.add_to_root x ∧
      TreeRepr sMid T' po ∧
      TreeRepr sMid X none ∧
      sMid.nodes.length = s.nodes.length ∧
      sMid.positions = s.positions ∧
      sMid.min_root = s.min_root ∧
      sMid.n = s.n ∧
      (∀ j, (sMid.getN j).entry = (s.getN j).entry) ∧
      (∀ j, j ∉ T.slots → sMid.getN j = s.getN j) ∧
      (sMid.getN T.top).left = (s.getN T.top).left ∧
      (sMid.getN T.top).right = (s.getN T.top).right := by
  induction hc with
  | @head w b X =>
      intro po hT hnd hball
      obtain ⟨xx, csx⟩ := X
      simp only [MTree.top_mk]
      simp only [MTree.top_mk] at hT
      obtain ⟨hwb, hparw, hdegw, hchildw, hringw, hkeysw, hrecw⟩ := TreeReprExc.invE hT
      obtain ⟨hxb, hparx, hdegx, hchildx, hringx, hkeysx, hrecx⟩ :=
        TreeReprExc.invE (hrecw _ (List.mem_cons_self _ _))
      have hchildw' : (s.getN w).child = some xx := hchildw
      have hringw' : RingChain s (xx :: List.map MTree.top b) := hringw
      have hnd0 : (w :: ((xx :: MTree.slotsF csx) ++ MTree.slotsF b)).Nodup := by
        have h0 := hnd
        rw [MTree.slots_mk, MTree.slotsF_cons, MTree.slots_mk] at h0
        exact h0
      have hwnot : w ∉ (xx :: MTree.slotsF csx) ++ MTree.slotsF b :=
        (List.nodup_cons.1 hnd0).1
      have hnd1 : ((xx :: MTree.slotsF csx) ++ MTree.slotsF b).Nodup :=
        (List.nodup_cons.1 hnd0).2
      have hxxw : xx ≠ w := fun e => hwnot (by
        rw [← e]
        exact List.mem_append_left _ (List.mem_cons_self _ _))
      have hdisj1 : ∀ i ∈ xx :: MTree.slotsF csx, i ∉ MTree.slotsF b :=
        fun i hi hm => (List.disjoint_of_nodup_append hnd1) hi hm
      have hxxnotb : xx ∉ MTree.slotsF b := hdisj1 xx (List.mem_cons_self _ _)
      have hndXs : (xx :: MTree.slotsF csx).Nodup := (List.nodup_append.1 hnd1).1
      have hndb : (MTree.slotsF b).Nodup := (List.nodup_append.1 hnd1).2.1
      have hxxnotcsx : xx ∉ MTree.slotsF csx := (List.nodup_cons.1 hndXs).1
      have hndcsx : (MTree.slotsF csx).Nodup := (List.nodup_cons.1 hndXs).2
      have hwnotcsx : w ∉ MTree.slotsF csx := fun hm =>
        hwnot (List.mem_append_left _ (List.mem_cons_of_mem _ hm))
      have hwnotb : w ∉ MTree.slotsF b := fun hm => hwnot (List.mem_append_right _ hm)
      have hmemslots : ∀ i, i ∈ (xx :: MTree.slotsF csx) ++ MTree.slotsF b →
          i ∈ (MTree.mk w (MTree.mk xx csx :: b)).slots := by
        intro i hi
        rw [MTree.slots_mk, MTree.slotsF_cons, MTree.slots_mk]
        exact List.mem_cons_of_mem _ hi
      have hbi : ∀ i ∈ (xx :: MTree.slotsF csx) ++ MTree.slotsF b, i < s.nodes.length :=
        fun i hi => hball i (hmemslots i hi)
      have hbtopslots : ∀ t ∈ List.map MTree.top b, t ∈ MTree.slotsF b := by
        intro t ht
        obtain ⟨U, hU, rfl⟩ := List.mem_map.1 ht
        exact MTree.top_mem_slotsF hU
      have hcsxmem : ∀ i ∈ MTree.slotsF csx,
          i ∈ (xx :: MTree.slotsF csx) ++ MTree.slotsF b :=
        fun i hi => List.mem_append_left _ (List.mem_cons_of_mem _ hi)
      cases b with
      | nil =>
          have hself : (s.getN xx).right = xx := (ringChain_single hringw').2
          set sM := ((s.modifyN w fun nd => { nd with child := none }).modifyN w
              fun nd => { nd with degree := nd.degree - 1 }).modifyN xx
              fun nd => { nd with parent := none, mark := false } with hsM
          have hlenM : sM.nodes.length = s.nodes.length := by rw [hsM]; simp
          have hfrM : ∀ j, j ≠ w → j ≠ xx → sM.getN j = s.getN j := by
            intro j h1 h2
            rw [hsM, getN_modifyN_ne _ _ _ _ (Ne.symm h2),
              getN_modifyN_ne _ _ _ _ (Ne.symm h1), getN_modifyN_ne _ _ _ _ (Ne.symm h1)]
          have hinner : (s.modifyN w fun nd => { nd with child := none }).getN w =
              { s.getN w with child := none } := getN_modifyN_same _ _ _ hwb
          have hgW2 : sM.getN w = { (s.modifyN w fun nd =>
              { nd with child := none }).getN w with degree :=
                ((s.modifyN w fun nd => { nd with child := none }).getN w).degree - 1 } := by
            rw [hsM, getN_modifyN_ne _ _ _ _ hxxw]
            exact getN_modifyN_same _ _ _ (by rw [length_modifyN]; exact hwb)
          have hgWc : (sM.getN w).child = none := by rw [hgW2, hinner]
          have hgWd : (sM.getN w).degree = (s.getN w).degree - 1 := by rw [hgW2, hinner]
          have hgWp : (sM.getN w).parent = (s.getN w).parent := by rw [hgW2, hinner]
          have hgWe : (sM.getN w).entry = (s.getN w).entry := by rw [hgW2, hinner]
          have hgWl : (sM.getN w).left = (s.getN w).left := by rw [hgW2, hinner]
          have hgWr : (sM.getN w).right = (s.getN w).right := by rw [hgW2, hinner]
          have hgX : sM.getN xx = { s.getN xx with parent := none, mark := false } := by
            rw [hsM]
            refine getN_modifyN_same _ _ _ (by rw [length_modifyN, length_modifyN]; exact hxb)
              |>.trans ?_
            rw [getN_modifyN_ne _ _ _ _ (Ne.symm hxxw), getN_modifyN_ne _ _ _ _ (Ne.symm hxxw)]
          have hentM : ∀ j, (sM.getN j).entry = (s.getN j).entry := by
            intro j
            by_cases h1 : j = w
            · subst h1; exact hgWe
            · by_cases h2 : j = xx
              · subst h2
                rw [hgX]
              · rw [hfrM j h1 h2]
          have hcsxframe : ∀ i ∈ MTree.slotsF csx, sM.getN i = s.getN i := by
            intro i hi
            exact hfrM i (fun e => hwnotcsx (e ▸ hi)) (fun e => hxxnotcsx (e ▸ hi))
          have hreprW : TreeRepr sM (MTree.mk w []) po := by
            refine TreeRepr.mk (by rw [hlenM]; exact hwb) (by rw [hgWp]; exact hparw)
              (by rw [hgWd, hdegw]; rfl) (by rw [hgWc]; rfl) trivial ?_ ?_
            · intro c hcc; cases hcc
            · intro c hcc; cases hcc
          have hreprX : TreeRepr sM (MTree.mk xx csx) none := by
            refine TreeRepr.mk (by rw [hlenM]; exact hxb) (by rw [hgX])
              (by rw [hgX]; exact hdegx) (by rw [hgX]; exact hchildx) ?_ ?_ ?_
            · apply ringChain_frame ?_ hringx
              intro z hz
              obtain ⟨c, hcz, rfl⟩ := List.mem_map.1 hz
              rw [hcsxframe _ (MTree.top_mem_slotsF hcz)]
              exact ⟨rfl, rfl⟩
            · intro c hcc
              rw [hentM xx, hentM c.top]
              exact hkeysx c hcc (fun e => hxxnotcsx (e ▸ MTree.top_mem_slotsF hcc))
            · intro c hcc
              refine TreeRepr.frame (treeReprExc_full (hrecx c hcc)
                (fun hm => hxxnotcsx (MTree.mem_slotsF_of_mem hcc hm))) ?_ (le_of_eq hlenM.symm)
              intro z hz
              exact hcsxframe z (MTree.mem_slotsF_of_mem hcc hz)
          refine ⟨sM, ?_, hreprW, hreprX, hlenM, rfl, rfl, rfl, hentM, ?_, hgWl, hgWr⟩
          · rw [hsM]
            unfold cut
            dsimp only
            rw [if_pos hchildw', if_pos hself]
          · intro j hj
            refine hfrM j ?_ ?_
            · intro e
              exact hj (by rw [e, MTree.slots_mk]; exact List.mem_cons_self _ _)
            · intro e
              exact hj (by
                rw [e]
                exact hmemslots xx (List.mem_append_left _ (List.mem_cons_self _ _)))
      | cons B0 b' =>
          have hnext : (s.getN xx).right = B0.top := by
            have hch : List.Chain (adj s) xx ((B0.top :: List.map MTree.top b') ++ [xx]) :=
              hringw'
            rw [List.cons_append, List.chain_cons] at hch
            exact hch.1.1
          have hB0mem : B0.top ∈ MTree.slotsF (B0 :: b') :=
            MTree.top_mem_slotsF (List.mem_cons_self _ _)
          have hselfneg : ¬ (s.getN xx).right = xx := by
            rw [hnext]
            intro e
            exact hxxnotb (e ▸ hB0mem)
          have hLmem : (s.getN xx).left ∈ xx :: List.map MTree.top (B0 :: b') :=
            ringChain_left_mem hringw'
          have hRmem : (s.getN xx).right ∈ xx :: List.map MTree.top (B0 :: b') :=
            ringChain_right_mem hringw'
          have hwnotring : ∀ v ∈ xx :: List.map MTree.top (B0 :: b'), w ≠ v := by
            intro v hv e
            rcases List.mem_cons.1 hv with rfl | h0
            · exact hxxw e.symm
            · exact hwnotb (e ▸ hbtopslots v h0)
          set sM := (((s.detach xx).modifyN w fun nd =>
              { nd with child := some ((s.getN xx).right) }).modifyN w
              fun nd => { nd with degree := nd.degree - 1 }).modifyN xx
              fun nd => { nd with parent := none, mark := false } with hsM
          obtain ⟨hDpos, hDmin, hDn, hDlen, hDsl, hDsr, hDnbr, hDfields, hDframe⟩ :=
            detach_spec s xx hxb
          have hlenM : sM.nodes.length = s.nodes.length := by rw [hsM]; simp [hDlen]
          have hfrM : ∀ j, j ≠ w → j ≠ xx → j ≠ (s.getN xx).left → j ≠ (s.getN xx).right →
              sM.getN j = s.getN j := by
            intro j h1 h2 h3 h4
            rw [hsM, getN_modifyN_ne _ _ _ _ (Ne.symm h2),
              getN_modifyN_ne _ _ _ _ (Ne.symm h1), getN_modifyN_ne _ _ _ _ (Ne.symm h1),
              hDframe j h2 h3 h4]
          have hentM : ∀ j, (sM.getN j).entry = (s.getN j).entry := by
            intro j
            rw [hsM, modifyN_preserves_entry _ xx
                (fun nd => { nd with parent := none, mark := false }) (fun nd => rfl) j,
              modifyN_preserves_entry _ w
                (fun nd => { nd with degree := nd.degree - 1 }) (fun nd => rfl) j,
              modifyN_preserves_entry _ w
                (fun nd => { nd with child := some ((s.getN xx).right) }) (fun nd => rfl) j,
              (hDfields j).2.2.2.2]
          have hparM : ∀ j, j ≠ xx → (sM.getN j).parent = (s.getN j).parent := by
            intro j h2
            rw [hsM, getN_modifyN_ne _ _ _ _ (Ne.symm h2),
              modifyN_preserves_parent _ w
                (fun nd => { nd with degree := nd.degree - 1 }) (fun nd => rfl) j,
              modifyN_preserves_parent _ w
                (fun nd => { nd with child := some ((s.getN xx).right) }) (fun nd => rfl) j,
              (hDfields j).1]
          have hchM : ∀ j, j ≠ w → (sM.getN j).child = (s.getN j).child := by
            intro j h1
            rw [hsM, modifyN_preserves_child _ xx
                (fun nd => { nd with parent := none, mark := false }) (fun nd => rfl) j,
              modifyN_preserves_child _ w
                (fun nd => { nd with degree := nd.degree - 1 }) (fun nd => rfl) j,
              getN_modifyN_ne _ _ _ _ (Ne.symm h1)]
            exact (hDfields j).2.1
          have hdegM : ∀ j, j ≠ w → (sM.getN j).degree = (s.getN j).degree := by
            intro j h1
            rw [hsM, modifyN_preserves_degree _ xx
                (fun nd => { nd with parent := none, mark := false }) (fun nd => rfl) j,
              getN_modifyN_ne _ _ _ _ (Ne.symm h1),
              modifyN_preserves_degree _ w
                (fun nd => { nd with child := some ((s.getN xx).right) }) (fun nd => rfl) j,
              (hDfields j).2.2.2.1]
          have hmarkM : ∀ j, j ≠ xx → (sM.getN j).mark = (s.getN j).mark := by
            intro j h2
            rw [hsM, getN_modifyN_ne _ _ _ _ (Ne.symm h2),
              modifyN_preserves_mark _ w
                (fun nd => { nd with degree := nd.degree - 1 }) (fun nd => rfl) j,
              modifyN_preserves_mark _ w
                (fun nd => { nd with child := some ((s.getN xx).right) }) (fun nd => rfl) j,
              (hDfields j).2.2.1]
          have hgWdet : (s.detach xx).getN w = s.getN w :=
            hDframe w (Ne.symm hxxw) (fun e => hwnotring _ hLmem e)
              (fun e => hwnotring _ hRmem e)
          have hinner : ((s.detach xx).modifyN w fun nd =>
              { nd with child := some ((s.getN xx).right) }).getN w =
              { s.getN w with child := some ((s.getN xx).right) } := by
            rw [getN_modifyN_same _ _ _ (by rw [hDlen]; exact hwb), hgWdet]
          have hgW2 : sM.getN w = { ((s.detach xx).modifyN w fun nd =>
              { nd with child := some ((s.getN xx).right) }).getN w with degree :=
                (((s.detach xx).modifyN w fun nd =>
                  { nd with child := some ((s.getN xx).right) }).getN w).degree - 1 } := by
            rw [hsM, getN_modifyN_ne _ _ _ _ hxxw]
            exact getN_modifyN_same _ _ _ (by rw [length_modifyN, hDlen]; exact hwb)
          have hgWc : (sM.getN w).child = some ((s.getN xx).right) := by rw [hgW2, hinner]
          have hgWd : (sM.getN w).degree = (s.getN w).degree - 1 := by rw [hgW2, hinner]
          have hgWp : (sM.getN w).parent = (s.getN w).parent := by rw [hgW2, hinner]
          have hgWl : (sM.getN w).left = (s.getN w).left := by rw [hgW2, hinner]
          have hgWr : (sM.getN w).right = (s.getN w).right := by rw [hgW2, hinner]
          have hgXp : (sM.getN xx).parent = none := by
            rw [hsM, getN_modifyN_same _ _ _ (by
              rw [length_modifyN, length_modifyN, hDlen]; exact hxb)]
          have hndXF : (MTree.slotsF (MTree.mk xx csx :: B0 :: b')).Nodup := by
            rw [MTree.slotsF_cons, MTree.slots_mk]
            exact hnd1
          have hndring : (xx :: List.map MTree.top (B0 :: b')).Nodup :=
            tops_nodup hndXF
          have hbring : ∀ i ∈ xx :: List.map MTree.top (B0 :: b'), i < s.nodes.length := by
            intro i hi
            rcases List.mem_cons.1 hi with rfl | h0
            · exact hxb
            · exact hbi i (List.mem_append_right _ (hbtopslots i h0))
          have hringDet : RingChain (s.detach xx) (List.map MTree.top (B0 :: b')) :=
            detach_ring_head hringw' hndring hbring
          have hringM : RingChain sM (List.map MTree.top (B0 :: b')) := by
            apply ringChain_frame ?_ hringDet
            intro z hz
            have hzw : z ≠ w := fun e => hwnotb (e ▸ hbtopslots z hz)
            have hzx : z ≠ xx := fun e => hxxnotb (e ▸ hbtopslots z hz)
            rw [hsM, getN_modifyN_ne _ _ _ _ (Ne.symm hzx),
              getN_modifyN_ne _ _ _ _ (Ne.symm hzw), getN_modifyN_ne _ _ _ _ (Ne.symm hzw)]
            exact ⟨rfl, rfl⟩
          have hnotopinner : ∀ (c : MTree), c ∈ B0 :: b' → ∀ z ∈ c.slots, z ≠ c.top →
              ∀ v ∈ xx :: List.map MTree.top (B0 :: b'), z ≠ v := by
            intro c hcc z hz hztop v hv e
            rcases List.mem_cons.1 hv with rfl | h0
            · exact hxxnotb (e ▸ MTree.mem_slotsF_of_mem hcc hz)
            · obtain ⟨V, hV, rfl⟩ := List.mem_map.1 h0
              have hcV : c = V := MTree.slots_disjoint hndb c hcc V hV z hz
                (by rw [e]; exact MTree.top_mem_slots V)
              exact hztop (by rw [e, hcV])
          have htreesb : ∀ c ∈ B0 :: b', TreeRepr sM c (some w) := by
            intro c hcc
            have hcslots : ∀ z ∈ c.slots, z ∈ MTree.slotsF (B0 :: b') :=
              fun z hz => MTree.mem_slotsF_of_mem hcc hz
            refine TreeRepr.frameFine (treeReprExc_full
                (hrecw c (List.mem_cons_of_mem _ hcc)) (fun hm => hxxnotb (hcslots _ hm)))
              (MTree.nodup_slots_of_mem hndb hcc) ?_ ?_ (le_of_eq hlenM.symm)
            · intro z hz
              have hzx : z ≠ xx := fun e => hxxnotb (e ▸ hcslots z hz)
              have hzw : z ≠ w := fun e => hwnotb (e ▸ hcslots z hz)
              exact ⟨hparM z hzx, hchM z hzw, hmarkM z hzx, hdegM z hzw, hentM z⟩
            · intro z hz hztop
              have hzx : z ≠ xx := fun e => hxxnotb (e ▸ hcslots z hz)
              have hzw : z ≠ w := fun e => hwnotb (e ▸ hcslots z hz)
              rw [hfrM z hzw hzx (fun e => hnotopinner c hcc z hz hztop _ hLmem e)
                (fun e => hnotopinner c hcc z hz hztop _ hRmem e)]
              exact ⟨rfl, rfl⟩
          have hreprW : TreeRepr sM (MTree.mk w (B0 :: b')) po := by
            refine TreeRepr.mk (by rw [hlenM]; exact hwb) (by rw [hgWp]; exact hparw)
              ?_ ?_ hringM ?_ htreesb
            · rw [hgWd, hdegw]
              simp
            · rw [hgWc, hnext]
              rfl
            · intro c hcc
              rw [hentM w, hentM c.top]
              exact hkeysw c (List.mem_cons_of_mem _ hcc)
                (fun e => hxxnotb (e ▸ MTree.top_mem_slotsF hcc))
          have hcsxframe : ∀ i ∈ MTree.slotsF csx, sM.getN i = s.getN i := by
            intro i hi
            refine hfrM i (fun e => hwnotcsx (e ▸ hi)) (fun e => hxxnotcsx (e ▸ hi)) ?_ ?_
            · intro e
              rcases List.mem_cons.1 hLmem with h0 | h0
              · exact hxxnotcsx ((e.trans h0) ▸ hi)
              · exact hdisj1 i (List.mem_cons_of_mem _ hi) ((e ▸ hbtopslots _ h0))
            · intro e
              rcases List.mem_cons.1 hRmem with h0 | h0
              · exact hxxnotcsx ((e.trans h0) ▸ hi)
              · exact hdisj1 i (List.mem_cons_of_mem _ hi) ((e ▸ hbtopslots _ h0))
          have hreprX : TreeRepr sM (MTree.mk xx csx) none := by
            refine TreeRepr.mk (by rw [hlenM]; exact hxb) hgXp
              (by rw [hdegM xx hxxw]; exact hdegx) (by rw [hchM xx hxxw]; exact hchildx)
              ?_ ?_ ?_
            · apply ringChain_frame ?_ hringx
              intro z hz
              obtain ⟨c, hcz, rfl⟩ := List.mem_map.1 hz
              rw [hcsxframe _ (MTree.top_mem_slotsF hcz)]
              exact ⟨rfl, rfl⟩
            · intro c hcc
              rw [hentM xx, hentM c.top]
              exact hkeysx c hcc (fun e => hxxnotcsx (e ▸ MTree.top_mem_slotsF hcc))
            · intro c hcc
              refine TreeRepr.frame (treeReprExc_full (hrecx c hcc)
                (fun hm => hxxnotcsx (MTree.mem_slotsF_of_mem hcc hm))) ?_ (le_of_eq hlenM.symm)
              intro z hz
              exact hcsxframe z (MTree.mem_slotsF_of_mem hcc hz)
          refine ⟨sM, ?_, hreprW, hreprX, hlenM, ?_, ?_, ?_, hentM, ?_, hgWl, hgWr⟩
          · rw [hsM]
            unfold cut
            dsimp only
            rw [if_pos hchildw', if_neg hselfneg]
          · rw [hsM]
            show (s.detach xx).positions = s.positions
            exact hDpos
          · rw [hsM]
            show (s.detach xx).min_root = s.min_root
            exact hDmin
          · rw [hsM]
            show (s.detach xx).n = s.n
            exact hDn
          · intro j hj
            have hjmem : ∀ i, i ∈ (xx :: MTree.slotsF csx) ++ MTree.slotsF (B0 :: b') →
                j ≠ i := by
              intro i hi e
              exact hj (e ▸ hmemslots i hi)
            refine hfrM j ?_ ?_ ?_ ?_
            · intro e
              exact hj (by rw [e, MTree.slots_mk]; exact List.mem_cons_self _ _)
            · exact hjmem xx (List.mem_append_left _ (List.mem_cons_self _ _))
            · intro e
              rcases List.mem_cons.1 hLmem with h0 | h0
              · exact hjmem xx (List.mem_append_left _ (List.mem_cons_self _ _)) (e.trans h0)
              · exact hjmem _ (List.mem_append_right _ (hbtopslots _ h0)) e
            · intro e
              rcases List.mem_cons.1 hRmem with h0 | h0
              · exact hjmem xx (List.mem_append_left _ (List.mem_cons_self _ _)) (e.trans h0)
              · exact hjmem _ (List.mem_append_right _ (hbtopslots _ h0)) e
  | @middle w a0 a b X =>
      intro po hT hnd hball
      obtain ⟨xx, csx⟩ := X
      simp only [MTree.top_mk]
      simp only [MTree.top_mk] at hT
      obtain ⟨hwb, hparw, hdegw, hchildw, hringw, hkeysw, hrecw⟩ := TreeReprExc.invE hT
      have hXmem : MTree.mk xx csx ∈ a0 :: (a ++ MTree.mk xx csx :: b) :=
        List.mem_cons_of_mem _ (List.mem_append_right _ (List.mem_cons_self _ _))
      obtain ⟨hxb, hparx, hdegx, hchildx, hringx, hkeysx, hrecx⟩ :=
        TreeReprExc.invE (hrecw _ hXmem)
      have hchildw' : (s.getN w).child = some a0.top := hchildw
      have hnd0 : (w :: MTree.slotsF (a0 :: (a ++ MTree.mk xx csx :: b))).Nodup := by
        have h1 := hnd
        rw [MTree.slots_mk] at h1
        exact h1
      have hwnot : w ∉ MTree.slotsF (a0 :: (a ++ MTree.mk xx csx :: b)) :=
        (List.nodup_cons.1 hnd0).1
      have hndcs : (MTree.slotsF (a0 :: (a ++ MTree.mk xx csx :: b))).Nodup :=
        (List.nodup_cons.1 hnd0).2
      have hmemslots : ∀ i, i ∈ MTree.slotsF (a0 :: (a ++ MTree.mk xx csx :: b)) →
          i ∈ (MTree.mk w (a0 :: (a ++ MTree.mk xx csx :: b))).slots := by
        intro i hi
        rw [MTree.slots_mk]
        exact List.mem_cons_of_mem _ hi
      have hbi : ∀ i ∈ MTree.slotsF (a0 :: (a ++ MTree.mk xx csx :: b)),
          i < s.nodes.length := fun i hi => hball i (hmemslots i hi)
      have hxxmem : xx ∈ MTree.slotsF (a0 :: (a ++ MTree.mk xx csx :: b)) :=
        MTree.mem_slotsF_of_mem hXmem (MTree.top_mem_slots _)
      have hxxw : xx ≠ w := fun e => hwnot (e ▸ hxxmem)
      have hxb' : xx < s.nodes.length := hbi xx hxxmem
      have hsplitcs : MTree.slotsF (a0 :: (a ++ MTree.mk xx csx :: b)) =
          a0.slots ++ (MTree.slotsF a ++ ((xx :: MTree.slotsF csx) ++ MTree.slotsF b)) := by
        rw [MTree.slotsF_cons, MTree.slotsF_append, MTree.slotsF_cons, MTree.slots_mk]
      have hndsp := hndcs
      rw [hsplitcs] at hndsp
      have hXblock : ∀ z, z ∈ a0.slots ∨ z ∈ MTree.slotsF a ∨ z ∈ MTree.slotsF b →
          z ∉ xx :: MTree.slotsF csx := by
        intro z hz hzB
        rcases hz with h1 | h1 | h1
        · exact (List.disjoint_of_nodup_append hndsp) h1
            (List.mem_append_right _ (List.mem_append_left _ hzB))
        · have h2 := (List.nodup_append.1 hndsp).2.1
          exact (List.disjoint_of_nodup_append h2) h1 (List.mem_append_left _ hzB)
        · have h2 := (List.nodup_append.1 (List.nodup_append.1 hndsp).2.1).2.1
          exact (List.disjoint_of_nodup_append h2) hzB h1
      have hndB : (xx :: MTree.slotsF csx).Nodup :=
        (List.nodup_append.1 (List.nodup_append.1 (List.nodup_append.1 hndsp).2.1).2.1).1
      have hxxnotcsx : xx ∉ MTree.slotsF csx := (List.nodup_cons.1 hndB).1
      have hcsxsub : ∀ i ∈ MTree.slotsF csx,
          i ∈ MTree.slotsF (a0 :: (a ++ MTree.mk xx csx :: b)) := by
        intro i hi
        refine MTree.mem_slotsF_of_mem hXmem ?_
        rw [MTree.slots_mk]
        exact List.mem_cons_of_mem _ hi
      have ha0xx : a0.top ≠ xx := fun e => hXblock a0.top (Or.inl (MTree.top_mem_slots a0))
        (by rw [e]; exact List.mem_cons_self _ _)
      have hcond1 : ¬ (s.getN w).child = some xx := by
        rw [hchildw']
        intro hcontra
        exact ha0xx (Option.some.inj hcontra)
      have htopsne : ∀ (c : MTree), c ∈ a0 :: (a ++ MTree.mk xx csx :: b) →
          ∀ z ∈ c.slots, z ≠ c.top →
          ∀ (V : MTree), V ∈ a0 :: (a ++ MTree.mk xx csx :: b) → z ≠ V.top := by
        intro c hcc z hz hztop V hV e
        have hcV : c = V := MTree.slots_disjoint hndcs c hcc V hV z hz
          (by rw [e]; exact MTree.top_mem_slots V)
        exact hztop (by rw [e, hcV])
      have hringcs : RingChain s ((a0.top :: List.map MTree.top a) ++
          (xx :: List.map MTree.top b)) := by
        have h1 := hringw
        rw [List.map_cons, List.map_append, List.map_cons] at h1
        exact h1
      have hrot : RingChain s (xx :: (List.map MTree.top b ++
          (a0.top :: List.map MTree.top a))) := ringChain_rotate hringcs
      have hringmemall : ∀ v ∈ xx :: (List.map MTree.top b ++
          (a0.top :: List.map MTree.top a)), ∃ c ∈ a0 :: (a ++ MTree.mk xx csx :: b),
          v = c.top := by
        intro v hv
        rcases List.mem_cons.1 hv with rfl | h1
        · exact ⟨_, hXmem, rfl⟩
        · rcases List.mem_append.1 h1 with h2 | h2
          · obtain ⟨V, hV, rfl⟩ := List.mem_map.1 h2
            exact ⟨V, List.mem_cons_of_mem _ (List.mem_append_right _
              (List.mem_cons_of_mem _ hV)), rfl⟩
          · rcases List.mem_cons.1 h2 with rfl | h3
            · exact ⟨a0, List.mem_cons_self _ _, rfl⟩
            · obtain ⟨V, hV, rfl⟩ := List.mem_map.1 h3
              exact ⟨V, List.mem_cons_of_mem _ (List.mem_append_left _ hV), rfl⟩
      have hLmem : (s.getN xx).left ∈ xx :: (List.map MTree.top b ++
          (a0.top :: List.map MTree.top a)) := ringChain_left_mem hrot
      have hRmem : (s.getN xx).right ∈ xx :: (List.map MTree.top b ++
          (a0.top :: List.map MTree.top a)) := ringChain_right_mem hrot
      have hwnotring : ∀ v ∈ xx :: (List.map MTree.top b ++
          (a0.top :: List.map MTree.top a)), w ≠ v := by
        intro v hv e
        obtain ⟨c, hcc, rfl⟩ := hringmemall v hv
        exact hwnot (e ▸ MTree.mem_slotsF_of_mem hcc (MTree.top_mem_slots c))
      set sM := ((s.detach xx).modifyN w
          fun nd => { nd with degree := nd.degree - 1 }).modifyN xx
          fun nd => { nd with parent := none, mark := false } with hsM
      obtain ⟨hDpos, hDmin, hDn, hDlen, hDsl, hDsr, hDnbr, hDfields, hDframe⟩ :=
        detach_spec s xx hxb'
      have hlenM : sM.nodes.length = s.nodes.length := by rw [hsM]; simp [hDlen]
      have hfrM : ∀ j, j ≠ w → j ≠ xx → j ≠ (s.getN xx).left → j ≠ (s.getN xx).right →
          sM.getN j = s.getN j := by
        intro j h1 h2 h3 h4
        rw [hsM, getN_modifyN_ne _ _ _ _ (Ne.symm h2),
          getN_modifyN_ne _ _ _ _ (Ne.symm h1), hDframe j h2 h3 h4]
      have hentM : ∀ j, (sM.getN j).entry = (s.getN j).entry := by
        intro j
        rw [hsM, modifyN_preserves_entry _ xx
            (fun nd => { nd with parent := none, mark := false }) (fun nd => rfl) j,
          modifyN_preserves_entry _ w
            (fun nd => { nd with degree := nd.degree - 1 }) (fun nd => rfl) j,
          (hDfields j).2.2.2.2]
      have hparM : ∀ j, j ≠ xx → (sM.getN j).parent = (s.getN j).parent := by
        intro j h2
        rw [hsM, getN_modifyN_ne _ _ _ _ (Ne.symm h2),
          modifyN_preserves_parent _ w
            (fun nd => { nd with degree := nd.degree - 1 }) (fun nd => rfl) j,
          (hDfields j).1]
      have hchM : ∀ j, (sM.getN j).child = (s.getN j).child := by
        intro j
        rw [hsM, modifyN_preserves_child _ xx
            (fun nd => { nd with parent := none, mark := false }) (fun nd => rfl) j,
          modifyN_preserves_child _ w
            (fun nd => { nd with degree := nd.degree - 1 }) (fun nd => rfl) j,
          (hDfields j).2.1]
      have hdegM : ∀ j, j ≠ w → (sM.getN j).degree = (s.getN j).degree := by
        intro j h1
        rw [hsM, modifyN_preserves_degree _ xx
            (fun nd => { nd with parent := none, mark := false }) (fun nd => rfl) j,
          getN_modifyN_ne _ _ _ _ (Ne.symm h1), (hDfields j).2.2.2.1]
      have hmarkM_mid : ∀ j, j ≠ xx → (sM.getN j).mark = (s.getN j).mark := by
        intro j h2
        rw [hsM, getN_modifyN_ne _ _ _ _ (Ne.symm h2),
          modifyN_preserves_mark _ w
            (fun nd => { nd with degree := nd.degree - 1 }) (fun nd => rfl) j,
          (hDfields j).2.2.1]
      have hgWdet : (s.detach xx).getN w = s.getN w :=
        hDframe w (Ne.symm hxxw) (fun e => hwnotring _ hLmem e)
          (fun e => hwnotring _ hRmem e)
      have hgW2 : sM.getN w = { (s.detach xx).getN w with degree :=
          ((s.detach xx).getN w).degree - 1 } := by
        rw [hsM, getN_modifyN_ne _ _ _ _ hxxw]
        exact getN_modifyN_same _ _ _ (by rw [hDlen]; exact hwb)
      have hgWd : (sM.getN w).degree = (s.getN w).degree - 1 := by rw [hgW2, hgWdet]
      have hgWp : (sM.getN w).parent = (s.getN w).parent := by rw [hgW2, hgWdet]
      have hgWl : (sM.getN w).left = (s.getN w).left := by rw [hgW2, hgWdet]
      have hgWr : (sM.getN w).right = (s.getN w).right := by rw [hgW2, hgWdet]
      have hgXp : (sM.getN xx).parent = none := by
        rw [hsM, getN_modifyN_same _ _ _ (by rw [length_modifyN, hDlen]; exact hxb')]
      have hringDet : RingChain (s.detach xx) ((a0.top :: List.map MTree.top a) ++
          List.map MTree.top b) := by
        refine detach_ring_middle hringcs ?_ ?_
        · have h1 := tops_nodup hndcs
          rw [List.map_cons, List.map_append, List.map_cons] at h1
          exact h1
        · intro v hv
          have hv' : v ∈ xx :: (List.map MTree.top b ++ (a0.top :: List.map MTree.top a)) := by
            refine (List.Perm.mem_iff ?_).1 hv
            refine List.Perm.trans List.perm_middle ?_
            exact List.Perm.cons xx List.perm_append_comm
          obtain ⟨c, hcc, rfl⟩ := hringmemall v hv'
          exact hbi _ (MTree.mem_slotsF_of_mem hcc (MTree.top_mem_slots c))
      have hringM : RingChain sM ((a0.top :: List.map MTree.top a) ++
          List.map MTree.top b) := by
        apply ringChain_frame ?_ hringDet
        intro z hz
        constructor
        · rw [hsM, modifyN_preserves_left _ xx
              (fun nd => { nd with parent := none, mark := false }) (fun nd => rfl) z,
            modifyN_preserves_left _ w
              (fun nd => { nd with degree := nd.degree - 1 }) (fun nd => rfl) z]
        · rw [hsM, modifyN_preserves_right _ xx
              (fun nd => { nd with parent := none, mark := false }) (fun nd => rfl) z,
            modifyN_preserves_right _ w
              (fun nd => { nd with degree := nd.degree - 1 }) (fun nd => rfl) z]
      have hmemtrans : ∀ (c : MTree), c ∈ a0 :: (a ++ b) →
          c ∈ a0 :: (a ++ MTree.mk xx csx :: b) := by
        intro c hcc
        rcases List.mem_cons.1 hcc with rfl | h1
        · exact List.mem_cons_self _ _
        · rcases List.mem_append.1 h1 with h2 | h2
          · exact List.mem_cons_of_mem _ (List.mem_append_left _ h2)
          · exact List.mem_cons_of_mem _ (List.mem_append_right _
              (List.mem_cons_of_mem _ h2))
      have hnewXblock : ∀ (c : MTree), c ∈ a0 :: (a ++ b) → ∀ z ∈ c.slots,
          z ∉ xx :: MTree.slotsF csx := by
        intro c hcc z hz
        rcases List.mem_cons.1 hcc with rfl | h1
        · exact hXblock z (Or.inl hz)
        · rcases List.mem_append.1 h1 with h2 | h2
          · exact hXblock z (Or.inr (Or.inl (MTree.mem_slotsF_of_mem h2 hz)))
          · exact hXblock z (Or.inr (Or.inr (MTree.mem_slotsF_of_mem h2 hz)))
      have htreesnew : ∀ c ∈ a0 :: (a ++ b), TreeRepr sM c (some w) := by
        intro c hcc
        have hcc' := hmemtrans c hcc
        refine TreeRepr.frameFine (treeReprExc_full (hrecw c hcc')
            (fun hm => hnewXblock c hcc _ hm (List.mem_cons_self _ _)))
          (MTree.nodup_slots_of_mem hndcs hcc') ?_ ?_ (le_of_eq hlenM.symm)
        · intro z hz
          have hzx : z ≠ xx := fun e =>
            hnewXblock c hcc z hz (by rw [e]; exact List.mem_cons_self _ _)
          have hzw : z ≠ w := fun e =>
            hwnot (e ▸ MTree.mem_slotsF_of_mem hcc' hz)
          exact ⟨hparM z hzx, hchM z, hmarkM_mid z hzx, hdegM z hzw, hentM z⟩
        · intro z hz hztop
          have hzx : z ≠ xx := fun e =>
            hnewXblock c hcc z hz (by rw [e]; exact List.mem_cons_self _ _)
          have hzw : z ≠ w := fun e =>
            hwnot (e ▸ MTree.mem_slotsF_of_mem hcc' hz)
          have hznotring : ∀ v ∈ xx :: (List.map MTree.top b ++
              (a0.top :: List.map MTree.top a)), z ≠ v := by
            intro v hv e
            obtain ⟨V, hV, rfl⟩ := hringmemall v hv
            exact htopsne c hcc' z hz hztop V hV e
          rw [hfrM z hzw hzx (fun e => hznotring _ hLmem e) (fun e => hznotring _ hRmem e)]
          exact ⟨rfl, rfl⟩
      have hreprW : TreeRepr sM (MTree.mk w (a0 :: (a ++ b))) po := by
        refine TreeRepr.mk (by rw [hlenM]; exact hwb) (by rw [hgWp]; exact hparw)
          ?_ ?_ ?_ ?_ htreesnew
        · rw [hgWd, hdegw]
          simp only [List.length_cons, List.length_append]
          omega
        · rw [hchM w, hchildw']
          rfl
        · have hmapeq : List.map MTree.top (a0 :: (a ++ b)) =
              (a0.top :: List.map MTree.top a) ++ List.map MTree.top b := by
            rw [List.map_cons, List.map_append]
            rfl
          rw [hmapeq]
          exact hringM
        · intro c hcc
          rw [hentM w, hentM c.top]
          exact hkeysw c (hmemtrans c hcc)
            (fun e => hnewXblock c hcc c.top (MTree.top_mem_slots c)
              (by rw [e]; exact List.mem_cons_self _ _))
      have hcsxframe : ∀ i ∈ MTree.slotsF csx, sM.getN i = s.getN i := by
        intro i hi
        have hiw : i ≠ w := fun e => hwnot (e ▸ hcsxsub i hi)
        have hix : i ≠ xx := fun e => hxxnotcsx (e ▸ hi)
        refine hfrM i hiw hix ?_ ?_
        · intro e
          rcases List.mem_cons.1 hLmem with h1 | h1
          · exact hix (e.trans h1)
          · obtain ⟨c, hcc, hce⟩ := hringmemall _ (List.mem_cons_of_mem _ h1)
            have hcX : c = MTree.mk xx csx := MTree.slots_disjoint hndcs c hcc _ hXmem i
              (by rw [e, hce]; exact MTree.top_mem_slots c)
              (by rw [MTree.slots_mk]; exact List.mem_cons_of_mem _ hi)
            refine hix ?_
            rw [e, hce, hcX]
            rfl
        · intro e
          rcases List.mem_cons.1 hRmem with h1 | h1
          · exact hix (e.trans h1)
          · obtain ⟨c, hcc, hce⟩ := hringmemall _ (List.mem_cons_of_mem _ h1)
            have hcX : c = MTree.mk xx csx := MTree.slots_disjoint hndcs c hcc _ hXmem i
              (by rw [e, hce]; exact MTree.top_mem_slots c)
              (by rw [MTree.slots_mk]; exact List.mem_cons_of_mem _ hi)
            refine hix ?_
            rw [e, hce, hcX]
            rfl
      have hreprX : TreeRepr sM (MTree.mk xx csx) none := by
        refine TreeRepr.mk (by rw [hlenM]; exact hxb') hgXp
          (by rw [hdegM xx hxxw]; exact hdegx) (by rw [hchM xx]; exact hchildx) ?_ ?_ ?_
        · apply ringChain_frame ?_ hringx
          intro z hz
          obtain ⟨c, hcz, rfl⟩ := List.mem_map.1 hz
          rw [hcsxframe _ (MTree.top_mem_slotsF hcz)]
          exact ⟨rfl, rfl⟩
        · intro c hcc
          rw [hentM xx, hentM c.top]
          exact hkeysx c hcc (fun e => hxxnotcsx (e ▸ MTree.top_mem_slotsF hcc))
        · intro c hcc
          refine TreeRepr.frame (treeReprExc_full (hrecx c hcc)
                (fun hm => hxxnotcsx (MTree.mem_slotsF_of_mem hcc hm))) ?_ (le_of_eq hlenM.symm)
          intro z hz
          exact hcsxframe z (MTree.mem_slotsF_of_mem hcc hz)
      refine ⟨sM, ?_, hreprW, hreprX, hlenM, ?_, ?_, ?_, hentM, ?_, hgWl, hgWr⟩
      · rw [hsM]
        unfold cut
        dsimp only
        rw [if_neg hcond1]
      · rw [hsM]
        show (s.detach xx).positions = s.positions
        exact hDpos
      · rw [hsM]
        show (s.detach xx).min_root = s.min_root
        exact hDmin
      · rw [hsM]
        show (s.detach xx).n = s.n
        exact hDn
      · intro j hj
        have hjnot : ∀ v ∈ xx :: (List.map MTree.top b ++
            (a0.top :: List.map MTree.top a)), j ≠ v := by
          intro v hv e
          obtain ⟨c, hcc, rfl⟩ := hringmemall v hv
          exact hj (e ▸ hmemslots _ (MTree.mem_slotsF_of_mem hcc (MTree.top_mem_slots c)))
        refine hfrM j ?_ (hjnot xx (List.mem_cons_self _ _)) ?_ ?_
        · intro e
          exact hj (by rw [e, MTree.slots_mk]; exact List.mem_cons_self _ _)
        · exact fun e => hjnot _ hLmem e
        · exact fun e => hjnot _ hRmem e
  | @deep w a b C C' X x p h0 ih =>
      intro po hT hnd hball
      simp only [MTree.top_mk]
      obtain ⟨hwb, hparw, hdegw, hchildw, hringw, hkeysw, hrecw⟩ := TreeReprExc.invE hT
      have hCmem : C ∈ a ++ C :: b := List.mem_append_right _ (List.mem_cons_self _ _)
      have hnd0 : (w :: MTree.slotsF (a ++ C :: b)).Nodup := by
        have h1 := hnd
        rw [MTree.slots_mk] at h1
        exact h1
      have hwnot : w ∉ MTree.slotsF (a ++ C :: b) := (List.nodup_cons.1 hnd0).1
      have hndcs : (MTree.slotsF (a ++ C :: b)).Nodup := (List.nodup_cons.1 hnd0).2
      have hndC : C.slots.Nodup := MTree.nodup_slots_of_mem hndcs hCmem
      obtain ⟨ct, ccs, hCeq, hxccs⟩ := cutAt_x_slot h0
      have hxC : x ∈ C.slots := by
        rw [hCeq, MTree.slots_mk]
        exact List.mem_cons_of_mem _ hxccs
      have hCtopx : C.top ≠ x := by
        have hndC2 := hndC
        rw [hCeq, MTree.slots_mk] at hndC2
        rw [hCeq, MTree.top_mk]
        exact fun e => (List.nodup_cons.1 hndC2).1 (by rw [e]; exact hxccs)
      have hbC : ∀ i ∈ C.slots, i < s.nodes.length := by
        intro i hi
        refine hball i ?_
        rw [MTree.slots_mk]
        exact List.mem_cons_of_mem _ (MTree.mem_slotsF_of_mem hCmem hi)
      obtain ⟨sM, hcuteq, hreprC', hreprX, hlenM, hposM, hminM, hnM, hentM, hfrM,
        hClM, hCrM⟩ := ih (hrecw C hCmem) hndC hbC
      have hCC' : C'.top = C.top := cutAt_top_eq h0
      have hsplit : MTree.slotsF (a ++ C :: b) =
          MTree.slotsF a ++ (C.slots ++ MTree.slotsF b) := by
        rw [MTree.slotsF_append, MTree.slotsF_cons]
      have hndsp := hndcs
      rw [hsplit] at hndsp
      have haC : ∀ z ∈ MTree.slotsF a, z ∉ C.slots := fun z hz hc =>
        (List.disjoint_of_nodup_append hndsp) hz (List.mem_append_left _ hc)
      have hbCd : ∀ z ∈ MTree.slotsF b, z ∉ C.slots := by
        have h1 := (List.nodup_append.1 hndsp).2.1
        exact fun z hz hc => (List.disjoint_of_nodup_append h1) hc hz
      have hwnotC : w ∉ C.slots := fun hm =>
        hwnot (MTree.mem_slotsF_of_mem hCmem hm)
      have hgW : sM.getN w = s.getN w := hfrM w hwnotC
      have hreprW : TreeRepr sM (MTree.mk w (a ++ C' :: b)) po := by
        refine TreeRepr.mk (by rw [hlenM]; exact hwb) (by rw [hgW]; exact hparw)
          ?_ ?_ ?_ ?_ ?_
        · rw [hgW, hdegw]
          simp only [List.length_append, List.length_cons]
        · rw [hgW, hchildw]
          rcases a with _ | ⟨A0, a'⟩
          · show ((C :: b).head?.map MTree.top) = ((C' :: b).head?.map MTree.top)
            show some C.top = some C'.top
            rw [hCC']
          · rfl
        · have hmapeq : List.map MTree.top (a ++ C' :: b) =
              List.map MTree.top (a ++ C :: b) := by
            rw [List.map_append, List.map_append, List.map_cons, List.map_cons, hCC']
          rw [hmapeq]
          apply ringChain_frame ?_ hringw
          intro z hz
          obtain ⟨V, hV, rfl⟩ := List.mem_map.1 hz
          by_cases hzC : V.top ∈ C.slots
          · have hVC : V = C := MTree.slots_disjoint hndcs V hV C hCmem V.top
              (MTree.top_mem_slots V) hzC
            rw [hVC]
            exact ⟨hClM, hCrM⟩
          · rw [hfrM _ hzC]
            exact ⟨rfl, rfl⟩
        · intro c hcc
          rw [hentM w, hentM c.top]
          rcases List.mem_append.1 hcc with h1 | h1
          · exact hkeysw c (List.mem_append_left _ h1)
              (fun e => haC c.top (MTree.top_mem_slotsF h1) (by rw [e]; exact hxC))
          · rcases List.mem_cons.1 h1 with rfl | h2
            · rw [hCC']
              exact hkeysw C hCmem hCtopx
            · exact hkeysw c (List.mem_append_right _ (List.mem_cons_of_mem _ h2))
                (fun e => hbCd c.top (MTree.top_mem_slotsF h2) (by rw [e]; exact hxC))
        · intro c hcc
          rcases List.mem_append.1 hcc with h1 | h1
          · refine TreeRepr.frame (treeReprExc_full (hrecw c (List.mem_append_left _ h1))
                (fun hm => haC x (MTree.mem_slotsF_of_mem h1 hm) hxC)) ?_
              (le_of_eq hlenM.symm)
            intro z hz
            exact hfrM z (haC z (MTree.mem_slotsF_of_mem h1 hz))
          · rcases List.mem_cons.1 h1 with rfl | h2
            · exact hreprC'
            · refine TreeRepr.frame (treeReprExc_full (hrecw c (List.mem_append_right _
                  (List.mem_cons_of_mem _ h2)))
                (fun hm => hbCd x (MTree.mem_slotsF_of_mem h2 hm) hxC)) ?_ (le_of_eq hlenM.symm)
              intro z hz
              exact hfrM z (hbCd z (MTree.mem_slotsF_of_mem h2 hz))
      refine ⟨sM, hcuteq, hreprW, hreprX, hlenM, hposM, hminM, hnM, hentM, ?_,
        by rw [hgW], by rw [hgW]⟩
      intro j hj
      refine hfrM j ?_
      intro hjC
      exact hj (by
        rw [MTree.slots_mk]
        exact List.mem_cons_of_mem _ (MTree.mem_slotsF_of_mem hCmem hjC))

/-- The recorded parent of the surgery target stays inside the pruned tree. -/
theorem cutAt_par_mem : ∀ {T : MTree} {x p : Nat} {T' X : MTree},
    CutAt T x p T' X → p ∈ MTree.slots T' := by
  intro T x p T' X h
  induction h with
  | @head w b X =>
      rw [MTree.slots_mk]
      exact List.mem_cons_self _ _
  | @middle w a0 a b X =>
      rw [MTree.slots_mk]
      exact List.mem_cons_self _ _
  | @deep w a b C C' X x p h0 ih =>
      rw [MTree.slots_mk]
      refine List.mem_cons_of_mem _ ?_
      rw [MTree.slotsF_append, MTree.slotsF_cons]
      exact List.mem_append_right _ (List.mem_append_left _ ih)

/-- Endgame shared by the `cut` family: splicing a well-formed tree's top
into the root ring of an otherwise well-formed heap lists the tree last —
or first, when its key beats the designated minimum's. -/
theorem add_root_tree_repr {s : FibHeap K} {G : List MTree} {X : MTree}
    (hring : RingChain s (G.map MTree.top))
    (hmin : s.min_root = G.head?.map MTree.top)
    (htrees : ∀ t ∈ G, TreeRepr s t none)
    (hXr : TreeRepr s X none)
    (hnd : (MTree.slotsF (G ++ [X])).Nodup)
    (hne : G ≠ [])
    (hbound : ∀ i ∈ MTree.slotsF (G ++ [X]), i < s.nodes.length)
    (hmh : MinAtHead s G) :
    ∃ F', (F' = G ++ [X] ∨ F' = X :: G) ∧
      RingChain (s.add_to_root X.top) (F'.map MTree.top) ∧
      (s.add_to_root X.top).min_root = F'.head?.map MTree.top ∧
      (∀ t ∈ F', TreeRepr (s.add_to_root X.top) t none) ∧
      MinAtHead (s.add_to_root X.top) F' := by
  obtain ⟨g0, Grest, rfl⟩ : ∃ g0 Grest, G = g0 :: Grest := by
    cases G with
    | nil => exact absurd rfl hne
    | cons a l => exact ⟨a, l, rfl⟩
  have hndG : (MTree.slotsF (g0 :: Grest)).Nodup := by
    rw [MTree.slotsF_append] at hnd
    exact (List.nodup_append.1 hnd).1
  have hdisjX : ∀ i ∈ MTree.slotsF (g0 :: Grest), i ∉ X.slots := by
    rw [MTree.slotsF_append] at hnd
    intro i hi hm
    refine (List.disjoint_of_nodup_append hnd) hi ?_
    rw [MTree.slotsF_cons, MTree.slotsF_nil, List.append_nil]
    exact hm
  have htopsG : ∀ v ∈ List.map MTree.top (g0 :: Grest),
      v ∈ MTree.slotsF (g0 :: Grest) := by
    intro v hv
    obtain ⟨V, hV, rfl⟩ := List.mem_map.1 hv
    exact MTree.top_mem_slotsF hV
  have hxmemX : X.top ∈ X.slots := MTree.top_mem_slots X
  have hnotin : X.top ∉ g0.top :: List.map MTree.top Grest := by
    intro hm
    exact hdisjX X.top (htopsG X.top hm) hxmemX
  have hndtops : (g0.top :: List.map MTree.top Grest).Nodup := tops_nodup hndG
  have hboundG : ∀ i ∈ MTree.slotsF (g0 :: Grest), i < s.nodes.length := by
    intro i hi
    refine hbound i ?_
    rw [MTree.slotsF_append]
    exact List.mem_append_left _ hi
  have hxb : X.top < s.nodes.length := by
    refine hbound X.top ?_
    rw [MTree.slotsF_append]
    refine List.mem_append_right _ ?_
    rw [MTree.slotsF_cons, MTree.slotsF_nil, List.append_nil]
    exact hxmemX
  have hringc : RingChain s (g0.top :: List.map MTree.top Grest) := hring
  have hminc : s.min_root = some g0.top := hmin
  have hgb : g0.top < s.nodes.length := hboundG _ (htopsG _ (List.mem_cons_self _ _))
  have hLmem : (s.getN g0.top).left ∈ g0.top :: List.map MTree.top Grest :=
    ringChain_left_mem hringc
  have hLb : (s.getN g0.top).left < s.nodes.length := hboundG _ (htopsG _ hLmem)
  obtain ⟨hring2, hmin2, hfields, hframe⟩ :=
    add_to_root_spec hminc hringc hndtops hxb hgb hLb hnotin
  have hXmemF : X ∈ (g0 :: Grest) ++ [X] :=
    List.mem_append_right _ (List.mem_cons_self _ _)
  have hsep : ∀ t ∈ (g0 :: Grest) ++ [X], ∀ z ∈ t.slots, z ≠ t.top →
      ∀ V ∈ (g0 :: Grest) ++ [X], z ≠ V.top := by
    intro t ht z hz hztop V hV e
    have h1 : t = V := MTree.slots_disjoint hnd t ht V hV z hz
      (by rw [e]; exact MTree.top_mem_slots V)
    exact hztop (by rw [e, h1])
  have htrees2 : ∀ t ∈ (g0 :: Grest) ++ [X],
      TreeRepr (s.add_to_root X.top) t none := by
    intro t ht
    have htr : TreeRepr s t none := by
      rcases List.mem_append.1 ht with h1 | h1
      · exact htrees t h1
      · rcases List.mem_cons.1 h1 with rfl | h2
        · exact hXr
        · cases h2
    have hndt : t.slots.Nodup := MTree.nodup_slots_of_mem hnd ht
    refine TreeRepr.frameFine htr hndt (fun z hz => hfields z) ?_
      (le_of_eq (add_to_root_length s X.top).symm)
    intro z hz hztop
    have hLV : ∃ V ∈ (g0 :: Grest) ++ [X], (s.getN g0.top).left = V.top := by
      rcases List.mem_cons.1 hLmem with h1 | h1
      · exact ⟨g0, List.mem_append_left _ (List.mem_cons_self _ _), h1⟩
      · obtain ⟨V, hV, hVe⟩ := List.mem_map.1 h1
        exact ⟨V, List.mem_append_left _ (List.mem_cons_of_mem _ hV), hVe.symm⟩
    obtain ⟨VL, hVL, hVLe⟩ := hLV
    rw [hframe z (hsep t ht z hz hztop X hXmemF)
      (hsep t ht z hz hztop g0 (List.mem_append_left _ (List.mem_cons_self _ _)))
      (by rw [hVLe]; exact hsep t ht z hz hztop VL hVL)]
    exact ⟨rfl, rfl⟩
  by_cases hlt : (s.getN X.top).entry.2 < (s.getN g0.top).entry.2
  · refine ⟨X :: (g0 :: Grest), Or.inr rfl, ?_, ?_, ?_, ?_⟩
    · have h2 : RingChain (s.add_to_root X.top)
          ((g0.top :: List.map MTree.top Grest) ++ X.top :: []) := by
        simpa using hring2
      have h3 := ringChain_rotate h2
      simpa using h3
    · rw [hmin2, if_pos hlt]
      rfl
    · intro t ht
      rcases List.mem_cons.1 ht with rfl | h1
      · exact htrees2 _ hXmemF
      · exact htrees2 t (List.mem_append_left _ h1)
    · intro h2 hh2 t ht
      obtain rfl : X = h2 := by simpa using hh2
      rw [(hfields X.top).2.2.2.2, (hfields t.top).2.2.2.2]
      rcases List.mem_cons.1 ht with rfl | h3
      · exact le_refl _
      · exact le_of_lt (lt_of_lt_of_le hlt (hmh g0 rfl t h3))
  · refine ⟨(g0 :: Grest) ++ [X], Or.inl rfl, ?_, ?_, htrees2, ?_⟩
    · rw [List.map_append]
      simpa using hring2
    · rw [hmin2, if_neg hlt]
      rfl
    · intro h2 hh2 t ht
      obtain rfl : g0 = h2 := by simpa using hh2
      rw [(hfields g0.top).2.2.2.2, (hfields t.top).2.2.2.2]
      rcases List.mem_append.1 ht with h3 | h3
      · exact hmh g0 rfl t h3
      · rcases List.mem_cons.1 h3 with rfl | h4
        · exact le_of_not_lt hlt
        · cases h4

/-- `cut x par` on a live non-root slot `x` whose recorded parent is `par`
restores a fully heap-ordered forest: the surgered subtree joins the root
ring (first, when its key beats the minimum), and the arena size, the
position index, the live counter and every entry are untouched. -/
theorem cut_repr {s : FibHeap K} {F : List MTree} {x par : Nat}
    (hring : RingChain s (F.map MTree.top))
    (hmin : s.min_root = F.head?.map MTree.top)
    (htrees : ∀ t ∈ F, TreeReprExc s x t none)
    (hnd : (MTree.slotsF F).Nodup)
    (hmh : MinAtHead s F)
    (hbound : ∀ i ∈ MTree.slotsF F, i < s.nodes.length)
    (hx : x ∈ MTree.slotsF F)
    (hpar : (s.getN x).parent = some par) :
    ∃ F', RingChain (s.cut x par) (F'.map MTree.top) ∧
      (s.cut x par).min_root = F'.head?.map MTree.top ∧
      (∀ t ∈ F', TreeRepr (s.cut x par) t none) ∧
      MinAtHead (s.cut x par) F' ∧
      List.Perm (MTree.slotsF F') (MTree.slotsF F) ∧
      (s.cut x par).nodes.length = s.nodes.length ∧
      (s.cut x par).positions = s.positions ∧
      (s.cut x par).n = s.n ∧
      (∀ j, ((s.cut x par).getN j).entry = (s.getN j).entry) ∧
      par ∈ MTree.slotsF F' ∧
      (∀ v ∈ List.map MTree.top F, v ∈ List.map MTree.top F') ∧
      x ∈ List.map MTree.top F' := by
  obtain ⟨T, hT, hxT⟩ := MTree.mem_slotsF_iff.1 hx
  have hTexc := htrees T hT
  have hxtop : x ≠ T.top := by
    intro e
    have h1 := hTexc.parent_topE
    rw [← e, hpar] at h1
    cases h1
  obtain ⟨par2, T', X, hcut, hparx, hXx⟩ := cutAt_exists hTexc x hxT hxtop
  obtain rfl : par = par2 := by
    rw [hpar] at hparx
    exact Option.some.inj hparx
  obtain ⟨Fa, Fb, rfl⟩ := List.append_of_mem hT
  have hndT : T.slots.Nodup := MTree.nodup_slots_of_mem hnd hT
  have hbT : ∀ i ∈ T.slots, i < s.nodes.length := by
    intro i hi
    refine hbound i ?_
    rw [MTree.slotsF_append, MTree.slotsF_cons]
    exact List.mem_append_right _ (List.mem_append_left _ hi)
  obtain ⟨sM, hcuteq, hreprTp, hreprX, hlenM, hposM, hminM, hnM, hentM, hfrM,
    hTl, hTr⟩ := cutAt_repr hcut hTexc hndT hbT
  have hsplit : MTree.slotsF (Fa ++ T :: Fb) =
      MTree.slotsF Fa ++ (T.slots ++ MTree.slotsF Fb) := by
    rw [MTree.slotsF_append, MTree.slotsF_cons]
  have hndsp := hnd
  rw [hsplit] at hndsp
  have haT : ∀ z ∈ MTree.slotsF Fa, z ∉ T.slots := fun z hz hc2 =>
    (List.disjoint_of_nodup_append hndsp) hz (List.mem_append_left _ hc2)
  have hbTd : ∀ z ∈ MTree.slotsF Fb, z ∉ T.slots := by
    have h1 := (List.nodup_append.1 hndsp).2.1
    exact fun z hz hc2 => (List.disjoint_of_nodup_append h1) hc2 hz
  have hGfull : ∀ t ∈ Fa ++ T' :: Fb, TreeRepr sM t none := by
    intro t ht
    rcases List.mem_append.1 ht with h1 | h1
    · refine TreeRepr.frame (treeReprExc_full (htrees t (List.mem_append_left _ h1))
        (fun hm => haT x (MTree.mem_slotsF_of_mem h1 hm) hxT)) ?_ (le_of_eq hlenM.symm)
      intro z hz
      exact hfrM z (haT z (MTree.mem_slotsF_of_mem h1 hz))
    · rcases List.mem_cons.1 h1 with rfl | h2
      · exact hreprTp
      · refine TreeRepr.frame (treeReprExc_full
          (htrees t (List.mem_append_right _ (List.mem_cons_of_mem _ h2)))
          (fun hm => hbTd x (MTree.mem_slotsF_of_mem h2 hm) hxT)) ?_ (le_of_eq hlenM.symm)
        intro z hz
        exact hfrM z (hbTd z (MTree.mem_slotsF_of_mem h2 hz))
  have hmapG : List.map MTree.top (Fa ++ T' :: Fb) =
      List.map MTree.top (Fa ++ T :: Fb) := by
    rw [List.map_append, List.map_append, List.map_cons, List.map_cons,
      cutAt_top_eq hcut]
  have hringG : RingChain sM (List.map MTree.top (Fa ++ T' :: Fb)) := by
    rw [hmapG]
    apply ringChain_frame ?_ hring
    intro z hz
    obtain ⟨V, hV, rfl⟩ := List.mem_map.1 hz
    by_cases hzT : V.top ∈ T.slots
    · have hVT : V = T := MTree.slots_disjoint hnd V hV T hT V.top
        (MTree.top_mem_slots V) hzT
      rw [hVT]
      exact ⟨hTl, hTr⟩
    · rw [hfrM _ hzT]
      exact ⟨rfl, rfl⟩
  have hminG : sM.min_root = (Fa ++ T' :: Fb).head?.map MTree.top := by
    rw [hminM, hmin]
    cases Fa with
    | nil =>
        show some T.top = some T'.top
        rw [cutAt_top_eq hcut]
    | cons a0 a2 => rfl
  have hmhG : MinAtHead sM (Fa ++ T' :: Fb) := by
    intro h2 hh2 t ht
    rw [hentM, hentM]
    have hkey : ∀ u ∈ Fa ++ T' :: Fb, ∃ v ∈ Fa ++ T :: Fb, u.top = v.top := by
      intro u hu
      rcases List.mem_append.1 hu with h1 | h1
      · exact ⟨u, List.mem_append_left _ h1, rfl⟩
      · rcases List.mem_cons.1 h1 with rfl | h3
        · exact ⟨T, hT, cutAt_top_eq hcut⟩
        · exact ⟨u, List.mem_append_right _ (List.mem_cons_of_mem _ h3), rfl⟩
    obtain ⟨v, hv, hve⟩ := hkey t ht
    rw [hve]
    cases Fa with
    | nil =>
        obtain rfl : T' = h2 := by simpa using hh2
        rw [cutAt_top_eq hcut]
        exact hmh T rfl v hv
    | cons a0 a2 =>
        obtain rfl : a0 = h2 := by simpa using hh2
        exact hmh a0 rfl v hv
  have hpermFull : List.Perm (MTree.slotsF ((Fa ++ T' :: Fb) ++ [X]))
      (MTree.slotsF (Fa ++ T :: Fb)) := by
    rw [MTree.slotsF_append, MTree.slotsF_append, MTree.slotsF_cons,
      MTree.slotsF_cons, MTree.slotsF_nil, List.append_nil, hsplit]
    refine List.Perm.trans List.perm_append_comm ?_
    refine List.Perm.trans (perm_pull_middle _ _ _) ?_
    refine List.Perm.append_left _ ?_
    have h4 : X.slots ++ (T'.slots ++ MTree.slotsF Fb) =
        (X.slots ++ T'.slots) ++ MTree.slotsF Fb := (List.append_assoc _ _ _).symm
    rw [h4]
    exact List.Perm.append_right _ (cutAt_slots_perm hcut)
  have hndGX : (MTree.slotsF ((Fa ++ T' :: Fb) ++ [X])).Nodup :=
    hpermFull.nodup_iff.2 hnd
  have hboundGX : ∀ i ∈ MTree.slotsF ((Fa ++ T' :: Fb) ++ [X]),
      i < sM.nodes.length := by
    intro i hi
    rw [hlenM]
    exact hbound i (hpermFull.mem_iff.1 hi)
  have hGne : Fa ++ T' :: Fb ≠ [] := by
    cases Fa <;> simp
  obtain ⟨F', hFor, hring3, hmin3, htrees3, hmh3⟩ :=
    add_root_tree_repr hringG hminG hGfull hreprX hndGX hGne hboundGX hmhG
  rw [hXx] at hring3 hmin3 htrees3 hmh3
  have hcuteq2 : s.cut x par = sM.add_to_root x := hcuteq
  have hpermF : List.Perm (MTree.slotsF F') (MTree.slotsF (Fa ++ T :: Fb)) := by
    refine List.Perm.trans ?_ hpermFull
    rcases hFor with rfl | rfl
    · exact List.Perm.refl _
    · have h5 : MTree.slotsF (X :: (Fa ++ T' :: Fb)) =
          X.slots ++ MTree.slotsF (Fa ++ T' :: Fb) := MTree.slotsF_cons _ _
      have h6 : MTree.slotsF ((Fa ++ T' :: Fb) ++ [X]) =
          MTree.slotsF (Fa ++ T' :: Fb) ++ X.slots := by
        rw [MTree.slotsF_append, MTree.slotsF_cons, MTree.slotsF_nil, List.append_nil]
      rw [h5, h6]
      exact List.perm_append_comm
  have hparT : par ∈ T'.slots := cutAt_par_mem hcut
  refine ⟨F', ?_, ?_, ?_, ?_, hpermF, ?_, ?_, ?_, ?_, ?_, ?_, ?_⟩
  · rw [hcuteq2]
    exact hring3
  · rw [hcuteq2]
    exact hmin3
  · rw [hcuteq2]
    exact htrees3
  · rw [hcuteq2]
    exact hmh3
  · rw [hcuteq2, add_to_root_length, hlenM]
  · rw [hcuteq2, add_to_root_positions, hposM]
  · rw [hcuteq2, add_to_root_n, hnM]
  · intro j
    rw [hcuteq2, (add_to_root_fields sM x j).2.2.2.2, hentM]
  · have hmemG : par ∈ MTree.slotsF (Fa ++ T' :: Fb) := by
      rw [MTree.slotsF_append, MTree.slotsF_cons]
      exact List.mem_append_right _ (List.mem_append_left _ hparT)
    rcases hFor with rfl | rfl
    · rw [MTree.slotsF_append]
      exact List.mem_append_left _ hmemG
    · rw [MTree.slotsF_cons]
      exact List.mem_append_right _ hmemG
  · intro v hv
    have hvG : v ∈ List.map MTree.top (Fa ++ T' :: Fb) := by
      rw [hmapG]
      exact hv
    rcases hFor with rfl | rfl
    · rw [List.map_append]
      exact List.mem_append_left _ hvG
    · rw [List.map_cons]
      exact List.mem_cons_of_mem _ hvG
  · have hXF : X ∈ F' := by
      rcases hFor with rfl | rfl
      · exact List.mem_append_right _ (List.mem_cons_self _ _)
      · exact List.mem_cons_self _ _
    rw [← hXx]
    exact List.mem_map_of_mem MTree.top hXF

/-- `cascading_cut` preserves the representation: every step either stops,
sets one mark bit (which the encoding ignores), or performs a heap-order
respecting `cut` of a whole subtree into the root ring. -/
theorem cascading_repr {K : Type} [Inhabited K] [LinearOrder K] :
    ∀ (fuel : Nat) (s : FibHeap K) (F : List MTree) (y : Nat),
    FibHeap.RingChain s (F.map MTree.top) →
    s.min_root = F.head?.map MTree.top →
    (∀ t ∈ F, FibHeap.TreeRepr s t none) →
    (MTree.slotsF F).Nodup →
    FibHeap.MinAtHead s F →
    (∀ i ∈ MTree.slotsF F, i < s.nodes.length) →
    y ∈ MTree.slotsF F →
    ∃ F', FibHeap.RingChain (s.cascading_cut y fuel) (F'.map MTree.top) ∧
      (s.cascading_cut y fuel).min_root = F'.head?.map MTree.top ∧
      (∀ t ∈ F', FibHeap.TreeRepr (s.cascading_cut y fuel) t none) ∧
      FibHeap.MinAtHead (s.cascading_cut y fuel) F' ∧
      List.Perm (MTree.slotsF F') (MTree.slotsF F) ∧
      (s.cascading_cut y fuel).nodes.length = s.nodes.length ∧
      (s.cascading_cut y fuel).positions = s.positions ∧
      (s.cascading_cut y fuel).n = s.n ∧
      (∀ j, ((s.cascading_cut y fuel).getN j).entry = (s.getN j).entry) ∧
      (∀ v ∈ List.map MTree.top F, v ∈ List.map MTree.top F') := by
  intro fuel
  induction fuel with
  | zero =>
      intro s F y hring hmin htrees hnd hmh hbound hy
      exact ⟨F, hring, hmin, htrees, hmh, List.Perm.refl _, rfl, rfl, rfl,
        fun j => rfl, fun v hv => hv⟩
  | succ f ih =>
      intro s F y hring hmin htrees hnd hmh hbound hy
      rw [cascading_cut_succ]
      rcases hpar : (s.getN y).parent with _ | p
      · exact ⟨F, hring, hmin, htrees, hmh, List.Perm.refl _, rfl, rfl, rfl,
          fun j => rfl, fun v hv => hv⟩
      · dsimp only
        rcases hmark : (s.getN y).mark with _ | _
        · rw [if_pos rfl]
          refine ⟨F, ?_, ?_, ?_, ?_, List.Perm.refl _, ?_, ?_, ?_, ?_, fun v hv => hv⟩
          · apply FibHeap.ringChain_frame ?_ hring
            intro z hz
            constructor
            · rw [FibHeap.modifyN_preserves_left s y
                (fun nd => { nd with mark := true }) (fun nd => rfl) z]
            · rw [FibHeap.modifyN_preserves_right s y
                (fun nd => { nd with mark := true }) (fun nd => rfl) z]
          · rw [FibHeap.modifyN_min_root, hmin]
          · intro t ht
            refine FibHeap.TreeRepr.frameF4 (htrees t ht)
              (MTree.nodup_slots_of_mem hnd ht) ?_ ?_
              (le_of_eq (FibHeap.length_modifyN s y
                (fun nd => { nd with mark := true })).symm)
            · intro z hz
              exact ⟨FibHeap.modifyN_preserves_parent s y
                  (fun nd => { nd with mark := true }) (fun nd => rfl) z,
                FibHeap.modifyN_preserves_child s y
                  (fun nd => { nd with mark := true }) (fun nd => rfl) z,
                FibHeap.modifyN_preserves_degree s y
                  (fun nd => { nd with mark := true }) (fun nd => rfl) z,
                FibHeap.modifyN_preserves_entry s y
                  (fun nd => { nd with mark := true }) (fun nd => rfl) z⟩
            · intro z hz hztop
              exact ⟨FibHeap.modifyN_preserves_left s y
                  (fun nd => { nd with mark := true }) (fun nd => rfl) z,
                FibHeap.modifyN_preserves_right s y
                  (fun nd => { nd with mark := true }) (fun nd => rfl) z⟩
          · intro h2 hh2 t ht
            rw [FibHeap.modifyN_preserves_entry s y
                (fun nd => { nd with mark := true }) (fun nd => rfl),
              FibHeap.modifyN_preserves_entry s y
                (fun nd => { nd with mark := true }) (fun nd => rfl)]
            exact hmh h2 hh2 t ht
          · exact FibHeap.length_modifyN s y (fun nd => { nd with mark := true })
          · exact FibHeap.modifyN_positions s y (fun nd => { nd with mark := true })
          · exact FibHeap.modifyN_n s y (fun nd => { nd with mark := true })
          · intro j
            exact FibHeap.modifyN_preserves_entry s y
              (fun nd => { nd with mark := true }) (fun nd => rfl) j
        · rw [if_neg (by decide)]
          obtain ⟨F1, hring1, hmin1, htrees1, hmh1, hperm1, hlen1, hpos1, hn1,
            hent1, hp1, htops1, hx1⟩ := FibHeap.cut_repr hring hmin
            (fun t ht => FibHeap.treeRepr_exc_of (htrees t ht)) hnd hmh hbound hy hpar
          have hnd1 : (MTree.slotsF F1).Nodup := hperm1.nodup_iff.2 hnd
          have hbound1 : ∀ i ∈ MTree.slotsF F1, i < (s.cut y p).nodes.length := by
            intro i hi
            rw [hlen1]
            exact hbound i (hperm1.mem_iff.1 hi)
          obtain ⟨F2, hring2, hmin2, htrees2, hmh2, hperm2, hlen2, hpos2, hn2, hent2,
            htops2⟩ := ih (s.cut y p) F1 p hring1 hmin1 htrees1 hnd1 hmh1 hbound1 hp1
          exact ⟨F2, hring2, hmin2, htrees2, hmh2, hperm2.trans hperm1,
            by rw [hlen2, hlen1], by rw [hpos2, hpos1], by rw [hn2, hn1],
            fun j => by rw [hent2 j, hent1 j],
            fun v hv => htops2 v (htops1 v hv)⟩
theorem TreeRepr.rootPath {s : FibHeap K} {t : MTree} {po : Option Nat}
    (h : TreeRepr s t po)
    (hpo : ∀ q, po = some q → ∃ dq, RootPath s q dq) :
    ∀ x ∈ t.slots, ∃ d, RootPath s x d := by
  induction h with
  | mk hx hpar hdeg hchild hring hkeys hrec ih =>
      rename_i x cs po
      have htop : ∃ d, RootPath s x d := by
        cases po with
        | none => exact ⟨0, RootPath.root hpar⟩
        | some q =>
            obtain ⟨dq, hdq⟩ := hpo q rfl
            exact ⟨dq + 1, RootPath.step hpar hdq⟩
      intro z hz
      rcases List.mem_cons.1 hz with rfl | h0
      · exact htop
      · obtain ⟨c, hc, hzc⟩ := MTree.mem_slotsF_iff.1 h0
        exact ih c hc (fun q hq => by
          obtain rfl := Option.some.inj hq
          exact htop) z hzc

/-- `update_min` reads and writes only the minimum pointer. -/
theorem getN_update_min (s : FibHeap K) (i j : Nat) :
    (s.update_min i).getN j = s.getN j := by
  unfold update_min
  rcases hm : s.min_root with _ | m
  · rfl
  · dsimp only
    by_cases h : (s.getN i).entry.2 < (s.getN m).entry.2
    · rw [if_pos h]
      rfl
    · rw [if_neg h]

/-- Re-aiming the minimum pointer at a root top whose key may just have
dropped: the forest is rotated to list that root first exactly when the
pointer moves.  Head-minimality is only assumed away from the re-aimed
root. -/
theorem update_min_root_repr {s : FibHeap K} {F : List MTree} {x : Nat}
    (hring : RingChain s (F.map MTree.top))
    (hmin : s.min_root = F.head?.map MTree.top)
    (htrees : ∀ t ∈ F, TreeRepr s t none)
    (hnd : (MTree.slotsF F).Nodup)
    (hmhx : ∀ h2 ∈ F.head?, ∀ t ∈ F, t.top ≠ x →
      (s.getN h2.top).entry.2 ≤ (s.getN t.top).entry.2)
    (hx : x ∈ F.map MTree.top) :
    ∃ F', RingChain (s.update_min x) (F'.map MTree.top) ∧
      (s.update_min x).min_root = F'.head?.map MTree.top ∧
      (∀ t ∈ F', TreeRepr (s.update_min x) t none) ∧
      MinAtHead (s.update_min x) F' ∧
      List.Perm (MTree.slotsF F') (MTree.slotsF F) ∧
      (s.update_min x).nodes = s.nodes ∧
      (s.update_min x).positions = s.positions ∧
      (s.update_min x).n = s.n := by
  obtain ⟨T, hTmem, hTx⟩ := List.mem_map.1 hx
  obtain ⟨f0, Fr, hFeq⟩ : ∃ f0 Fr, F = f0 :: Fr := by
    cases F with
    | nil => cases hTmem
    | cons a l => exact ⟨a, l, rfl⟩
  have hf0 : f0 ∈ F.head? := by rw [hFeq]; rfl
  have hminc : s.min_root = some f0.top := by rw [hmin, hFeq]; rfl
  have hudef : s.update_min x =
      (if (s.getN x).entry.2 < (s.getN f0.top).entry.2 then
        { s with min_root := some x } else s) := by
    unfold update_min
    rw [hminc]
  have hgU : ∀ j, (s.update_min x).getN j = s.getN j := getN_update_min s x
  have hnodesU : (s.update_min x).nodes = s.nodes := by
    rw [hudef]
    by_cases h : (s.getN x).entry.2 < (s.getN f0.top).entry.2
    · rw [if_pos h]
    · rw [if_neg h]
  have hposU : (s.update_min x).positions = s.positions := by
    rw [hudef]
    by_cases h : (s.getN x).entry.2 < (s.getN f0.top).entry.2
    · rw [if_pos h]
    · rw [if_neg h]
  have hnU : (s.update_min x).n = s.n := by
    rw [hudef]
    by_cases h : (s.getN x).entry.2 < (s.getN f0.top).entry.2
    · rw [if_pos h]
    · rw [if_neg h]
  have hlenU : s.nodes.length ≤ (s.update_min x).nodes.length := by rw [hnodesU]
  by_cases hlt : (s.getN x).entry.2 < (s.getN f0.top).entry.2
  · obtain ⟨Fa, Fb, hFs⟩ := List.append_of_mem hTmem
    refine ⟨T :: (Fb ++ Fa), ?_, ?_, ?_, ?_, ?_, hnodesU, hposU, hnU⟩
    · have h1 : RingChain s (List.map MTree.top Fa ++
          T.top :: List.map MTree.top Fb) := by
        have h0 := hring
        rw [hFs, List.map_append, List.map_cons] at h0
        exact h0
      have h2 := ringChain_rotate h1
      have h3 : RingChain s (T.top :: (List.map MTree.top Fb ++
          List.map MTree.top Fa)) := by
        simpa using h2
      rw [List.map_cons, List.map_append]
      apply ringChain_frame ?_ h3
      intro z hz
      constructor
      · rw [hgU]
      · rw [hgU]
    · rw [hudef, if_pos hlt]
      show some x = some T.top
      rw [hTx]
    · intro t ht
      have htF : t ∈ F := by
        rcases List.mem_cons.1 ht with rfl | h1
        · exact hTmem
        · rw [hFs]
          rcases List.mem_append.1 h1 with h2 | h2
          · exact List.mem_append_right _ (List.mem_cons_of_mem _ h2)
          · exact List.mem_append_left _ h2
      exact TreeRepr.frame (htrees t htF) (fun z hz => hgU z) hlenU
    · intro h2 hh2 t ht
      obtain rfl : T = h2 := by simpa using hh2
      rw [hgU, hgU]
      have htF : t ∈ F := by
        rcases List.mem_cons.1 ht with rfl | h1
        · exact hTmem
        · rw [hFs]
          rcases List.mem_append.1 h1 with h3 | h3
          · exact List.mem_append_right _ (List.mem_cons_of_mem _ h3)
          · exact List.mem_append_left _ h3
      by_cases he : t.top = x
      · rw [hTx, he]
      · rw [hTx]
        exact le_of_lt (lt_of_lt_of_le hlt (hmhx f0 hf0 t htF he))
    · rw [hFs, MTree.slotsF_cons, MTree.slotsF_append, MTree.slotsF_append,
        MTree.slotsF_cons]
      refine List.Perm.trans (List.Perm.append_left T.slots List.perm_append_comm) ?_
      exact perm_pull_middle T.slots (MTree.slotsF Fa) (MTree.slotsF Fb)
  · have hse : s.update_min x = s := by rw [hudef, if_neg hlt]
    refine ⟨F, ?_, ?_, ?_, ?_, List.Perm.refl _, hnodesU, hposU, hnU⟩
    · rw [hse]
      exact hring
    · rw [hse]
      exact hmin
    · rw [hse]
      exact htrees
    · intro h2 hh2 t ht
      rw [hse]
      obtain rfl : f0 = h2 := by
        rw [hFeq] at hh2
        simpa using hh2
      by_cases he : t.top = x
      · rw [he]
        exact le_of_not_lt hlt
      · exact hmhx f0 hf0 t ht he

/-- Overwriting a key with a no-larger one preserves the encoding up to the
heap-order edges into the written slot. -/
theorem treeRepr_key_dec {s : FibHeap K} {t : MTree} {po : Option Nat}
    {idx : Nat} {k : K} (h : TreeRepr s t po) (hk : k ≤ (s.getN idx).entry.2)
    (hb : idx < s.nodes.length) :
    TreeReprExc (s.modifyN idx fun nd => { nd with entry := (nd.entry.1, k) })
      idx t po := by
  have hlen1 : (s.modifyN idx fun nd =>
      { nd with entry := (nd.entry.1, k) }).nodes.length = s.nodes.length := by
    simp
  have hgfields : ∀ j, ((s.modifyN idx fun nd =>
        { nd with entry := (nd.entry.1, k) }).getN j).parent = (s.getN j).parent ∧
      ((s.modifyN idx fun nd =>
        { nd with entry := (nd.entry.1, k) }).getN j).child = (s.getN j).child ∧
      ((s.modifyN idx fun nd =>
        { nd with entry := (nd.entry.1, k) }).getN j).degree = (s.getN j).degree ∧
      ((s.modifyN idx fun nd =>
        { nd with entry := (nd.entry.1, k) }).getN j).left = (s.getN j).left ∧
      ((s.modifyN idx fun nd =>
        { nd with entry := (nd.entry.1, k) }).getN j).right = (s.getN j).right := by
    intro j
    refine ⟨?_, ?_, ?_, ?_, ?_⟩
    · rw [modifyN_preserves_parent s idx
        (fun nd => { nd with entry := (nd.entry.1, k) }) (fun nd => rfl) j]
    · rw [modifyN_preserves_child s idx
        (fun nd => { nd with entry := (nd.entry.1, k) }) (fun nd => rfl) j]
    · rw [modifyN_preserves_degree s idx
        (fun nd => { nd with entry := (nd.entry.1, k) }) (fun nd => rfl) j]
    · rw [modifyN_preserves_left s idx
        (fun nd => { nd with entry := (nd.entry.1, k) }) (fun nd => rfl) j]
    · rw [modifyN_preserves_right s idx
        (fun nd => { nd with entry := (nd.entry.1, k) }) (fun nd => rfl) j]
  have hkeyE : ∀ j, j ≠ idx → ((s.modifyN idx fun nd =>
      { nd with entry := (nd.entry.1, k) }).getN j).entry.2 = (s.getN j).entry.2 := by
    intro j hj
    rw [getN_modifyN_ne _ _ _ _ (Ne.symm hj)]
  have hkeyi : ((s.modifyN idx fun nd =>
      { nd with entry := (nd.entry.1, k) }).getN idx).entry.2 = k := by
    rw [getN_modifyN_same _ _ _ hb]
  induction h with
  | mk hx hpar hdeg hchild hring hkeys hrec ih =>
      rename_i y cs po
      refine TreeReprExc.mk (by rw [hlen1]; exact hx) (by rw [(hgfields y).1, hpar])
        (by rw [(hgfields y).2.2.1, hdeg]) (by rw [(hgfields y).2.1, hchild]) ?_ ?_ ?_
      · apply ringChain_frame ?_ hring
        intro z hz
        exact ⟨(hgfields z).2.2.2.1, (hgfields z).2.2.2.2⟩
      · intro c hc hcx
        rw [hkeyE c.top hcx]
        by_cases hy : y = idx
        · subst hy
          rw [hkeyi]
          exact le_trans hk (hkeys c hc)
        · rw [hkeyE y hy]
          exact hkeys c hc
      · intro c hc
        exact ih c hc

/-- The live `id ↦ slot` bijection transfers along any state change that
keeps the position index and every id, up to a permutation of the slots. -/
theorem fid_transfer {s sF : FibHeap K} {F F' : List MTree}
    (hfid1 : ∀ i ∈ MTree.slotsF F, s.getP (s.getN i).entry.1 = some i)
    (hfid2 : ∀ id idx, s.getP id = some idx →
      idx ∈ MTree.slotsF F ∧ (s.getN idx).entry.1 = id)
    (hperm : List.Perm (MTree.slotsF F') (MTree.slotsF F))
    (hpos : sF.positions = s.positions)
    (hent : ∀ j, (sF.getN j).entry.1 = (s.getN j).entry.1) :
    (∀ i ∈ MTree.slotsF F', sF.getP (sF.getN i).entry.1 = some i) ∧
    (∀ id idx, sF.getP id = some idx →
      idx ∈ MTree.slotsF F' ∧ (sF.getN idx).entry.1 = id) := by
  have hgp : ∀ id, sF.getP id = s.getP id := by
    intro id
    show sF.positions.getD id none = s.positions.getD id none
    rw [hpos]
  constructor
  · intro i hi
    rw [hgp, hent i]
    exact hfid1 i (hperm.mem_iff.1 hi)
  · intro id j hj
    rw [hgp] at hj
    obtain ⟨hm, he⟩ := hfid2 id j hj
    refine ⟨hperm.mem_iff.2 hm, ?_⟩
    rw [hent j]
    exact he

/-- `decrease_key` on a live id with a strictly smaller key: the entry is
overwritten in place; when heap order with the parent breaks, the subtree is
cut to the root ring and the cascade runs; the minimum pointer is re-aimed.
Ids, positions, the arena size and the live counter are untouched. -/
theorem decrease_key_spec {s : FibHeap K} {F : List MTree} (hrep : FibRepr s F)
    {id : Nat} {k : K} {idx : Nat} (hid : s.getP id = some idx)
    (hk : k < (s.getN idx).entry.2) :
    ∃ F', FibRepr (s.decrease_key id k) F' ∧
      List.Perm (MTree.slotsF F') (MTree.slotsF F) ∧
      (s.decrease_key id k).nodes.length = s.nodes.length ∧
      (s.decrease_key id k).positions = s.positions ∧
      (s.decrease_key id k).n = s.n ∧
      ((s.decrease_key id k).getN idx).entry = ((s.getN idx).entry.1, k) ∧
      (∀ j, j ≠ idx → ((s.decrease_key id k).getN j).entry = (s.getN j).entry) := by
  obtain ⟨⟨hring, hmin, htrees, hnd, hn, hfid1, hfid2⟩, hmh⟩ := hrep
  have hbound : ∀ i ∈ MTree.slotsF F, i < s.nodes.length :=
    FibReprCore.slots_lt ⟨hring, hmin, htrees, hnd, hn, hfid1, hfid2⟩
  have hidxmem : idx ∈ MTree.slotsF F := (hfid2 id idx hid).1
  have hidxb : idx < s.nodes.length := hbound idx hidxmem
  set s1 := s.modifyN idx fun nd => { nd with entry := (nd.entry.1, k) } with hs1
  have hdef : s.decrease_key id k =
      (match (s1.getN idx).parent with
       | some p =>
           if (s1.getN idx).entry.2 < (s1.getN p).entry.2 then
             (s1.cut idx p).cascading_cut p ((s1.cut idx p).nodes.length + 1)
           else s1
       | none => s1).update_min idx := by
    unfold decrease_key
    rw [hid]
  have hlen1 : s1.nodes.length = s.nodes.length := by rw [hs1]; simp
  have hpos1 : s1.positions = s.positions := by rw [hs1]; simp
  have hmin1 : s1.min_root = s.min_root := by rw [hs1]; simp
  have hn1 : s1.n = s.n := by rw [hs1]; simp
  have hfr1 : ∀ j, j ≠ idx → s1.getN j = s.getN j := by
    intro j hj
    rw [hs1, getN_modifyN_ne _ _ _ _ (Ne.symm hj)]
  have hgidx : s1.getN idx =
      { s.getN idx with entry := ((s.getN idx).entry.1, k) } := by
    rw [hs1]
    exact getN_modifyN_same _ _ _ hidxb
  have hent1 : ∀ j, (s1.getN j).entry.1 = (s.getN j).entry.1 := by
    intro j
    by_cases hj : j = idx
    · subst hj
      rw [hgidx]
    · rw [hfr1 j hj]
  have hkey1 : (s1.getN idx).entry.2 = k := by rw [hgidx]
  have hringZ : RingChain s1 (F.map MTree.top) := by
    apply ringChain_frame ?_ hring
    intro z hz
    by_cases hj : z = idx
    · subst hj
      rw [hgidx]
      exact ⟨rfl, rfl⟩
    · rw [hfr1 z hj]
      exact ⟨rfl, rfl⟩
  have hminZ : s1.min_root = F.head?.map MTree.top := by rw [hmin1, hmin]
  have htreesE : ∀ t ∈ F, TreeReprExc s1 idx t none :=
    fun t ht => treeRepr_key_dec (htrees t ht) (le_of_lt hk) hidxb
  have hboundZ : ∀ i ∈ MTree.slotsF F, i < s1.nodes.length := by
    intro i hi
    rw [hlen1]
    exact hbound i hi
  obtain ⟨T, hTmem, hTidx⟩ := MTree.mem_slotsF_iff.1 hidxmem
  have hpar1 : (s1.getN idx).parent = (s.getN idx).parent := by rw [hgidx]
  rw [hdef, hpar1]
  rcases hpar : (s.getN idx).parent with _ | p
  · -- the written slot is a tree top: no structural change, re-aim the min
    dsimp only
    have hidxtop : idx = T.top := by
      by_contra hne
      obtain ⟨q, T2, X2, _, hq, _⟩ := cutAt_exists
        ((treeRepr_exc_of (htrees T hTmem)) : TreeReprExc s 0 T none) idx hTidx hne
      rw [hpar] at hq
      cases hq
    have htreesZ : ∀ t ∈ F, TreeRepr s1 t none := by
      intro t ht
      refine treeReprExc_full_edge (htreesE t ht) ?_
      intro y hy
      rw [hpar1, hpar] at hy
      cases hy
    have hmhxZ : ∀ h2 ∈ F.head?, ∀ t ∈ F, t.top ≠ idx →
        (s1.getN h2.top).entry.2 ≤ (s1.getN t.top).entry.2 := by
      intro h2 hh2 t ht htne
      rw [hfr1 t.top htne]
      by_cases hhe : h2.top = idx
      · rw [hhe, hkey1]
        refine le_trans (le_of_lt hk) ?_
        have := hmh h2 hh2 t ht
        rw [hhe] at this
        exact this
      · rw [hfr1 h2.top hhe]
        exact hmh h2 hh2 t ht
    have hxtops : idx ∈ F.map MTree.top := by
      rw [hidxtop]
      exact List.mem_map_of_mem MTree.top hTmem
    obtain ⟨F2, hring2, hmin2, htrees2, hmh2, hperm2, hnodes2, hpos2, hn2⟩ :=
      update_min_root_repr hringZ hminZ htreesZ hnd hmhxZ hxtops
    have hentF : ∀ j, ((s1.update_min idx).getN j).entry = (s1.getN j).entry :=
      fun j => by rw [getN_update_min]
    have hfid := fid_transfer hfid1 hfid2 hperm2
      (by rw [hpos2, hpos1])
      (fun j => by rw [hentF j, hent1 j])
    refine ⟨F2, ⟨⟨hring2, hmin2, htrees2, hperm2.nodup_iff.2 hnd, ?_, hfid.1, hfid.2⟩,
      hmh2⟩, hperm2, ?_, ?_, ?_, ?_, ?_⟩
    · rw [hn2, hn1, hn, hperm2.length_eq]
    · rw [hnodes2, hlen1]
    · rw [hpos2, hpos1]
    · rw [hn2, hn1]
    · rw [hentF idx, hgidx]
    · intro j hj
      rw [hentF j, hfr1 j hj]
  · -- the written slot has a parent
    dsimp only
    have hidxnottop : ∀ t ∈ F, t.top ≠ idx := by
      intro t ht he
      have hteq : t = T := MTree.slots_disjoint hnd t ht T hTmem idx
        (he ▸ MTree.top_mem_slots t) hTidx
      have hptop := (htrees T hTmem).parent_top
      rw [← hteq, he, hpar] at hptop
      cases hptop
    by_cases hiflt : (s1.getN idx).entry.2 < (s1.getN p).entry.2
    · -- heap order broke: cut, cascade, re-aim
      rw [if_pos hiflt]
      have hmhZ : MinAtHead s1 F := by
        intro h2 hh2 t ht
        rw [hfr1 h2.top (hidxnottop h2 (List.mem_of_mem_head? hh2)),
          hfr1 t.top (hidxnottop t ht)]
        exact hmh h2 hh2 t ht
      have hparZ : (s1.getN idx).parent = some p := by rw [hpar1, hpar]
      obtain ⟨F1, hring1, hmin1c, htrees1, hmh1, hperm1, hlen1c, hpos1c, hn1c,
        hent1c, hp1, htops1, hx1⟩ :=
        cut_repr hringZ hminZ htreesE hnd hmhZ hboundZ hidxmem hparZ
      have hnd1 : (MTree.slotsF F1).Nodup := hperm1.nodup_iff.2 hnd
      have hbound1 : ∀ i ∈ MTree.slotsF F1, i < (s1.cut idx p).nodes.length := by
        intro i hi
        rw [hlen1c]
        exact hboundZ i (hperm1.mem_iff.1 hi)
      obtain ⟨F2, hring2, hmin2, htrees2, hmh2, hperm2, hlen2, hpos2, hn2, hent2,
        htops2⟩ := cascading_repr ((s1.cut idx p).nodes.length + 1) (s1.cut idx p)
        F1 p hring1 hmin1c htrees1 hnd1 hmh1 hbound1 hp1
      set s3 := (s1.cut idx p).cascading_cut p ((s1.cut idx p).nodes.length + 1)
        with hs3
      have hnd2 : (MTree.slotsF F2).Nodup := hperm2.nodup_iff.2 hnd1
      have hmhx2 : ∀ h2 ∈ F2.head?, ∀ t ∈ F2, t.top ≠ idx →
          (s3.getN h2.top).entry.2 ≤ (s3.getN t.top).entry.2 :=
        fun h2 hh2 t ht _ => hmh2 h2 hh2 t ht
      have hx2 : idx ∈ F2.map MTree.top := htops2 idx hx1
      obtain ⟨F3, hring3, hmin3, htrees3, hmh3, hperm3, hnodes3, hpos3, hn3⟩ :=
        update_min_root_repr hring2 hmin2 htrees2 hnd2 hmhx2 hx2
      have hpermA : List.Perm (MTree.slotsF F3) (MTree.slotsF F) :=
        (hperm3.trans hperm2).trans hperm1
      have hentF : ∀ j, ((s3.update_min idx).getN j).entry = (s1.getN j).entry :=
        fun j => by rw [getN_update_min, hs3, hent2 j, hent1c j]
      have hfid := fid_transfer hfid1 hfid2 hpermA
        (by rw [hpos3, hs3, hpos2, hpos1c, hpos1])
        (fun j => by rw [hentF j, hent1 j])
      refine ⟨F3, ⟨⟨hring3, hmin3, htrees3, hperm3.nodup_iff.2 hnd2, ?_, hfid.1,
        hfid.2⟩, hmh3⟩, hpermA, ?_, ?_, ?_, ?_, ?_⟩
      · rw [hn3, hs3, hn2, hn1c, hn1, hn, hpermA.length_eq]
      · rw [hnodes3, hs3, hlen2, hlen1c, hlen1]
      · rw [hpos3, hs3, hpos2, hpos1c, hpos1]
      · rw [hn3, hs3, hn2, hn1c, hn1]
      · rw [hentF idx, hgidx]
      · intro j hj
        rw [hentF j, hfr1 j hj]
    · -- heap order intact: nothing to cut, the minimum pointer stays
      rw [if_neg hiflt]
      have htreesZ : ∀ t ∈ F, TreeRepr s1 t none := by
        intro t ht
        refine treeReprExc_full_edge (htreesE t ht) ?_
        intro y hy
        rw [hpar1, hpar] at hy
        obtain rfl : p = y := Option.some.inj hy
        exact le_of_not_lt hiflt
      obtain ⟨f0, Fr, hFeq⟩ : ∃ f0 Fr, F = f0 :: Fr := by
        cases F with
        | nil => cases hTmem
        | cons a l => exact ⟨a, l, rfl⟩
      have hminc1 : s1.min_root = some f0.top := by rw [hminZ, hFeq]; rfl
      have hTtop : T.top ≠ idx := hidxnottop T hTmem
      have hchain : (s1.getN f0.top).entry.2 ≤ (s1.getN idx).entry.2 := by
        have h1 : (s1.getN f0.top).entry.2 ≤ (s1.getN T.top).entry.2 := by
          rw [hfr1 f0.top (hidxnottop f0 (by rw [hFeq]; exact List.mem_cons_self _ _)),
            hfr1 T.top hTtop]
          exact hmh f0 (by rw [hFeq]; rfl) T hTmem
        refine le_trans h1 ?_
        exact (htreesZ T hTmem).key_le idx hTidx
      have hnoop : s1.update_min idx = s1 :=
        update_min_noop hminc1 (not_lt.2 (by rw [hminc1] at hminc1; exact hchain))
      rw [hnoop]
      have hmhZ : MinAtHead s1 F := by
        intro h2 hh2 t ht
        by_cases hte : t.top = idx
        · rw [hte]
          rw [hFeq] at hh2
          obtain rfl : f0 = h2 := by simpa using hh2
          exact hchain
        · rw [hfr1 h2.top (hidxnottop h2 (List.mem_of_mem_head? hh2)),
            hfr1 t.top hte]
          exact hmh h2 hh2 t ht
      have hfid := fid_transfer hfid1 hfid2 (List.Perm.refl _) hpos1 hent1
      refine ⟨F, ⟨⟨hringZ, hminZ, htreesZ, hnd, ?_, hfid.1, hfid.2⟩, hmhZ⟩,
        List.Perm.refl _, hlen1, hpos1, hn1, ?_, ?_⟩
      · rw [hn1, hn]
      · rw [hgidx]
      · intro j hj
        exact congrArg Node.entry (hfr1 j hj)

/-- `delete_min` on a heap with no designated minimum returns the empty
result and the state unchanged. -/
theorem delete_min_none {s : FibHeap K} (h : s.min_root = none) :
    s.delete_min = (none, s) := by
  unfold delete_min
  rw [h]

/-- The empty heap represents the empty forest. -/
theorem new_repr : FibRepr (FibHeap.new : FibHeap K) [] := by
  refine ⟨⟨trivial, rfl, ?_, List.nodup_nil, rfl, ?_, ?_⟩, ?_⟩
  · intro t ht
    cases ht
  · intro i hi
    cases hi
  · intro id idx h
    exact Option.noConfusion h
  · intro h hh t ht
    cases ht

/-- Writes of `none` only erase: a surviving `some` predates the fold and
its id is hit by no folded node. -/
theorem foldl_set_none_some {l : List (Node K)} :
    ∀ {ps : List (Option Nat)} {id j : Nat},
    (l.foldl (fun ps nd => ps.set nd.entry.1 none) ps).getD id none = some j →
    ps.getD id none = some j ∧ ∀ nd ∈ l, nd.entry.1 ≠ id := by
  induction l with
  | nil =>
      intro ps id j h
      exact ⟨h, fun nd hnd => absurd hnd (List.not_mem_nil _)⟩
  | cons a l2 ih =>
      intro ps id j h
      rw [List.foldl_cons] at h
      obtain ⟨h1, h2⟩ := ih h
      rw [getD_setP] at h1
      by_cases he : a.entry.1 = id
      · by_cases hl : id < ps.length
        · rw [if_pos ⟨he, hl⟩] at h1
          cases h1
        · rw [if_neg (fun hc => hl hc.2)] at h1
          rw [List.getD_eq_getElem?_getD, List.getElem?_eq_none (le_of_not_lt hl)] at h1
          simp at h1
      · rw [if_neg (fun hc => he hc.1)] at h1
        refine ⟨h1, ?_⟩
        intro nd hnd
        rcases List.mem_cons.1 hnd with rfl | h3
        · exact he
        · exact h2 nd h3

/-- `clear` of any represented heap represents the empty forest: every live
id is erased from the position index. -/
theorem clear_repr {s : FibHeap K} {F : List MTree} (hrep : FibRepr s F) :
    FibRepr s.clear [] := by
  obtain ⟨⟨hring, hmin, htrees, hnd, hn, hfid1, hfid2⟩, hmh⟩ := hrep
  have hbound : ∀ i ∈ MTree.slotsF F, i < s.nodes.length :=
    FibReprCore.slots_lt ⟨hring, hmin, htrees, hnd, hn, hfid1, hfid2⟩
  refine ⟨⟨trivial, rfl, ?_, List.nodup_nil, rfl, ?_, ?_⟩, ?_⟩
  · intro t ht
    cases ht
  · intro i hi
    cases hi
  · intro id idx h
    have h2 : (s.nodes.foldl (fun ps nd => ps.set nd.entry.1 none)
        s.positions).getD id none = some idx := h
    obtain ⟨h3, h4⟩ := foldl_set_none_some h2
    have h5 : s.getP id = some idx := h3
    obtain ⟨hm, he⟩ := hfid2 id idx h5
    have hib : idx < s.nodes.length := hbound idx hm
    have hmem : s.getN idx ∈ s.nodes := by
      show s.nodes.getD idx default ∈ s.nodes
      rw [List.getD_eq_getElem _ _ hib]
      exact List.getElem_mem _
    exact absurd he (h4 _ hmem)
  · intro h hh t ht
    cases ht

/-- Folding `insert` over fresh distinct-id items keeps the heap
represented. -/
theorem build_fold_wf {items : List (Nat × K)} :
    ∀ {s : FibHeap K} {F : List MTree}, FibRepr s F →
    (∀ p ∈ items, s.getP p.1 = none) →
    (items.map Prod.fst).Nodup →
    ∃ F', FibRepr (items.foldl insert s) F' := by
  induction items with
  | nil =>
      intro s F hrep hfresh hnd
      exact ⟨F, hrep⟩
  | cons p rest ih =>
      intro s F hrep hfresh hnd
      rw [List.foldl_cons]
      obtain ⟨F1, hrep1, hperm1, hn1, hlen1, hgp1, hgo1, hent1, hentn1⟩ :=
        insert_spec hrep p (hfresh p (List.mem_cons_self _ _))
      rw [List.map_cons, List.nodup_cons] at hnd
      refine ih hrep1 ?_ hnd.2
      intro q hq
      have hne : q.1 ≠ p.1 := by
        intro he
        exact hnd.1 (he ▸ List.mem_map_of_mem Prod.fst hq)
      rw [hgo1 q.1 hne]
      exact hfresh q (List.mem_cons_of_mem _ hq)

/-- Every reachable state is well-formed: it represents some forest. -/
theorem reachable_wf {s : FibHeap K} (h : Reachable s) : WF s := by
  induction h with
  | new => exact ⟨[], new_repr⟩
  | @insert s p hre hfresh ih =>
      obtain ⟨F, hrep⟩ := ih
      obtain ⟨F1, hrep1, _⟩ := insert_spec hrep p hfresh
      exact ⟨F1, hrep1⟩
  | @delete_min s hre ih =>
      obtain ⟨F, hrep⟩ := ih
      cases F with
      | nil =>
          have hm : _ = none := hrep.1.2.1
          rw [delete_min_none hm]
          exact ⟨[], hrep⟩
      | cons t F1 =>
          cases t with
          | mk z cs =>
              obtain ⟨F2, hrep2, _⟩ := delete_min_spec hrep
              exact ⟨F2, hrep2⟩
  | @decrease_key s id k idx hre hid hk ih =>
      obtain ⟨F, hrep⟩ := ih
      obtain ⟨F2, hrep2, _⟩ := decrease_key_spec hrep hid hk
      exact ⟨F2, hrep2⟩
  | @clear s hre ih =>
      obtain ⟨F, hrep⟩ := ih
      exact ⟨[], clear_repr hrep⟩
  | build items hnd =>
      have hfresh : ∀ p ∈ items, (FibHeap.new : FibHeap K).getP p.1 = none := by
        intro p hp
        rfl
      obtain ⟨F2, hrep2⟩ := build_fold_wf new_repr hfresh hnd
      exact ⟨F2, hrep2⟩

/-- A represented heap with zero live count is the empty heap: `delete_min`
is the identity on it. -/
theorem wf_empty_identity {s : FibHeap K} {F : List MTree} (hrep : FibRepr s F)
    (hn : s.n = 0) : s.delete_min = (none, s) := by
  have hFnil : F = [] := by
    cases F with
    | nil => rfl
    | cons t F1 =>
        exfalso
        cases t with
        | mk z cs =>
            have h1 : s.n = (MTree.slotsF (MTree.mk z cs :: F1)).length :=
              hrep.1.2.2.2.2.1
            rw [hn, MTree.slotsF_cons, MTree.slots_mk] at h1
            simp at h1
  have hm : s.min_root = none := by
    have h2 := hrep.1.2.1
    rw [hFnil] at h2
    exact h2
  exact delete_min_none hm

/-- In a represented forest led by `mk z cs`, the head slot `z` carries a
key minimal among all slots of the forest. -/
theorem head_key_min {s : FibHeap K} {z : Nat} {cs F1 : List MTree}
    (hrep : FibRepr s (MTree.mk z cs :: F1)) :
    ∀ j ∈ MTree.slotsF (MTree.mk z cs :: F1),
      (s.getN z).entry.2 ≤ (s.getN j).entry.2 := by
  intro j hj
  obtain ⟨T, hT, hjT⟩ := MTree.mem_slotsF_iff.1 hj
  have h1 : (s.getN z).entry.2 ≤ (s.getN T.top).entry.2 := by
    have h2 := hrep.2 (MTree.mk z cs) rfl T hT
    rw [MTree.top_mk] at h2
    exact h2
  exact le_trans h1 ((hrep.1.2.2.1 T hT).key_le j hjT)

/-- Unfolding equation of the drain loop. -/
theorem drainFib_succ (s : FibHeap K) (f : Nat) :
    drainFib s (f + 1) =
      (match s.delete_min with
       | (none, _) => []
       | (some e, s') => e :: drainFib s' f) := by
  conv_lhs => unfold drainFib
  split <;> rename_i h <;> rw [h]

/-- Draining a represented heap with enough fuel lists exactly its live
entries, in non-decreasing key order. -/
theorem drain_spec : ∀ (fuel : Nat) (s : FibHeap K) (F : List MTree),
    FibRepr s F → s.n ≤ fuel →
    List.Perm (drainFib s fuel) (entriesOf s F) ∧
    List.Pairwise (fun a b : Nat × K => a.2 ≤ b.2) (drainFib s fuel) := by
  intro fuel
  induction fuel with
  | zero =>
      intro s F hrep hle
      have hn0 : s.n = 0 := Nat.le_zero.1 hle
      have hFnil : F = [] := by
        cases F with
        | nil => rfl
        | cons t F1 =>
            exfalso
            cases t with
            | mk z cs =>
                have h1 : s.n = (MTree.slotsF (MTree.mk z cs :: F1)).length :=
                  hrep.1.2.2.2.2.1
                rw [hn0, MTree.slotsF_cons, MTree.slots_mk] at h1
                simp at h1
      rw [hFnil]
      exact ⟨List.Perm.refl _, List.Pairwise.nil⟩
  | succ f ih =>
      intro s F hrep hle
      cases F with
      | nil =>
          have hm : s.min_root = none := hrep.1.2.1
          rw [drainFib_succ, delete_min_none hm]
          exact ⟨List.Perm.refl _, List.Pairwise.nil⟩
      | cons t F1 =>
          cases t with
          | mk z cs =>
              obtain ⟨F2, hrep2, hres, hperm2, hent2, hn2, hlen2, hdeg2⟩ :=
                delete_min_spec hrep
              have hsn : 1 ≤ s.n := by
                have h1 : s.n = (MTree.slotsF (MTree.mk z cs :: F1)).length :=
                  hrep.1.2.2.2.2.1
                rw [h1, MTree.slotsF_cons, MTree.slots_mk]
                simp
              have hdrain : drainFib s (f + 1) =
                  (s.getN z).entry :: drainFib (s.delete_min).2 f := by
                rw [drainFib_succ]
                rcases hdm : s.delete_min with ⟨o, s2⟩
                rw [hdm] at hres
                dsimp only at hres
                subst hres
                rfl
              obtain ⟨hpermR, hsortR⟩ := ih (s.delete_min).2 F2 hrep2 (by omega)
              have hentR : entriesOf (s.delete_min).2 F2 =
                  (MTree.slotsF F2).map fun i => (s.getN i).entry := by
                refine List.map_congr_left ?_
                intro i hi
                exact hent2 i hi
              have hslotsF : MTree.slotsF (MTree.mk z cs :: F1) =
                  z :: (MTree.slotsF cs ++ MTree.slotsF F1) := by
                rw [MTree.slotsF_cons, MTree.slots_mk, List.cons_append]
              constructor
              · rw [hdrain]
                show List.Perm ((s.getN z).entry :: drainFib (s.delete_min).2 f)
                  ((MTree.slotsF (MTree.mk z cs :: F1)).map fun i => (s.getN i).entry)
                rw [hslotsF, List.map_cons]
                refine List.Perm.cons _ ?_
                refine List.Perm.trans hpermR ?_
                rw [hentR]
                exact hperm2.map _
              · rw [hdrain]
                refine List.Pairwise.cons ?_ hsortR
                intro e he
                have heE : e ∈ entriesOf (s.delete_min).2 F2 :=
                  hpermR.mem_iff.1 he
                rw [hentR] at heE
                obtain ⟨i, hi, rfl⟩ := List.mem_map.1 heE
                have hiF : i ∈ MTree.slotsF (MTree.mk z cs :: F1) := by
                  rw [hslotsF]
                  exact List.mem_cons_of_mem _ (hperm2.mem_iff.1 hi)
                exact head_key_min hrep i hiF

/-- Folding `insert` over fresh distinct-id items: the represented entries
are the items plus the old entries. -/
theorem build_fold_repr {items : List (Nat × K)} :
    ∀ {s : FibHeap K} {F : List MTree}, FibRepr s F →
    (∀ p ∈ items, s.getP p.1 = none) →
    (items.map Prod.fst).Nodup →
    ∃ F', FibRepr (items.foldl insert s) F' ∧
      List.Perm (entriesOf (items.foldl insert s) F') (items ++ entriesOf s F) := by
  induction items with
  | nil =>
      intro s F hrep hfresh hnd
      exact ⟨F, hrep, by simp⟩
  | cons p rest ih =>
      intro s F hrep hfresh hnd
      rw [List.foldl_cons]
      obtain ⟨F1, hrep1, hperm1, hn1, hlen1, hgp1, hgo1, hent1, hentn1⟩ :=
        insert_spec hrep p (hfresh p (List.mem_cons_self _ _))
      rw [List.map_cons, List.nodup_cons] at hnd
      have hfresh2 : ∀ q ∈ rest, (s.insert p).getP q.1 = none := by
        intro q hq
        have hne : q.1 ≠ p.1 := by
          intro he
          exact hnd.1 (he ▸ List.mem_map_of_mem Prod.fst hq)
        rw [hgo1 q.1 hne]
        exact hfresh q (List.mem_cons_of_mem _ hq)
      obtain ⟨G, hG, hpermG⟩ := ih hrep1 hfresh2 hnd.2
      refine ⟨G, hG, ?_⟩
      refine List.Perm.trans hpermG ?_
      refine List.Perm.trans (List.Perm.append_left rest hperm1) ?_
      rw [List.cons_append]
      exact List.perm_middle

/-- Size accounting along a valid trace segment: the insert and extraction
counters advance by some `i` and `d` with `d` within budget, and the live
counter lands exactly on `n + i − d`. -/
theorem hfold_spec : ∀ (ops : List (HOp K)) (s : FibHeap K) (F : List MTree)
    (a b : Nat), FibRepr s F → ValidOps s ops →
    ∃ G i d, FibRepr (ops.foldl hstep (s, a, b)).1 G ∧
      (ops.foldl hstep (s, a, b)).2.1 = a + i ∧
      (ops.foldl hstep (s, a, b)).2.2 = b + d ∧
      d ≤ s.n + i ∧
      (ops.foldl hstep (s, a, b)).1.n = s.n + i - d := by
  intro ops
  induction ops with
  | nil =>
      intro s F a b hrep hv
      exact ⟨F, 0, 0, hrep, rfl, rfl, by omega, by show s.n = s.n + 0 - 0; omega⟩
  | cons op rest ih =>
      intro s F a b hrep hv
      cases op with
      | ins id k =>
          cases hv with
          | ins hfresh hv2 =>
              rw [List.foldl_cons]
              obtain ⟨F1, hrep1, hperm1, hn1, hlen1, hgp1, hgo1, hent1, hentn1⟩ :=
                insert_spec hrep (id, k) hfresh
              obtain ⟨G, i, d, hG, hi, hd, hle, hn⟩ :=
                ih (s.insert (id, k)) F1 (a + 1) b hrep1 hv2
              rw [hn1] at hle hn
              have hstepi : hstep (s, a, b) (HOp.ins id k) =
                  (s.insert (id, k), a + 1, b) := rfl
              rw [hstepi]
              exact ⟨G, i + 1, d, hG, by rw [hi]; omega, hd, by omega, by
                rw [hn]; omega⟩
      | del =>
          cases hv with
          | del hv2 =>
              rw [List.foldl_cons]
              cases F with
              | nil =>
                  have hm : s.min_root = none := hrep.1.2.1
                  have hn0 : s.n = 0 := by
                    have h1 := hrep.1.2.2.2.2.1
                    simpa using h1
                  have hstepd : hstep (s, a, b) HOp.del = ((s.delete_min).2, a, b) := by
                    show (match s.delete_min with
                      | (some _, s') => (s', a, b + 1)
                      | (none, s') => (s', a, b)) = _
                    rw [delete_min_none hm]
                  rw [hstepd]
                  have hseq : (s.delete_min).2 = s := by rw [delete_min_none hm]
                  rw [hseq]
                  exact ih s [] a b hrep (by rw [← hseq]; exact hv2)
              | cons t F1 =>
                  cases t with
                  | mk z cs =>
                      obtain ⟨F2, hrep2, hres, hperm2, hent2, hn2, hlen2, hdeg2⟩ :=
                        delete_min_spec hrep
                      have hsn : 1 ≤ s.n := by
                        have h1 : s.n = (MTree.slotsF (MTree.mk z cs :: F1)).length :=
                          hrep.1.2.2.2.2.1
                        rw [h1, MTree.slotsF_cons, MTree.slots_mk]
                        simp
                      have hstepd : hstep (s, a, b) HOp.del =
                          ((s.delete_min).2, a, b + 1) := by
                        show (match s.delete_min with
                          | (some _, s') => (s', a, b + 1)
                          | (none, s') => (s', a, b)) = _
                        rcases hdm : s.delete_min with ⟨o, s2⟩
                        rw [hdm] at hres
                        dsimp only at hres
                        subst hres
                        rfl
                      rw [hstepd]
                      obtain ⟨G, i, d, hG, hi, hd, hle, hn⟩ :=
                        ih (s.delete_min).2 F2 a (b + 1) hrep2 hv2
                      rw [hn2] at hle hn
                      exact ⟨G, i, d + 1, hG, hi, by rw [hd]; omega, by omega,
                        by rw [hn]; omega⟩

end FibHeap

/-- C9: `detach(node)` removes the node from whichever ring holds it by
re-pointing its two neighbours' `left`/`right` links to each other and
resetting the node's own `left`/`right` to itself, and it leaves every other
field of every node — `parent`, `child`, `mark`, `degree` and the `(id, key)`
entry — unchanged, as well as the position index, the minimum pointer and the
live counter. -/
theorem detach_repoints_neighbours_and_frames_everything_else {K : Type} [Inhabited K]
    [LinearOrder K] (s : FibHeap K) (i : Nat) (hi : i < s.nodes.length) :
    (s.detach i).positions = s.positions ∧ (s.detach i).min_root = s.min_root ∧
    (s.detach i).n = s.n ∧ (s.detach i).nodes.length = s.nodes.length ∧
    ((s.detach i).getN i).left = i ∧ ((s.detach i).getN i).right = i ∧
    (∀ l r, (s.getN i).left = l → (s.getN i).right = r → l < s.nodes.length →
      r < s.nodes.length → i ≠ l → i ≠ r →
      ((s.detach i).getN l).right = r ∧ ((s.detach i).getN r).left = l) ∧
    (∀ j, ((s.detach i).getN j).parent = (s.getN j).parent ∧
      ((s.detach i).getN j).child = (s.getN j).child ∧
      ((s.detach i).getN j).mark = (s.getN j).mark ∧
      ((s.detach i).getN j).degree = (s.getN j).degree ∧
      ((s.detach i).getN j).entry = (s.getN j).entry) ∧
    (∀ j, j ≠ i → j ≠ (s.getN i).left → j ≠ (s.getN i).right → (s.detach i).getN j = s.getN j) :=
  FibHeap.detach_spec s i hi

/-- Witness for the `detach` frame theorem on a concrete three-root heap. -/
theorem detach_frame_witness :
    (1 : Nat) < (FibHeap.build_heap (K := Int) [(0, 1), (1, 2), (2, 3)]).nodes.length ∧
    (((FibHeap.build_heap (K := Int) [(0, 1), (1, 2), (2, 3)]).detach 1).getN 1).left = 1 :=
  ⟨by decide,
    (detach_repoints_neighbours_and_frames_everything_else
      (FibHeap.build_heap (K := Int) [(0, 1), (1, 2), (2, 3)]) 1 (by decide)).2.2.2.2.1⟩

/-- C3 (counterexample): with debug assertions compiled out (release build),
the duplicate-id precondition of `insert` is not checked: inserting id `0`
twice completes normally and yields a corrupted state in which two arena
nodes carry id `0`, the position index points at the newer one, and the live
counter reads `2` — the call is neither rejected nor surfaced. -/
theorem insert_duplicate_id_not_rejected :
    ¬ (FibHeap.insert (FibHeap.new (K := Int)) (0, 5)).insertAssertOk 0 ∧
    ((FibHeap.insert (FibHeap.new (K := Int)) (0, 5)).insert (0, 3)).n = 2 ∧
    ((FibHeap.insert (FibHeap.new (K := Int)) (0, 5)).insert (0, 3)).nodes.length = 2 ∧
    (((FibHeap.insert (FibHeap.new (K := Int)) (0, 5)).insert (0, 3)).getN 0).entry = (0, 5) ∧
    (((FibHeap.insert (FibHeap.new (K := Int)) (0, 5)).insert (0, 3)).getN 1).entry = (0, 3) ∧
    ((FibHeap.insert (FibHeap.new (K := Int)) (0, 5)).insert (0, 3)).getP 0 = some 1 := by
  decide

/-- C3 (amended): the duplicate-id and non-decreasing-key checks exist only
as debug assertions.  Their conditions characterise the §7 contract
violations exactly — `insert`'s assertion holds iff the id is not currently
present, and `decrease_key`'s assertion holds iff the new key is strictly
smaller than the live node's current key — but in release builds both
operations proceed unconditionally (`insert` always appends a node and bumps
the counter). -/
theorem contract_checks_are_debug_assertions {K : Type} [Inhabited K] [LinearOrder K]
    (s : FibHeap K) (id : Nat) (k : K) :
    (s.insertAssertOk id ↔ s.getP id = none) ∧
    ((s.insert (id, k)).n = s.n + 1 ∧ (s.insert (id, k)).nodes.length = s.nodes.length + 1) ∧
    (∀ idx, s.getP id = some idx → (s.decreaseAssertOk id k ↔ k < (s.getN idx).entry.2)) := by
  refine ⟨?_, ⟨?_, ?_⟩, ?_⟩
  · constructor
    · rintro (hlen | hnone)
      · exact List.getD_eq_default _ _ hlen
      · exact hnone
    · intro h; exact Or.inr h
  · simp only [FibHeap.insert]
    split_ifs <;> simp
  · simp only [FibHeap.insert]
    split_ifs <;> simp
  · intro idx hidx
    unfold FibHeap.decreaseAssertOk
    rw [hidx]
    exact Iff.rfl

/-- Witness for the debug-assertion characterisation on a concrete heap. -/
theorem contract_checks_witness :
    ((FibHeap.build_heap (K := Int) [(0, 5)]).insertAssertOk 1 ↔
      (FibHeap.build_heap (K := Int) [(0, 5)]).getP 1 = none) ∧
    ((FibHeap.build_heap (K := Int) [(0, 5)]).decreaseAssertOk 0 3 ↔
      (3 : Int) < ((FibHeap.build_heap (K := Int) [(0, 5)]).getN 0).entry.2) :=
  ⟨(contract_checks_are_debug_assertions (FibHeap.build_heap (K := Int) [(0, 5)]) 1 3).1,
    (contract_checks_are_debug_assertions
      (FibHeap.build_heap (K := Int) [(0, 5)]) 0 3).2.2 0 (by decide)⟩

/-- C10: `delete_min` on a reachable empty heap (`len() = 0`) returns the
empty result and leaves the entire state — node store, position index,
minimum pointer and live counter — exactly unchanged. -/
theorem delete_min_on_empty_identity {K : Type} [Inhabited K] [LinearOrder K]
    {s : FibHeap K} (hr : FibHeap.Reachable s) (hn : s.len = 0) :
    s.delete_min = (none, s) := by
  obtain ⟨F, hrep⟩ := FibHeap.reachable_wf hr
  exact FibHeap.wf_empty_identity hrep hn

/-- Witness: the heap left after draining a one-item build is empty, and
`delete_min` on it is the literal identity. -/
theorem delete_min_on_empty_witness :
    ((FibHeap.build_heap (K := Int) [(0, 5)]).delete_min).2.len = 0 ∧
    ((FibHeap.build_heap (K := Int) [(0, 5)]).delete_min).2.delete_min =
      (none, ((FibHeap.build_heap (K := Int) [(0, 5)]).delete_min).2) :=
  ⟨by decide, delete_min_on_empty_identity
    (FibHeap.Reachable.delete_min (FibHeap.Reachable.build [(0, 5)] (by decide)))
    (by decide)⟩

/-- C4: heap order holds after every mutating operation run with its
preconditions — equivalently, in every reachable state: every live node
(an id the position index maps to a slot) whose slot records a parent has a
key at least its parent's key. -/
theorem heap_order_after_every_mutation {K : Type} [Inhabited K] [LinearOrder K]
    {s : FibHeap K} (hr : FibHeap.Reachable s) :
    ∀ id idx, s.getP id = some idx → ∀ q, (s.getN idx).parent = some q →
      (s.getN q).entry.2 ≤ (s.getN idx).entry.2 := by
  obtain ⟨F, hrep⟩ := FibHeap.reachable_wf hr
  intro id idx hid q hq
  have hmem : idx ∈ MTree.slotsF F := (hrep.1.2.2.2.2.2.2 id idx hid).1
  obtain ⟨T, hT, hxT⟩ := MTree.mem_slotsF_iff.1 hmem
  rcases (hrep.1.2.2.1 T hT).heapOrder idx hxT q hq with ⟨htop, hpo⟩ | h
  · cases hpo
  · exact h

/-- Witness: after a build and one extraction the link structure is
non-trivial — slot 2 is live with parent slot 1, and the keys obey heap
order. -/
theorem heap_order_witness :
    ((FibHeap.build_heap (K := Int) [(0, 1), (1, 2), (2, 3)]).delete_min).2.getP 2 =
      some 2 ∧
    ((((FibHeap.build_heap (K := Int) [(0, 1), (1, 2), (2, 3)]).delete_min).2.getN 2).parent =
      some 1) ∧
    ((((FibHeap.build_heap (K := Int) [(0, 1), (1, 2), (2, 3)]).delete_min).2.getN 1).entry.2 ≤
      (((FibHeap.build_heap (K := Int) [(0, 1), (1, 2), (2, 3)]).delete_min).2.getN 2).entry.2) :=
  ⟨by decide, by decide,
    heap_order_after_every_mutation
      (FibHeap.Reachable.delete_min
        (FibHeap.Reachable.build [(0, 1), (1, 2), (2, 3)] (by decide)))
      2 2 (by decide) 1 (by decide)⟩

/-- C1: on every reachable state, `delete_min` of an empty heap returns the
empty result with the state unchanged, and of a non-empty heap removes and
returns a live `(id, key)` entry whose key is minimal among all live entries
at call time: the returned pair is the entry of a live slot, every live
entry's key is at least the returned key, the returned id is absent
afterwards, and the live count drops by one. -/
theorem delete_min_returns_global_min {K : Type} [Inhabited K] [LinearOrder K]
    {s : FibHeap K} (hr : FibHeap.Reachable s) :
    (s.len = 0 → s.delete_min = (none, s)) ∧
    (s.len ≠ 0 → ∃ z : Nat,
      (s.delete_min).1 = some ((s.getN z).entry) ∧
      s.getP (s.getN z).entry.1 = some z ∧
      (∀ id idx, s.getP id = some idx →
        (s.getN z).entry.2 ≤ (s.getN idx).entry.2) ∧
      (s.delete_min).2.getP (s.getN z).entry.1 = none ∧
      (s.delete_min).2.len = s.len - 1) := by
  obtain ⟨F, hrep⟩ := FibHeap.reachable_wf hr
  constructor
  · intro hn
    exact FibHeap.wf_empty_identity hrep hn
  · intro hne
    cases F with
    | nil =>
        exfalso
        have h1 : s.n = 0 := by simpa using hrep.1.2.2.2.2.1
        exact hne h1
    | cons t F1 =>
        cases t with
        | mk z cs =>
            obtain ⟨F2, hrep2, hres, hperm2, hent2, hn2, hlen2, hdeg2⟩ :=
              FibHeap.delete_min_spec hrep
            have hzmem : z ∈ MTree.slotsF (MTree.mk z cs :: F1) := by
              rw [MTree.slotsF_cons, MTree.slots_mk]
              exact List.mem_append_left _ (List.mem_cons_self _ _)
            refine ⟨z, hres, hrep.1.2.2.2.2.2.1 z hzmem, ?_, ?_, hn2⟩
            · intro id idx hid
              exact FibHeap.head_key_min hrep idx (hrep.1.2.2.2.2.2.2 id idx hid).1
            · rcases hcase : (s.delete_min).2.getP (s.getN z).entry.1 with _ | j
              · rfl
              · exfalso
                obtain ⟨hjmem, hje⟩ := hrep2.1.2.2.2.2.2.2 _ j hcase
                have hje2 : (s.getN j).entry.1 = (s.getN z).entry.1 := by
                  rw [← hent2 j hjmem]
                  exact hje
                have h3 := hrep.1.2.2.2.2.2.1 j (by
                  rw [MTree.slotsF_cons, MTree.slots_mk, List.cons_append]
                  exact List.mem_cons_of_mem _ (hperm2.mem_iff.1 hjmem))
                rw [hje2] at h3
                have h4 := hrep.1.2.2.2.2.2.1 z hzmem
                rw [h3] at h4
                obtain rfl : j = z := Option.some.inj h4
                have h5 : j ∈ MTree.slotsF cs ++ MTree.slotsF F1 :=
                  hperm2.mem_iff.1 hjmem
                have h6 : (j :: (MTree.slotsF cs ++ MTree.slotsF F1)).Nodup := by
                  have h0 := hrep.1.2.2.2.1
                  rw [MTree.slotsF_cons, MTree.slots_mk, List.cons_append] at h0
                  exact h0
                exact (List.nodup_cons.1 h6).1 h5

/-- Witness: the empty-heap half of the guarantee, applied to the freshly
constructed heap. -/
theorem delete_min_global_min_witness :
    (FibHeap.new (K := Int)).len = 0 ∧
    (FibHeap.new (K := Int)).delete_min = (none, FibHeap.new) :=
  ⟨rfl, (delete_min_returns_global_min FibHeap.Reachable.new).1 rfl⟩

/-- C6: after `delete_min` (whose non-empty-remainder path ends in the
consolidation pass) the reachable state is represented by a forest whose
tops form the root ring and whose top degrees are pairwise distinct — no two
roots share a degree. -/
theorem consolidation_degrees_distinct {K : Type} [Inhabited K] [LinearOrder K]
    {s : FibHeap K} (hr : FibHeap.Reachable s) :
    ∃ F', FibHeap.FibRepr (s.delete_min).2 F' ∧
      FibHeap.RingChain (s.delete_min).2 (F'.map MTree.top) ∧
      (F'.map fun T => ((s.delete_min).2.getN T.top).degree).Nodup := by
  obtain ⟨F, hrep⟩ := FibHeap.reachable_wf hr
  cases F with
  | nil =>
      have hm : s.min_root = none := hrep.1.2.1
      rw [FibHeap.delete_min_none hm]
      exact ⟨[], hrep, hrep.1.1, by simp⟩
  | cons t F1 =>
      cases t with
      | mk z cs =>
          obtain ⟨F2, hrep2, hres, hperm2, hent2, hn2, hlen2, hdeg2⟩ :=
            FibHeap.delete_min_spec hrep
          exact ⟨F2, hrep2, hrep2.1.1, hdeg2⟩

/-- Witness: the degree-uniqueness representation after extracting from a
three-item build. -/
theorem consolidation_degrees_witness :
    ∃ F', FibHeap.FibRepr
        ((FibHeap.build_heap (K := Int) [(0, 1), (1, 2), (2, 3)]).delete_min).2 F' ∧
      FibHeap.RingChain
        ((FibHeap.build_heap (K := Int) [(0, 1), (1, 2), (2, 3)]).delete_min).2
        (F'.map MTree.top) ∧
      (F'.map fun T =>
        (((FibHeap.build_heap (K := Int) [(0, 1), (1, 2), (2, 3)]).delete_min).2.getN
          T.top).degree).Nodup :=
  consolidation_degrees_distinct
    (FibHeap.Reachable.build [(0, 1), (1, 2), (2, 3)] (by decide))

/-- C7: along any valid trace from the empty heap (fresh id at each insert;
extraction always allowed), the run keeps a running pair of counters — `k`
inserts, `j` successful extractions — and at every endpoint `j ≤ k`, `len()`
is exactly `k − j`, and `is_empty()` is the test `k − j == 0`; `len` reads
the maintained counter (`n`), never a scan of the store. -/
theorem size_accounting_trace {K : Type} [Inhabited K] [LinearOrder K]
    (ops : List (HOp K)) (hv : FibHeap.ValidOps FibHeap.new ops) :
    (FibHeap.hrun FibHeap.new ops).2.2 ≤ (FibHeap.hrun FibHeap.new ops).2.1 ∧
    (FibHeap.hrun FibHeap.new ops).1.len =
      (FibHeap.hrun FibHeap.new ops).2.1 - (FibHeap.hrun FibHeap.new ops).2.2 ∧
    (FibHeap.hrun FibHeap.new ops).1.is_empty =
      ((FibHeap.hrun FibHeap.new ops).2.1 - (FibHeap.hrun FibHeap.new ops).2.2 == 0) := by
  obtain ⟨G, i, d, hG, hi, hd, hle, hn⟩ :=
    FibHeap.hfold_spec ops FibHeap.new [] 0 0 FibHeap.new_repr hv
  have hrun_eq : FibHeap.hrun (FibHeap.new : FibHeap K) ops =
      ops.foldl FibHeap.hstep (FibHeap.new, 0, 0) := rfl
  rw [hrun_eq]
  have hn0 : (FibHeap.new : FibHeap K).n = 0 := rfl
  rw [hn0] at hle hn
  refine ⟨?_, ?_, ?_⟩
  · rw [hi, hd]
    omega
  · show (ops.foldl FibHeap.hstep (FibHeap.new, 0, 0)).1.n = _
    rw [hn, hi, hd]
    omega
  · show ((ops.foldl FibHeap.hstep (FibHeap.new, 0, 0)).1.n == 0) = _
    rw [hn, hi, hd]
    congr 1
    omega

/-- Witness: a five-step trace — three inserts interleaved with two
extractions — applied to the accounting theorem. -/
theorem size_accounting_witness :
    (FibHeap.hrun (FibHeap.new (K := Int))
        [HOp.ins 0 5, HOp.ins 1 3, HOp.del, HOp.ins 2 7, HOp.del]).2.2 ≤
      (FibHeap.hrun (FibHeap.new (K := Int))
        [HOp.ins 0 5, HOp.ins 1 3, HOp.del, HOp.ins 2 7, HOp.del]).2.1 ∧
    (FibHeap.hrun (FibHeap.new (K := Int))
        [HOp.ins 0 5, HOp.ins 1 3, HOp.del, HOp.ins 2 7, HOp.del]).1.len =
      (FibHeap.hrun (FibHeap.new (K := Int))
        [HOp.ins 0 5, HOp.ins 1 3, HOp.del, HOp.ins 2 7, HOp.del]).2.1 -
      (FibHeap.hrun (FibHeap.new (K := Int))
        [HOp.ins 0 5, HOp.ins 1 3, HOp.del, HOp.ins 2 7, HOp.del]).2.2 ∧
    (FibHeap.hrun (FibHeap.new (K := Int))
        [HOp.ins 0 5, HOp.ins 1 3, HOp.del, HOp.ins 2 7, HOp.del]).1.is_empty =
      ((FibHeap.hrun (FibHeap.new (K := Int))
        [HOp.ins 0 5, HOp.ins 1 3, HOp.del, HOp.ins 2 7, HOp.del]).2.1 -
      (FibHeap.hrun (FibHeap.new (K := Int))
        [HOp.ins 0 5, HOp.ins 1 3, HOp.del, HOp.ins 2 7, HOp.del]).2.2 == 0) :=
  size_accounting_trace _
    (FibHeap.ValidOps.ins (by decide)
      (FibHeap.ValidOps.ins (by decide)
        (FibHeap.ValidOps.del
          (FibHeap.ValidOps.ins (by decide)
            (FibHeap.ValidOps.del FibHeap.ValidOps.nil)))))

/-- C5: `build_heap` is definitionally the sequence of `insert`s from the
empty heap (exactly as the Rust loop), and building from distinct-id items
then repeatedly extracting until empty yields a permutation of the input in
non-decreasing key order — the sorted-by-key multiset round trip. -/
theorem build_heap_round_trip_sorted {K : Type} [Inhabited K] [LinearOrder K]
    (items : List (Nat × K)) (hnd : (items.map Prod.fst).Nodup) :
    FibHeap.build_heap items = items.foldl FibHeap.insert FibHeap.new ∧
    List.Perm
      (FibHeap.drainFib (FibHeap.build_heap items) (FibHeap.build_heap items).len)
      items ∧
    List.Pairwise (fun a b : Nat × K => a.2 ≤ b.2)
      (FibHeap.drainFib (FibHeap.build_heap items) (FibHeap.build_heap items).len) := by
  have hfresh : ∀ p ∈ items, (FibHeap.new : FibHeap K).getP p.1 = none :=
    fun p hp => rfl
  obtain ⟨F, hrep, hperm⟩ := FibHeap.build_fold_repr FibHeap.new_repr hfresh hnd
  have hb : FibHeap.build_heap items = items.foldl FibHeap.insert FibHeap.new := rfl
  obtain ⟨hp, hs⟩ := FibHeap.drain_spec (FibHeap.build_heap items).len
    (FibHeap.build_heap items) F (by rw [hb]; exact hrep) (le_refl _)
  refine ⟨rfl, ?_, hs⟩
  refine List.Perm.trans hp ?_
  have he : FibHeap.entriesOf (FibHeap.build_heap items) F =
      FibHeap.entriesOf (items.foldl FibHeap.insert FibHeap.new) F := by rw [hb]
  rw [he]
  refine List.Perm.trans hperm ?_
  simp [FibHeap.entriesOf]

/-- Witness: three items built and fully drained come out sorted by key. -/
theorem build_round_trip_witness :
    FibHeap.build_heap (K := Int) [(0, 3), (1, 1), (2, 2)] =
      [(0, 3), (1, 1), (2, 2)].foldl FibHeap.insert FibHeap.new ∧
    List.Perm
      (FibHeap.drainFib (FibHeap.build_heap (K := Int) [(0, 3), (1, 1), (2, 2)])
        (FibHeap.build_heap (K := Int) [(0, 3), (1, 1), (2, 2)]).len)
      [(0, 3), (1, 1), (2, 2)] ∧
    List.Pairwise (fun a b : Nat × Int => a.2 ≤ b.2)
      (FibHeap.drainFib (FibHeap.build_heap (K := Int) [(0, 3), (1, 1), (2, 2)])
        (FibHeap.build_heap (K := Int) [(0, 3), (1, 1), (2, 2)]).len) :=
  build_heap_round_trip_sorted [(0, 3), (1, 1), (2, 2)] (by decide)

namespace MinHeap

variable {K : Type} [Inhabited K] [LinearOrder K]

theorem getD_set_d {α : Type} (l : List α) (j i : Nat) (v d : α) :
    (l.set j v).getD i d = if j = i ∧ i < l.length then v else l.getD i d := by
  rw [List.getD_eq_getElem?_getD, List.getD_eq_getElem?_getD]
  by_cases h : j = i
  · subst h
    by_cases hl : j < l.length
    · simp [List.getElem?_set_self hl, hl]
    · rw [List.set_eq_of_length_le (Nat.le_of_not_lt hl)]
      simp [hl]
  · simp [List.getElem?_set_ne h, h]

theorem set_head_swap_perm {α : Type} (d : α) :
    ∀ (t : List α) (m : Nat), m < t.length → ∀ a : α,
    List.Perm ((t.getD m d) :: t.set m a) (a :: t) := by
  intro t
  induction t with
  | nil =>
      intro m hm
      exact absurd hm (by simp)
  | cons b t2 ih =>
      intro m hm a
      cases m with
      | zero =>
          show List.Perm (b :: a :: t2) (a :: b :: t2)
          exact List.Perm.swap a b t2
      | succ k =>
          have hk : k < t2.length := by simpa using hm
          show List.Perm ((t2.getD k d) :: b :: t2.set k a) (a :: b :: t2)
          refine List.Perm.trans (List.Perm.swap b (t2.getD k d) (t2.set k a)) ?_
          refine List.Perm.trans (List.Perm.cons b (ih k hk a)) ?_
          exact List.Perm.swap a b t2

theorem set_set_perm {α : Type} (d : α) :
    ∀ (l : List α) (i j : Nat), i < l.length → j < l.length →
    List.Perm ((l.set i (l.getD j d)).set j (l.getD i d)) l := by
  intro l
  induction l with
  | nil =>
      intro i j hi
      exact absurd hi (by simp)
  | cons a t ih =>
      intro i j hi hj
      cases i with
      | zero =>
          cases j with
          | zero => exact List.Perm.refl _
          | succ m =>
              exact set_head_swap_perm d t m (by simpa using hj) a
      | succ n =>
          cases j with
          | zero =>
              exact set_head_swap_perm d t n (by simpa using hi) a
          | succ m =>
              exact List.Perm.cons a (ih n m (by simpa using hi) (by simpa using hj))

theorem length_swapH (s : MinHeap K) (i j : Nat) :
    (s.swapH i j).heap.length = s.heap.length := by
  show ((s.heap.set i (s.getH j)).set j (s.getH i)).length = _
  simp

theorem swapH_perm (s : MinHeap K) (i j : Nat) (hi : i < s.heap.length)
    (hj : j < s.heap.length) : List.Perm (s.swapH i j).heap s.heap :=
  set_set_perm default s.heap i j hi hj

theorem getH_swapH (s : MinHeap K) (i j x : Nat) (hi : i < s.heap.length)
    (hj : j < s.heap.length) :
    (s.swapH i j).getH x =
      if j = x then s.getH i else if i = x then s.getH j else s.getH x := by
  show ((s.heap.set i (s.getH j)).set j (s.getH i)).getD x default = _
  rw [getD_set_d, getD_set_d]
  by_cases h1 : j = x
  · rw [if_pos ⟨h1, by rw [List.length_set]; omega⟩, if_pos h1]
  · rw [if_neg (fun hc => h1 hc.1), if_neg h1]
    by_cases h2 : i = x
    · rw [if_pos ⟨h2, by omega⟩, if_pos h2]
    · rw [if_neg (fun hc => h2 hc.1), if_neg h2]
      rfl

theorem heapOrd_root_min {l : List (Nat × K)} (h : HeapOrd l) :
    ∀ i, i < l.length → keyAt l 0 ≤ keyAt l i := by
  intro i
  induction i using Nat.strong_induction_on with
  | _ i ih =>
      intro hi
      rcases Nat.eq_zero_or_pos i with h0 | h0
      · subst h0
        exact le_refl _
      · have hp : (i - 1) / 2 < i := by omega
        exact le_trans (ih _ hp (lt_trans hp hi)) (h i h0 hi)

theorem almostUp_swap {s : MinHeap K} {idx : Nat} (h : AlmostUp s.heap idx)
    (h0 : 0 < idx) (hlen : idx < s.heap.length)
    (hlt : keyAt s.heap idx < keyAt s.heap ((idx - 1) / 2)) :
    AlmostUp (s.swapH idx ((idx - 1) / 2)).heap ((idx - 1) / 2) := by
  have hp : (idx - 1) / 2 < idx := by omega
  have hpl : (idx - 1) / 2 < s.heap.length := lt_trans hp hlen
  have hlen2 : (s.swapH idx ((idx - 1) / 2)).heap.length = s.heap.length :=
    length_swapH s idx ((idx - 1) / 2)
  have hkp : keyAt (s.swapH idx ((idx - 1) / 2)).heap ((idx - 1) / 2) =
      keyAt s.heap idx := by
    show ((s.swapH idx ((idx - 1) / 2)).getH ((idx - 1) / 2)).2 = _
    rw [getH_swapH s idx ((idx - 1) / 2) ((idx - 1) / 2) hlen hpl, if_pos rfl]
    rfl
  have hkidx : keyAt (s.swapH idx ((idx - 1) / 2)).heap idx =
      keyAt s.heap ((idx - 1) / 2) := by
    show ((s.swapH idx ((idx - 1) / 2)).getH idx).2 = _
    rw [getH_swapH s idx ((idx - 1) / 2) idx hlen hpl,
      if_neg (Nat.ne_of_lt hp), if_pos rfl]
    rfl
  have hko : ∀ x, x ≠ (idx - 1) / 2 → x ≠ idx →
      keyAt (s.swapH idx ((idx - 1) / 2)).heap x = keyAt s.heap x := by
    intro x hx1 hx2
    show ((s.swapH idx ((idx - 1) / 2)).getH x).2 = _
    rw [getH_swapH s idx ((idx - 1) / 2) x hlen hpl,
      if_neg (fun e => hx1 e.symm), if_neg (fun e => hx2 e.symm)]
    rfl
  constructor
  · intro i hi0 hil hip
    rw [hlen2] at hil
    by_cases hiidx : i = idx
    · subst hiidx
      rw [hkp, hkidx]
      exact le_of_lt hlt
    · rw [hko i hip hiidx]
      by_cases hq1 : (i - 1) / 2 = (idx - 1) / 2
      · rw [hq1, hkp]
        have h1 := h.1 i hi0 hil hiidx
        rw [hq1] at h1
        exact le_trans (le_of_lt hlt) h1
      · by_cases hq2 : (i - 1) / 2 = idx
        · rw [hq2, hkidx]
          exact h.2 i hil h0 (by omega)
        · rw [hko _ hq1 hq2]
          exact h.1 i hi0 hil hiidx
  · intro c hcl hp0 hcc
    rw [hlen2] at hcl
    have hg1 : ((idx - 1) / 2 - 1) / 2 ≠ (idx - 1) / 2 := by omega
    have hg2 : ((idx - 1) / 2 - 1) / 2 ≠ idx := by omega
    rw [hko _ hg1 hg2]
    by_cases hc1 : c = idx
    · rw [hc1, hkidx]
      exact h.1 ((idx - 1) / 2) hp0 hpl (Nat.ne_of_lt hp)
    · have hcp : c ≠ (idx - 1) / 2 := by omega
      rw [hko c hcp hc1]
      refine le_trans (h.1 ((idx - 1) / 2) hp0 hpl (Nat.ne_of_lt hp)) ?_
      have h1 := h.1 c (by omega) hcl hc1
      have h2 : (c - 1) / 2 = (idx - 1) / 2 := by omega
      rw [h2] at h1
      exact h1

theorem bubble_up_spec : ∀ (fuel : Nat) (s : MinHeap K) (idx : Nat),
    idx < s.heap.length → idx < fuel → AlmostUp s.heap idx →
    HeapOrd (s.bubble_up idx fuel).heap ∧
    List.Perm (s.bubble_up idx fuel).heap s.heap ∧
    (s.bubble_up idx fuel).heap.length = s.heap.length := by
  intro fuel
  induction fuel with
  | zero =>
      intro s idx hlen hfuel h
      exact absurd hfuel (by omega)
  | succ f ih =>
      intro s idx hlen hfuel h
      unfold bubble_up
      by_cases h0 : 0 < idx
      · rw [if_pos h0]
        dsimp only
        by_cases hlt : (s.getH idx).2 < (s.getH ((idx - 1) / 2)).2
        · rw [if_pos hlt]
          have hswap := almostUp_swap h h0 hlen hlt
          have hlen2 : (s.swapH idx ((idx - 1) / 2)).heap.length = s.heap.length :=
            length_swapH s idx ((idx - 1) / 2)
          have hperm2 : List.Perm (s.swapH idx ((idx - 1) / 2)).heap s.heap :=
            swapH_perm s idx ((idx - 1) / 2) hlen (by omega)
          have hrec : ∀ (u : MinHeap K), u.heap = (s.swapH idx ((idx - 1) / 2)).heap →
              HeapOrd (u.bubble_up ((idx - 1) / 2) f).heap ∧
              List.Perm (u.bubble_up ((idx - 1) / 2) f).heap s.heap ∧
              (u.bubble_up ((idx - 1) / 2) f).heap.length = s.heap.length := by
            intro u hu
            obtain ⟨hA, hB, hC⟩ := ih u ((idx - 1) / 2)
              (by rw [hu, hlen2]; omega) (by omega) (by rw [hu]; exact hswap)
            refine ⟨hA, ?_, ?_⟩
            · rw [hu] at hB
              exact hB.trans hperm2
            · rw [hu, hlen2] at hC
              exact hC
          exact hrec _ rfl
        · rw [if_neg hlt]
          refine ⟨?_, List.Perm.refl _, rfl⟩
          intro i hi0 hil
          by_cases hii : i = idx
          · subst hii
            exact le_of_not_lt hlt
          · exact h.1 i hi0 hil hii
      · rw [if_neg h0]
        refine ⟨?_, List.Perm.refl _, rfl⟩
        intro i hi0 hil
        exact h.1 i hi0 hil (by omega)

theorem almostDown_swap {s : MinHeap K} {idx m : Nat} (h : AlmostDown s.heap idx)
    (hm : m = 2 * idx + 1 ∨ m = 2 * idx + 2) (hml : m < s.heap.length)
    (hms : ∀ c, c < s.heap.length → (c = 2 * idx + 1 ∨ c = 2 * idx + 2) →
      keyAt s.heap m ≤ keyAt s.heap c)
    (hlt : keyAt s.heap m < keyAt s.heap idx) :
    AlmostDown (s.swapH m idx).heap m := by
  have hidxm : idx < m := by omega
  have hidxl : idx < s.heap.length := lt_trans hidxm hml
  have hlen2 : (s.swapH m idx).heap.length = s.heap.length := length_swapH s m idx
  have hkidx : keyAt (s.swapH m idx).heap idx = keyAt s.heap m := by
    show ((s.swapH m idx).getH idx).2 = _
    rw [getH_swapH s m idx idx hml hidxl, if_pos rfl]
    rfl
  have hkm : keyAt (s.swapH m idx).heap m = keyAt s.heap idx := by
    show ((s.swapH m idx).getH m).2 = _
    rw [getH_swapH s m idx m hml hidxl, if_neg (Nat.ne_of_lt hidxm), if_pos rfl]
    rfl
  have hko : ∀ x, x ≠ idx → x ≠ m →
      keyAt (s.swapH m idx).heap x = keyAt s.heap x := by
    intro x hx1 hx2
    show ((s.swapH m idx).getH x).2 = _
    rw [getH_swapH s m idx x hml hidxl,
      if_neg (fun e => hx1 e.symm), if_neg (fun e => hx2 e.symm)]
    rfl
  constructor
  · intro i hi0 hil hpi
    rw [hlen2] at hil
    by_cases hi1 : i = m
    · have hpm : (i - 1) / 2 = idx := by omega
      rw [hpm, hkidx, hi1, hkm]
      exact le_of_lt hlt
    · by_cases hi2 : i = idx
      · have hq1 : (i - 1) / 2 ≠ idx := by omega
        have hq2 : (i - 1) / 2 ≠ m := by omega
        rw [hko _ hq1 hq2, hi2, hkidx]
        have h0i : 0 < idx := by omega
        exact h.2 m hml h0i hm
      · rw [hko i hi2 hi1]
        by_cases hq1 : (i - 1) / 2 = idx
        · rw [hq1, hkidx]
          exact hms i hil (by omega)
        · have hq2 : (i - 1) / 2 ≠ m := hpi
          rw [hko _ hq1 hq2]
          exact h.1 i hi0 hil hq1
  · intro c hcl h0m hcc
    rw [hlen2] at hcl
    have hpm : (m - 1) / 2 = idx := by omega
    rw [hpm, hkidx]
    have hc1 : c ≠ idx := by omega
    have hc2 : c ≠ m := by omega
    rw [hko c hc1 hc2]
    have h1 := h.1 c (by omega) hcl (by omega)
    have h2 : (c - 1) / 2 = m := by omega
    rw [h2] at h1
    exact h1

theorem bubble_down_spec : ∀ (fuel : Nat) (s : MinHeap K) (idx : Nat),
    AlmostDown s.heap idx → s.heap.length ≤ idx + fuel →
    HeapOrd (s.bubble_down idx fuel).heap ∧
    List.Perm (s.bubble_down idx fuel).heap s.heap ∧
    (s.bubble_down idx fuel).heap.length = s.heap.length := by
  intro fuel
  induction fuel with
  | zero =>
      intro s idx h hfl
      have hred : s.bubble_down idx 0 = s := rfl
      rw [hred]
      refine ⟨?_, List.Perm.refl _, rfl⟩
      intro i hi0 hil
      refine h.1 i hi0 hil ?_
      intro he
      omega
  | succ f ih =>
      intro s idx h hfl
      unfold bubble_down
      dsimp only
      by_cases hl : 2 * idx + 1 < s.heap.length
      · rw [if_pos hl]
        have hexit : ∀ m, (m = 2 * idx + 1 ∨ m = 2 * idx + 2) →
            (∀ c, c < s.heap.length → (c = 2 * idx + 1 ∨ c = 2 * idx + 2) →
              keyAt s.heap m ≤ keyAt s.heap c) →
            ¬ (s.getH m).2 < (s.getH idx).2 → HeapOrd s.heap := by
          intro m hmor hms hnlt i hi0 hil
          by_cases hq : (i - 1) / 2 = idx
          · rw [hq]
            refine le_trans (le_of_not_lt hnlt) (hms i hil ?_)
            omega
          · exact h.1 i hi0 hil hq
        have hstep : ∀ m, (m = 2 * idx + 1 ∨ m = 2 * idx + 2) →
            m < s.heap.length →
            (∀ c, c < s.heap.length → (c = 2 * idx + 1 ∨ c = 2 * idx + 2) →
              keyAt s.heap m ≤ keyAt s.heap c) →
            (s.getH m).2 < (s.getH idx).2 →
            ∀ (u : MinHeap K), u.heap = (s.swapH m idx).heap →
            HeapOrd (u.bubble_down m f).heap ∧
            List.Perm (u.bubble_down m f).heap s.heap ∧
            (u.bubble_down m f).heap.length = s.heap.length := by
          intro m hmor hml hms hlt u hu
          have hswap := almostDown_swap h hmor hml hms hlt
          have hlen2 : (s.swapH m idx).heap.length = s.heap.length :=
            length_swapH s m idx
          have hperm2 : List.Perm (s.swapH m idx).heap s.heap :=
            swapH_perm s m idx hml (by omega)
          obtain ⟨hA, hB, hC⟩ := ih u m (by rw [hu]; exact hswap)
            (by rw [hu, hlen2]; omega)
          refine ⟨hA, ?_, ?_⟩
          · rw [hu] at hB
            exact hB.trans hperm2
          · rw [hu, hlen2] at hC
            exact hC
        by_cases hc : 2 * idx + 2 < s.heap.length ∧
            (s.getH (2 * idx + 2)).2 < (s.getH (2 * idx + 1)).2
        · rw [if_pos hc]
          have hms : ∀ c, c < s.heap.length → (c = 2 * idx + 1 ∨ c = 2 * idx + 2) →
              keyAt s.heap (2 * idx + 2) ≤ keyAt s.heap c := by
            intro c hcl hcc
            rcases hcc with rfl | rfl
            · exact le_of_lt hc.2
            · exact le_refl _
          by_cases hlt : (s.getH (2 * idx + 2)).2 < (s.getH idx).2
          · rw [if_pos hlt]
            exact hstep (2 * idx + 2) (Or.inr rfl) hc.1 hms hlt _ rfl
          · rw [if_neg hlt]
            exact ⟨hexit (2 * idx + 2) (Or.inr rfl) hms hlt, List.Perm.refl _, rfl⟩
        · rw [if_neg hc]
          have hms : ∀ c, c < s.heap.length → (c = 2 * idx + 1 ∨ c = 2 * idx + 2) →
              keyAt s.heap (2 * idx + 1) ≤ keyAt s.heap c := by
            intro c hcl hcc
            rcases hcc with rfl | rfl
            · exact le_refl _
            · by_cases h2 : (s.getH (2 * idx + 2)).2 < (s.getH (2 * idx + 1)).2
              · exact absurd ⟨hcl, h2⟩ hc
              · exact le_of_not_lt h2
          by_cases hlt : (s.getH (2 * idx + 1)).2 < (s.getH idx).2
          · rw [if_pos hlt]
            exact hstep (2 * idx + 1) (Or.inl rfl) hl hms hlt _ rfl
          · rw [if_neg hlt]
            exact ⟨hexit (2 * idx + 1) (Or.inl rfl) hms hlt, List.Perm.refl _, rfl⟩
      · rw [if_neg hl]
        refine ⟨?_, List.Perm.refl _, rfl⟩
        intro i hi0 hil
        refine h.1 i hi0 hil ?_
        intro he
        omega

theorem set_concat_length {α : Type} :
    ∀ (l : List α) (b v : α), (l ++ [b]).set l.length v = l ++ [v] := by
  intro l
  induction l with
  | nil => intro b v; rfl
  | cons a t ih =>
      intro b v
      show a :: ((t ++ [b]).set t.length v) = a :: (t ++ [v])
      rw [ih]

theorem heapOrd_min_mem {l : List (Nat × K)} (h : HeapOrd l) (hne : l ≠ []) :
    l.getD 0 default ∈ l ∧ ∀ x ∈ l, (l.getD 0 default).2 ≤ x.2 := by
  have hlen : 0 < l.length := List.length_pos.2 hne
  constructor
  · rw [List.getD_eq_getElem l default hlen]
    exact List.getElem_mem _
  · intro x hx
    obtain ⟨i, hi, rfl⟩ := List.getElem_of_mem hx
    have h1 := heapOrd_root_min h i hi
    show keyAt l 0 ≤ (l[i]).2
    rw [show (l[i]).2 = keyAt l i from by rw [keyAt, List.getD_eq_getElem l default hi]]
    exact h1

theorem insert_heap_spec (s : MinHeap K) (p : Nat × K) (h : HeapOrd s.heap) :
    HeapOrd (s.insert p).heap ∧ List.Perm (s.insert p).heap (p :: s.heap) ∧
    (s.insert p).heap.length = s.heap.length + 1 := by
  have halmost : ∀ (u : MinHeap K), u.heap = s.heap ++ [p] →
      AlmostUp u.heap s.heap.length := by
    intro u hu
    rw [hu]
    constructor
    · intro i hi0 hil hine
      have hil2 : i < s.heap.length := by
        rw [List.length_append] at hil
        simp at hil
        omega
      have hpar : (i - 1) / 2 < s.heap.length := by omega
      show ((s.heap ++ [p]).getD ((i - 1) / 2) default).2 ≤
        ((s.heap ++ [p]).getD i default).2
      rw [List.getD_append _ _ _ _ hpar, List.getD_append _ _ _ _ hil2]
      exact h i hi0 hil2
    · intro c hcl hp0 hcc
      rw [List.length_append] at hcl
      simp at hcl
      omega
  have hrec : ∀ (u : MinHeap K) (n : Nat), u.heap = s.heap ++ [p] →
      n = s.heap.length →
      HeapOrd (u.bubble_up n (n + 1)).heap ∧
      List.Perm (u.bubble_up n (n + 1)).heap (p :: s.heap) ∧
      (u.bubble_up n (n + 1)).heap.length = s.heap.length + 1 := by
    intro u n hu hn
    subst hn
    obtain ⟨hA, hB, hC⟩ := bubble_up_spec (s.heap.length + 1) u s.heap.length
      (by rw [hu]; simp) (by omega) (halmost u hu)
    refine ⟨hA, ?_, ?_⟩
    · rw [hu] at hB
      exact hB.trans (List.perm_append_singleton p s.heap)
    · rw [hu] at hC
      simp at hC
      rw [hC]
  have hlen1 : (s.heap ++ [p]).length - 1 = s.heap.length := by simp
  exact hrec _ _ rfl hlen1

theorem delete_min_heap_spec (s : MinHeap K) (h : HeapOrd s.heap)
    (hne : s.heap ≠ []) :
    (s.delete_min).1 = some (s.heap.getD 0 default) ∧
    HeapOrd (s.delete_min).2.heap ∧
    List.Perm (s.heap.getD 0 default :: (s.delete_min).2.heap) s.heap := by
  obtain ⟨a0, rest, hh⟩ : ∃ a0 rest, s.heap = a0 :: rest := by
    cases hx : s.heap with
    | nil => exact absurd hx hne
    | cons a l => exact ⟨a, l, rfl⟩
  have hroot : s.heap.getD 0 default = a0 := by rw [hh]; rfl
  unfold delete_min
  rw [if_neg (by rw [hh]; simp)]
  dsimp only
  rcases FibHeap.listEndCases rest with rfl | ⟨mid, alast, rfl⟩
  · -- singleton heap
    have hg0 : s.getH 0 = a0 := by
      show s.heap.getD 0 default = a0
      exact hroot
    have hlast0 : s.heap.length - 1 = 0 := by rw [hh]; rfl
    have hs1 : (s.swapH 0 (s.heap.length - 1)).heap = [a0] := by
      show (s.heap.set 0 (s.getH (s.heap.length - 1))).set (s.heap.length - 1)
        (s.getH 0) = [a0]
      rw [hlast0, hg0, hh]
      rfl
    rw [hs1]
    rw [show ([a0] : List (Nat × K)).dropLast = [] from rfl]
    have hemp : (List.isEmpty ([] : List (Nat × K))) = true := rfl
    rw [if_pos hemp]
    refine ⟨?_, ?_, ?_⟩
    · rw [hroot]
      rfl
    · intro i hi0 hil
      simp at hil
    · rw [hroot, hh]
  · -- at least two entries
    have hg0 : s.getH 0 = a0 := by
      show s.heap.getD 0 default = a0
      exact hroot
    have hlen : s.heap.length = mid.length + 2 := by rw [hh]; simp
    have hlast : s.heap.length - 1 = mid.length + 1 := by omega
    have hglast : s.getH (s.heap.length - 1) = alast := by
      show s.heap.getD (s.heap.length - 1) default = alast
      rw [hlast, hh]
      show (mid ++ [alast]).getD mid.length default = alast
      rw [List.getD_eq_getElem?_getD, List.getElem?_concat_length]
      rfl
    have hs1 : (s.swapH 0 (s.heap.length - 1)).heap =
        (alast :: mid) ++ [a0] := by
      show (s.heap.set 0 (s.getH (s.heap.length - 1))).set (s.heap.length - 1)
        (s.getH 0) = (alast :: mid) ++ [a0]
      rw [hglast, hg0, hlast, hh]
      show alast :: ((mid ++ [alast]).set mid.length a0) = alast :: (mid ++ [a0])
      rw [set_concat_length]
    rw [hs1]
    have hpop : ((alast :: mid) ++ [a0]).getLast?.getD default = a0 := by
      rw [List.getLast?_concat]
      rfl
    have hdrop : ((alast :: mid) ++ [a0]).dropLast = alast :: mid :=
      List.dropLast_concat
    rw [hpop, hdrop]
    rw [if_neg (by simp)]
    have hagree : ∀ j, 1 ≤ j → j ≤ mid.length →
        keyAt (alast :: mid) j = keyAt s.heap j := by
      intro j hj1 hj2
      obtain ⟨k, rfl⟩ : ∃ k, j = k + 1 := ⟨j - 1, by omega⟩
      show (mid.getD k default).2 = keyAt s.heap (k + 1)
      rw [keyAt, hh]
      show (mid.getD k default).2 = ((mid ++ [alast]).getD k default).2
      rw [List.getD_append _ _ _ _ (by omega)]
    have halmost : AlmostDown (alast :: mid) 0 := by
      constructor
      · intro i hi0 hil hpi
        have hi3 : 3 ≤ i := by omega
        have hil2 : i ≤ mid.length := by
          simp at hil
          omega
        have hpar1 : 1 ≤ (i - 1) / 2 := by omega
        have hpar2 : (i - 1) / 2 ≤ mid.length := by omega
        rw [hagree _ hpar1 hpar2, hagree _ (by omega) hil2]
        exact h i hi0 (by omega)
      · intro c hcl hp0
        exact absurd hp0 (by omega)
    have hrec : ∀ (u : MinHeap K) (n : Nat), u.heap = alast :: mid →
        n = u.heap.length + 1 →
        HeapOrd (u.bubble_down 0 n).heap ∧
        List.Perm (a0 :: (u.bubble_down 0 n).heap) s.heap := by
      intro u n hu hn
      obtain ⟨hA, hB, hC⟩ := bubble_down_spec n u 0 (by rw [hu]; exact halmost)
        (by omega)
      refine ⟨hA, ?_⟩
      rw [hu] at hB
      refine List.Perm.trans
        (List.Perm.cons a0 (hB.trans ((List.perm_append_singleton alast mid).symm))) ?_
      rw [hh]
    exact ⟨by rw [hroot], (hrec _ _ rfl rfl).1, by rw [hroot]; exact (hrec _ _ rfl rfl).2⟩

theorem getD_some_lt_length {α : Type} {ps : List (Option α)} {id : Nat}
    {v : α} (h : ps.getD id none = some v) : id < ps.length := by
  by_contra hc
  rw [List.getD_eq_default _ _ (by omega)] at h
  exact Option.noConfusion h

theorem posOk_inj {hp : List (Nat × K)} {ps : List (Option Nat)}
    (h : PosOkL hp ps) {i j : Nat} (hi : i < hp.length) (hj : j < hp.length)
    (he : (hp.getD i default).1 = (hp.getD j default).1) : i = j := by
  have h1 := h.2 i hi
  have h2 := h.2 j hj
  rw [he] at h1
  exact Option.some.inj (h1.symm.trans h2)

theorem posOk_not_mem_none {hp : List (Nat × K)} {ps : List (Option Nat)}
    (h : PosOkL hp ps) {id : Nat}
    (hno : ∀ i, i < hp.length → (hp.getD i default).1 ≠ id) :
    ps.getD id none = none := by
  cases hps : ps.getD id none with
  | none => rfl
  | some pos =>
      obtain ⟨h1, h2⟩ := h.1 id pos hps
      exact absurd h2 (hno pos h1)

theorem posOk_swap (s : MinHeap K) (i j : Nat) (hi : i < s.heap.length)
    (hj : j < s.heap.length) (hij : i ≠ j) (h : PosOkL s.heap s.positions) :
    PosOkL (s.swapH i j).heap
      ((s.positions.set (s.getH j).1 (some i)).set (s.getH i).1 (some j)) := by
  have hia := h.2 i hi
  have hib := h.2 j hj
  have hab : (s.getH i).1 ≠ (s.getH j).1 := by
    intro he
    exact hij (posOk_inj h hi hj he)
  have halt : (s.getH i).1 < s.positions.length := getD_some_lt_length hia
  have hblt : (s.getH j).1 < s.positions.length := getD_some_lt_length hib
  have hlen2 := length_swapH s i j
  have hPa : ((s.positions.set (s.getH j).1 (some i)).set (s.getH i).1
      (some j)).getD (s.getH i).1 none = some j := by
    rw [getD_set_d, if_pos ⟨rfl, by rw [List.length_set]; omega⟩]
  have hPb : ((s.positions.set (s.getH j).1 (some i)).set (s.getH i).1
      (some j)).getD (s.getH j).1 none = some i := by
    rw [getD_set_d, if_neg (fun hc => hab hc.1),
      getD_set_d, if_pos ⟨rfl, by omega⟩]
  have hPo : ∀ c, c ≠ (s.getH i).1 → c ≠ (s.getH j).1 →
      ((s.positions.set (s.getH j).1 (some i)).set (s.getH i).1
        (some j)).getD c none = s.positions.getD c none := by
    intro c hc1 hc2
    rw [getD_set_d, if_neg (fun hc => hc1 hc.1.symm),
      getD_set_d, if_neg (fun hc => hc2 hc.1.symm)]
  constructor
  · intro id pos hpos
    by_cases hida : id = (s.getH i).1
    · subst hida
      rw [hPa] at hpos
      obtain rfl : j = pos := Option.some.inj hpos
      refine ⟨by omega, ?_⟩
      show ((s.swapH i j).getH j).1 = _
      rw [getH_swapH s i j j hi hj, if_pos rfl]
    · by_cases hidb : id = (s.getH j).1
      · subst hidb
        rw [hPb] at hpos
        obtain rfl : i = pos := Option.some.inj hpos
        refine ⟨by omega, ?_⟩
        show ((s.swapH i j).getH i).1 = _
        rw [getH_swapH s i j i hi hj, if_neg (fun e => hij e.symm), if_pos rfl]
      · rw [hPo id hida hidb] at hpos
        obtain ⟨hq1, hq2⟩ := h.1 id pos hpos
        have hpi : pos ≠ i := by
          intro he
          exact hida (he ▸ hq2).symm
        have hpj : pos ≠ j := by
          intro he
          exact hidb (he ▸ hq2).symm
        refine ⟨by omega, ?_⟩
        show ((s.swapH i j).getH pos).1 = _
        rw [getH_swapH s i j pos hi hj,
          if_neg (fun e => hpj e.symm), if_neg (fun e => hpi e.symm)]
        exact hq2
  · intro x hx
    rw [hlen2] at hx
    have hgx : (s.swapH i j).heap.getD x default = (s.swapH i j).getH x := rfl
    rw [hgx, getH_swapH s i j x hi hj]
    by_cases hx1 : j = x
    · rw [if_pos hx1, ← hx1]
      exact hPa
    · rw [if_neg hx1]
      by_cases hx2 : i = x
      · rw [if_pos hx2, ← hx2]
        exact hPb
      · rw [if_neg hx2]
        have hca : (s.getH x).1 ≠ (s.getH i).1 := by
          intro he
          exact hx2 (posOk_inj h hx hi he).symm
        have hcb : (s.getH x).1 ≠ (s.getH j).1 := by
          intro he
          exact hx1 (posOk_inj h hx hj he).symm
        rw [hPo _ hca hcb]
        exact h.2 x hx

theorem bubble_up_posOk : ∀ (fuel : Nat) (s : MinHeap K) (idx : Nat),
    idx < s.heap.length → PosOk s → PosOk (s.bubble_up idx fuel) := by
  intro fuel
  induction fuel with
  | zero => intro s idx _ h; exact h
  | succ f ih =>
      intro s idx hidx h
      unfold bubble_up
      by_cases h0 : 0 < idx
      · rw [if_pos h0]
        dsimp only
        by_cases hlt : (s.getH idx).2 < (s.getH ((idx - 1) / 2)).2
        · rw [if_pos hlt]
          have hpl : (idx - 1) / 2 < s.heap.length := by omega
          have hc1 : ((s.swapH idx ((idx - 1) / 2)).getH idx).1 =
              (s.getH ((idx - 1) / 2)).1 := by
            rw [getH_swapH s idx ((idx - 1) / 2) idx hidx hpl,
              if_neg (by omega), if_pos rfl]
          have hc2 : ((s.swapH idx ((idx - 1) / 2)).getH ((idx - 1) / 2)).1 =
              (s.getH idx).1 := by
            rw [getH_swapH s idx ((idx - 1) / 2) ((idx - 1) / 2) hidx hpl,
              if_pos rfl]
          refine ih _ ((idx - 1) / 2) ?_ ?_
          · show (idx - 1) / 2 < (s.swapH idx ((idx - 1) / 2)).heap.length
            rw [length_swapH]
            omega
          · show PosOkL (s.swapH idx ((idx - 1) / 2)).heap
              ((s.positions.set ((s.swapH idx ((idx - 1) / 2)).getH idx).1
                  (some idx)).set
                ((s.swapH idx ((idx - 1) / 2)).getH ((idx - 1) / 2)).1
                (some ((idx - 1) / 2)))
            rw [hc1, hc2]
            exact posOk_swap s idx ((idx - 1) / 2) hidx hpl (by omega) h
        · rw [if_neg hlt]
          exact h
      · rw [if_neg h0]
        exact h

theorem bubble_down_posOk : ∀ (fuel : Nat) (s : MinHeap K) (idx : Nat),
    PosOk s → PosOk (s.bubble_down idx fuel) := by
  intro fuel
  induction fuel with
  | zero => intro s idx h; exact h
  | succ f ih =>
      intro s idx h
      unfold bubble_down
      dsimp only
      by_cases hl : 2 * idx + 1 < s.heap.length
      · rw [if_pos hl]
        have hidx : idx < s.heap.length := by omega
        have hstep : ∀ m, (m = 2 * idx + 1 ∨ m = 2 * idx + 2) →
            m < s.heap.length →
            PosOk ((MinHeap.mk (s.swapH m idx).heap
              ((s.positions.set (s.getH idx).1 (some m)).set
                (s.getH m).1 (some idx))).bubble_down m f) := by
          intro m hmor hml
          refine ih _ m ?_
          show PosOkL (s.swapH m idx).heap _
          exact posOk_swap s m idx hml hidx (by omega) h
        by_cases hc : 2 * idx + 2 < s.heap.length ∧
            (s.getH (2 * idx + 2)).2 < (s.getH (2 * idx + 1)).2
        · rw [if_pos hc]
          by_cases hlt : (s.getH (2 * idx + 2)).2 < (s.getH idx).2
          · rw [if_pos hlt]
            exact hstep (2 * idx + 2) (Or.inr rfl) hc.1
          · rw [if_neg hlt]
            exact h
        · rw [if_neg hc]
          by_cases hlt : (s.getH (2 * idx + 1)).2 < (s.getH idx).2
          · rw [if_pos hlt]
            exact hstep (2 * idx + 1) (Or.inl rfl) hl
          · rw [if_neg hlt]
            exact h
      · rw [if_neg hl]
        exact h

theorem getD_append_none {ps : List (Option Nat)} {m i : Nat} :
    (ps ++ List.replicate m (none : Option Nat)).getD i none =
      ps.getD i none := by
  by_cases hi : i < ps.length
  · exact List.getD_append _ _ _ _ hi
  · rw [List.getD_eq_default ps none (by omega)]
    by_cases hi2 : i < ps.length + m
    · rw [List.getD_eq_getElem (ps ++ List.replicate m none) none
        (by simp; omega)]
      rw [List.getElem_append_right (by omega)]
      exact List.getElem_replicate _ _
    · exact List.getD_eq_default _ _ (by simp; omega)

theorem posOk_append_set {hp : List (Nat × K)} {ps : List (Option Nat)}
    (h : PosOkL hp ps) (p : Nat × K) (hfree : ps.getD p.1 none = none)
    {ps' : List (Option Nat)}
    (hgrow : ∀ id, ps'.getD id none = ps.getD id none)
    (hlen : p.1 < ps'.length) :
    PosOkL (hp ++ [p]) (ps'.set p.1 (some hp.length)) := by
  have hgetlast : (hp ++ [p]).getD hp.length default = p := by
    rw [List.getD_eq_getElem?_getD, List.getElem?_concat_length]
    rfl
  constructor
  · intro id pos hpos
    by_cases hida : id = p.1
    · subst hida
      rw [getD_set_d, if_pos ⟨rfl, hlen⟩] at hpos
      obtain rfl : hp.length = pos := Option.some.inj hpos
      refine ⟨by simp, ?_⟩
      rw [hgetlast]
    · rw [getD_set_d, if_neg (fun hc => hida hc.1.symm), hgrow] at hpos
      obtain ⟨h1, h2⟩ := h.1 id pos hpos
      refine ⟨by simp; omega, ?_⟩
      rw [List.getD_append _ _ _ _ h1]
      exact h2
  · intro x hx
    rw [List.length_append, List.length_singleton] at hx
    by_cases hxl : x < hp.length
    · rw [List.getD_append _ _ _ _ hxl]
      have hne : (hp.getD x default).1 ≠ p.1 := by
        intro he
        have h2 := h.2 x hxl
        rw [he, hfree] at h2
        exact Option.noConfusion h2
      rw [getD_set_d, if_neg (fun hc => hne hc.1.symm), hgrow]
      exact h.2 x hxl
    · obtain rfl : x = hp.length := by omega
      rw [hgetlast, getD_set_d, if_pos ⟨rfl, hlen⟩]

theorem insert_posOk (s : MinHeap K) (p : Nat × K) (h : PosOk s)
    (hfree : s.positions.getD p.1 none = none) : PosOk (s.insert p) := by
  have hid : ((s.heap ++ [p]).getD ((s.heap ++ [p]).length - 1) default).1 =
      p.1 := by
    rw [show (s.heap ++ [p]).length - 1 = s.heap.length from by simp,
      List.getD_eq_getElem?_getD, List.getElem?_concat_length]
    rfl
  show PosOk _
  unfold insert
  dsimp only
  rw [hid]
  have hidx : (s.heap ++ [p]).length - 1 = s.heap.length := by simp
  rw [hidx]
  refine bubble_up_posOk _ _ _ ?_ ?_
  · show s.heap.length < (s.heap ++ [p]).length
    simp
  · show PosOkL (s.heap ++ [p]) _
    by_cases hg : s.positions.length ≤ p.1
    · rw [if_pos hg]
      refine posOk_append_set h p hfree (fun id => getD_append_none) ?_
      simp
      omega
    · rw [if_neg hg]
      exact posOk_append_set h p hfree (fun id => rfl) (by omega)

theorem posOk_delete_rot {a0 alast : Nat × K} {mid : List (Nat × K)}
    {ps : List (Option Nat)}
    (h : PosOkL (a0 :: (mid ++ [alast])) ps) :
    PosOkL (alast :: mid) ((ps.set a0.1 none).set alast.1 (some 0)) := by
  have hlenL : (a0 :: (mid ++ [alast])).length = mid.length + 2 := by simp
  have hgl : ((a0 :: (mid ++ [alast])).getD (mid.length + 1) default) =
      alast := by
    show ((mid ++ [alast]).getD mid.length default) = alast
    rw [List.getD_eq_getElem?_getD, List.getElem?_concat_length]
    rfl
  have hg0 : ((a0 :: (mid ++ [alast])).getD 0 default) = a0 := rfl
  have hgmid : ∀ j, j < mid.length →
      (a0 :: (mid ++ [alast])).getD (j + 1) default = mid.getD j default := by
    intro j hj
    show (mid ++ [alast]).getD j default = mid.getD j default
    exact List.getD_append _ _ _ _ hj
  have hpa0 := h.2 0 (by omega)
  rw [hg0] at hpa0
  have hpal := h.2 (mid.length + 1) (by omega)
  rw [hgl] at hpal
  have hne : a0.1 ≠ alast.1 := by
    have := posOk_inj h (i := 0) (j := mid.length + 1) (by omega) (by omega)
    intro he
    have h0 := this (by rw [hg0, hgl]; exact he)
    omega
  have ha0lt : a0.1 < ps.length := getD_some_lt_length hpa0
  have hallt : alast.1 < ps.length := getD_some_lt_length hpal
  have hPal : ((ps.set a0.1 none).set alast.1 (some 0)).getD alast.1 none =
      some 0 := by
    rw [getD_set_d, if_pos ⟨rfl, by rw [List.length_set]; omega⟩]
  have hPa0 : ((ps.set a0.1 none).set alast.1 (some 0)).getD a0.1 none =
      none := by
    rw [getD_set_d, if_neg (fun hc => hne hc.1.symm), getD_set_d,
      if_pos ⟨rfl, by omega⟩]
  have hPo : ∀ c, c ≠ a0.1 → c ≠ alast.1 →
      ((ps.set a0.1 none).set alast.1 (some 0)).getD c none =
        ps.getD c none := by
    intro c hc1 hc2
    rw [getD_set_d, if_neg (fun hc => hc2 hc.1.symm), getD_set_d,
      if_neg (fun hc => hc1 hc.1.symm)]
  constructor
  · intro id pos hpos
    by_cases hida : id = alast.1
    · subst hida
      rw [hPal] at hpos
      obtain rfl : 0 = pos := Option.some.inj hpos
      exact ⟨by simp, rfl⟩
    · by_cases hidb : id = a0.1
      · subst hidb
        rw [hPa0] at hpos
        exact Option.noConfusion hpos
      · rw [hPo id hidb hida] at hpos
        obtain ⟨h1, h2⟩ := h.1 id pos hpos
        have hp0 : pos ≠ 0 := by
          intro he
          subst he
          exact hidb (h2.symm.trans (congrArg Prod.fst hg0))
        have hpl : pos ≠ mid.length + 1 := by
          intro he
          subst he
          exact hida (h2.symm.trans (congrArg Prod.fst hgl))
        rw [hlenL] at h1
        obtain ⟨j, rfl⟩ : ∃ j, pos = j + 1 := ⟨pos - 1, by omega⟩
        have hjm : j < mid.length := by omega
        refine ⟨by simp; omega, ?_⟩
        show (mid.getD j default).1 = id
        rw [← hgmid j hjm]
        exact h2
  · intro x hx
    have hxl : x < mid.length + 1 := by simpa using hx
    cases x with
    | zero =>
        show ((ps.set a0.1 none).set alast.1 (some 0)).getD alast.1 none =
          some 0
        exact hPal
    | succ j =>
        have hjm : j < mid.length := by omega
        show ((ps.set a0.1 none).set alast.1 (some 0)).getD
          ((mid.getD j default).1) none = some (j + 1)
        have hco := h.2 (j + 1) (by omega)
        rw [hgmid j hjm] at hco
        have hc1 : (mid.getD j default).1 ≠ a0.1 := by
          intro he
          rw [he, hpa0] at hco
          exact absurd (Option.some.inj hco) (by omega)
        have hc2 : (mid.getD j default).1 ≠ alast.1 := by
          intro he
          rw [he, hpal] at hco
          exact absurd (Option.some.inj hco) (by omega)
        rw [hPo _ hc1 hc2]
        exact hco

theorem delete_min_posOk (s : MinHeap K) (h : PosOk s) :
    PosOk (s.delete_min).2 := by
  by_cases hne : s.heap = []
  · unfold delete_min
    rw [if_pos (by rw [hne]; rfl)]
    exact h
  · obtain ⟨a0, rest, hh⟩ : ∃ a0 rest, s.heap = a0 :: rest := by
      cases hx : s.heap with
      | nil => exact absurd hx hne
      | cons a l => exact ⟨a, l, rfl⟩
    unfold delete_min
    rw [if_neg (by rw [hh]; simp)]
    dsimp only
    rcases FibHeap.listEndCases rest with rfl | ⟨mid, alast, rfl⟩
    · have hg0 : s.getH 0 = a0 := by
        show s.heap.getD 0 default = a0
        rw [hh]
        rfl
      have hlast0 : s.heap.length - 1 = 0 := by rw [hh]; rfl
      have hs1 : (s.swapH 0 (s.heap.length - 1)).heap = [a0] := by
        show (s.heap.set 0 (s.getH (s.heap.length - 1))).set (s.heap.length - 1)
          (s.getH 0) = [a0]
        rw [hlast0, hg0, hh]
        rfl
      rw [hs1]
      rw [show ([a0] : List (Nat × K)).dropLast = [] from rfl]
      have hemp : (List.isEmpty ([] : List (Nat × K))) = true := rfl
      rw [if_pos hemp]
      have hpok : PosOkL s.heap s.positions := h
      rw [hh] at hpok
      have hpa0 := hpok.2 0 (by simp)
      have ha0lt : a0.1 < s.positions.length := getD_some_lt_length hpa0
      constructor
      · intro id pos hpos
        by_cases hida : id = a0.1
        · subst hida
          rw [show (([a0] : List (Nat × K)).getLast?.getD default) = a0
            from rfl] at hpos
          rw [getD_set_d, if_pos ⟨rfl, ha0lt⟩] at hpos
          exact Option.noConfusion hpos
        · rw [show (([a0] : List (Nat × K)).getLast?.getD default) = a0
            from rfl] at hpos
          rw [getD_set_d, if_neg (fun hc => hida hc.1.symm)] at hpos
          obtain ⟨h1, h2⟩ := hpok.1 id pos hpos
          simp at h1
          subst h1
          exact absurd h2.symm (fun he => hida he)
      · intro x hx
        simp at hx
    · have hg0 : s.getH 0 = a0 := by
        show s.heap.getD 0 default = a0
        rw [hh]
        rfl
      have hlen : s.heap.length = mid.length + 2 := by rw [hh]; simp
      have hlast : s.heap.length - 1 = mid.length + 1 := by omega
      have hglast : s.getH (s.heap.length - 1) = alast := by
        show s.heap.getD (s.heap.length - 1) default = alast
        rw [hlast, hh]
        show (mid ++ [alast]).getD mid.length default = alast
        rw [List.getD_eq_getElem?_getD, List.getElem?_concat_length]
        rfl
      have hs1 : (s.swapH 0 (s.heap.length - 1)).heap =
          (alast :: mid) ++ [a0] := by
        show (s.heap.set 0 (s.getH (s.heap.length - 1))).set (s.heap.length - 1)
          (s.getH 0) = (alast :: mid) ++ [a0]
        rw [hglast, hg0, hlast, hh]
        show alast :: ((mid ++ [alast]).set mid.length a0) = alast :: (mid ++ [a0])
        rw [set_concat_length]
      rw [hs1]
      have hpop : ((alast :: mid) ++ [a0]).getLast?.getD default = a0 := by
        rw [List.getLast?_concat]
        rfl
      have hdrop : ((alast :: mid) ++ [a0]).dropLast = alast :: mid :=
        List.dropLast_concat
      rw [hpop, hdrop]
      rw [if_neg (by simp)]
      refine bubble_down_posOk _ _ _ ?_
      show PosOkL (alast :: mid) _
      have hpok : PosOkL (a0 :: (mid ++ [alast])) s.positions := by
        have h0 : PosOkL s.heap s.positions := h
        rw [hh] at h0
        exact h0
      exact posOk_delete_rot hpok

theorem posOk_set_entry {hp : List (Nat × K)} {ps : List (Option Nat)}
    (h : PosOkL hp ps) {pos : Nat} (hpos : pos < hp.length) (k : K) :
    PosOkL (hp.set pos ((hp.getD pos default).1, k)) ps := by
  have hgetD : ∀ x, x < hp.length →
      ((hp.set pos ((hp.getD pos default).1, k)).getD x default).1 =
        (hp.getD x default).1 := by
    intro x hx
    rw [getD_set_d]
    by_cases he : pos = x
    · rw [if_pos ⟨he, hx⟩, ← he]
    · rw [if_neg (fun hc => he hc.1)]
  constructor
  · intro id p2 hp2
    obtain ⟨h1, h2⟩ := h.1 id p2 hp2
    refine ⟨by rw [List.length_set]; exact h1, ?_⟩
    rw [hgetD p2 h1]
    exact h2
  · intro x hx
    rw [List.length_set] at hx
    rw [hgetD x hx]
    exact h.2 x hx

theorem decrease_key_heap_spec (s : MinHeap K) (id : Nat) (k : K)
    (h : HeapOrd s.heap) (hpo : PosOk s) {pos : Nat}
    (hid : s.positions.getD id none = some pos)
    (hk : k < (s.heap.getD pos default).2) :
    HeapOrd (s.decrease_key id k).heap ∧ PosOk (s.decrease_key id k) ∧
    List.Perm (s.decrease_key id k).heap (s.heap.set pos (id, k)) ∧
    (s.decrease_key id k).heap.length = s.heap.length := by
  obtain ⟨hposl, hidat⟩ := hpo.1 id pos hid
  have hidat2 : (s.getH pos).1 = id := hidat
  have hkeyset : ∀ x, x < s.heap.length → x ≠ pos →
      keyAt (s.heap.set pos ((s.getH pos).1, k)) x = keyAt s.heap x := by
    intro x hx hxp
    show ((s.heap.set pos ((s.getH pos).1, k)).getD x default).2 = _
    rw [getD_set_d, if_neg (fun hc => hxp hc.1.symm)]
    rfl
  have hkeypos : keyAt (s.heap.set pos ((s.getH pos).1, k)) pos = k := by
    show ((s.heap.set pos ((s.getH pos).1, k)).getD pos default).2 = _
    rw [getD_set_d, if_pos ⟨rfl, hposl⟩]
  have halmost : AlmostUp (s.heap.set pos ((s.getH pos).1, k)) pos := by
    constructor
    · intro x hx0 hxl hxp
      rw [List.length_set] at hxl
      rw [hkeyset x hxl hxp]
      by_cases hq : (x - 1) / 2 = pos
      · rw [hq, hkeypos]
        refine le_trans (le_of_lt hk) ?_
        have h1 := h x hx0 hxl
        rw [hq] at h1
        exact h1
      · rw [hkeyset _ (by omega) hq]
        exact h x hx0 hxl
    · intro c hcl hp0 hcc
      rw [List.length_set] at hcl
      have hg : (pos - 1) / 2 ≠ pos := by omega
      have hcp : c ≠ pos := by omega
      rw [hkeyset _ (by omega) hg, hkeyset c hcl hcp]
      have h1 : keyAt s.heap ((pos - 1) / 2) ≤ keyAt s.heap pos :=
        h pos hp0 hposl
      have h2 : keyAt s.heap pos ≤ keyAt s.heap c := by
        have h3 := h c (by omega) hcl
        have h4 : (c - 1) / 2 = pos := by omega
        rw [h4] at h3
        exact h3
      exact le_trans h1 h2
  have hrec : ∀ (u : MinHeap K), u.heap = s.heap.set pos ((s.getH pos).1, k) →
      u.positions = s.positions →
      HeapOrd (u.bubble_up pos (pos + 1)).heap ∧
      PosOk (u.bubble_up pos (pos + 1)) ∧
      List.Perm (u.bubble_up pos (pos + 1)).heap (s.heap.set pos (id, k)) ∧
      (u.bubble_up pos (pos + 1)).heap.length = s.heap.length := by
    intro u hu hup
    obtain ⟨hA, hB, hC⟩ := bubble_up_spec (pos + 1) u pos
      (by rw [hu, List.length_set]; exact hposl) (by omega)
      (by rw [hu]; exact halmost)
    refine ⟨hA, ?_, ?_, ?_⟩
    · refine bubble_up_posOk _ u pos (by rw [hu, List.length_set]; exact hposl) ?_
      show PosOkL u.heap u.positions
      rw [hu, hup]
      exact posOk_set_entry hpo hposl k
    · rw [hu] at hB
      rw [show ((s.heap.set pos (id, k)) : List (Nat × K)) =
        s.heap.set pos ((s.getH pos).1, k) from by rw [hidat2]]
      exact hB
    · rw [hu, List.length_set] at hC
      exact hC
  show HeapOrd (s.decrease_key id k).heap ∧ _
  unfold decrease_key
  rw [hid]
  exact hrec _ rfl rfl

theorem almostDownT_swap {s : MinHeap K} {t idx m : Nat}
    (h : AlmostDownT s.heap t idx) (hti : t ≤ idx)
    (hm : m = 2 * idx + 1 ∨ m = 2 * idx + 2) (hml : m < s.heap.length)
    (hms : ∀ c, c < s.heap.length → (c = 2 * idx + 1 ∨ c = 2 * idx + 2) →
      keyAt s.heap m ≤ keyAt s.heap c)
    (hlt : keyAt s.heap m < keyAt s.heap idx) :
    AlmostDownT (s.swapH m idx).heap t m := by
  have hidxm : idx < m := by omega
  have hidxl : idx < s.heap.length := lt_trans hidxm hml
  have hlen2 : (s.swapH m idx).heap.length = s.heap.length := length_swapH s m idx
  have hkidx : keyAt (s.swapH m idx).heap idx = keyAt s.heap m := by
    show ((s.swapH m idx).getH idx).2 = _
    rw [getH_swapH s m idx idx hml hidxl, if_pos rfl]
    rfl
  have hkm : keyAt (s.swapH m idx).heap m = keyAt s.heap idx := by
    show ((s.swapH m idx).getH m).2 = _
    rw [getH_swapH s m idx m hml hidxl, if_neg (Nat.ne_of_lt hidxm), if_pos rfl]
    rfl
  have hko : ∀ x, x ≠ idx → x ≠ m →
      keyAt (s.swapH m idx).heap x = keyAt s.heap x := by
    intro x hx1 hx2
    show ((s.swapH m idx).getH x).2 = _
    rw [getH_swapH s m idx x hml hidxl,
      if_neg (fun e => hx1 e.symm), if_neg (fun e => hx2 e.symm)]
    rfl
  constructor
  · intro i hi0 hil hthr hpi
    rw [hlen2] at hil
    by_cases hi1 : i = m
    · have hpm : (i - 1) / 2 = idx := by omega
      rw [hpm, hkidx, hi1, hkm]
      exact le_of_lt hlt
    · by_cases hi2 : i = idx
      · have hq1 : (i - 1) / 2 ≠ idx := by omega
        have hq2 : (i - 1) / 2 ≠ m := by omega
        rw [hko _ hq1 hq2, hi2, hkidx]
        have h0i : 0 < idx := by omega
        have hthr2 : t ≤ (idx - 1) / 2 := by
          rw [hi2] at hthr
          exact hthr
        exact h.2 m hml h0i hthr2 hm
      · rw [hko i hi2 hi1]
        by_cases hq1 : (i - 1) / 2 = idx
        · rw [hq1, hkidx]
          exact hms i hil (by omega)
        · have hq2 : (i - 1) / 2 ≠ m := hpi
          rw [hko _ hq1 hq2]
          exact h.1 i hi0 hil hthr hq1
  · intro c hcl h0m hthr hcc
    rw [hlen2] at hcl
    have hpm : (m - 1) / 2 = idx := by omega
    rw [hpm, hkidx]
    have hc1 : c ≠ idx := by omega
    have hc2 : c ≠ m := by omega
    rw [hko c hc1 hc2]
    have h1 := h.1 c (by omega) hcl (by omega) (by omega)
    have h2 : (c - 1) / 2 = m := by omega
    rw [h2] at h1
    exact h1

theorem bubble_down_specT : ∀ (fuel : Nat) (s : MinHeap K) (t idx : Nat),
    AlmostDownT s.heap t idx → t ≤ idx → s.heap.length ≤ idx + fuel →
    GoodFrom (s.bubble_down idx fuel).heap t ∧
    List.Perm (s.bubble_down idx fuel).heap s.heap ∧
    (s.bubble_down idx fuel).heap.length = s.heap.length := by
  intro fuel
  induction fuel with
  | zero =>
      intro s t idx h hti hfl
      have hred : s.bubble_down idx 0 = s := rfl
      rw [hred]
      refine ⟨?_, List.Perm.refl _, rfl⟩
      intro i hi0 hil hthr
      refine h.1 i hi0 hil hthr ?_
      intro he
      omega
  | succ f ih =>
      intro s t idx h hti hfl
      unfold bubble_down
      dsimp only
      by_cases hl : 2 * idx + 1 < s.heap.length
      · rw [if_pos hl]
        have hexit : ∀ m, (m = 2 * idx + 1 ∨ m = 2 * idx + 2) →
            (∀ c, c < s.heap.length → (c = 2 * idx + 1 ∨ c = 2 * idx + 2) →
              keyAt s.heap m ≤ keyAt s.heap c) →
            ¬ (s.getH m).2 < (s.getH idx).2 → GoodFrom s.heap t := by
          intro m hmor hms hnlt i hi0 hil hthr
          by_cases hq : (i - 1) / 2 = idx
          · rw [hq]
            refine le_trans (le_of_not_lt hnlt) (hms i hil ?_)
            omega
          · exact h.1 i hi0 hil hthr hq
        have hstep : ∀ m, (m = 2 * idx + 1 ∨ m = 2 * idx + 2) →
            m < s.heap.length →
            (∀ c, c < s.heap.length → (c = 2 * idx + 1 ∨ c = 2 * idx + 2) →
              keyAt s.heap m ≤ keyAt s.heap c) →
            (s.getH m).2 < (s.getH idx).2 →
            ∀ (u : MinHeap K), u.heap = (s.swapH m idx).heap →
            GoodFrom (u.bubble_down m f).heap t ∧
            List.Perm (u.bubble_down m f).heap s.heap ∧
            (u.bubble_down m f).heap.length = s.heap.length := by
          intro m hmor hml hms hlt u hu
          have hswap := almostDownT_swap h hti hmor hml hms hlt
          have hlen2 : (s.swapH m idx).heap.length = s.heap.length :=
            length_swapH s m idx
          have hperm2 : List.Perm (s.swapH m idx).heap s.heap :=
            swapH_perm s m idx hml (by omega)
          obtain ⟨hA, hB, hC⟩ := ih u t m (by rw [hu]; exact hswap)
            (by omega) (by rw [hu, hlen2]; omega)
          refine ⟨hA, ?_, ?_⟩
          · rw [hu] at hB
            exact hB.trans hperm2
          · rw [hu, hlen2] at hC
            exact hC
        by_cases hc : 2 * idx + 2 < s.heap.length ∧
            (s.getH (2 * idx + 2)).2 < (s.getH (2 * idx + 1)).2
        · rw [if_pos hc]
          have hms : ∀ c, c < s.heap.length → (c = 2 * idx + 1 ∨ c = 2 * idx + 2) →
              keyAt s.heap (2 * idx + 2) ≤ keyAt s.heap c := by
            intro c hcl hcc
            rcases hcc with rfl | rfl
            · exact le_of_lt hc.2
            · exact le_refl _
          by_cases hlt : (s.getH (2 * idx + 2)).2 < (s.getH idx).2
          · rw [if_pos hlt]
            exact hstep (2 * idx + 2) (Or.inr rfl) hc.1 hms hlt _ rfl
          · rw [if_neg hlt]
            exact ⟨hexit (2 * idx + 2) (Or.inr rfl) hms hlt, List.Perm.refl _, rfl⟩
        · rw [if_neg hc]
          have hms : ∀ c, c < s.heap.length → (c = 2 * idx + 1 ∨ c = 2 * idx + 2) →
              keyAt s.heap (2 * idx + 1) ≤ keyAt s.heap c := by
            intro c hcl hcc
            rcases hcc with rfl | rfl
            · exact le_refl _
            · by_cases h2 : (s.getH (2 * idx + 2)).2 < (s.getH (2 * idx + 1)).2
              · exact absurd ⟨hcl, h2⟩ hc
              · exact le_of_not_lt h2
          by_cases hlt : (s.getH (2 * idx + 1)).2 < (s.getH idx).2
          · rw [if_pos hlt]
            exact hstep (2 * idx + 1) (Or.inl rfl) hl hms hlt _ rfl
          · rw [if_neg hlt]
            exact ⟨hexit (2 * idx + 1) (Or.inl rfl) hms hlt, List.Perm.refl _, rfl⟩
      · rw [if_neg hl]
        refine ⟨?_, List.Perm.refl _, rfl⟩
        intro i hi0 hil hthr
        refine h.1 i hi0 hil hthr ?_
        intro he
        omega

theorem heapify_loop : ∀ (m : Nat) (s : MinHeap K),
    GoodFrom s.heap m → PosOk s →
    HeapOrd ((List.range m).reverse.foldl
      (fun t i => t.bubble_down i (t.heap.length + 1)) s).heap ∧
    List.Perm ((List.range m).reverse.foldl
      (fun t i => t.bubble_down i (t.heap.length + 1)) s).heap s.heap ∧
    PosOk ((List.range m).reverse.foldl
      (fun t i => t.bubble_down i (t.heap.length + 1)) s) := by
  intro m
  induction m with
  | zero =>
      intro s hg hp
      refine ⟨?_, List.Perm.refl _, hp⟩
      intro i hi0 hil
      exact hg i hi0 hil (by omega)
  | succ m ih =>
      intro s hg hp
      have hrw : (List.range (m + 1)).reverse = m :: (List.range m).reverse := by
        rw [List.range_succ, List.reverse_append]
        rfl
      rw [hrw, List.foldl_cons]
      have halm : AlmostDownT s.heap m m := by
        constructor
        · intro i hi0 hil hthr hne
          exact hg i hi0 hil (by omega)
        · intro c hcl h0m hthr hcc
          exact absurd hthr (by omega)
      obtain ⟨hA, hB, hC⟩ := bubble_down_specT (s.heap.length + 1) s m m halm
        (le_refl m) (by omega)
      have hpok2 : PosOk (s.bubble_down m (s.heap.length + 1)) :=
        bubble_down_posOk _ s m hp
      obtain ⟨h1, h2, h3⟩ := ih (s.bubble_down m (s.heap.length + 1)) hA hpok2
      exact ⟨h1, h2.trans hB, h3⟩

theorem build_pos_fold : ∀ (l : List (Nat × K)) (off : Nat)
    (acc : List (Option Nat)),
    (∀ p ∈ l, p.1 < acc.length) → (l.map Prod.fst).Nodup →
    ((List.enumFrom off l).foldl (fun a q => a.set q.2.1 (some q.1))
        acc).length = acc.length ∧
    (∀ id, (∀ p ∈ l, p.1 ≠ id) →
      ((List.enumFrom off l).foldl (fun a q => a.set q.2.1 (some q.1))
          acc).getD id none = acc.getD id none) ∧
    (∀ j, j < l.length →
      ((List.enumFrom off l).foldl (fun a q => a.set q.2.1 (some q.1))
          acc).getD ((l.getD j default).1) none = some (off + j)) := by
  intro l
  induction l with
  | nil =>
      intro off acc hb hnd
      exact ⟨rfl, fun id _ => rfl, fun j hj => absurd hj (by simp)⟩
  | cons p rest ih =>
      intro off acc hb hnd
      rw [show List.enumFrom off (p :: rest) =
        (off, p) :: List.enumFrom (off + 1) rest from rfl, List.foldl_cons]
      rw [List.map_cons, List.nodup_cons] at hnd
      have hb2 : ∀ q ∈ rest, q.1 < (acc.set p.1 (some off)).length := by
        intro q hq
        rw [List.length_set]
        exact hb q (List.mem_cons_of_mem _ hq)
      obtain ⟨ih1, ih2, ih3⟩ := ih (off + 1) (acc.set p.1 (some off)) hb2 hnd.2
      refine ⟨by rw [ih1, List.length_set], ?_, ?_⟩
      · intro id hno
        rw [ih2 id (fun q hq => hno q (List.mem_cons_of_mem _ hq)),
          getD_set_d, if_neg (fun hc => hno p (List.mem_cons_self _ _) hc.1)]
      · intro j hj
        have hnop : ∀ q ∈ rest, q.1 ≠ p.1 := by
          intro q hq he
          exact hnd.1 (he ▸ List.mem_map_of_mem Prod.fst hq)
        cases j with
        | zero =>
            show ((List.enumFrom (off + 1) rest).foldl
              (fun a q => a.set q.2.1 (some q.1))
              (acc.set p.1 (some off))).getD p.1 none = some (off + 0)
            rw [ih2 p.1 hnop, getD_set_d,
              if_pos ⟨rfl, hb p (List.mem_cons_self _ _)⟩]
            rfl
        | succ j0 =>
            have hj0 : j0 < rest.length := by
              have h5 : j0 + 1 < rest.length + 1 := by simpa using hj
              omega
            have h3 := ih3 j0 hj0
            show ((List.enumFrom (off + 1) rest).foldl
              (fun a q => a.set q.2.1 (some q.1))
              (acc.set p.1 (some off))).getD
              ((rest.getD j0 default).1) none = some (off + (j0 + 1))
            rw [h3]
            congr 1
            omega

theorem foldr_max_bound : ∀ (l : List Nat) (p : Nat), p ∈ l →
    p ≤ l.foldr max 0 := by
  intro l
  induction l with
  | nil => intro p hp; exact absurd hp (List.not_mem_nil p)
  | cons a t ih =>
      intro p hp
      rcases List.mem_cons.1 hp with rfl | hp2
      · exact Nat.le_max_left _ _
      · exact le_trans (ih p hp2) (Nat.le_max_right _ _)

theorem posOk_build (items : List (Nat × K))
    (hnd : (items.map Prod.fst).Nodup)
    {ps0 : List (Option Nat)}
    (hb : ∀ p ∈ items, p.1 < ps0.length)
    (hnone : ∀ id, ps0.getD id none = none) :
    PosOkL items
      ((items.enum).foldl (fun a q => a.set q.2.1 (some q.1)) ps0) := by
  show PosOkL items
    ((List.enumFrom 0 items).foldl (fun a q => a.set q.2.1 (some q.1)) ps0)
  obtain ⟨h1, h2, h3⟩ := build_pos_fold items 0 ps0 hb hnd
  constructor
  · intro id pos hpos
    by_cases hmem : ∃ j, j < items.length ∧ (items.getD j default).1 = id
    · obtain ⟨j, hj, hjid⟩ := hmem
      have h4 := h3 j hj
      rw [hjid] at h4
      have h5 := Option.some.inj (h4.symm.trans hpos)
      refine ⟨by omega, ?_⟩
      rw [show pos = j from by omega]
      exact hjid
    · have hno : ∀ p ∈ items, p.1 ≠ id := by
        intro p hp he
        obtain ⟨j, hjl, hje⟩ := List.getElem_of_mem hp
        refine hmem ⟨j, hjl, ?_⟩
        rw [List.getD_eq_getElem _ _ hjl, hje]
        exact he
      rw [h2 id hno, hnone] at hpos
      exact Option.noConfusion hpos
  · intro i hi
    have h4 := h3 i hi
    rw [h4]
    congr 1
    omega

theorem build_heap_spec (items : List (Nat × K))
    (hnd : (items.map Prod.fst).Nodup) :
    HeapOrd (MinHeap.build_heap items).heap ∧
    List.Perm (MinHeap.build_heap items).heap items ∧
    PosOk (MinHeap.build_heap items) := by
  have hb : ∀ p ∈ items, p.1 <
      (List.replicate ((items.map Prod.fst).foldr max 0 + 1)
        (none : Option Nat)).length := by
    intro p hp
    rw [List.length_replicate]
    have := foldr_max_bound _ p.1 (List.mem_map_of_mem Prod.fst hp)
    omega
  have hnone : ∀ id,
      (List.replicate ((items.map Prod.fst).foldr max 0 + 1)
        (none : Option Nat)).getD id none = none := by
    intro id
    by_cases hid : id < ((items.map Prod.fst).foldr max 0 + 1)
    · rw [List.getD_eq_getElem _ _ (by simp; omega)]
      exact List.getElem_replicate _ _
    · exact List.getD_eq_default _ _ (by simp; omega)
  have hpok0 := posOk_build items hnd hb hnone
  have hg0 : GoodFrom items (items.length / 2) := by
    intro i hi0 hil hthr
    exact absurd hil (by omega)
  have hmain : ∀ ps : List (Option Nat), PosOkL items ps →
      HeapOrd ((List.range (items.length / 2)).reverse.foldl
        (fun t i => t.bubble_down i (t.heap.length + 1))
        (MinHeap.mk items ps)).heap ∧
      List.Perm ((List.range (items.length / 2)).reverse.foldl
        (fun t i => t.bubble_down i (t.heap.length + 1))
        (MinHeap.mk items ps)).heap items ∧
      PosOk ((List.range (items.length / 2)).reverse.foldl
        (fun t i => t.bubble_down i (t.heap.length + 1))
        (MinHeap.mk items ps)) := by
    intro ps hps
    exact heapify_loop (items.length / 2) (MinHeap.mk items ps) hg0 hps
  show HeapOrd (MinHeap.build_heap items).heap ∧ _
  unfold build_heap
  dsimp only
  by_cases h1 : 1 < items.length
  · rw [if_pos h1]
    exact hmain _ hpok0
  · rw [if_neg h1]
    refine ⟨?_, List.Perm.refl _, hpok0⟩
    intro i hi0 hil
    have hil2 : i < items.length := hil
    exact absurd hil2 (by omega)

end MinHeap

theorem mem_map_nodup_inj {α β : Type} {f : α → β} :
    ∀ {l : List α}, (l.map f).Nodup → ∀ {a b : α}, a ∈ l → b ∈ l → f a = f b → a = b := by
  intro l
  induction l with
  | nil => intro _ a b ha; exact absurd ha (List.not_mem_nil a)
  | cons c t ih =>
      intro hnd a b ha hb hf
      rw [List.map_cons, List.nodup_cons] at hnd
      rcases List.mem_cons.1 ha with rfl | ha2
      · rcases List.mem_cons.1 hb with rfl | hb2
        · rfl
        · exact absurd (hf ▸ List.mem_map_of_mem f hb2) hnd.1
      · rcases List.mem_cons.1 hb with rfl | hb2
        · exact absurd (hf ▸ List.mem_map_of_mem f ha2) hnd.1
        · exact ih hnd.2 ha2 hb2 hf

theorem nodup_append_perm_left {α : Type} {A A' B : List α}
    (hp : A.Perm A') (h : (A ++ B).Nodup) : (A' ++ B).Nodup :=
  ((hp.append (List.Perm.refl B)).nodup_iff).1 h

theorem unique_min_eq {K : Type} [LinearOrder K] {P Q : List (Nat × K)}
    (hp : P.Perm Q) (hnd : (P.map Prod.snd).Nodup) {x y : Nat × K}
    (hx : x ∈ P) (hxm : ∀ e ∈ P, x.2 ≤ e.2)
    (hy : y ∈ Q) (hym : ∀ e ∈ Q, y.2 ≤ e.2) : x = y := by
  have hyP : y ∈ P := hp.symm.subset hy
  have hxQ : x ∈ Q := hp.subset hx
  have hkey : x.2 = y.2 := le_antisymm (hxm y hyP) (hym x hxQ)
  exact mem_map_nodup_inj hnd hx hyP hkey

theorem entriesOf_cons {K : Type} [Inhabited K] (s : FibHeap K) (z : Nat)
    (cs F1 : List MTree) :
    FibHeap.entriesOf s (MTree.mk z cs :: F1) =
      (s.getN z).entry ::
        ((MTree.slotsF cs ++ MTree.slotsF F1).map fun i => (s.getN i).entry) := by
  show (MTree.slotsF (MTree.mk z cs :: F1)).map _ = _
  rw [MTree.slotsF_cons, MTree.slots_mk, List.cons_append, List.map_cons]

theorem fib_min_entry_min {K : Type} [Inhabited K] [LinearOrder K]
    {s : FibHeap K} {z : Nat} {cs F1 : List MTree}
    (hrep : FibHeap.FibRepr s (MTree.mk z cs :: F1)) :
    (s.getN z).entry ∈ FibHeap.entriesOf s (MTree.mk z cs :: F1) ∧
    ∀ e ∈ FibHeap.entriesOf s (MTree.mk z cs :: F1),
      ((s.getN z).entry).2 ≤ e.2 := by
  constructor
  · rw [entriesOf_cons]
    exact List.mem_cons_self _ _
  · intro e he
    obtain ⟨j, hj, rfl⟩ := List.mem_map.1 he
    exact FibHeap.head_key_min hrep j hj

theorem get_min_agree {K : Type} [Inhabited K] [LinearOrder K]
    {s : FibHeap K} {F : List MTree} {mh : MinHeap K}
    (hrep : FibHeap.FibRepr s F) (hord : MinHeap.HeapOrd mh.heap)
    (hperm : List.Perm (FibHeap.entriesOf s F) mh.heap)
    (hnd : ((FibHeap.entriesOf s F).map Prod.snd).Nodup) :
    s.get_min = mh.get_min := by
  cases F with
  | nil =>
      have hE : FibHeap.entriesOf s ([] : List MTree) = [] := rfl
      rw [hE] at hperm
      have hmh0 : mh.heap = [] := List.Perm.eq_nil hperm.symm
      have hmr : s.min_root = none := by
        have h1 := hrep.1.2.1
        rw [h1]
        rfl
      show s.min_root.map _ = mh.heap.head?
      rw [hmr, hmh0]
      rfl
  | cons t F1 =>
      obtain ⟨z, cs⟩ := t
      have hmr : s.min_root = some z := by
        have h1 := hrep.1.2.1
        rw [h1]
        rfl
      have hEne : FibHeap.entriesOf s (MTree.mk z cs :: F1) ≠ [] := by
        rw [entriesOf_cons]
        exact List.cons_ne_nil _ _
      have hne : mh.heap ≠ [] := by
        intro h0
        rw [h0] at hperm
        exact hEne (List.Perm.eq_nil hperm)
      have hfib : s.get_min = some (s.getN z).entry := by
        show s.min_root.map _ = _
        rw [hmr]
        rfl
      have hmin : mh.get_min = some (mh.heap.getD 0 default) := by
        show mh.heap.head? = _
        cases hmh : mh.heap with
        | nil => exact absurd hmh hne
        | cons a tl => rfl
      rw [hfib, hmin]
      obtain ⟨hxmem, hxmin⟩ := fib_min_entry_min hrep
      obtain ⟨hymem, hymin⟩ := MinHeap.heapOrd_min_mem hord hne
      rw [unique_min_eq hperm hnd hxmem hxmin hymem hymin]

theorem obs_equiv {K : Type} [Inhabited K] [LinearOrder K] :
    ∀ (ops : List (HOp K)) (s : FibHeap K) (F : List MTree) (mh : MinHeap K),
    FibHeap.FibRepr s F → FibHeap.ValidOps s ops → MinHeap.HeapOrd mh.heap →
    List.Perm (FibHeap.entriesOf s F) mh.heap →
    ((FibHeap.entriesOf s F).map Prod.snd ++ KeysOf ops).Nodup →
    fibObsRun s ops = minObsRun mh ops := by
  intro ops
  induction ops with
  | nil => intro s F mh _ _ _ _ _; rfl
  | cons op rest ih =>
      intro s F mh hrep hval hord hperm hnd
      cases op with
      | ins id k =>
          cases hval with
          | ins hfresh hvrest =>
          obtain ⟨F', hrep1, hperm1, -, -, -, -, -, -⟩ :=
            FibHeap.insert_spec hrep (id, k) hfresh
          obtain ⟨hord1, hpermM, -⟩ := MinHeap.insert_heap_spec mh (id, k) hord
          have hpermNew :
              List.Perm (FibHeap.entriesOf (s.insert (id, k)) F')
                (mh.insert (id, k)).heap :=
            (hperm1.trans (List.Perm.cons (id, k) hperm)).trans hpermM.symm
          have hndOld :
              ((id, k).2 :: ((FibHeap.entriesOf s F).map Prod.snd ++ KeysOf rest)).Nodup := by
            have h0 : KeysOf (HOp.ins id k :: rest) = k :: KeysOf rest := rfl
            rw [h0] at hnd
            exact (List.perm_middle.nodup_iff).1 hnd
          have hndOld2 : (((id, k).2 :: (FibHeap.entriesOf s F).map Prod.snd)
              ++ KeysOf rest).Nodup := by
            rw [List.cons_append]
            exact hndOld
          have hndNew :
              ((FibHeap.entriesOf (s.insert (id, k)) F').map Prod.snd ++
                KeysOf rest).Nodup := by
            refine nodup_append_perm_left ?_ hndOld2
            exact (hperm1.map Prod.snd).symm
          have hgm : (s.insert (id, k)).get_min = (mh.insert (id, k)).get_min :=
            get_min_agree hrep1 hord1 hpermNew (List.Nodup.of_append_left hndNew)
          have hih := ih (s.insert (id, k)) F' (mh.insert (id, k))
            hrep1 hvrest hord1 hpermNew hndNew
          show (s.insert (id, k)).get_min :: fibObsRun (s.insert (id, k)) rest =
            (mh.insert (id, k)).get_min :: minObsRun (mh.insert (id, k)) rest
          rw [hgm, hih]
      | del =>
          cases hval with
          | del hvrest =>
          cases F with
          | nil =>
              have hE : FibHeap.entriesOf s ([] : List MTree) = [] := rfl
              rw [hE] at hperm
              have hmh0 : mh.heap = [] := List.Perm.eq_nil hperm.symm
              have hmr : s.min_root = none := by
                have h1 := hrep.1.2.1
                rw [h1]
                rfl
              have hfd : s.delete_min = (none, s) := FibHeap.delete_min_none hmr
              have hmd : mh.delete_min = (none, mh) := by
                unfold MinHeap.delete_min
                rw [if_pos (by rw [hmh0]; rfl)]
              have hgm : s.get_min = mh.get_min := by
                show s.min_root.map _ = mh.heap.head?
                rw [hmr, hmh0]
                rfl
              have hvrest2 : FibHeap.ValidOps s rest := by
                rw [hfd] at hvrest
                exact hvrest
              have hih := ih s ([] : List MTree) mh hrep hvrest2 hord
                (hE ▸ hperm) hnd
              show (s.delete_min).1 :: ((s.delete_min).2.get_min ::
                  fibObsRun (s.delete_min).2 rest) =
                (mh.delete_min).1 :: ((mh.delete_min).2.get_min ::
                  minObsRun (mh.delete_min).2 rest)
              rw [hfd, hmd]
              show none :: (s.get_min :: fibObsRun s rest) =
                none :: (mh.get_min :: minObsRun mh rest)
              rw [hgm, hih]
          | cons t F1 =>
              obtain ⟨z, cs⟩ := t
              obtain ⟨F', hrepD, hpop, hslots, hents, -, -, -⟩ :=
                FibHeap.delete_min_spec hrep
              have hEcons := entriesOf_cons s z cs F1
              have hne : mh.heap ≠ [] := by
                intro h0
                rw [h0] at hperm
                have h1 := List.Perm.eq_nil hperm
                rw [hEcons] at h1
                exact List.cons_ne_nil _ _ h1
              obtain ⟨hpopM, hordD, hpermM⟩ :=
                MinHeap.delete_min_heap_spec mh hord hne
              have hndE : ((FibHeap.entriesOf s (MTree.mk z cs :: F1)).map
                  Prod.snd).Nodup := List.Nodup.of_append_left hnd
              obtain ⟨hxmem, hxmin⟩ := fib_min_entry_min hrep
              obtain ⟨hymem, hymin⟩ := MinHeap.heapOrd_min_mem hord hne
              have hxy : (s.getN z).entry = mh.heap.getD 0 default :=
                unique_min_eq hperm hndE hxmem hxmin hymem hymin
              have hED : List.Perm (FibHeap.entriesOf (s.delete_min).2 F')
                  ((MTree.slotsF cs ++ MTree.slotsF F1).map
                    fun i => (s.getN i).entry) := by
                have h1 : FibHeap.entriesOf (s.delete_min).2 F' =
                    (MTree.slotsF F').map fun i => (s.getN i).entry :=
                  List.map_congr_left hents
                rw [h1]
                exact hslots.map _
              have hpermNew : List.Perm (FibHeap.entriesOf (s.delete_min).2 F')
                  (mh.delete_min).2.heap := by
                refine hED.trans ?_
                have h2 : List.Perm
                    ((s.getN z).entry ::
                      ((MTree.slotsF cs ++ MTree.slotsF F1).map
                        fun i => (s.getN i).entry))
                    ((s.getN z).entry :: (mh.delete_min).2.heap) := by
                  rw [← hEcons]
                  refine hperm.trans ?_
                  rw [hxy]
                  exact hpermM.symm
                exact h2.cons_inv
              have hndTail : (((MTree.slotsF cs ++ MTree.slotsF F1).map
                  (fun i => (s.getN i).entry)).map Prod.snd ++
                    KeysOf rest).Nodup := by
                have h0 : KeysOf (HOp.del :: rest) = KeysOf rest := rfl
                rw [h0, hEcons, List.map_cons, List.cons_append,
                  List.nodup_cons] at hnd
                exact hnd.2
              have hndNew : ((FibHeap.entriesOf (s.delete_min).2 F').map
                  Prod.snd ++ KeysOf rest).Nodup :=
                nodup_append_perm_left ((hED.map Prod.snd).symm) hndTail
              have hgm : (s.delete_min).2.get_min = (mh.delete_min).2.get_min :=
                get_min_agree hrepD hordD hpermNew
                  (List.Nodup.of_append_left hndNew)
              have hih := ih (s.delete_min).2 F' (mh.delete_min).2
                hrepD hvrest hordD hpermNew hndNew
              show (s.delete_min).1 :: ((s.delete_min).2.get_min ::
                  fibObsRun (s.delete_min).2 rest) =
                (mh.delete_min).1 :: ((mh.delete_min).2.get_min ::
                  minObsRun (mh.delete_min).2 rest)
              rw [hpop, hpopM, hxy, hgm, hih]

theorem set_perm_cons_eraseIdx {α : Type} :
    ∀ (l : List α) (pos : Nat) (v : α), pos < l.length →
      List.Perm (l.set pos v) (v :: l.eraseIdx pos) := by
  intro l
  induction l with
  | nil => intro pos v h; exact absurd h (by simp)
  | cons a t ih =>
      intro pos v h
      cases pos with
      | zero => exact List.Perm.refl _
      | succ p =>
          show List.Perm (a :: t.set p v) (v :: a :: t.eraseIdx p)
          refine List.Perm.trans (List.Perm.cons a (ih p v (by simpa using h))) ?_
          exact List.Perm.swap v a _

theorem getD_cons_eraseIdx_perm {α : Type} [Inhabited α] :
    ∀ (l : List α) (pos : Nat), pos < l.length →
      List.Perm l ((l.getD pos default) :: l.eraseIdx pos) := by
  intro l
  induction l with
  | nil => intro pos h; exact absurd h (by simp)
  | cons a t ih =>
      intro pos h
      cases pos with
      | zero => exact List.Perm.refl _
      | succ p =>
          show List.Perm (a :: t) ((t.getD p default) :: a :: t.eraseIdx p)
          refine List.Perm.trans (List.Perm.cons a (ih p (by simpa using h))) ?_
          exact List.Perm.swap _ a _

theorem fib_ids_nodup {K : Type} [Inhabited K] [LinearOrder K]
    {s : FibHeap K} {F : List MTree} (hrep : FibHeap.FibRepr s F) :
    ((FibHeap.entriesOf s F).map Prod.fst).Nodup := by
  show (((MTree.slotsF F).map fun i => (s.getN i).entry).map Prod.fst).Nodup
  rw [List.map_map]
  refine List.Nodup.map_on ?_ hrep.1.2.2.2.1
  intro x hx y hy hxy
  have h1 := hrep.1.2.2.2.2.2.1 x hx
  have h2 := hrep.1.2.2.2.2.2.1 y hy
  show x = y
  have hxy2 : (s.getN x).entry.1 = (s.getN y).entry.1 := hxy
  rw [hxy2] at h1
  exact Option.some.inj (h1.symm.trans h2)

theorem fib_is_empty_agree {K : Type} [Inhabited K] [LinearOrder K]
    {s : FibHeap K} {F : List MTree} {mh : MinHeap K}
    (hrep : FibHeap.FibRepr s F)
    (hperm : List.Perm (FibHeap.entriesOf s F) mh.heap) :
    s.is_empty = mh.is_empty := by
  have hn : s.n = (MTree.slotsF F).length := hrep.1.2.2.2.2.1
  have hlen : (MTree.slotsF F).length = mh.heap.length := by
    have h1 : (FibHeap.entriesOf s F).length = (MTree.slotsF F).length :=
      List.length_map _ _
    rw [← h1]
    exact hperm.length_eq
  show (s.n == 0) = mh.heap.isEmpty
  rw [hn, hlen]
  cases hx : mh.heap with
  | nil => rfl
  | cons a t => rfl

theorem dObs_equiv {K : Type} [Inhabited K] [LinearOrder K] :
    ∀ (ops : List (DOp K)) (s : FibHeap K) (F : List MTree) (mh : MinHeap K),
    FibHeap.FibRepr s F → DValid s ops → MinHeap.HeapOrd mh.heap →
    MinHeap.PosOk mh →
    List.Perm (FibHeap.entriesOf s F) mh.heap →
    ((FibHeap.entriesOf s F).map Prod.snd ++ DKeys ops).Nodup →
    fibObsRunD s ops = minObsRunD mh ops := by
  intro ops
  induction ops with
  | nil => intro s F mh _ _ _ _ _ _; rfl
  | cons op rest ih =>
      intro s F mh hrep hval hord hpok hperm hnd
      cases op with
      | ins id k =>
          cases hval with
          | ins hfresh hvrest =>
          obtain ⟨F', hrep1, hperm1, -, -, -, -, -, -⟩ :=
            FibHeap.insert_spec hrep (id, k) hfresh
          obtain ⟨hord1, hpermM, -⟩ := MinHeap.insert_heap_spec mh (id, k) hord
          have hfreem : mh.positions.getD (id : Nat) none = none := by
            refine MinHeap.posOk_not_mem_none hpok ?_
            intro i hi he
            have hmem : mh.heap.getD i default ∈ mh.heap := by
              rw [List.getD_eq_getElem _ _ hi]
              exact List.getElem_mem _
            have hmemE : mh.heap.getD i default ∈ FibHeap.entriesOf s F :=
              hperm.symm.subset hmem
            obtain ⟨j, hj, hje⟩ := List.mem_map.1 hmemE
            have hgp := hrep.1.2.2.2.2.2.1 j hj
            rw [hje, he] at hgp
            rw [hfresh] at hgp
            exact Option.noConfusion hgp
          have hpok1 : MinHeap.PosOk (mh.insert (id, k)) :=
            MinHeap.insert_posOk mh (id, k) hpok hfreem
          have hpermNew :
              List.Perm (FibHeap.entriesOf (s.insert (id, k)) F')
                (mh.insert (id, k)).heap :=
            (hperm1.trans (List.Perm.cons (id, k) hperm)).trans hpermM.symm
          have hndOld :
              ((id, k).2 :: ((FibHeap.entriesOf s F).map Prod.snd ++
                DKeys rest)).Nodup := by
            have h0 : DKeys (DOp.ins id k :: rest) = k :: DKeys rest := rfl
            rw [h0] at hnd
            exact (List.perm_middle.nodup_iff).1 hnd
          have hndOld2 : (((id, k).2 :: (FibHeap.entriesOf s F).map Prod.snd)
              ++ DKeys rest).Nodup := by
            rw [List.cons_append]
            exact hndOld
          have hndNew :
              ((FibHeap.entriesOf (s.insert (id, k)) F').map Prod.snd ++
                DKeys rest).Nodup := by
            refine nodup_append_perm_left ?_ hndOld2
            exact (hperm1.map Prod.snd).symm
          have hgm : (s.insert (id, k)).get_min = (mh.insert (id, k)).get_min :=
            get_min_agree hrep1 hord1 hpermNew (List.Nodup.of_append_left hndNew)
          have hie : (s.insert (id, k)).is_empty = (mh.insert (id, k)).is_empty :=
            fib_is_empty_agree hrep1 hpermNew
          have hih := ih (s.insert (id, k)) F' (mh.insert (id, k))
            hrep1 hvrest hord1 hpok1 hpermNew hndNew
          show (none, (s.insert (id, k)).get_min, (s.insert (id, k)).is_empty) ::
              fibObsRunD (s.insert (id, k)) rest =
            (none, (mh.insert (id, k)).get_min, (mh.insert (id, k)).is_empty) ::
              minObsRunD (mh.insert (id, k)) rest
          rw [hgm, hie, hih]
      | del =>
          cases hval with
          | del hvrest =>
          cases F with
          | nil =>
              have hE : FibHeap.entriesOf s ([] : List MTree) = [] := rfl
              rw [hE] at hperm
              have hmh0 : mh.heap = [] := List.Perm.eq_nil hperm.symm
              have hmr : s.min_root = none := by
                have h1 := hrep.1.2.1
                rw [h1]
                rfl
              have hfd : s.delete_min = (none, s) := FibHeap.delete_min_none hmr
              have hmd : mh.delete_min = (none, mh) := by
                unfold MinHeap.delete_min
                rw [if_pos (by rw [hmh0]; rfl)]
              have hgm : s.get_min = mh.get_min := by
                show s.min_root.map _ = mh.heap.head?
                rw [hmr, hmh0]
                rfl
              have hie : s.is_empty = mh.is_empty :=
                fib_is_empty_agree hrep (hE ▸ hperm)
              have hvrest2 : DValid s rest := by
                rw [hfd] at hvrest
                exact hvrest
              have hih := ih s ([] : List MTree) mh hrep hvrest2 hord hpok
                (hE ▸ hperm) hnd
              show ((s.delete_min).1, (s.delete_min).2.get_min,
                  (s.delete_min).2.is_empty) :: fibObsRunD (s.delete_min).2 rest =
                ((mh.delete_min).1, (mh.delete_min).2.get_min,
                  (mh.delete_min).2.is_empty) :: minObsRunD (mh.delete_min).2 rest
              rw [hfd, hmd]
              show (none, s.get_min, s.is_empty) :: fibObsRunD s rest =
                (none, mh.get_min, mh.is_empty) :: minObsRunD mh rest
              rw [hgm, hie, hih]
          | cons t F1 =>
              obtain ⟨z, cs⟩ := t
              obtain ⟨F', hrepD, hpop, hslots, hents, -, -, -⟩ :=
                FibHeap.delete_min_spec hrep
              have hEcons := entriesOf_cons s z cs F1
              have hne : mh.heap ≠ [] := by
                intro h0
                rw [h0] at hperm
                have h1 := List.Perm.eq_nil hperm
                rw [hEcons] at h1
                exact List.cons_ne_nil _ _ h1
              obtain ⟨hpopM, hordD, hpermM⟩ :=
                MinHeap.delete_min_heap_spec mh hord hne
              have hpokD : MinHeap.PosOk (mh.delete_min).2 :=
                MinHeap.delete_min_posOk mh hpok
              have hndE : ((FibHeap.entriesOf s (MTree.mk z cs :: F1)).map
                  Prod.snd).Nodup := List.Nodup.of_append_left hnd
              obtain ⟨hxmem, hxmin⟩ := fib_min_entry_min hrep
              obtain ⟨hymem, hymin⟩ := MinHeap.heapOrd_min_mem hord hne
              have hxy : (s.getN z).entry = mh.heap.getD 0 default :=
                unique_min_eq hperm hndE hxmem hxmin hymem hymin
              have hED : List.Perm (FibHeap.entriesOf (s.delete_min).2 F')
                  ((MTree.slotsF cs ++ MTree.slotsF F1).map
                    fun i => (s.getN i).entry) := by
                have h1 : FibHeap.entriesOf (s.delete_min).2 F' =
                    (MTree.slotsF F').map fun i => (s.getN i).entry :=
                  List.map_congr_left hents
                rw [h1]
                exact hslots.map _
              have hpermNew : List.Perm (FibHeap.entriesOf (s.delete_min).2 F')
                  (mh.delete_min).2.heap := by
                refine hED.trans ?_
                have h2 : List.Perm
                    ((s.getN z).entry ::
                      ((MTree.slotsF cs ++ MTree.slotsF F1).map
                        fun i => (s.getN i).entry))
                    ((s.getN z).entry :: (mh.delete_min).2.heap) := by
                  rw [← hEcons]
                  refine hperm.trans ?_
                  rw [hxy]
                  exact hpermM.symm
                exact h2.cons_inv
              have hndTail : (((MTree.slotsF cs ++ MTree.slotsF F1).map
                  (fun i => (s.getN i).entry)).map Prod.snd ++
                    DKeys rest).Nodup := by
                have h0 : DKeys (DOp.del :: rest) = DKeys rest := rfl
                rw [h0, hEcons, List.map_cons, List.cons_append,
                  List.nodup_cons] at hnd
                exact hnd.2
              have hndNew : ((FibHeap.entriesOf (s.delete_min).2 F').map
                  Prod.snd ++ DKeys rest).Nodup :=
                nodup_append_perm_left ((hED.map Prod.snd).symm) hndTail
              have hgm : (s.delete_min).2.get_min = (mh.delete_min).2.get_min :=
                get_min_agree hrepD hordD hpermNew
                  (List.Nodup.of_append_left hndNew)
              have hie : (s.delete_min).2.is_empty = (mh.delete_min).2.is_empty :=
                fib_is_empty_agree hrepD hpermNew
              have hih := ih (s.delete_min).2 F' (mh.delete_min).2
                hrepD hvrest hordD hpokD hpermNew hndNew
              show ((s.delete_min).1, (s.delete_min).2.get_min,
                  (s.delete_min).2.is_empty) :: fibObsRunD (s.delete_min).2 rest =
                ((mh.delete_min).1, (mh.delete_min).2.get_min,
                  (mh.delete_min).2.is_empty) :: minObsRunD (mh.delete_min).2 rest
              rw [hpop, hpopM, hxy, hgm, hie, hih]
      | dec id k =>
          cases hval with
          | @dec _ _ _ idx _ hid hk hvrest =>
          obtain ⟨F', hrepD, hslots, -, -, -, hentidx, hentoth⟩ :=
            FibHeap.decrease_key_spec hrep hid hk
          obtain ⟨hidx_mem, hident⟩ := hrep.1.2.2.2.2.2.2 id idx hid
          have hnds : (MTree.slotsF F).Nodup := hrep.1.2.2.2.1
          have h_old : List.Perm (FibHeap.entriesOf s F)
              ((s.getN idx).entry ::
                ((MTree.slotsF F).erase idx).map fun i => (s.getN i).entry) := by
            show List.Perm ((MTree.slotsF F).map fun i => (s.getN i).entry) _
            exact (List.perm_cons_erase hidx_mem).map _
          have h_new : List.Perm
              (FibHeap.entriesOf (s.decrease_key id k) F')
              (((s.getN idx).entry.1, k) ::
                ((MTree.slotsF F).erase idx).map fun i => (s.getN i).entry) := by
            show List.Perm ((MTree.slotsF F').map
              fun i => ((s.decrease_key id k).getN i).entry) _
            refine List.Perm.trans (hslots.map _) ?_
            refine List.Perm.trans ((List.perm_cons_erase hidx_mem).map _) ?_
            rw [show (List.map (fun i => ((s.decrease_key id k).getN i).entry)
                (idx :: (MTree.slotsF F).erase idx)) =
              ((s.decrease_key id k).getN idx).entry ::
                (List.map (fun i => ((s.decrease_key id k).getN i).entry)
                  ((MTree.slotsF F).erase idx)) from rfl]
            rw [hentidx]
            refine List.Perm.cons _ ?_
            rw [List.map_congr_left ?_]
            intro j hj
            refine hentoth j ?_
            exact ((hnds.mem_erase_iff).1 hj).1
          have hentry0_mem : (s.getN idx).entry ∈ mh.heap := by
            refine hperm.subset ?_
            exact List.mem_map_of_mem _ hidx_mem
          obtain ⟨j, hjl, hje⟩ := List.getElem_of_mem hentry0_mem
          have hgetj : mh.heap.getD j default = (s.getN idx).entry := by
            rw [List.getD_eq_getElem _ _ hjl, hje]
          have hidm : mh.positions.getD id none = some j := by
            have h2 := hpok.2 j hjl
            rw [hgetj, hident] at h2
            exact h2
          have hkm : k < (mh.heap.getD j default).2 := by
            rw [hgetj]
            exact hk
          obtain ⟨hordD, hpokD, hpermset, -⟩ :=
            MinHeap.decrease_key_heap_spec mh id k hord hpok hidm hkm
          have h_mh_new : List.Perm (mh.decrease_key id k).heap
              ((id, k) :: mh.heap.eraseIdx j) :=
            hpermset.trans (set_perm_cons_eraseIdx _ j _ hjl)
          have h_mh_old : List.Perm mh.heap
              ((s.getN idx).entry :: mh.heap.eraseIdx j) := by
            have h1 := getD_cons_eraseIdx_perm mh.heap j hjl
            rw [hgetj] at h1
            exact h1
          have hMN : List.Perm
              (((MTree.slotsF F).erase idx).map fun i => (s.getN i).entry)
              (mh.heap.eraseIdx j) := by
            refine List.Perm.cons_inv (a := (s.getN idx).entry) ?_
            exact (h_old.symm.trans hperm).trans h_mh_old
          have hpermNew : List.Perm
              (FibHeap.entriesOf (s.decrease_key id k) F')
              (mh.decrease_key id k).heap := by
            refine h_new.trans ?_
            rw [hident]
            exact (List.Perm.cons _ hMN).trans h_mh_new.symm
          have hMsub : ∀ x, x ∈ (((MTree.slotsF F).erase idx).map
              fun i => (s.getN i).entry).map Prod.snd →
              x ∈ (FibHeap.entriesOf s F).map Prod.snd := by
            intro x hx
            refine (h_old.map Prod.snd).symm.subset ?_
            exact List.mem_cons_of_mem _ hx
          have hndOld : ((k : K) ∉ (FibHeap.entriesOf s F).map Prod.snd ++
                DKeys rest) ∧
              ((FibHeap.entriesOf s F).map Prod.snd ++ DKeys rest).Nodup := by
            have h0 : DKeys (DOp.dec id k :: rest) = k :: DKeys rest := rfl
            rw [h0] at hnd
            have h1 := (List.perm_middle.nodup_iff).1 hnd
            exact ⟨(List.nodup_cons.1 h1).1, (List.nodup_cons.1 h1).2⟩
          have hndM : ((((MTree.slotsF F).erase idx).map
              (fun i => (s.getN i).entry)).map Prod.snd ++ DKeys rest).Nodup := by
            have h1 : (((s.getN idx).entry.2 ::
                (((MTree.slotsF F).erase idx).map
                  (fun i => (s.getN i).entry)).map Prod.snd) ++
                DKeys rest).Nodup :=
              nodup_append_perm_left (h_old.map Prod.snd) hndOld.2
            rw [List.cons_append, List.nodup_cons] at h1
            exact h1.2
          have hknotin : (k : K) ∉ (((MTree.slotsF F).erase idx).map
              (fun i => (s.getN i).entry)).map Prod.snd ++ DKeys rest := by
            intro hkin
            refine hndOld.1 ?_
            rcases List.mem_append.1 hkin with h1 | h1
            · exact List.mem_append.2 (Or.inl (hMsub k h1))
            · exact List.mem_append.2 (Or.inr h1)
          have hndNew : ((FibHeap.entriesOf (s.decrease_key id k) F').map
              Prod.snd ++ DKeys rest).Nodup := by
            refine nodup_append_perm_left ((h_new.map Prod.snd).symm) ?_
            rw [List.map_cons, List.cons_append, List.nodup_cons]
            exact ⟨hknotin, hndM⟩
          have hgm : (s.decrease_key id k).get_min =
              (mh.decrease_key id k).get_min :=
            get_min_agree hrepD hordD hpermNew (List.Nodup.of_append_left hndNew)
          have hie : (s.decrease_key id k).is_empty =
              (mh.decrease_key id k).is_empty :=
            fib_is_empty_agree hrepD hpermNew
          have hih := ih (s.decrease_key id k) F' (mh.decrease_key id k)
            hrepD hvrest hordD hpokD hpermNew hndNew
          show (none, (s.decrease_key id k).get_min,
              (s.decrease_key id k).is_empty) ::
              fibObsRunD (s.decrease_key id k) rest =
            (none, (mh.decrease_key id k).get_min,
              (mh.decrease_key id k).is_empty) ::
              minObsRunD (mh.decrease_key id k) rest
          rw [hgm, hie, hih]

/-- C2 (counterexample): a trace satisfying all the stated preconditions —
pairwise-distinct ids, no decrease_key, totally ordered keys — on which the
two engines report different pop orders: with the equal keys
`[(0,0),(1,0),(2,0),(3,0),(4,1)]` the second `delete_min` pops `(3,0)` from
the Fibonacci heap but `(1,0)` from the array baseline. -/
theorem engines_diverge_on_equal_keys :
    DValid (FibHeap.new : FibHeap Int)
      [DOp.ins 0 0, DOp.ins 1 0, DOp.ins 2 0, DOp.ins 3 0, DOp.ins 4 1,
        DOp.del, DOp.del] ∧
    fibObsRunD (FibHeap.new : FibHeap Int)
        [DOp.ins 0 0, DOp.ins 1 0, DOp.ins 2 0, DOp.ins 3 0, DOp.ins 4 1,
          DOp.del, DOp.del] ≠
      minObsRunD (MinHeap.new : MinHeap Int)
        [DOp.ins 0 0, DOp.ins 1 0, DOp.ins 2 0, DOp.ins 3 0, DOp.ins 4 1,
          DOp.del, DOp.del] := by
  constructor
  · exact DValid.ins (by decide)
      (DValid.ins (by decide)
        (DValid.ins (by decide)
          (DValid.ins (by decide)
            (DValid.ins (by decide)
              (DValid.del (DValid.del DValid.nil))))))
  · decide

/-- C2 (amended): for every trace of the shared mutating operations —
insert, delete_min and decrease_key — whose preconditions hold (fresh id on
insert, live id and strictly smaller key on decrease_key) and whose keys,
inserted and decreased-to alike, are pairwise distinct, the Fibonacci-heap
engine and the array-backed baseline produce the same pop results from
`delete_min` and the same `get_min` and `is_empty` answers after every
operation; this holds both starting from the empty heap and starting from
`build_heap` over a distinct-id item list whose keys extend the distinct-key
discipline. -/
theorem engines_agree_on_distinct_keys {K : Type} [Inhabited K]
    [LinearOrder K] :
    (∀ ops : List (DOp K), DValid (FibHeap.new : FibHeap K) ops →
      (DKeys ops).Nodup →
      fibObsRunD (FibHeap.new : FibHeap K) ops =
        minObsRunD (MinHeap.new : MinHeap K) ops) ∧
    (∀ (items : List (Nat × K)) (ops : List (DOp K)),
      (items.map Prod.fst).Nodup →
      DValid (FibHeap.build_heap items) ops →
      (items.map Prod.snd ++ DKeys ops).Nodup →
      fibObsRunD (FibHeap.build_heap items) ops =
        minObsRunD (MinHeap.build_heap items) ops) := by
  constructor
  · intro ops hval hnd
    refine dObs_equiv ops _ [] _ FibHeap.new_repr hval ?_ ?_ ?_ ?_
    · intro i hi0 hil
      exact absurd (show i < 0 from hil) (by omega)
    · constructor
      · intro id pos hpos
        rw [show (MinHeap.new : MinHeap K).positions = [] from rfl] at hpos
        simp at hpos
      · intro i hi
        exact absurd (show i < 0 from hi) (by omega)
    · exact List.Perm.refl _
    · exact hnd
  · intro items ops hids hval hkeys
    obtain ⟨F, hrepB, hpermB⟩ := FibHeap.build_fold_repr FibHeap.new_repr
      (fun p hp => rfl) hids
    rw [show FibHeap.entriesOf (FibHeap.new : FibHeap K) ([] : List MTree) =
        ([] : List (Nat × K)) from rfl, List.append_nil] at hpermB
    obtain ⟨hordB, hpermMB, hpokB⟩ := MinHeap.build_heap_spec items hids
    refine dObs_equiv ops _ F _ hrepB hval hordB hpokB ?_ ?_
    · exact hpermB.trans hpermMB.symm
    · exact nodup_append_perm_left ((hpermB.map Prod.snd).symm) hkeys

/-- C2 witness: a concrete distinct-key trace with an insert phase, a
decrease_key and an extraction, run from the empty heap; and a second trace
run from `build_heap`. -/
theorem engines_agree_witness :
    (fibObsRunD (FibHeap.new : FibHeap Int)
        [DOp.ins 0 3, DOp.ins 1 1, DOp.ins 2 2, DOp.dec 0 0, DOp.del] =
      minObsRunD (MinHeap.new : MinHeap Int)
        [DOp.ins 0 3, DOp.ins 1 1, DOp.ins 2 2, DOp.dec 0 0, DOp.del]) ∧
    (fibObsRunD (FibHeap.build_heap [(0, 5), (1, 4)] : FibHeap Int)
        [DOp.dec 1 2, DOp.del] =
      minObsRunD (MinHeap.build_heap [(0, 5), (1, 4)] : MinHeap Int)
        [DOp.dec 1 2, DOp.del]) := by
  constructor
  · refine (engines_agree_on_distinct_keys (K := Int)).1 _ ?_ (by decide)
    refine DValid.ins (by decide) ?_
    refine DValid.ins (by decide) ?_
    refine DValid.ins (by decide) ?_
    refine @DValid.dec Int _ _ _ 0 0 0 _ (by decide) (by decide) ?_
    exact DValid.del DValid.nil
  · refine (engines_agree_on_distinct_keys (K := Int)).2 _ _ (by decide) ?_
      (by decide)
    refine @DValid.dec Int _ _ _ 1 2 1 _ (by decide) (by decide) ?_
    exact DValid.del DValid.nil
